import Mathlib

/-!
# WordleBot: constraint engine, entropy engine, frequency tables and suggestions

A shallow embedding of `src/constraintEngine.js`, `src/entropyEngine.js`,
`src/entropyWorker.js`, `src/frequencyTables.js`, `src/frequencyScorer.js`
and `src/suggestionEngine.js`, followed by the properties proved about them.

Conventions of the embedding:

* a `Uint8Array` is a `List Nat`; a write outside the buffer is dropped
  (`List.set`), a stored value is reduced modulo 256, and a read outside the
  buffer (`undefined`) is only ever compared with `> 0`, so it reads as `0`;
* an encoded word is a `Uint8Array(5)`, so the reads at indices `0..4` are in
  range; the theorems assume length 5;
* a JS string is a Lean `String` of characters of the basic multilingual
  plane, and `toLowerCase` lowers the ASCII letters (the board shows `A`..`Z`,
  the dictionary holds `a`..`z`); the theorems about the constraint engine use
  no property of the lowering other than in the bridge to the encoded words;
* a plain JS object used as a map is an association list kept in the
  enumeration order of `for (k in obj)`: integer-like keys ascending, then the
  other keys in insertion order;
* `null` is `none`; a call that throws returns `none` (`buildPerPosition`,
  `filterCandidates`, `scoreWord`, the comparator of `rankGuesses`);
* a board state is typed: `Guess` and `Tile` are objects with their fields.
  The boards in which an entry of `guesses` or of `tiles` is `null` or
  `undefined` are the type `Raw.BoardState`, with `Raw.validateBoardState`
  and `Raw.filterCandidates`, which agree with the typed functions on the
  typed boards;
* the module-level memo `cache` is passed to `filterCandidates` and returned;
* the module variables of the entropy engine are the fields of `EngineState`;
  a JS number is an element of an ordered field (the reals in the numerical
  statements) with `Math.log` a parameter, and a `Uint16Array` is a
  `List Nat` with values reduced modulo 65536;
* the values of the successive calls of `Math.random()` are an argument
  `rand : Nat → α` of `buildSuggestions`;
* `Array.prototype.sort` is an argument `sort` of the functions of the
  entropy engine that call it; the theorems assume of it what ECMAScript
  requires (`SortConforms`).
-/

namespace WordleBot

/-! ## Pattern encoder (`entropyEngine.js`) -/

/-- The constant table `POWERS_OF_3`. -/
def POWERS_OF_3 : List Nat := [1, 3, 9, 27, 81]

/-- The constant `PATTERN_COUNT`. -/
def PATTERN_COUNT : Nat := 243

/-- The statement `buf[k]++` on a `Uint8Array`. -/
def u8inc (buf : List Nat) (k : Nat) : List Nat :=
  buf.set k ((buf.getD k 0 + 1) % 256)

/-- The statement `buf[k]--` on a `Uint8Array`. -/
def u8dec (buf : List Nat) (k : Nat) : List Nat :=
  buf.set k ((buf.getD k 0 + 255) % 256)

/-- Pass 1, first loop of `computePatternId`: tally the letters of the secret. -/
def tallySecret (secretEnc : List Nat) (secretCounts : List Nat) : List Nat :=
  (List.range 5).foldl (fun sc i => u8inc sc (secretEnc.getD i 0)) secretCounts

/-- One iteration of the second loop of pass 1: mark position `i` green or
tentatively absent. The state is `(secretCounts, pattern)`. -/
def greenStep (guessEnc secretEnc : List Nat) (st : List Nat × List Nat) (i : Nat) :
    List Nat × List Nat :=
  if guessEnc.getD i 0 = secretEnc.getD i 0 then
    (u8dec st.1 (guessEnc.getD i 0), st.2.set i 2)
  else
    (st.1, st.2.set i 0)

/-- Pass 1, second loop of `computePatternId`. -/
def markGreens (guessEnc secretEnc : List Nat) (st : List Nat × List Nat) :
    List Nat × List Nat :=
  (List.range 5).foldl (greenStep guessEnc secretEnc) st

/-- One iteration of pass 2: a non-green position becomes yellow when the
letter still has a remaining count. -/
def yellowStep (guessEnc : List Nat) (st : List Nat × List Nat) (i : Nat) :
    List Nat × List Nat :=
  if st.2.getD i 0 ≠ 2 then
    if st.1.getD (guessEnc.getD i 0) 0 > 0 then
      (u8dec st.1 (guessEnc.getD i 0), st.2.set i 1)
    else st
  else st

/-- Pass 2 of `computePatternId`. -/
def markYellows (guessEnc : List Nat) (st : List Nat × List Nat) : List Nat × List Nat :=
  (List.range 5).foldl (yellowStep guessEnc) st

/-- The five tile values after both passes, with the count buffer as the
passes leave it (before the reset). -/
def runPasses (guessEnc secretEnc secretCounts pattern : List Nat) : List Nat × List Nat :=
  markYellows guessEnc (markGreens guessEnc secretEnc (tallySecret secretEnc secretCounts, pattern))

/-- The base-3 encoding of the pattern buffer. -/
def encodePattern (pattern : List Nat) : Nat :=
  pattern.getD 0 0 * POWERS_OF_3.getD 0 0
    + pattern.getD 1 0 * POWERS_OF_3.getD 1 0
    + pattern.getD 2 0 * POWERS_OF_3.getD 2 0
    + pattern.getD 3 0 * POWERS_OF_3.getD 3 0
    + pattern.getD 4 0 * POWERS_OF_3.getD 4 0

/-- The reset of the count buffer at the five letters of the secret. -/
def resetCounts (secretEnc secretCounts : List Nat) : List Nat :=
  ((((secretCounts.set (secretEnc.getD 0 0) 0).set (secretEnc.getD 1 0) 0).set
    (secretEnc.getD 2 0) 0).set (secretEnc.getD 3 0) 0).set (secretEnc.getD 4 0) 0

/-- The function `computePatternId(guessEnc, secretEnc, secretCounts, pattern)`.
Returns the pattern id together with the two scratch buffers as the call
leaves them. -/
def computePatternId (guessEnc secretEnc secretCounts pattern : List Nat) :
    Nat × List Nat × List Nat :=
  let st := runPasses guessEnc secretEnc secretCounts pattern
  (encodePattern st.2, resetCounts secretEnc st.1, st.2)

/-- A zeroed `Uint8Array(26)`. -/
def zeroCounts : List Nat := List.replicate 26 0

/-- A zeroed `Uint8Array(5)`. -/
def zeroPattern : List Nat := List.replicate 5 0

/-- The encoding of a word done by `init`: `word.charCodeAt(i) - 97` stored in
a `Uint8Array(5)` (so reduced modulo 256; a missing character gives `NaN`,
stored as 0). -/
def encodeWord (word : String) : List Nat :=
  (List.range 5).map (fun i =>
    match word.data[i]? with
    | some c => (c.toNat + 159) % 256
    | none => 0)

/-! ### Specification-level description of a tile -/

/-- Number of indices `j < k` satisfying `p`. -/
def countBelow (p : Nat → Bool) (k : Nat) : Nat := (List.range k).countP p

/-- Number of positions where guess and secret both hold the letter `L`. -/
def bothCount (g s : List Nat) (L : Nat) : Nat :=
  countBelow (fun j => g.getD j 0 = L ∧ s.getD j 0 = L) 5

/-- Number of non-correct positions `j < i` of the guess holding the letter `L`. -/
def priorNonCorrect (g s : List Nat) (L : Nat) (i : Nat) : Nat :=
  countBelow (fun j => g.getD j 0 ≠ s.getD j 0 ∧ g.getD j 0 = L) i

/-- The tile value the specification gives to position `i`: 2 on an exact
match; otherwise 1 when fewer non-correct copies of the letter precede `i`
than the secret has copies left after the exact matches; otherwise 0. -/
def specTile (g s : List Nat) (i : Nat) : Nat :=
  if g.getD i 0 = s.getD i 0 then 2
  else if priorNonCorrect g s (g.getD i 0) i < s.count (g.getD i 0) - bothCount g s (g.getD i 0)
  then 1
  else 0

/-- Number of exact matches of `L` among the positions below `k`. -/
def bothBelow (g s : List Nat) (L : Nat) (k : Nat) : Nat :=
  countBelow (fun j => g.getD j 0 = L ∧ s.getD j 0 = L) k

/-! ## JS strings and objects -/

/-- The `length` of a JS string: the number of UTF-16 code units. -/
def jsLength (s : String) : Nat :=
  (s.data.map (fun c => if c.toNat < 65536 then 1 else 2)).sum

/-- The method `toLowerCase()`. The embedding lowers the ASCII letters, which
is what JS does on every ASCII string. -/
def toLowerCase (s : String) : String :=
  String.mk (s.data.map Char.toLower)

/-- The method `charAt(p)`: the one-character string at index `p`, or the
empty string past the end (strings of the basic multilingual plane). -/
def charAt (w : String) (p : Nat) : String :=
  match w.data[p]? with
  | some c => String.singleton c
  | none => ""

/-- A plain JS object used as a map from strings: its own properties, in the
order `for (k in obj)` visits them. -/
abbrev JsObject (α : Type) := List (String × α)

/-- The array index a property name denotes, if it is a canonical numeric
string below `2^32 - 1`; such keys are enumerated first, in ascending order. -/
def arrayIndex? (k : String) : Option Nat :=
  match k.data with
  | [] => none
  | c :: cs =>
    if (c :: cs).all Char.isDigit && (c != '0' || cs.isEmpty) then
      if (c :: cs).foldl (fun n d => 10 * n + (d.toNat - 48)) 0 < 4294967295 then
        some ((c :: cs).foldl (fun n d => 10 * n + (d.toNat - 48)) 0)
      else none
    else none

/-- Place a new integer-like key `k` (index `n`) among the integer-like keys. -/
def insertIndexKey {α : Type} (n : Nat) (k : String) (v : α) : JsObject α → JsObject α
  | [] => [(k, v)]
  | e :: rest =>
    match arrayIndex? e.1 with
    | some m => if m < n then e :: insertIndexKey n k v rest else (k, v) :: e :: rest
    | none => (k, v) :: e :: rest

/-- The read `obj[k]` (`none` is `undefined`). -/
def JsObject.get? {α : Type} : JsObject α → String → Option α
  | [], _ => none
  | e :: rest, k => if e.1 = k then some e.2 else JsObject.get? rest k

/-- Creation of a property that the object does not have yet. -/
def JsObject.insertNew {α : Type} (o : JsObject α) (k : String) (v : α) : JsObject α :=
  match arrayIndex? k with
  | none => o ++ [(k, v)]
  | some n => insertIndexKey n k v o

/-- The assignment `obj[k] = v`. -/
def JsObject.set {α : Type} (o : JsObject α) (k : String) (v : α) : JsObject α :=
  match o.get? k with
  | some _ => o.map (fun e => if e.1 = k then (e.1, v) else e)
  | none => o.insertNew k v

/-- The keys of an object are pairwise distinct. -/
def JsObject.WF {α : Type} (o : JsObject α) : Prop := (o.map Prod.fst).Nodup

/-! ## Constraint engine (`constraintEngine.js`) -/

/-- One tile of a guess row as the board reader hands it over. -/
structure Tile where
  letter : String
  status : String
deriving DecidableEq

/-- A submitted guess: the word and its tiles. -/
structure Guess where
  word : String
  tiles : List Tile
deriving DecidableEq

/-- A board state; `guesses = none` stands for a missing board state or a
`guesses` field that is not an array. -/
structure BoardState where
  guesses : Option (List Guess)
deriving DecidableEq

/-- The per-letter tally of `deriveGuessConstraints`, step 1. -/
structure LetterInfo where
  greenCount : Nat
  yellowCount : Nat
  grayCount : Nat
  greenPositions : List Nat
  yellowPositions : List Nat
deriving DecidableEq

/-- A per-letter constraint; `maxCount = none` is `null` (unbounded). -/
structure LetterConstraint where
  greenPositions : List Nat
  yellowPositions : List Nat
  minCount : Nat
  maxCount : Option Nat
deriving DecidableEq

/-- A per-position constraint; `requiredLetter = none` is `null`. -/
structure PositionConstraint where
  requiredLetter : Option String
  excludedLetters : List String
deriving DecidableEq

/-- The `added` record of a per-guess delta. -/
structure Added where
  greens : List String
  yellows : List String
  grays : List String
deriving DecidableEq

/-- One entry of `perGuess`. -/
structure PerGuess where
  word : String
  added : Added
deriving DecidableEq

/-- The `constraints` field of a result. -/
structure Constraints where
  perLetter : JsObject LetterConstraint
  perPosition : List PositionConstraint
  perGuess : List PerGuess
deriving DecidableEq

/-- The result object of `filterCandidates`; `warning = none` is `null`. -/
structure FilterResult where
  candidates : List Nat
  unconstrained : Bool
  warning : Option String
  constraints : Constraints
deriving DecidableEq

/-- The check of one tile in `validateBoardState`. -/
def validateTile (g t : Nat) (tile : Tile) : Option String :=
  if tile.letter = "" ∨ jsLength tile.letter ≠ 1 then
    some ("Invalid tile letter at guess " ++ toString g ++ ", tile " ++ toString t)
  else if tile.status ≠ "correct" ∧ tile.status ≠ "present" ∧ tile.status ≠ "absent" then
    some ("Invalid tile status at guess " ++ toString g ++ ", tile " ++ toString t ++ ": "
      ++ tile.status)
  else none

/-- The inner loop of `validateBoardState` over the tiles from index `t` on. -/
def validateTiles (g : Nat) : List Tile → Nat → Option String
  | [], _ => none
  | tile :: rest, t =>
    match validateTile g t tile with
    | some w => some w
    | none => validateTiles g rest (t + 1)

/-- The check of one guess in `validateBoardState`. -/
def validateGuess (g : Nat) (guess : Guess) : Option String :=
  if guess.tiles.length ≠ 5 then
    some ("Invalid guess at index " ++ toString g ++ ": expected 5 tiles")
  else validateTiles g guess.tiles 0

/-- The outer loop of `validateBoardState` over the guesses from index `g` on. -/
def validateGuesses : List Guess → Nat → Option String
  | [], _ => none
  | guess :: rest, g =>
    match validateGuess g guess with
    | some w => some w
    | none => validateGuesses rest (g + 1)

/-- The function `validateBoardState`: `none` (`null`) when valid, else the warning. -/
def validateBoardState (boardState : BoardState) : Option String :=
  match boardState.guesses with
  | none => some "Invalid board state: missing guesses array"
  | some gs => validateGuesses gs 0

/-- The table `STATUS_CHARS` applied to a status. -/
def statusChar (status : String) : String :=
  if status = "correct" then "c"
  else if status = "present" then "p"
  else if status = "absent" then "a"
  else "undefined"

/-- The function `buildCacheKey` on the guesses of a board. -/
def buildCacheKey (guesses : List Guess) : String :=
  "|".intercalate
    (guesses.map (fun guess =>
      guess.word ++ ":" ++ String.join (guess.tiles.map (fun tile => statusChar tile.status))))

/-- The record a letter starts with in `letterInfo`. -/
def emptyInfo : LetterInfo :=
  { greenCount := 0, yellowCount := 0, grayCount := 0, greenPositions := [], yellowPositions := [] }

/-- The update of a letter's tally in the three branches of step 1. -/
def bumpInfo (info : LetterInfo) (t : Nat) (status : String) : LetterInfo :=
  if status = "correct" then
    { info with greenCount := info.greenCount + 1, greenPositions := info.greenPositions ++ [t] }
  else if status = "present" then
    { info with yellowCount := info.yellowCount + 1,
                yellowPositions := info.yellowPositions ++ [t] }
  else
    { info with grayCount := info.grayCount + 1 }

/-- Step 1 of `deriveGuessConstraints` for the tile at index `t`. -/
def tallyTile (letterInfo : JsObject LetterInfo) (t : Nat) (tile : Tile) : JsObject LetterInfo :=
  let letter := toLowerCase tile.letter
  let letterInfo :=
    match letterInfo.get? letter with
    | some _ => letterInfo
    | none => letterInfo.set letter emptyInfo
  let info := (letterInfo.get? letter).getD emptyInfo
  letterInfo.set letter (bumpInfo info t tile.status)

/-- The loop of step 1 over the tiles from index `t` on. -/
def tallyTiles : List Tile → Nat → JsObject LetterInfo → JsObject LetterInfo
  | [], _, letterInfo => letterInfo
  | tile :: rest, t, letterInfo => tallyTiles rest (t + 1) (tallyTile letterInfo t tile)

/-- Step 2 of `deriveGuessConstraints` for one letter. -/
def deriveLetter (info : LetterInfo) : LetterConstraint :=
  { greenPositions := info.greenPositions,
    yellowPositions := info.yellowPositions,
    minCount := info.greenCount + info.yellowCount,
    maxCount := if info.grayCount > 0 then some (info.greenCount + info.yellowCount) else none }

/-- The function `deriveGuessConstraints`. -/
def deriveGuessConstraints (guess : Guess) : JsObject LetterConstraint :=
  (tallyTiles guess.tiles 0 []).foldl (fun constraints e => constraints.set e.1 (deriveLetter e.2)) []

/-- The statement `if (xs.indexOf(x) === -1) xs.push(x)`. -/
def pushUnique (xs : List Nat) (x : Nat) : List Nat :=
  if x ∈ xs then xs else xs ++ [x]

/-- The record a letter starts with in `unified`. -/
def emptyConstraint : LetterConstraint :=
  { greenPositions := [], yellowPositions := [], minCount := 0, maxCount := none }

/-- The tightening of `maxCount` in `mergeConstraints`. -/
def tightenMax (uMax gcMax : Option Nat) : Option Nat :=
  match gcMax with
  | none => uMax
  | some m =>
    match uMax with
    | none => some m
    | some um => if m < um then some m else some um

/-- The four tightenings of `mergeConstraints` applied to the record `u` of
`unified` for one letter of the guess. -/
def tighten (u gc : LetterConstraint) : LetterConstraint :=
  { greenPositions := gc.greenPositions.foldl pushUnique u.greenPositions,
    yellowPositions := gc.yellowPositions.foldl pushUnique u.yellowPositions,
    minCount := if gc.minCount > u.minCount then gc.minCount else u.minCount,
    maxCount := tightenMax u.maxCount gc.maxCount }

/-- The body of the loop of `mergeConstraints` for one letter of the guess. -/
def mergeLetter (unified : JsObject LetterConstraint) (e : String × LetterConstraint) :
    JsObject LetterConstraint :=
  let unified :=
    match unified.get? e.1 with
    | some _ => unified
    | none => unified.set e.1 emptyConstraint
  let u := (unified.get? e.1).getD emptyConstraint
  unified.set e.1 (tighten u e.2)

/-- The function `mergeConstraints`; returns the updated `unified`. -/
def mergeConstraints (unified guessConstraints : JsObject LetterConstraint) :
    JsObject LetterConstraint :=
  guessConstraints.foldl mergeLetter unified

/-- The neutral position constraint. -/
def openPosition : PositionConstraint := { requiredLetter := none, excludedLetters := [] }

/-- An update of `perPosition[q]`; when `q` is outside the array the element
is `undefined` and the property access throws (`none`). -/
def modifyAt (perPosition : List PositionConstraint) (q : Nat)
    (f : PositionConstraint → PositionConstraint) : Option (List PositionConstraint) :=
  match perPosition[q]? with
  | none => none
  | some pc => some (perPosition.set q (f pc))

/-- The body of the green loop: `perPosition[q].requiredLetter = letter`. -/
def setRequired (letter : String) (pc : PositionConstraint) : PositionConstraint :=
  { pc with requiredLetter := some letter }

/-- The body of the yellow loop. -/
def excludeYellow (letter : String) (pc : PositionConstraint) : PositionConstraint :=
  if pc.requiredLetter ≠ some letter then
    { pc with excludedLetters := pc.excludedLetters ++ [letter] }
  else pc

/-- The body of the `maxCount === 0` loop. -/
def excludeAbsent (letter : String) (pc : PositionConstraint) : PositionConstraint :=
  if pc.requiredLetter ≠ some letter ∧ letter ∉ pc.excludedLetters then
    { pc with excludedLetters := pc.excludedLetters ++ [letter] }
  else pc

/-- The body of the loop of `buildPerPosition` for one letter. -/
def projectLetter (perPosition : List PositionConstraint) (e : String × LetterConstraint) :
    Option (List PositionConstraint) := do
  let pp1 ← e.2.greenPositions.foldlM (fun pp q => modifyAt pp q (setRequired e.1)) perPosition
  let pp2 ← e.2.yellowPositions.foldlM (fun pp y => modifyAt pp y (excludeYellow e.1)) pp1
  if e.2.maxCount = some 0 then
    (List.range 5).foldlM (fun pp p => modifyAt pp p (excludeAbsent e.1)) pp2
  else
    pure pp2

/-- The function `buildPerPosition`; `none` when it throws. -/
def buildPerPosition (perLetter : JsObject LetterConstraint) :
    Option (List PositionConstraint) :=
  perLetter.foldlM projectLetter (List.replicate 5 openPosition)

/-- The function `snapshotUnified`. -/
def snapshotUnified (unified : JsObject LetterConstraint) : JsObject LetterConstraint :=
  unified.foldl
    (fun snap e => snap.set e.1
      { greenPositions := e.2.greenPositions, yellowPositions := e.2.yellowPositions,
        minCount := e.2.minCount, maxCount := e.2.maxCount }) []

/-- The text `letter + '@' + pos`. -/
def atText (letter : String) (pos : Nat) : String := letter ++ "@" ++ toString pos

/-- The body of the letter loop of `buildPerGuess`. -/
def addedLetter (snapshot : JsObject LetterConstraint) (added : Added)
    (e : String × LetterConstraint) : Added :=
  let snap := snapshot.get? e.1
  let isNew (known : LetterConstraint → List Nat) (pos : Nat) : Bool :=
    match snap with
    | none => true
    | some sn => decide (pos ∉ known sn)
  let greens := added.greens ++
    (e.2.greenPositions.filter (isNew LetterConstraint.greenPositions)).map (atText e.1)
  let yellows := added.yellows ++
    (e.2.yellowPositions.filter (isNew LetterConstraint.yellowPositions)).map (atText e.1)
  let grays :=
    if e.2.maxCount = some 0 ∧ e.2.minCount = 0 then
      match snap with
      | none => added.grays ++ [e.1]
      | some sn => if sn.maxCount ≠ some 0 then added.grays ++ [e.1] else added.grays
    else added.grays
  { greens := greens, yellows := yellows, grays := grays }

/-- The function `buildPerGuess`, on the guesses zipped with their constraints
and snapshots. -/
def buildPerGuess (guesses : List Guess) (allGuessConstraints unifiedSnapshots :
    List (JsObject LetterConstraint)) : List PerGuess :=
  (guesses.zip (allGuessConstraints.zip unifiedSnapshots)).map (fun x =>
    { word := x.1.word,
      added := x.2.1.foldl (addedLetter x.2.2) { greens := [], yellows := [], grays := [] } })

/-- Check 1 of `wordPassesConstraints`. -/
def requiredOk (word : String) (perPosition : List PositionConstraint) : Bool :=
  (List.range 5).all (fun p =>
    match (perPosition.getD p openPosition).requiredLetter with
    | none => true
    | some r => decide (charAt word p = r))

/-- Check 2 of `wordPassesConstraints`. -/
def excludedOk (word : String) (perPosition : List PositionConstraint) : Bool :=
  (List.range 5).all (fun p =>
    (perPosition.getD p openPosition).excludedLetters.all (fun x => decide (charAt word p ≠ x)))

/-- The occurrence count of check 3. -/
def letterCount (word : String) (letter : String) : Nat :=
  (List.range 5).countP (fun i => decide (charAt word i = letter))

/-- Check 3 of `wordPassesConstraints`. -/
def countsOk (word : String) (perLetter : JsObject LetterConstraint) : Bool :=
  perLetter.all (fun e =>
    decide (e.2.minCount ≤ letterCount word e.1) &&
    (match e.2.maxCount with
     | none => true
     | some m => decide (letterCount word e.1 ≤ m)))

/-- The function `wordPassesConstraints`. Its `perPosition` argument is the
five-element array built by `buildPerPosition`. -/
def wordPassesConstraints (word : String) (perPosition : List PositionConstraint)
    (perLetter : JsObject LetterConstraint) : Bool :=
  requiredOk word perPosition && excludedOk word perPosition && countsOk word perLetter

/-- State of the derivation loop of `filterCandidates`: `unified`, and the
arrays `allGuessConstraints` and `unifiedSnapshots` filled so far. -/
structure Derivation where
  unified : JsObject LetterConstraint
  allGuessConstraints : List (JsObject LetterConstraint)
  unifiedSnapshots : List (JsObject LetterConstraint)

/-- One iteration of the derivation loop (step d). -/
def deriveStep (d : Derivation) (guess : Guess) : Derivation :=
  { unified := mergeConstraints d.unified (deriveGuessConstraints guess),
    allGuessConstraints := d.allGuessConstraints ++ [deriveGuessConstraints guess],
    unifiedSnapshots := d.unifiedSnapshots ++ [snapshotUnified d.unified] }

/-- The derivation loop (step d). -/
def deriveAll (guesses : List Guess) : Derivation :=
  guesses.foldl deriveStep { unified := [], allGuessConstraints := [], unifiedSnapshots := [] }

/-- The neutral constraints of the early returns. -/
def neutralConstraints : Constraints :=
  { perLetter := [], perPosition := List.replicate 5 openPosition, perGuess := [] }

/-- Steps d to i of `filterCandidates`: the result computed on a cache miss;
`none` when `buildPerPosition` throws. -/
def computeResult (dictionary : List String) (guesses : List Guess) : Option FilterResult :=
  let d := deriveAll guesses
  match buildPerPosition d.unified with
  | none => none
  | some perPosition =>
    let perGuess := buildPerGuess guesses d.allGuessConstraints d.unifiedSnapshots
    let results := (List.range dictionary.length).filter (fun i =>
      wordPassesConstraints (dictionary.getD i "") perPosition d.unified)
    some
      { candidates := results,
        unconstrained := false,
        warning :=
          if results.length = 0 then some "No candidates remaining -- board state may be invalid"
          else none,
        constraints := { perLetter := d.unified, perPosition := perPosition, perGuess := perGuess } }

/-- The function `filterCandidates`, with the module-level memo `cache` passed
in and returned. `none` when the call throws. -/
def filterCandidates (cache : JsObject FilterResult) (dictionary : List String)
    (boardState : BoardState) : Option (FilterResult × JsObject FilterResult) :=
  match validateBoardState boardState with
  | some validationError =>
    some ({ candidates := [], unconstrained := false, warning := some validationError,
            constraints := neutralConstraints }, cache)
  | none =>
    let guesses := boardState.guesses.getD []
    if guesses.length = 0 then
      some ({ candidates := List.range dictionary.length, unconstrained := true,
              warning := none, constraints := neutralConstraints }, cache)
    else
      match cache.get? (buildCacheKey guesses) with
      | some hit => some (hit, cache)
      | none =>
        match computeResult dictionary guesses with
        | none => none
        | some result => some (result, cache.set (buildCacheKey guesses) result)

/-- The function `clearCache`. -/
def clearCache (_cache : JsObject FilterResult) : JsObject FilterResult := []

/-! ### Specification-level description of the per-guess tally -/

/-- The tile shows the letter `L` (after lower-casing) with the given status. -/
def tileIs (L status : String) (tile : Tile) : Bool :=
  decide (toLowerCase tile.letter = L ∧ tile.status = status)

/-- The tile shows the letter `L` and is neither correct nor present. -/
def tileGray (L : String) (tile : Tile) : Bool :=
  decide (toLowerCase tile.letter = L ∧ tile.status ≠ "correct" ∧ tile.status ≠ "present")

/-- The positions, counted from `t0`, of the tiles showing `L` with the given
status, in increasing order. -/
def positionsOf (L status : String) (tiles : List Tile) (t0 : Nat) : List Nat :=
  ((tiles.enumFrom t0).filter (fun p => tileIs L status p.2)).map Prod.fst

/-- The tally of the letter `L` alone over the tiles from index `t` on. -/
def tallyFor (L : String) : List Tile → Nat → Option LetterInfo → Option LetterInfo
  | [], _, info => info
  | tile :: rest, t, info =>
    tallyFor L rest (t + 1)
      (if L = toLowerCase tile.letter then some (bumpInfo (info.getD emptyInfo) t tile.status)
       else info)

/-- The tally of `L` in closed form, added to a starting record. -/
def tallyClosed (L : String) (tiles : List Tile) (t0 : Nat) (info : LetterInfo) : LetterInfo :=
  { greenCount := info.greenCount + tiles.countP (tileIs L "correct"),
    yellowCount := info.yellowCount + tiles.countP (tileIs L "present"),
    grayCount := info.grayCount + tiles.countP (tileGray L),
    greenPositions := info.greenPositions ++ positionsOf L "correct" tiles t0,
    yellowPositions := info.yellowPositions ++ positionsOf L "present" tiles t0 }

/-- The unified record of the letter `L` alone, folded over the guesses. -/
def unifiedFor (L : String) (guesses : List Guess) (u : Option LetterConstraint) :
    Option LetterConstraint :=
  guesses.foldl
    (fun u guess =>
      match (deriveGuessConstraints guess).get? L with
      | none => u
      | some c => some (tighten (u.getD emptyConstraint) c)) u

/-- The records of the letter `L` that the guesses contribute, in order. -/
def guessRecords (L : String) (guesses : List Guess) : List LetterConstraint :=
  guesses.filterMap (fun guess => (deriveGuessConstraints guess).get? L)

/-- All recorded positions of a per-letter map are board positions 0..4. -/
def InRange (perLetter : JsObject LetterConstraint) : Prop :=
  ∀ e ∈ perLetter, (∀ q ∈ e.2.greenPositions, q < 5) ∧ (∀ q ∈ e.2.yellowPositions, q < 5)

/-- What the loop body of `buildPerPosition` for the entry `e` does to the
constraint of position `p`. -/
def projectAt (e : String × LetterConstraint) (p : Nat) (pc : PositionConstraint) :
    PositionConstraint :=
  let pc1 := Nat.iterate (setRequired e.1) (e.2.greenPositions.count p) pc
  let pc2 := Nat.iterate (excludeYellow e.1) (e.2.yellowPositions.count p) pc1
  if e.2.maxCount = some 0 then excludeAbsent e.1 pc2 else pc2

/-- Invariant of the constraint `pc` of position `p` once the entries `proc`
of the per-letter map have been processed by `buildPerPosition`. -/
def PosInv (p : Nat) (proc : JsObject LetterConstraint) (pc : PositionConstraint) : Prop :=
  (∀ L, pc.requiredLetter = some L → ∃ c, (L, c) ∈ proc ∧ p ∈ c.greenPositions) ∧
  (pc.requiredLetter = none → ∀ e ∈ proc, p ∉ e.2.greenPositions) ∧
  (∀ M, M ∈ pc.excludedLetters ↔
    ∃ c, (M, c) ∈ proc ∧ p ∉ c.greenPositions ∧
      (p ∈ c.yellowPositions ∨ c.maxCount = some 0)) ∧
  ((∀ e ∈ proc, e.2.yellowPositions.Nodup) → pc.excludedLetters.Nodup)

/-- A tile that passes the checks of `validateBoardState`. -/
def TileOk (tile : Tile) : Prop :=
  ¬ (tile.letter = "" ∨ jsLength tile.letter ≠ 1) ∧
  (tile.status = "correct" ∨ tile.status = "present" ∨ tile.status = "absent")

/-- A guess list that passes the checks of `validateBoardState`. -/
def ValidGuesses (guesses : List Guess) : Prop :=
  ∀ guess ∈ guesses, guess.tiles.length = 5 ∧ ∀ tile ∈ guess.tiles, TileOk tile

/-! ### Boards recorded from a secret -/

/-- An ASCII lower-case letter. -/
abbrev IsLowerLetter (c : Char) : Prop := 97 ≤ c.toNat ∧ c.toNat ≤ 122

/-- An ASCII letter of either case. -/
abbrev IsLetter (c : Char) : Prop :=
  (65 ≤ c.toNat ∧ c.toNat ≤ 90) ∨ (97 ≤ c.toNat ∧ c.toNat ≤ 122)

/-- A dictionary word: five lower-case letters. -/
abbrev LowerWord (w : String) : Prop := w.data.length = 5 ∧ ∀ c ∈ w.data, IsLowerLetter c

/-- A guess word as the board shows it: five letters of either case. -/
abbrev LetterWord (w : String) : Prop := w.data.length = 5 ∧ ∀ c ∈ w.data, IsLetter c

/-- The code `charCodeAt - 97` of a character as a `Uint8Array` stores it. -/
def letterCode (c : Char) : Nat := (c.toNat + 159) % 256

/-- The base-3 digit of a pattern id at position `t`. -/
def patternDigit (id t : Nat) : Nat := (id / 3 ^ t) % 3

/-- The status a tile value stands for (0 = absent, 1 = present, 2 = correct). -/
def statusName (v : Nat) : String :=
  if v = 2 then "correct" else if v = 1 then "present" else "absent"

/-- The two-pass feedback pattern of a guess word against a secret. -/
def feedbackId (secret word : String) : Nat :=
  (computePatternId (encodeWord (toLowerCase word)) (encodeWord secret) zeroCounts zeroPattern).1

/-- The guess record of `word` with the tile statuses that `computePatternId`
gives against `secret`. -/
def playGuess (secret word : String) : Guess :=
  { word := word,
    tiles := (List.range 5).map (fun t =>
      { letter := charAt word t, status := statusName (patternDigit (feedbackId secret word) t) }) }

/-- The record `c` of the letter `L` is true of the word `secret`. -/
def Sound (secret L : String) (c : LetterConstraint) : Prop :=
  c.minCount ≤ letterCount secret L ∧
  (∀ m, c.maxCount = some m → m = letterCount secret L) ∧
  (∀ p ∈ c.greenPositions, charAt secret p = L) ∧
  (∀ p ∈ c.yellowPositions, charAt secret p ≠ L)

/-- Two records of a letter agree as the specification compares them: the
same set of green positions, the same set of yellow positions, the same
`minCount` and the same `maxCount`. -/
def SameRecord (a b : LetterConstraint) : Prop :=
  (∀ p, p ∈ a.greenPositions ↔ p ∈ b.greenPositions) ∧
  (∀ p, p ∈ a.yellowPositions ↔ p ∈ b.yellowPositions) ∧
  a.minCount = b.minCount ∧ a.maxCount = b.maxCount

/-- No two guesses mark different letters correct at position `p`. -/
def NoGreenConflict (guesses : List Guess) (p : Nat) : Prop :=
  ∀ g1 ∈ guesses, ∀ g2 ∈ guesses, ∀ t1 t2,
    g1.tiles[p]? = some t1 → g2.tiles[p]? = some t2 →
    t1.status = "correct" → t2.status = "correct" →
    toLowerCase t1.letter = toLowerCase t2.letter

/-! ### Sample data -/

/-- A per-letter map in which `a` is green and yellow at position 0 and `b`
is green at position 0 as well. -/
def sampleConflictMap : JsObject LetterConstraint :=
  [("a", { greenPositions := [0], yellowPositions := [0], minCount := 1, maxCount := none }),
   ("b", { greenPositions := [0], yellowPositions := [2], minCount := 1, maxCount := some 0 })]

/-- A per-letter map: `a` yellow at 1, `b` absent, `c` green at 1. -/
def sampleMap : JsObject LetterConstraint :=
  [("a", { greenPositions := [], yellowPositions := [1], minCount := 1, maxCount := none }),
   ("b", { greenPositions := [], yellowPositions := [], minCount := 0, maxCount := some 0 }),
   ("c", { greenPositions := [1], yellowPositions := [], minCount := 1, maxCount := none })]

/-- The guess SPEED with the feedback of the secret ERUPT. -/
def speedGuess : Guess :=
  { word := "SPEED",
    tiles := [⟨"S", "absent"⟩, ⟨"P", "present"⟩, ⟨"E", "present"⟩, ⟨"E", "absent"⟩,
      ⟨"D", "absent"⟩] }

/-- The guess CRATE with the feedback of the secret ERUPT. -/
def crateGuess : Guess :=
  { word := "CRATE",
    tiles := [⟨"C", "absent"⟩, ⟨"R", "correct"⟩, ⟨"A", "absent"⟩, ⟨"T", "present"⟩,
      ⟨"E", "present"⟩] }

/-- A board of two guesses against the secret ERUPT. -/
def sampleBoard : BoardState := { guesses := some [speedGuess, crateGuess] }

/-- A validated board that no secret can produce: `A` is present twice in
the first guess and absent in the second. -/
def contradictoryBoard : BoardState :=
  { guesses := some
      [{ word := "AAXYZ",
         tiles := [⟨"A", "present"⟩, ⟨"A", "present"⟩, ⟨"X", "absent"⟩, ⟨"Y", "absent"⟩,
           ⟨"Z", "absent"⟩] },
       { word := "AQRST",
         tiles := [⟨"A", "absent"⟩, ⟨"Q", "absent"⟩, ⟨"R", "absent"⟩, ⟨"S", "absent"⟩,
           ⟨"T", "absent"⟩] }] }

/-- The guess ARISE with only its first tile correct. -/
def ariseGuess : Guess :=
  { word := "ARISE",
    tiles := [⟨"A", "correct"⟩, ⟨"R", "absent"⟩, ⟨"I", "absent"⟩, ⟨"S", "absent"⟩,
      ⟨"E", "absent"⟩] }

/-- The guess BLOND with only its first tile correct. -/
def blondGuess : Guess :=
  { word := "BLOND",
    tiles := [⟨"B", "correct"⟩, ⟨"L", "absent"⟩, ⟨"O", "absent"⟩, ⟨"N", "absent"⟩,
      ⟨"D", "absent"⟩] }

/-! ### Malformed boards and the paths through `filterCandidates` -/

/-- A board that fails one of the checks of `validateBoardState`: the guesses
array is missing, or some guess does not have exactly 5 tiles, or some tile's
letter is not exactly one character, or some tile's status is not recognised. -/
def Malformed (boardState : BoardState) : Prop :=
  boardState.guesses = none ∨
  ∃ guesses, boardState.guesses = some guesses ∧ ∃ guess ∈ guesses,
    guess.tiles.length ≠ 5 ∨
    ∃ tile ∈ guess.tiles,
      jsLength tile.letter ≠ 1 ∨
      (tile.status ≠ "correct" ∧ tile.status ≠ "present" ∧ tile.status ≠ "absent")

/-- The four ways through `filterCandidates`: the validation return, the
empty-board return, the cache hit and the fresh computation. -/
inductive FilterPath where
  | invalid
  | emptyBoard
  | cacheHit
  | fresh
deriving DecidableEq

/-- The branch `filterCandidates` takes on a board with the given cache. -/
def filterPath (cache : JsObject FilterResult) (boardState : BoardState) : FilterPath :=
  match validateBoardState boardState with
  | some _ => FilterPath.invalid
  | none =>
    if (boardState.guesses.getD []).length = 0 then FilterPath.emptyBoard
    else
      match cache.get? (buildCacheKey (boardState.guesses.getD [])) with
      | some _ => FilterPath.cacheHit
      | none => FilterPath.fresh

/-- The guess CLOUD with every tile absent. -/
def cloudGuess : Guess :=
  { word := "CLOUD",
    tiles := [⟨"C", "absent"⟩, ⟨"L", "absent"⟩, ⟨"O", "absent"⟩, ⟨"U", "absent"⟩,
      ⟨"D", "absent"⟩] }

/-! ### Board states with `null` entries

`validateBoardState` reads `guess.tiles` and `tile.letter` without a guard,
so an entry of `guesses` or of `tiles` that is `null` or `undefined` makes
the call throw.  `Raw.BoardState` is a board state as any caller may pass
it; on a board that passes validation every entry is an object, and the rest
of `filterCandidates` is the typed function. -/

/-- A guess as any caller may pass it: an entry of `tiles` may be `null` or
`undefined` (`none`). -/
structure Raw.Guess where
  word : String
  tiles : List (Option Tile)
deriving DecidableEq

/-- A board state as any caller may pass it: `guesses = none` stands for a
missing board state or a `guesses` field that is not an array, and an entry of
`guesses` may be `null` or `undefined` (`none`). -/
structure Raw.BoardState where
  guesses : Option (List (Option Raw.Guess))
deriving DecidableEq

/-- The inner loop of `validateBoardState` over the tiles from index `t` on;
the outer `none` is the `TypeError` of `tile.letter` on an entry that is not
an object. -/
def Raw.validateTiles (g : Nat) : List (Option Tile) → Nat → Option (Option String)
  | [], _ => some none
  | none :: _, _ => none
  | some tile :: rest, t =>
    match validateTile g t tile with
    | some w => some (some w)
    | none => Raw.validateTiles g rest (t + 1)

/-- The check of one guess in `validateBoardState`; the outer `none` is the
`TypeError` of `guess.tiles` on an entry that is not an object. -/
def Raw.validateGuess (g : Nat) : Option Raw.Guess → Option (Option String)
  | none => none
  | some guess =>
    if guess.tiles.length ≠ 5 then
      some (some ("Invalid guess at index " ++ toString g ++ ": expected 5 tiles"))
    else Raw.validateTiles g guess.tiles 0

/-- The outer loop of `validateBoardState` over the guesses from index `g` on. -/
def Raw.validateGuesses : List (Option Raw.Guess) → Nat → Option (Option String)
  | [], _ => some none
  | guess :: rest, g =>
    match Raw.validateGuess g guess with
    | none => none
    | some (some w) => some (some w)
    | some none => Raw.validateGuesses rest (g + 1)

/-- The function `validateBoardState` on any board: `none` when it throws,
`some none` (`null`) when the board is valid, else the warning. -/
def Raw.validateBoardState (boardState : Raw.BoardState) : Option (Option String) :=
  match boardState.guesses with
  | none => some (some "Invalid board state: missing guesses array")
  | some gs => Raw.validateGuesses gs 0

/-- The entries of a guess that are objects. -/
def Raw.Guess.objects (guess : Raw.Guess) : WordleBot.Guess :=
  { word := guess.word, tiles := guess.tiles.filterMap id }

/-- The entries of a board that are objects; on a board that passes
validation these are all its entries. -/
def Raw.BoardState.objects (boardState : Raw.BoardState) : WordleBot.BoardState :=
  { guesses := boardState.guesses.map (fun gs => (gs.filterMap id).map Raw.Guess.objects) }

/-- The function `filterCandidates` on any board, with the memo `cache`
passed in and returned; `none` when the call throws. -/
def Raw.filterCandidates (cache : JsObject FilterResult) (dictionary : List String)
    (boardState : Raw.BoardState) : Option (FilterResult × JsObject FilterResult) :=
  match Raw.validateBoardState boardState with
  | none => none
  | some (some validationError) =>
    some ({ candidates := [], unconstrained := false, warning := some validationError,
            constraints := neutralConstraints }, cache)
  | some none => WordleBot.filterCandidates cache dictionary boardState.objects

/-- A typed guess as a guess any caller may pass. -/
def Guess.raw (guess : Guess) : Raw.Guess :=
  { word := guess.word, tiles := guess.tiles.map some }

/-- A typed board as a board any caller may pass. -/
def BoardState.raw (boardState : BoardState) : Raw.BoardState :=
  { guesses := boardState.guesses.map (fun gs => gs.map (fun guess => some guess.raw)) }

/-- The board `{guesses: [null]}`. -/
def nullGuessBoard : Raw.BoardState := { guesses := some [none] }

/-- A guess whose first tile is `null`. -/
def nullTileGuess : Raw.Guess :=
  { word := "CRANE",
    tiles := [none, some ⟨"R", "absent"⟩, some ⟨"A", "absent"⟩, some ⟨"N", "absent"⟩,
      some ⟨"E", "absent"⟩] }

/-- A board whose only guess has `null` as its first tile. -/
def nullTileBoard : Raw.BoardState := { guesses := some [some nullTileGuess] }

/-! ### entropyEngine.js: entropy of a guess and the two ranking tracks

Numbers are taken in an ordered field `α` (the reals in the numerical
statements); `Math.log` is the parameter `ln`.  The module variables are the
fields of `EngineState`; `null` is `none`, and a call that throws returns
`none`.  An array read past the end (`undefined`) is `none`.  The sort of
`rankGuesses` and of `rankGuessesForState` is the argument `sort`. -/

def ADAPTIVE_THRESHOLD : Nat := 20

/-- The table `URGENCY`, keyed by the number of guesses left. -/
def URGENCY {α : Type} [LinearOrderedField α] (k : Int) : α :=
  if k = 4 then 0 else if k = 3 then 15 / 100 else if k = 2 then 4 / 10
  else if k = 1 then 1 else 0

/-- The object `{scores, max}` built by the frequency scorer. -/
structure CommonnessData (α : Type) where
  scores : List α
  max : α

/-- An entry of `rankGuesses`: `{wordIndex, entropy, word}`. -/
structure InfoGuess (α : Type) where
  wordIndex : Nat
  entropy : α
  word : Option String

/-- An entry of `bestAnswerGuesses`. -/
structure AnswerGuess (α : Type) where
  wordIndex : Nat
  word : Option String
  entropy : α
  commonness : Option α
  blendedScore : Option α

/-- The result of `rankGuessesForState`. -/
structure Rankings (α : Type) where
  bestInfoGuesses : List (InfoGuess α)
  bestAnswerGuesses : List (AnswerGuess α)

/-- The tables object of `frequencyTables.js`: `positional` is an array of 26
arrays of 5 numbers, `overall` a `Uint16Array(26)`, `bigram` an object keyed
by the two-letter strings. -/
structure FreqTables where
  positional : List (List Nat)
  overall : List Nat
  bigram : JsObject Nat
  wordCount : Nat

/-- The private module state of the entropy engine. -/
structure EngineState (α : Type) where
  encodedWords : Option (List (List Nat))
  dictionary : Option (List String)
  firstGuessCache : Option (Rankings α)
  frequencyTables : Option FreqTables
  commonnessData : Option (CommonnessData α)
  publicBuckets : List Nat
  publicSecretCounts : List Nat
  publicPattern : List Nat

/-- The helper `log2(x) = Math.log(x) / LOG2`. -/
def log2 {α : Type} [LinearOrderedField α] (ln : α → α) (x : α) : α :=
  ln x / ln 2

/-- The statement `buckets[k]++` on a `Uint16Array`. -/
def u16inc (buf : List Nat) (k : Nat) : List Nat :=
  buf.set k ((buf.getD k 0 + 1) % 65536)

/-- The call `buf.fill(0)` on a typed array. -/
def fillZero (buf : List Nat) : List Nat :=
  List.replicate buf.length 0

/-- The loop `for s < n` that fills the pattern buckets of one guess; the
three buffers are `(buckets, secretCounts, pattern)`. -/
def bucketLoop (encodedWords : Option (List (List Nat))) (guessIdx : Nat) :
    List Nat → List Nat × List Nat × List Nat → Option (List Nat × List Nat × List Nat)
  | [], bufs => some bufs
  | secretIdx :: rest, (buckets, secretCounts, pattern) =>
    match encodedWords with
    | none => none
    | some ws =>
      match ws[guessIdx]?, ws[secretIdx]? with
      | some guessEnc, some secretEnc =>
        let r := computePatternId guessEnc secretEnc secretCounts pattern
        bucketLoop encodedWords guessIdx rest (u16inc buckets r.1, r.2.1, r.2.2)
      | _, _ => none

/-- The loop `for b < PATTERN_COUNT` that sums `(c / n) * (logN - log2(c))`
over the buckets with `c > 0`. -/
def bucketEntropy {α : Type} [LinearOrderedField α] (ln : α → α) (n : Nat)
    (buckets : List Nat) : α :=
  let logN := log2 ln (n : α)
  (List.range PATTERN_COUNT).foldl (fun entropy b =>
    let c := buckets.getD b 0
    if c > 0 then entropy + ((c : α) / (n : α)) * (logN - log2 ln (c : α)) else entropy) 0

/-- The function `computeEntropy(guessIndex, remainingIndices)`; the second
component is the module state with the reused buffers as the call leaves
them. -/
def computeEntropy {α : Type} [LinearOrderedField α] (ln : α → α) (st : EngineState α)
    (guessIndex : Nat) (remainingIndices : List Nat) : Option (α × EngineState α) :=
  let n := remainingIndices.length
  if n ≤ 1 then some (0, st)
  else
    match bucketLoop st.encodedWords guessIndex remainingIndices
        (fillZero st.publicBuckets, st.publicSecretCounts, st.publicPattern) with
    | none => none
    | some (buckets, secretCounts, pattern) =>
      some (bucketEntropy ln n buckets,
        { st with publicBuckets := buckets, publicSecretCounts := secretCounts,
                  publicPattern := pattern })

/-- The loop `for g < poolLen` of `rankGuesses`, which builds the entries
`{wordIndex, entropy}` in pool order. -/
def rankLoop {α : Type} [LinearOrderedField α] (ln : α → α)
    (encodedWords : Option (List (List Nat))) (remainingSet : List Nat) :
    List Nat → List Nat × List Nat × List Nat → Option (List (InfoGuess α))
  | [], _ => some []
  | guessIdx :: rest, (buckets, secretCounts, pattern) =>
    match bucketLoop encodedWords guessIdx remainingSet
        (fillZero buckets, secretCounts, pattern) with
    | none => none
    | some bufs =>
      let n := remainingSet.length
      let entropy : α := if n > 1 then bucketEntropy ln n bufs.1 else 0
      match rankLoop ln encodedWords remainingSet rest bufs with
      | none => none
      | some results => some (⟨guessIdx, entropy, none⟩ :: results)

/-! ## frequencyTables.js

The three tables and the word count are module variables; `buildTables`
returns the tables object and leaves it in `ns.tables`.  A call that throws
returns `none`: `positionalFreq[code][i]++` throws when `code` is not one of
`0..25`. -/

/-- The value `word.charCodeAt(i) - 97` when it is one of the row indices
`0..25`; `none` when it is not (a character outside `a..z`, or no character),
in which case `positionalFreq[code]` is `undefined`. -/
def letterIndex? (word : String) (i : Nat) : Option Nat :=
  match word.data[i]? with
  | some c => if 97 ≤ c.toNat ∧ c.toNat ≤ 122 then some (c.toNat - 97) else none
  | none => none

/-- The three tables while `buildTables` fills them. -/
structure TableAcc where
  positional : List (List Nat)
  overall : List Nat
  bigram : JsObject Nat

/-- The statement `if (bigramFreq[pair] === undefined) bigramFreq[pair] = 1;
else bigramFreq[pair]++`. -/
def bumpBigram (bigram : JsObject Nat) (pair : String) : JsObject Nat :=
  match bigram.get? pair with
  | none => bigram.set pair 1
  | some v => bigram.set pair (v + 1)

/-- The body of the loop `for i < 5` of `buildTables` for one word; the
second component is the array `seen`. -/
def countLetter (word : String) (acc : TableAcc × List Bool) (i : Nat) :
    Option (TableAcc × List Bool) :=
  match letterIndex? word i with
  | none => none
  | some code =>
    let row := acc.1.positional.getD code []
    let positional := acc.1.positional.set code (row.set i (row.getD i 0 + 1))
    let overall := if acc.2.getD code false then acc.1.overall else u16inc acc.1.overall code
    let seen := if acc.2.getD code false then acc.2 else acc.2.set code true
    let bigram :=
      if i < 4 then bumpBigram acc.1.bigram (charAt word i ++ charAt word (i + 1))
      else acc.1.bigram
    some ({ positional := positional, overall := overall, bigram := bigram }, seen)

/-- The body of the loop over the dictionary: a fresh array `seen`, then the
five letters of the word. -/
def countWord (acc : TableAcc) (word : String) : Option TableAcc :=
  ((List.range 5).foldlM (countLetter word) (acc, List.replicate 26 false)).map Prod.fst

/-- The module state of `frequencyTables.js`; `tables` is `ns.tables`. -/
structure TablesState where
  positionalFreq : Option (List (List Nat))
  overallFreq : Option (List Nat)
  bigramFreq : Option (JsObject Nat)
  wordCount : Nat
  tables : Option FreqTables

/-- The module state when the script has loaded. -/
def initialTables : TablesState :=
  { positionalFreq := none, overallFreq := none, bigramFreq := none, wordCount := 0,
    tables := none }

/-- The function `buildTables(dictionary)`: the tables object and the module
state it leaves. -/
def buildTables (_st : TablesState) (dictionary : List String) :
    Option (FreqTables × TablesState) :=
  match dictionary.foldlM countWord
      { positional := List.replicate 26 (List.replicate 5 0), overall := List.replicate 26 0,
        bigram := [] } with
  | none => none
  | some acc =>
    let tables : FreqTables :=
      { positional := acc.positional, overall := acc.overall, bigram := acc.bigram,
        wordCount := dictionary.length }
    some (tables,
      { positionalFreq := some acc.positional, overallFreq := some acc.overall,
        bigramFreq := some acc.bigram, wordCount := dictionary.length, tables := some tables })

/-- An array of numbers that is a `Uint16Array` or a plain array. -/
inductive NumberArray where
  | uint16 (values : List Nat)
  | plain (values : List Nat)

/-- The plain object `serializeTables()` returns and `restoreTables` takes. -/
structure TablesObject where
  positional : List (List Nat)
  overall : NumberArray
  bigram : JsObject Nat
  wordCount : Nat

/-- The function `restoreTables(tablesObj)`: a plain `overall` array is
copied into a `Uint16Array`. -/
def restoreTables (_st : TablesState) (tablesObj : TablesObject) : FreqTables × TablesState :=
  let overallFreq :=
    match tablesObj.overall with
    | NumberArray.uint16 values => values
    | NumberArray.plain values => values.map (fun v => v % 65536)
  let tables : FreqTables :=
    { positional := tablesObj.positional, overall := overallFreq, bigram := tablesObj.bigram,
      wordCount := tablesObj.wordCount }
  (tables,
    { positionalFreq := some tablesObj.positional, overallFreq := some overallFreq,
      bigramFreq := some tablesObj.bigram, wordCount := tablesObj.wordCount,
      tables := some tables })

/-- The function `serializeTables()`; `null` is `none`.  The module sets the
three table variables together, so they are `null` together. -/
def serializeTables (st : TablesState) : Option TablesObject :=
  match st.positionalFreq, st.overallFreq, st.bigramFreq with
  | some positional, some overall, some bigram =>
    some { positional := positional,
           overall := NumberArray.plain ((List.range 26).map (fun i => overall.getD i 0)),
           bigram := bigram, wordCount := st.wordCount }
  | _, _, _ => none

/-! ### Specification-level description of the tables -/

/-- The entry `positional[c][i]` of a table. -/
def cell (positional : List (List Nat)) (c i : Nat) : Nat :=
  (positional.getD c []).getD i 0

/-- Whether the word holds the letter of code `c` at one of its five
positions. -/
def hasLetter (word : String) (c : Nat) : Bool :=
  (List.range 5).any (fun i => letterIndex? word i == some c)

/-- The number of positions `k` in `0..3` at which the two characters of the
word at `k` and `k + 1` make the string `pair`. -/
def pairCount (word : String) (pair : String) : Nat :=
  (List.range 4).countP (fun k => charAt word k ++ charAt word (k + 1) = pair)

/-- A bigram entry after `m` more occurrences of its pair. -/
def addCount (entry : Option Nat) (m : Nat) : Option Nat :=
  if m = 0 then entry else some (entry.getD 0 + m)

/-- The shape of the tables: 26 rows of 5 numbers and 26 overall counts. -/
def TableShape (acc : TableAcc) : Prop :=
  acc.positional.length = 26 ∧ (∀ c, c < 26 → (acc.positional.getD c []).length = 5) ∧
    acc.overall.length = 26

/-- The contents of a `Uint16Array(26)`: 26 values below 65536. -/
def OverallOk (overall : List Nat) : Prop :=
  overall.length = 26 ∧ ∀ x ∈ overall, x < 65536

/-! ## frequencyScorer.js

A call that throws returns `none`: `tables.positional[code][i]` throws when
the row `tables.positional[code]` is `undefined`.  The cells of the tables
are read inside the tables (26 rows of 5 numbers, 26 overall counts). -/

/-- The constant `WEIGHT_POSITIONAL`. -/
def WEIGHT_POSITIONAL {α : Type} [LinearOrderedField α] : α := 60 / 100

/-- The constant `WEIGHT_OVERALL`. -/
def WEIGHT_OVERALL {α : Type} [LinearOrderedField α] : α := 30 / 100

/-- The constant `WEIGHT_BIGRAM`. -/
def WEIGHT_BIGRAM {α : Type} [LinearOrderedField α] : α := 10 / 100

/-- The object `scoreWord` returns. -/
structure ScoreResult (α : Type) where
  composite : α
  positional : α
  overall : α
  bigram : α

/-- The body of the first loop of `scoreWord`:
`positionalSum += tables.positional[code][i] / wc`. -/
def addPositional {α : Type} [LinearOrderedField α] (word : String) (tables : FreqTables)
    (positionalSum : α) (i : Nat) : Option α :=
  match letterIndex? word i with
  | none => none
  | some code =>
    match tables.positional[code]? with
    | none => none
    | some row => some (positionalSum + (row.getD i 0 : α) / (tables.wordCount : α))

/-- The body of the second loop of `scoreWord`; the state is
`(overallSum, seen)`.  The loop is reached only when the first loop has
found a row for every letter. -/
def addOverall {α : Type} [LinearOrderedField α] (word : String) (tables : FreqTables)
    (st : α × List Bool) (j : Nat) : Option (α × List Bool) :=
  match letterIndex? word j with
  | none => none
  | some oCode =>
    if st.2.getD oCode false then some st
    else
      some (st.1 + (tables.overall.getD oCode 0 : α) / (tables.wordCount : α),
        st.2.set oCode true)

/-- The body of the third loop of `scoreWord`:
`bigramSum += (tables.bigram[pair] || 0) / wc`. -/
def addBigram {α : Type} [LinearOrderedField α] (word : String) (tables : FreqTables)
    (bigramSum : α) (k : Nat) : α :=
  bigramSum
    + (((tables.bigram.get? (charAt word k ++ charAt word (k + 1))).getD 0 : Nat) : α)
      / (tables.wordCount : α)

/-- The function `scoreWord(word, tables)`. -/
def scoreWord {α : Type} [LinearOrderedField α] (word : String) (tables : FreqTables) :
    Option (ScoreResult α) :=
  match (List.range 5).foldlM (addPositional word tables) (0 : α) with
  | none => none
  | some positionalSum =>
    let positional := positionalSum / 5
    match (List.range 5).foldlM (addOverall word tables) ((0 : α), List.replicate 26 false) with
    | none => none
    | some st =>
      let overall := st.1 / 5
      let bigramSum := (List.range 4).foldl (addBigram word tables) (0 : α)
      let bigram := bigramSum / 4
      let composite :=
        WEIGHT_POSITIONAL * positional + WEIGHT_OVERALL * overall + WEIGHT_BIGRAM * bigram
      some { composite := composite, positional := positional, overall := overall,
             bigram := bigram }

/-- The loop of `computeCommonness`; the state is `(scores, max)`. -/
def commonnessLoop {α : Type} [LinearOrderedField α] (tables : FreqTables) :
    List String → List α × α → Option (List α × α)
  | [], st => some st
  | word :: rest, (scores, max) =>
    match scoreWord word tables with
    | none => none
    | some r =>
      let score : α := r.composite
      commonnessLoop tables rest (scores ++ [score], if score > max then score else max)

/-- The function `computeCommonness(dictionary, tables)`; the result is also
left in `ns.commonness`. -/
def computeCommonness {α : Type} [LinearOrderedField α] (dictionary : List String)
    (tables : FreqTables) : Option (CommonnessData α) :=
  match commonnessLoop tables dictionary ([], (0 : α)) with
  | none => none
  | some st => some { scores := st.1, max := st.2 }

/-! ### Specification-level description of the scores -/

/-- The set of the letter codes of a word. -/
def lettersOf (word : String) : Finset Nat :=
  ((List.range 5).filterMap (letterIndex? word)).toFinset

/-- The letter code of a word at a position (0 past the end). -/
def codeAt (word : String) (i : Nat) : Nat :=
  (letterIndex? word i).getD 0

/-- Tables of the right shape with every count 1 and a word count of 2. -/
def uniformTables : FreqTables :=
  { positional := List.replicate 26 (List.replicate 5 1), overall := List.replicate 26 1,
    bigram := [], wordCount := 2 }

/-! ## `Array.prototype.sort`

`sort` is not code of the repository, and the language fixes its result only
in part: the items are reordered; when the comparator is a consistent
comparator for them, the result is in its order and items that compare equal
keep the order they had; for any other comparator the order is left to the
engine, as is the choice of the comparator calls that are made.  The
functions of the entropy engine that call `sort` take it as an argument, and
the theorems assume of it what `SortConforms` states. -/

/-- An implementation of `Array.prototype.sort(comparefn)` on an array of
objects.  A call of the comparator is `none` when it throws, and the sort
returns `none` when it throws. -/
abbrev ArraySort (α : Type) : Type 1 :=
  (β : Type) → (β → β → Option α) → List β → Option (List β)

/-- The function `c` is a consistent comparator for the items of `l`, in the
terms of ECMAScript: `a =CF a`; `a =CF b` implies `b =CF a`; and each of
`=CF`, `<CF` and `>CF` is transitive. -/
def Consistent {α β : Type} [LinearOrderedField α] (c : β → β → α) (l : List β) : Prop :=
  (∀ a ∈ l, c a a = 0) ∧
  (∀ a ∈ l, ∀ b ∈ l, c a b = 0 → c b a = 0) ∧
  (∀ a ∈ l, ∀ b ∈ l, ∀ d ∈ l, c a b = 0 → c b d = 0 → c a d = 0) ∧
  (∀ a ∈ l, ∀ b ∈ l, ∀ d ∈ l, c a b < 0 → c b d < 0 → c a d < 0) ∧
  (∀ a ∈ l, ∀ b ∈ l, ∀ d ∈ l, c a b > 0 → c b d > 0 → c a d > 0)

/-- What the theorems assume of the sort.  When no comparator call on two
items of the array throws, the sort returns a reordering of the array.  When
the comparator is moreover consistent, no item of the result stands after
one it is less than, and the items that compare equal to a given item are in
the order they had in the array. -/
def SortConforms {α : Type} [LinearOrderedField α] (sort : ArraySort α) : Prop :=
  ∀ (β : Type) (cmp : β → β → Option α) (c : β → β → α) (l : List β),
    (∀ a ∈ l, ∀ b ∈ l, cmp a b = some (c a b)) →
    ∃ r, sort β cmp l = some r ∧ List.Perm r l ∧
      (Consistent c l →
        r.Pairwise (fun a b => ¬ c b a < 0) ∧
        ∀ x ∈ l, r.filter (fun y => decide (c x y = 0))
          = l.filter (fun y => decide (c x y = 0)))

/-- The insertion of one item into a sorted array, with a comparator that
may throw. -/
def insertSorted {α β : Type} [LinearOrderedField α] (cmp : β → β → Option α) (a : β) :
    List β → Option (List β)
  | [] => some [a]
  | b :: l =>
    match cmp a b with
    | none => none
    | some v => if v ≤ 0 then some (a :: b :: l) else (insertSorted cmp a l).map (fun t => b :: t)

/-- A sort that conforms: the stable insertion sort.  It is the sort of the
worked instances. -/
def referenceSort {α : Type} [LinearOrderedField α] : ArraySort α := fun _ cmp l =>
  l.foldr (fun a sorted => sorted.bind (insertSorted cmp a)) (some [])

/-- The order ECMAScript prescribes for a comparator `cmp` that is a
consistent order of the items: the stable sort, which leaves `a` before `b`
when `cmp(a, b) <= 0`, written as an insertion sort.  The suggestion engine
sorts numbers and (classification, score) pairs, for which the comparators
are consistent. -/
def jsSort {α β : Type} [LinearOrderedField α] (cmp : β → β → α) (l : List β) : List β :=
  l.insertionSort (fun a b => cmp a b ≤ 0)

/-! ### entropyEngine.js: the two ranking tracks -/

/-- The value `scoreWord(dictionary[idx], frequencyTables).composite` of the
comparator; `none` when the call throws: `scoreWord` reads
`tables.wordCount` of `null` tables, `word.charCodeAt` of an `undefined`
word, or a row of `tables.positional` that is `undefined`. -/
def compositeAt {α : Type} [LinearOrderedField α] (dictionary : List String)
    (frequencyTables : Option FreqTables) (idx : Nat) : Option α :=
  match frequencyTables, dictionary[idx]? with
  | some tables, some word => (scoreWord word tables).map (fun r => r.composite)
  | _, _ => none

/-- The comparator of `rankGuesses` (the same function is written out again
in `init`): entropy descending, and the composite frequency score of the two
words when the entropies differ by less than `1e-6`; `none` when the call
throws. -/
def entropyComparator {α : Type} [LinearOrderedField α] (dictionary : List String)
    (frequencyTables : Option FreqTables) (a b : InfoGuess α) : Option α :=
  let diff := b.entropy - a.entropy
  if abs diff < 1 / 1000000 then
    match compositeAt dictionary frequencyTables a.wordIndex,
      compositeAt dictionary frequencyTables b.wordIndex with
    | some scoreA, some scoreB => some (scoreB - scoreA)
    | _, _ => none
  else some diff

/-- The function `rankGuesses(guessPool, remainingSet)`. -/
def rankGuesses {α : Type} [LinearOrderedField α] (sort : ArraySort α) (ln : α → α)
    (st : EngineState α) (guessPool remainingSet : List Nat) : Option (List (InfoGuess α)) :=
  if remainingSet.length = 0 then some []
  else
    match rankLoop ln st.encodedWords remainingSet guessPool
        (List.replicate PATTERN_COUNT 0, List.replicate 26 0, List.replicate 5 0) with
    | none => none
    | some results =>
      match results, st.dictionary with
      | [], _ => some []
      | _, none => none
      | _, some dict =>
        match sort (InfoGuess α) (entropyComparator dict st.frequencyTables) results with
        | none => none
        | some sorted => some (sorted.map (fun r => { r with word := dict[r.wordIndex]? }))

/-- The expression `(commonnessData && commonnessData.max > 0) ?
commonnessData.scores[idx] : 0`. -/
def commonnessOf {α : Type} [LinearOrderedField α] (commonnessData : Option (CommonnessData α))
    (idx : Nat) : Option α :=
  match commonnessData with
  | some cd => if cd.max > 0 then cd.scores[idx]? else some 0
  | none => some 0

/-- The comparator `b.blendedScore - a.blendedScore`; a `NaN` result counts
as `+0` in `sort`. -/
def blendedOrder {α : Type} [LinearOrderedField α] (a b : AnswerGuess α) : α :=
  match b.blendedScore, a.blendedScore with
  | some y, some x => y - x
  | _, _ => 0

/-- The entry built for a candidate when `urgency === 1.0`. -/
def commonnessEntry {α : Type} [LinearOrderedField α] (st : EngineState α)
    (dictionary : List String) (idx : Nat) : AnswerGuess α :=
  let cmn := commonnessOf st.commonnessData idx
  { wordIndex := idx, word := dictionary[idx]?, entropy := 0, commonness := cmn,
    blendedScore := cmn }

/-- The entry built from a ranked guess when `urgency === 0.0`. -/
def entropyEntry {α : Type} [LinearOrderedField α] (st : EngineState α)
    (r : InfoGuess α) : AnswerGuess α :=
  { wordIndex := r.wordIndex, word := r.word, entropy := r.entropy,
    commonness := commonnessOf st.commonnessData r.wordIndex,
    blendedScore := some r.entropy }

/-- The loop that finds `maxEntropy`, with the replacement of 0 by 1. -/
def maxEntropyOf {α : Type} [LinearOrderedField α] (answerRanked : List (InfoGuess α)) : α :=
  let m := answerRanked.foldl (fun m r => if r.entropy > m then r.entropy else m) 0
  if m = 0 then 1 else m

/-- The entry built from a ranked guess in the mixed-urgency branch. -/
def blendedEntry {α : Type} [LinearOrderedField α] (st : EngineState α) (urgency maxEntropy : α)
    (r : InfoGuess α) : AnswerGuess α :=
  let maxCommon : α :=
    match st.commonnessData with
    | some cd => if cd.max > 0 then cd.max else 1
    | none => 1
  let normEntropy := r.entropy / maxEntropy
  let cmn : Option α :=
    match st.commonnessData with
    | some cd => cd.scores[r.wordIndex]?
    | none => some 0
  let blended := cmn.map (fun c => (1 - urgency) * normEntropy + urgency * (c / maxCommon))
  { wordIndex := r.wordIndex, word := r.word, entropy := r.entropy, commonness := cmn,
    blendedScore := blended }

/-- The urgency `rankGuessesForState` takes from the table for a number of
guesses left. -/
def urgencyFor {α : Type} [LinearOrderedField α] (guessesLeft : Int) : α :=
  if guessesLeft ≥ 4 then URGENCY 4
  else if guessesLeft ≤ 1 then URGENCY 1
  else URGENCY guessesLeft

/-- The call `bestAnswerGuesses.sort(...)` with the comparator
`b.blendedScore - a.blendedScore`, which does not throw. -/
def sortBlended {α : Type} [LinearOrderedField α] (sort : ArraySort α)
    (entries : List (AnswerGuess α)) : Option (List (AnswerGuess α)) :=
  sort (AnswerGuess α) (fun a b => some (blendedOrder a b)) entries

/-- The function `rankGuessesForState(remainingSet, guessesLeft)`; a missing
`guessesLeft` is `none`. -/
def rankGuessesForState {α : Type} [LinearOrderedField α] (sort : ArraySort α) (ln : α → α)
    (st : EngineState α) (remainingSet : List Nat) (guessesLeft : Option Int) :
    Option (Rankings α) :=
  let guessesLeft : Int := guessesLeft.getD 6
  let n := remainingSet.length
  if n = 0 then some { bestInfoGuesses := [], bestAnswerGuesses := [] }
  else
    let urgency : α := urgencyFor guessesLeft
    let infoGuessPool : Option (List Nat) :=
      if n ≤ ADAPTIVE_THRESHOLD then some remainingSet
      else st.dictionary.map (fun d => List.range d.length)
    match infoGuessPool with
    | none => none
    | some pool =>
      match rankGuesses sort ln st pool remainingSet with
      | none => none
      | some bestInfoGuesses =>
        if urgency = 1 then
          match st.dictionary with
          | none => none
          | some dict =>
            match sortBlended sort (remainingSet.map (commonnessEntry st dict)) with
            | none => none
            | some bestAnswerGuesses =>
              some { bestInfoGuesses := bestInfoGuesses,
                     bestAnswerGuesses := bestAnswerGuesses }
        else if urgency = 0 then
          match rankGuesses sort ln st remainingSet remainingSet with
          | none => none
          | some answerRanked =>
            some { bestInfoGuesses := bestInfoGuesses,
                   bestAnswerGuesses := answerRanked.map (entropyEntry st) }
        else
          match rankGuesses sort ln st remainingSet remainingSet with
          | none => none
          | some answerRanked =>
            match sortBlended sort
                (answerRanked.map (blendedEntry st urgency (maxEntropyOf answerRanked))) with
            | none => none
            | some bestAnswerGuesses =>
              some { bestInfoGuesses := bestInfoGuesses,
                     bestAnswerGuesses := bestAnswerGuesses }

/-! ### Specification-level description of the buckets -/

/-- The words of an initialised engine: five letter codes below 26 each. -/
def WordsOk (ws : List (List Nat)) : Prop :=
  ∀ w ∈ ws, w.length = 5 ∧ ∀ x ∈ w, x < 26

/-- The pattern id of guess word `g` against secret word `s`, computed on
zeroed scratch buffers. -/
def patternOf (ws : List (List Nat)) (g s : Nat) : Nat :=
  (computePatternId (ws.getD g []) (ws.getD s []) zeroCounts zeroPattern).1

/-- Number of entries `s` of the candidate list whose pattern against guess
`g` is `p`. -/
def bucketCount (ws : List (List Nat)) (g : Nat) (remaining : List Nat) (p : Nat) : Nat :=
  remaining.countP (fun s => patternOf ws g s = p)

/-- The entropy of the partition of the candidates by their pattern against
guess `g`, written with the two logarithms the code takes. -/
def entropyFormula {α : Type} [LinearOrderedField α] (ln : α → α) (ws : List (List Nat))
    (g : Nat) (remaining : List Nat) : α :=
  ∑ p in Finset.range 243,
    if 0 < bucketCount ws g remaining p then
      ((bucketCount ws g remaining p : α) / (remaining.length : α))
        * (log2 ln (remaining.length : α) - log2 ln (bucketCount ws g remaining p : α))
    else 0

/-- The candidates in the order of a stable sort by descending score. -/
def sortByDescending {α : Type} [LinearOrderedField α] (scores : List α)
    (candidates : List Nat) : List Nat :=
  candidates.insertionSort (fun i j => scores.getD i 0 ≥ scores.getD j 0)

/-- The module state when the script has loaded and `init` has not run. -/
def initialEngine (α : Type) : EngineState α :=
  { encodedWords := none, dictionary := none, firstGuessCache := none,
    frequencyTables := none, commonnessData := none,
    publicBuckets := List.replicate 243 0, publicSecretCounts := List.replicate 26 0,
    publicPattern := List.replicate 5 0 }

/-- The letter codes of `crane`, `slate`, `trace`. -/
def sampleWords : List (List Nat) :=
  [[2, 17, 0, 13, 4], [18, 11, 0, 19, 4], [19, 17, 0, 2, 4]]

/-- An engine state over the dictionary `crane`, `slate`, `trace`, with the
frequency tables `uniformTables`. -/
def sampleEngine (α : Type) [LinearOrderedField α] : EngineState α :=
  { encodedWords := some sampleWords, dictionary := some ["crane", "slate", "trace"],
    firstGuessCache := none, frequencyTables := some uniformTables,
    commonnessData := some { scores := [1 / 2, 3 / 4, 1 / 4], max := 3 / 4 },
    publicBuckets := List.replicate 243 0, publicSecretCounts := List.replicate 26 0,
    publicPattern := List.replicate 5 0 }

/-! ### Specification-level description of the two tracks -/

/-- The guess pool of the information track: the candidates when there are at
most `ADAPTIVE_THRESHOLD` of them, every dictionary index otherwise. -/
def infoPoolOf (candidates : List Nat) (dictLength : Nat) : List Nat :=
  if candidates.length ≤ ADAPTIVE_THRESHOLD then candidates else List.range dictLength

/-- The largest value of a batch of non-negative numbers (0 for an empty batch). -/
def batchMax {α : Type} [LinearOrderedField α] (l : List α) : α :=
  l.foldl max 0

/-- A maximum with the guard of the division: 1 in the place of 0. -/
def guardZero {α : Type} [LinearOrderedField α] (m : α) : α :=
  if m = 0 then 1 else m

/-- The blended score in the words of the specification: entropy and
commonness are both divided by their maximum among the entries of the batch
(1 in the place of a maximum 0). -/
def specBlended {α : Type} [LinearOrderedField α] (urgency : α) (batch : List (AnswerGuess α))
    (e : AnswerGuess α) : Option α :=
  let maxEntropy := guardZero (batchMax (batch.map (fun b => b.entropy)))
  let maxCommon := guardZero (batchMax (batch.filterMap (fun b => b.commonness)))
  e.commonness.map (fun c =>
    (1 - urgency) * (e.entropy / maxEntropy) + urgency * (c / maxCommon))

/-- The divisor of the commonness in the mixed branch of the code: the field
`max` of the commonness data (the maximum over the whole dictionary), or 1
when it is not positive or there is no data. -/
def maxCommonOf {α : Type} [LinearOrderedField α] (commonnessData : Option (CommonnessData α)) :
    α :=
  match commonnessData with
  | some cd => if cd.max > 0 then cd.max else 1
  | none => 1

/-! ### Specification-level description of the order of `rankGuesses` -/

/-- The composite frequency score of a word under the tables; 0 where there
is no word or `scoreWord` throws. -/
def compositeOf {α : Type} [LinearOrderedField α] (tables : FreqTables)
    (word : Option String) : α :=
  match word with
  | some w =>
    match scoreWord w tables with
    | some r => r.composite
    | none => 0
  | none => 0

/-- The value of the comparator of `rankGuesses` where it does not throw,
for composite scores given by `composite`. -/
def entropyOrder {α : Type} [LinearOrderedField α] (composite : Option String → α)
    (dictionary : List String) (a b : InfoGuess α) : α :=
  let diff := b.entropy - a.entropy
  if abs diff < 1 / 1000000 then
    let scoreA := composite dictionary[a.wordIndex]?
    let scoreB := composite dictionary[b.wordIndex]?
    scoreB - scoreA
  else diff

/-- The entropies of the entries within `1e-6` of each other form classes:
the relation is transitive on the entries. -/
def TiesTransitive {α : Type} [LinearOrderedField α] (l : List (InfoGuess α)) : Prop :=
  ∀ a ∈ l, ∀ b ∈ l, ∀ d ∈ l, abs (a.entropy - b.entropy) < 1 / 1000000 →
    abs (b.entropy - d.entropy) < 1 / 1000000 → abs (a.entropy - d.entropy) < 1 / 1000000

/-- The order property of the specification for an entry `a` listed before
an entry `b`: the entropy of `a` is larger by at least `1e-6`, or the two
entropies are within `1e-6` and the word of `a` has at least the composite
frequency score of the word of `b`. -/
def RankedBefore {α : Type} [LinearOrderedField α] (composite : Option String → α)
    (a b : InfoGuess α) : Prop :=
  a.entropy - b.entropy ≥ 1 / 1000000 ∨
    (abs (a.entropy - b.entropy) < 1 / 1000000 ∧ composite a.word ≥ composite b.word)

/-- The entropy of a partition into two buckets of `a` and `b` candidates. -/
def splitEntropy {α : Type} [LinearOrderedField α] (ln : α → α) (a b : Nat) : α :=
  ((a : α) / ((a + b : Nat) : α)) * (log2 ln ((a + b : Nat) : α) - log2 ln (a : α))
    + ((b : α) / ((a + b : Nat) : α)) * (log2 ln ((a + b : Nat) : α) - log2 ln (b : α))

/-- The dictionary `wwwww`, `vvvvv`, `uuuuu`, `uvwkk`, `uvkkk`, `ukkkk`,
`kkkkk`. -/
def tieDictionary : List String :=
  ["wwwww", "vvvvv", "uuuuu", "uvwkk", "uvkkk", "ukkkk", "kkkkk"]

/-- The letter codes of the words of `tieDictionary`. -/
def tieWords : List (List Nat) :=
  [[22, 22, 22, 22, 22], [21, 21, 21, 21, 21], [20, 20, 20, 20, 20], [20, 21, 22, 10, 10],
    [20, 21, 10, 10, 10], [20, 10, 10, 10, 10], [10, 10, 10, 10, 10]]

/-- The frequency tables of the word list `wwwww` (three times), `vvvvv`
(twice), `uuuuu`. -/
def tieTables : FreqTables :=
  { positional := List.replicate 20 (List.replicate 5 0)
      ++ [List.replicate 5 1, List.replicate 5 2, List.replicate 5 3]
      ++ List.replicate 3 (List.replicate 5 0),
    overall := List.replicate 20 0 ++ [1, 2, 3] ++ List.replicate 3 0,
    bigram := [("ww", 12), ("vv", 8), ("uu", 4)],
    wordCount := 6 }

/-- An engine state over `tieDictionary` with the tables `tieTables`. -/
def tieEngine (α : Type) : EngineState α :=
  { encodedWords := some tieWords, dictionary := some tieDictionary,
    firstGuessCache := none, frequencyTables := some tieTables, commonnessData := none,
    publicBuckets := List.replicate 243 0, publicSecretCounts := List.replicate 26 0,
    publicPattern := List.replicate 5 0 }

/-- A candidate list of 50000 entries: 24700 times `uvwkk`, once `uvkkk`,
once `ukkkk`, 25298 times `kkkkk`. -/
def tieCandidates : List Nat :=
  List.replicate 24700 3 ++ [4, 5] ++ List.replicate 25298 6

/-! ## The worker (`entropyWorker.js`)

The worker reads the words from one flat `Uint8Array` that holds five codes
per word, and runs the two passes unrolled. -/

/-- The helper `log2` of the worker. -/
def Worker.log2 {α : Type} [LinearOrderedField α] (ln : α → α) (x : α) : α :=
  ln x / ln 2

/-- One statement of pass 1 of the worker:
`if (g === s) { pat[i] = 2; sc[g]--; } else { pat[i] = 0; }`. -/
def Worker.markGreen (g s i : Nat) (st : List Nat × List Nat) : List Nat × List Nat :=
  if g = s then (u8dec st.1 g, st.2.set i 2) else (st.1, st.2.set i 0)

/-- One statement of pass 2 of the worker:
`if (pat[i] !== 2 && sc[g] > 0) { pat[i] = 1; sc[g]--; }`. -/
def Worker.markYellow (g i : Nat) (st : List Nat × List Nat) : List Nat × List Nat :=
  if st.2.getD i 0 ≠ 2 ∧ st.1.getD g 0 > 0 then (u8dec st.1 g, st.2.set i 1) else st

/-- The function `computePatternId(gOff, sOff, enc, sc, pat)` of the worker;
returns the pattern id with the two scratch buffers as the call leaves
them. -/
def Worker.computePatternId (gOff sOff : Nat) (enc sc pat : List Nat) :
    Nat × List Nat × List Nat :=
  let s0 := enc.getD sOff 0
  let s1 := enc.getD (sOff + 1) 0
  let s2 := enc.getD (sOff + 2) 0
  let s3 := enc.getD (sOff + 3) 0
  let s4 := enc.getD (sOff + 4) 0
  let sc1 := u8inc (u8inc (u8inc (u8inc (u8inc sc s0) s1) s2) s3) s4
  let g0 := enc.getD gOff 0
  let g1 := enc.getD (gOff + 1) 0
  let g2 := enc.getD (gOff + 2) 0
  let g3 := enc.getD (gOff + 3) 0
  let g4 := enc.getD (gOff + 4) 0
  let st1 := Worker.markGreen g4 s4 4 (Worker.markGreen g3 s3 3 (Worker.markGreen g2 s2 2
    (Worker.markGreen g1 s1 1 (Worker.markGreen g0 s0 0 (sc1, pat)))))
  let st2 := Worker.markYellow g4 4 (Worker.markYellow g3 3 (Worker.markYellow g2 2
    (Worker.markYellow g1 1 (Worker.markYellow g0 0 st1))))
  let id := st2.2.getD 0 0 + st2.2.getD 1 0 * 3 + st2.2.getD 2 0 * 9 + st2.2.getD 3 0 * 27
    + st2.2.getD 4 0 * 81
  (id, ((((st2.1.set s0 0).set s1 0).set s2 0).set s3 0).set s4 0, st2.2)

/-- The loop `for s < n` of the worker for the guess at offset `gOff`; the
three buffers are `(buckets, secretCounts, pattern)`. -/
def Worker.bucketLoop (enc : List Nat) (gOff : Nat) :
    List Nat → List Nat × List Nat × List Nat → List Nat × List Nat × List Nat
  | [], bufs => bufs
  | s :: rest, (buckets, secretCounts, pattern) =>
    let r := Worker.computePatternId gOff (s * 5) enc secretCounts pattern
    Worker.bucketLoop enc gOff rest (u16inc buckets r.1, r.2.1, r.2.2)

/-- The loop `for b < PATTERN_COUNT` of the worker. -/
def Worker.bucketEntropy {α : Type} [LinearOrderedField α] (ln : α → α) (n : Nat)
    (buckets : List Nat) : α :=
  let logN := Worker.log2 ln (n : α)
  (List.range 243).foldl (fun entropy b =>
    let c := buckets.getD b 0
    if c > 0 then entropy + ((c : α) / (n : α)) * (logN - Worker.log2 ln (c : α))
    else entropy) 0

/-- The loop `for g < n` of the worker: the entropies in the order of the
guesses, the value of `entropies[g]` at place `g`. -/
def Worker.entropyLoop {α : Type} [LinearOrderedField α] (ln : α → α) (enc : List Nat)
    (n : Nat) : List Nat → List Nat × List Nat × List Nat → List α
  | [], _ => []
  | g :: rest, (buckets, secretCounts, pattern) =>
    let bufs := Worker.bucketLoop enc (g * 5) (List.range n)
      (fillZero buckets, secretCounts, pattern)
    Worker.bucketEntropy ln n bufs.1 :: Worker.entropyLoop ln enc n rest bufs

/-- The handler `self.onmessage` of the worker: the `Float64Array` of the
entropies of every word against all words. -/
def Worker.onmessage {α : Type} [LinearOrderedField α] (ln : α → α) (encoded : List Nat)
    (n : Nat) : List α :=
  Worker.entropyLoop ln encoded n (List.range n)
    (List.replicate 243 0, List.replicate 26 0, List.replicate 5 0)

/-! ## entropyEngine.js: `init` and the cache functions -/

/-- The constant `FIRST_GUESS_CACHE_SIZE`. -/
def FIRST_GUESS_CACHE_SIZE : Nat := 20

/-- The flat buffer `flatEncoded` that `init` fills: the five codes of word
`w` at the offsets `5 w .. 5 w + 4`. -/
def flatEncoded : List (List Nat) → List Nat
  | [] => []
  | enc :: rest =>
    [enc.getD 0 0, enc.getD 1 0, enc.getD 2 0, enc.getD 3 0, enc.getD 4 0] ++ flatEncoded rest

/-- The function `init(dict, freqTables, cmnData)`: the module state the
call leaves when the worker has answered, and whether the promise it returns
is fulfilled (`true`) or rejected (`false`).  When the sort throws, the
assignments made before it stay and the first-guess cache is not set.  The
fetch of the worker script, the timing and the log line are not part of the
model. -/
def init {α : Type} [LinearOrderedField α] (sort : ArraySort α) (ln : α → α)
    (st : EngineState α) (dict : List String) (freqTables : Option FreqTables)
    (cmnData : Option (CommonnessData α)) : EngineState α × Bool :=
  let len := dict.length
  let encodedWords := dict.map encodeWord
  let st1 : EngineState α :=
    { st with
      dictionary := some dict, frequencyTables := freqTables, commonnessData := cmnData,
      encodedWords := some encodedWords }
  let entropies := Worker.onmessage ln (flatEncoded encodedWords) len
  let results : List (InfoGuess α) :=
    (List.range len).map (fun i => { wordIndex := i, entropy := entropies.getD i 0, word := none })
  match sort (InfoGuess α) (entropyComparator dict freqTables) results with
  | none => (st1, false)
  | some ranked =>
    let sorted := ranked.map (fun r => { r with word := dict[r.wordIndex]? })
    let bestInfoGuesses := sorted.take FIRST_GUESS_CACHE_SIZE
    let answerCount := min len FIRST_GUESS_CACHE_SIZE
    let bestAnswerGuesses : List (AnswerGuess α) :=
      (sorted.take answerCount).map (fun r =>
        { wordIndex := r.wordIndex, word := r.word, entropy := r.entropy,
          commonness := commonnessOf cmnData r.wordIndex, blendedScore := some r.entropy })
    ({ st1 with
       firstGuessCache := some { bestInfoGuesses := bestInfoGuesses,
                                 bestAnswerGuesses := bestAnswerGuesses } }, true)

/-- The function `getFirstGuessCache()`. -/
def getFirstGuessCache {α : Type} (st : EngineState α) : Rankings α :=
  match st.firstGuessCache with
  | none => { bestInfoGuesses := [], bestAnswerGuesses := [] }
  | some cache => cache

/-- The object `serializeCache()` returns. -/
structure SerializedCache (α : Type) where
  firstGuessCache : Rankings α
  encodedWords : List (List Nat)

/-- The function `serializeCache()`; `null` is `none`. -/
def serializeCache {α : Type} (st : EngineState α) : Option (SerializedCache α) :=
  match st.encodedWords, st.firstGuessCache with
  | some encodedWords, some cache =>
    some { firstGuessCache := cache,
           encodedWords := encodedWords.map (fun enc =>
             [enc.getD 0 0, enc.getD 1 0, enc.getD 2 0, enc.getD 3 0, enc.getD 4 0]) }
  | _, _ => none

/-- The function `restoreCache(cacheObj, dict, freqTables, cmnData)`: each
plain array is copied into a `Uint8Array(5)`. -/
def restoreCache {α : Type} (st : EngineState α) (cacheObj : SerializedCache α)
    (dict : List String) (freqTables : Option FreqTables)
    (cmnData : Option (CommonnessData α)) : EngineState α :=
  { st with
    dictionary := some dict, frequencyTables := freqTables, commonnessData := cmnData,
    encodedWords := some (cacheObj.encodedWords.map (fun arr =>
      [arr.getD 0 0 % 256, arr.getD 1 0 % 256, arr.getD 2 0 % 256, arr.getD 3 0 % 256,
        arr.getD 4 0 % 256])),
    firstGuessCache := some cacheObj.firstGuessCache }

/-- The function `clearCache()` of the entropy engine. -/
def entropy.clearCache {α : Type} (st : EngineState α) : EngineState α :=
  { st with
    encodedWords := none, dictionary := none, firstGuessCache := none,
    frequencyTables := none, commonnessData := none }

/-! ### Specification-level names for the steps of `init` -/

/-- The result objects `init` builds from the entropies the worker returns. -/
def workerResults {α : Type} [LinearOrderedField α] (ln : α → α) (dict : List String) :
    List (InfoGuess α) :=
  (List.range dict.length).map (fun i =>
    { wordIndex := i,
      entropy := (Worker.onmessage ln (flatEncoded (dict.map encodeWord)) dict.length).getD i 0,
      word := none })

/-- The sorted list of `init`, each entry with its word; `none` when the
sort throws. -/
def initRanking {α : Type} [LinearOrderedField α] (sort : ArraySort α) (ln : α → α)
    (dict : List String) (freqTables : Option FreqTables) : Option (List (InfoGuess α)) :=
  (sort (InfoGuess α) (entropyComparator dict freqTables) (workerResults ln dict)).map
    (fun ranked => ranked.map (fun r => { r with word := dict[r.wordIndex]? }))

/-! ### Specification-level names for the states inside `computePatternId` -/

/-- The buffers `(secretCounts, pattern)` just before iteration `k` of the
green loop of `computePatternId`. -/
def greensBefore (g s sc pat : List Nat) (k : Nat) : List Nat × List Nat :=
  (List.range k).foldl (greenStep g s) (tallySecret s sc, pat)

/-- The buffers `(secretCounts, pattern)` just before iteration `k` of the
yellow loop of `computePatternId`. -/
def yellowsBefore (g s sc pat : List Nat) (k : Nat) : List Nat × List Nat :=
  (List.range k).foldl (yellowStep g) (markGreens g s (tallySecret s sc, pat))

/-- The five codes `enc[5 i .. 5 i + 4]` of word `i` in a flat buffer. -/
def wordSlice (enc : List Nat) (i : Nat) : List Nat :=
  (enc.drop (5 * i)).take 5

/-- The buckets of guess `g` filled on fresh, zeroed buffers. -/
def freshBuckets (ws : List (List Nat)) (g : Nat) (remaining : List Nat) : List Nat :=
  match bucketLoop (some ws) g remaining (List.replicate 243 0, zeroCounts, zeroPattern) with
  | some bufs => bufs.1
  | none => []

/-- The entropy `rankGuesses` stores for guess `g`, computed on fresh buffers. -/
def freshEntropy {α : Type} [LinearOrderedField α] (ln : α → α) (ws : List (List Nat))
    (g : Nat) (remaining : List Nat) : α :=
  if remaining.length > 1 then bucketEntropy ln remaining.length (freshBuckets ws g remaining)
  else 0

/-! ### Specification-level description of a coherent constraint map -/

/-- The per-letter map states no two facts about one square that exclude
each other: a position that some letter has among its green positions is a
green position of no other letter and is not a yellow position of the same
letter. -/
def Coherent (perLetter : JsObject LetterConstraint) : Prop :=
  ∀ e ∈ perLetter, ∀ p ∈ e.2.greenPositions,
    (∀ e2 ∈ perLetter, p ∈ e2.2.greenPositions → e2.1 = e.1) ∧
    p ∉ e.2.yellowPositions

instance (perLetter : JsObject LetterConstraint) : Decidable (Coherent perLetter) := by
  unfold Coherent
  infer_instance

/-- The guess AQRST with only its first tile correct. -/
def aqrstGuess : Guess :=
  { word := "AQRST",
    tiles := [⟨"A", "correct"⟩, ⟨"Q", "absent"⟩, ⟨"R", "absent"⟩, ⟨"S", "absent"⟩,
      ⟨"T", "absent"⟩] }

/-- The guess ZUVWX with only its first tile correct. -/
def zuvwxGuess : Guess :=
  { word := "ZUVWX",
    tiles := [⟨"Z", "correct"⟩, ⟨"U", "absent"⟩, ⟨"V", "absent"⟩, ⟨"W", "absent"⟩,
      ⟨"X", "absent"⟩] }

/-- The guess AQRST with its first tile present and the others absent. -/
def aqrstPresent : Guess :=
  { word := "AQRST",
    tiles := [⟨"A", "present"⟩, ⟨"Q", "absent"⟩, ⟨"R", "absent"⟩, ⟨"S", "absent"⟩,
      ⟨"T", "absent"⟩] }

/-! ### Specification-level description of the cache key -/

/-- The string `parts[g]` of `buildCacheKey`: the word, a colon and one
status character per tile. -/
def keyPart (guess : Guess) : String :=
  guess.word ++ ":" ++ String.join (guess.tiles.map (fun tile => statusChar tile.status))

/-- Every guess word is the string of its tile letters, as the board reader
builds it (`rowTiles.map(t => t.letter).join('')`). -/
def Spelled (guesses : List Guess) : Prop :=
  ∀ guess ∈ guesses, guess.word = String.join (guess.tiles.map Tile.letter)

instance (guesses : List Guess) : Decidable (Spelled guesses) := by
  unfold Spelled
  infer_instance

/-- The characters of the strings of a list, one after the other. -/
def concatData (l : List String) : List Char :=
  l.foldr (fun a r => a.data ++ r) []

/-- The guess CRANE with every tile absent. -/
def craneAbsent : Guess :=
  { word := "CRANE",
    tiles := [⟨"C", "absent"⟩, ⟨"R", "absent"⟩, ⟨"A", "absent"⟩, ⟨"N", "absent"⟩,
      ⟨"E", "absent"⟩] }

/-- A guess record with the word CRANE whose tiles show the letters of SLOTH,
every tile absent. -/
def craneMislabelled : Guess :=
  { word := "CRANE",
    tiles := [⟨"S", "absent"⟩, ⟨"L", "absent"⟩, ⟨"O", "absent"⟩, ⟨"T", "absent"⟩,
      ⟨"H", "absent"⟩] }

/-! ### Specification-level description of the per-guess deltas -/

/-- Tile `p` of the guess shows the letter `L` (after lower-casing) with the
given status. -/
def showsAt (guess : Guess) (L status : String) (p : Nat) : Prop :=
  ∃ tile, guess.tiles[p]? = some tile ∧ toLowerCase tile.letter = L ∧ tile.status = status

/-- The empty `added` record a guess starts with. -/
def noneAdded : Added := { greens := [], yellows := [], grays := [] }

/-- The `added` record of the guess at index `g`: the letter loop of
`buildPerGuess` run on the constraints of the guess against the snapshot of
the unified map taken before the guess is merged. -/
def deltaOf (guesses : List Guess) (g : Nat) (guess : Guess) : Added :=
  (deriveGuessConstraints guess).foldl
    (addedLetter (snapshotUnified (deriveAll (guesses.take g)).unified)) noneAdded

/-- The guesses CRATE then SPEED against the secret ERUPT. -/
def crateSpeed : List Guess := [crateGuess, speedGuess]

/-! ### Specification-level description of the order of the answer track -/

/-- The entry `a` has at least the blended score of the entry `b`. -/
def ScoreGe {α : Type} [LinearOrderedField α] (a b : AnswerGuess α) : Prop :=
  ∃ x y, a.blendedScore = some x ∧ b.blendedScore = some y ∧ y ≤ x

/-- The dictionary `aaaaa`, `bbbbb`, `ccccc`. -/
def nearTieDictionary : List String := ["aaaaa", "bbbbb", "ccccc"]

/-- The letter codes of the words of `nearTieDictionary`. -/
def nearTieWords : List (List Nat) :=
  [[0, 0, 0, 0, 0], [1, 1, 1, 1, 1], [2, 2, 2, 2, 2]]

/-- The frequency tables of the word list `aaaaa` (twice), `bbbbb`, `ccccc`. -/
def nearTieTables : FreqTables :=
  { positional := [List.replicate 5 2, List.replicate 5 1, List.replicate 5 1]
      ++ List.replicate 23 (List.replicate 5 0),
    overall := [2, 1, 1] ++ List.replicate 23 0,
    bigram := [("aa", 8), ("bb", 4), ("cc", 4)],
    wordCount := 4 }

/-- An engine state over `nearTieDictionary` with the tables `nearTieTables`. -/
def nearTieEngine (α : Type) : EngineState α :=
  { encodedWords := some nearTieWords, dictionary := some nearTieDictionary,
    firstGuessCache := none, frequencyTables := some nearTieTables, commonnessData := none,
    publicBuckets := List.replicate 243 0, publicSecretCounts := List.replicate 26 0,
    publicPattern := List.replicate 5 0 }

/-- A candidate list of 50000 entries: 24700 times `aaaaa`, 24701 times
`bbbbb`, 599 times `ccccc`. -/
def nearTieCandidates : List Nat :=
  List.replicate 24700 0 ++ (List.replicate 24701 1 ++ List.replicate 599 2)

/-! ## suggestionEngine.js: `buildSuggestions`

The embedding keeps the fields of the result that the ranking decides: the
mode, the header, the candidate count, the suggestions (word, confidence,
near-tie flag, classification, primary pick, scores) and the near-tie note.
The texts `whyLine` and `details`, `gameContext` and `solvedSummary` are left
out: they are built by helpers that read the arguments and the fields kept
here (the last two also call `filterCandidates`, so they read its memo cache)
and nothing that is kept reads them; the definitions describe a call in which
these helpers return. The one call of `Math.random()` is an explicit argument:
`rand k` is the value of the call number `k` (from 0), a number in `[0, 1)`.
`NaN` and `undefined` are `none`. -/

/-- The constant `LATE_GAME_THRESHOLD`. -/
def LATE_GAME_THRESHOLD : Nat := 5

/-- The constant `NEAR_TIE_PCT`. -/
def NEAR_TIE_PCT : Int := 2

/-- The constant `TIGHT_CLUSTER_PCT`. -/
def TIGHT_CLUSTER_PCT : Int := 3

/-- The constant `MAX_SUGGESTIONS`. -/
def MAX_SUGGESTIONS : Nat := 5

/-- The board state as `buildSuggestions` reads it. -/
structure GameBoard where
  guesses : List Guess
  totalRows : Int
  status : String
deriving DecidableEq

/-- The `scores` object of a suggestion. -/
structure SuggestionScores (α : Type) where
  entropy : α
  blendedScore : Option α
  frequency : ScoreResult α

/-- One suggestion; `wordIndex` is the internal property `_wordIndex`, which
is deleted (`none`) before the result is returned. -/
structure Suggestion (α : Type) where
  word : Option String
  confidence : Option Int
  isNearTie : Bool
  classification : Option String
  isPrimaryPick : Bool
  scores : SuggestionScores α
  wordIndex : Option Nat

/-- The kept fields of the object `buildSuggestions` returns. -/
structure SuggestionResult (α : Type) where
  mode : String
  header : String
  candidateCount : Nat
  suggestions : List (Suggestion α)
  nearTieNote : Option String

/-- The truthiness of `constraintResult.warning`: a non-empty string. -/
def warningSet (warning : Option String) : Bool :=
  match warning with
  | none => false
  | some w => decide (w ≠ "")

/-- The function `detectMode`. -/
def detectMode (constraintResult : FilterResult) (boardState : GameBoard) : String :=
  if warningSet constraintResult.warning = true ∨ constraintResult.candidates.length = 0 then
    "error"
  else if boardState.status = "won" then "solved"
  else if boardState.status = "lost" then "lost"
  else if constraintResult.unconstrained = true ∨ boardState.guesses.length = 0 then "opener"
  else if constraintResult.candidates.length ≤ LATE_GAME_THRESHOLD then "late_game"
  else "mid_game"

/-- The function `Math.round`: the nearest integer, halves rounded up. -/
def jsRound {α : Type} [LinearOrderedField α] [FloorRing α] (x : α) : Int :=
  Int.floor (x + 1 / 2)

/-- The value `Math.round((blendedScore / topBlendedScore) * 100)`. -/
def confidenceOf {α : Type} [LinearOrderedField α] [FloorRing α]
    (blendedScore topBlendedScore : Option α) : Option Int :=
  match blendedScore, topBlendedScore with
  | some x, some t => some (jsRound (x / t * 100))
  | _, _ => none

/-- The function `normalizeConfidence`; returns the updated array. -/
def normalizeConfidence {α : Type} [LinearOrderedField α] [FloorRing α]
    (suggestions : List (Suggestion α)) : List (Suggestion α) :=
  match suggestions with
  | [] => []
  | first :: _ =>
    let topBlendedScore := first.scores.blendedScore
    if topBlendedScore = some 0 then
      suggestions.map (fun s => { s with confidence := some 100 })
    else
      suggestions.map (fun s =>
        { s with confidence := confidenceOf s.scores.blendedScore topBlendedScore })

/-- The test `topConf - suggestions[i].confidence <= NEAR_TIE_PCT`. -/
def nearTop {α : Type} (topConf : Option Int) (s : Suggestion α) : Bool :=
  match topConf, s.confidence with
  | some t, some c => decide (t - c ≤ NEAR_TIE_PCT)
  | _, _ => false

/-- The function `detectNearTie`; returns the note and the updated array. -/
def detectNearTie {α : Type} (suggestions : List (Suggestion α)) :
    Option String × List (Suggestion α) :=
  if suggestions.length < 2 then (none, suggestions)
  else
    let topConf := suggestions.head?.bind (fun s => s.confidence)
    let marked := suggestions.map (fun s =>
      if nearTop topConf s = true then { s with isNearTie := true } else s)
    let nearTieCount := suggestions.countP (nearTop topConf)
    let lastConf := suggestions.getLast?.bind (fun s => s.confidence)
    let tight : Bool :=
      match topConf, lastConf with
      | some t, some l => decide (t - l < TIGHT_CLUSTER_PCT)
      | _, _ => false
    if tight = true then
      (some ("Top " ++ toString suggestions.length ++ " are nearly equivalent."), marked)
    else if nearTieCount > 1 then
      (some ("Top " ++ toString nearTieCount
        ++ " are nearly equivalent — choice among them is effectively luck."), marked)
    else (none, marked)

/-- The comparator of the two sorts of `classifyCandidates`. -/
def classOrder {α : Type} [LinearOrderedField α] (a b : Suggestion α) : α :=
  if a.classification ≠ b.classification then
    if a.classification = some "likely_answer" then -1 else 1
  else
    match b.scores.blendedScore, a.scores.blendedScore with
    | some y, some x => y - x
    | _, _ => 0

/-- The last loop of `classifyCandidates`: the first `likely_answer` becomes
the primary pick, every other entry is not. -/
def markPrimary {α : Type} : Bool → List (Suggestion α) → List (Suggestion α)
  | _, [] => []
  | foundPrimary, s :: rest =>
    if foundPrimary = false ∧ s.classification = some "likely_answer" then
      { s with isPrimaryPick := true } :: markPrimary true rest
    else
      { s with isPrimaryPick := false } :: markPrimary foundPrimary rest

/-- The test `score >= medianScore ? 'likely_answer' : 'rare_valid'`. -/
def classOf {α : Type} [LinearOrderedField α] (score medianScore : Option α) : String :=
  match score, medianScore with
  | some sc, some m => if sc ≥ m then "likely_answer" else "rare_valid"
  | _, _ => "rare_valid"

/-- The function `classifyCandidates`; returns the updated array, `none` when
it throws (`commonnessData` is `null`). -/
def classifyCandidates {α : Type} [LinearOrderedField α] (suggestions : List (Suggestion α))
    (commonnessData : Option (CommonnessData α)) (guessesLeft : Int) :
    Option (List (Suggestion α)) :=
  if suggestions.length = 0 then some suggestions
  else
    match commonnessData with
    | none => none
    | some cd =>
      let scores : List (Option α) := suggestions.map (fun s =>
        match s.wordIndex with
        | some i => cd.scores[i]?
        | none => some 0)
      let sortedScores : List (Option α) :=
        (jsSort (fun a b => a - b) (scores.filterMap id)).map some
          ++ scores.filter (fun x => x.isNone)
      let medianScore : Option α := (sortedScores[sortedScores.length / 2]?).join
      let classified := (suggestions.zip scores).map (fun x =>
        { x.1 with classification := some (classOf x.2 medianScore) })
      let sorted :=
        if guessesLeft ≤ 2 then jsSort classOrder classified
        else jsSort classOrder classified
      some (markPrimary false sorted)

/-- The function `getHeader`. -/
def getHeader (mode : String) (boardState : GameBoard) : String :=
  if mode = "opener" then "Best openers"
  else if mode = "mid_game" then "Suggestions"
  else if mode = "late_game" then "Remaining candidates"
  else if mode = "solved" then
    "Solved in " ++ toString boardState.guesses.length
      ++ (if boardState.guesses.length = 1 then " guess!" else " guesses!")
  else if mode = "lost" then "Game over"
  else if mode = "error" then "Error"
  else "Suggestions"

/-- The reads of a list of array elements that may be `undefined`: the
values when all are defined, `none` when a read of an `undefined` element
makes the call throw. -/
def collect {β : Type} : List (Option β) → Option (List β)
  | [] => some []
  | none :: _ => none
  | some x :: rest => (collect rest).map (fun l => x :: l)

/-- The threshold of the opener cluster:
`topScore > 0 ? topScore * (1 - NEAR_TIE_PCT / 100) : 0`. -/
def clusterThreshold {α : Type} [LinearOrderedField α] (source : List (AnswerGuess α)) : α :=
  match source.head?.bind (fun r => r.blendedScore) with
  | some topScore => if topScore > 0 then topScore * (1 - 2 / 100) else 0
  | none => 0

/-- The scan of the opener cluster: the number of leading entries whose
blended score is at least the threshold. -/
def clusterSizeOf {α : Type} [LinearOrderedField α] (source : List (AnswerGuess α)) : Nat :=
  (source.takeWhile (fun r =>
    match r.blendedScore with
    | some b => decide (b ≥ clusterThreshold source)
    | none => false)).length

/-- Iteration number `k` of the Fisher-Yates loop (`fi = clusterSize - 1 - k`):
`fj = Math.floor(Math.random() * (fi + 1))`, then the swap of the entries
`fi` and `fj`. -/
def swapStep {α : Type} [LinearOrderedField α] [FloorRing α] (rand : Nat → α)
    (clusterSize : Nat) (clusterIndices : List Nat) (k : Nat) : List Nat :=
  let fi := clusterSize - 1 - k
  let fj := Int.toNat (Int.floor (rand k * ((fi + 1 : Nat) : α)))
  let tmp := clusterIndices.getD fi 0
  (clusterIndices.set fi (clusterIndices.getD fj 0)).set fj tmp

/-- The Fisher-Yates shuffle of the cluster indices. -/
def shuffleCluster {α : Type} [LinearOrderedField α] [FloorRing α] (rand : Nat → α)
    (clusterSize : Nat) : List Nat :=
  (List.range (clusterSize - 1)).foldl (swapStep rand clusterSize) (List.range clusterSize)

/-- Step 5 of `buildSuggestions` up to `selectedRankings`: the selected
rankings (`none` when an entry is `undefined`) and `openerClusterSize`. -/
def selectRankings {α : Type} [LinearOrderedField α] [FloorRing α] (rand : Nat → α)
    (mode : String) (sourceRankings : List (AnswerGuess α)) (maxSuggestions : Nat) :
    Option (List (AnswerGuess α)) × Nat :=
  if mode = "opener" ∧ sourceRankings.length > MAX_SUGGESTIONS then
    if clusterSizeOf sourceRankings > MAX_SUGGESTIONS then
      let sampled := ((shuffleCluster rand (clusterSizeOf sourceRankings)).take
        MAX_SUGGESTIONS).insertionSort (fun a b => a ≤ b)
      (collect (sampled.map (fun i => sourceRankings[i]?)), clusterSizeOf sourceRankings)
    else (some (sourceRankings.take (min maxSuggestions sourceRankings.length)), 0)
  else (some (sourceRankings.take (min maxSuggestions sourceRankings.length)), 0)

/-- The suggestion pushed for the selected ranking number `i`; `none` when
`scoreWord` throws. -/
def makeSuggestion {α : Type} [LinearOrderedField α] (dictionary : List String)
    (freqTables : FreqTables) (i : Nat) (r : AnswerGuess α) : Option (Suggestion α) :=
  match dictionary[r.wordIndex]? with
  | none => none
  | some w =>
    match scoreWord w freqTables with
    | none => none
    | some freqScore =>
      some { word := r.word, confidence := some 0, isNearTie := false, classification := none,
             isPrimaryPick := decide (i = 0),
             scores := { entropy := r.entropy, blendedScore := r.blendedScore,
                         frequency := freqScore },
             wordIndex := some r.wordIndex }

/-- The loop that builds the suggestions from the selected rankings. -/
def makeSuggestions {α : Type} [LinearOrderedField α] (dictionary : List String)
    (freqTables : FreqTables) (selectedRankings : List (AnswerGuess α)) :
    Option (List (Suggestion α)) :=
  collect (selectedRankings.enum.map (fun x => makeSuggestion dictionary freqTables x.1 x.2))

/-- The note shown when the opener cluster was sampled. -/
def sampledNote (openerClusterSize : Nat) : String :=
  "These openers are statistically very close in expected value — showing 5 of "
    ++ toString openerClusterSize ++ " near-tied words."

/-- The function `buildSuggestions`; `none` when the call throws. -/
def buildSuggestions {α : Type} [LinearOrderedField α] [FloorRing α] (rand : Nat → α)
    (constraintResult : FilterResult) (rankings : Rankings α) (boardState : GameBoard)
    (dictionary : List String) (freqTables : FreqTables)
    (commonnessData : Option (CommonnessData α)) : Option (SuggestionResult α) :=
  let mode := detectMode constraintResult boardState
  let guessesLeft : Int := boardState.totalRows - (boardState.guesses.length : Int)
  if mode = "error" then
    some { mode := "error", header := "Error", candidateCount := 0, suggestions := [],
           nearTieNote := none }
  else if mode = "lost" then
    some { mode := "lost", header := getHeader "lost" boardState,
           candidateCount := constraintResult.candidates.length, suggestions := [],
           nearTieNote := none }
  else if mode = "solved" then
    some { mode := "solved", header := getHeader "solved" boardState, candidateCount := 0,
           suggestions := [], nearTieNote := none }
  else
    let candidateCount := constraintResult.candidates.length
    let maxSuggestions := if mode = "late_game" then candidateCount else MAX_SUGGESTIONS
    let selection := selectRankings rand mode rankings.bestAnswerGuesses maxSuggestions
    match selection.1 with
    | none => none
    | some selectedRankings =>
      match makeSuggestions dictionary freqTables selectedRankings with
      | none => none
      | some pushed =>
        let normalized := normalizeConfidence pushed
        let classified : Option (List (Suggestion α)) :=
          if mode = "late_game" then
            (classifyCandidates normalized commonnessData guessesLeft).map normalizeConfidence
          else some normalized
        match classified with
        | none => none
        | some suggestions =>
          let noted : Option String × List (Suggestion α) :=
            if mode = "opener" then
              if selection.2 > MAX_SUGGESTIONS then (some (sampledNote selection.2), suggestions)
              else detectNearTie suggestions
            else (none, suggestions)
          some { mode := mode, header := getHeader mode boardState,
                 candidateCount := candidateCount,
                 suggestions := noted.2.map (fun s => { s with wordIndex := none }),
                 nearTieNote := noted.1 }

/-- An opener board: no guess yet. -/
def openerBoard : GameBoard := { guesses := [], totalRows := 6, status := "in_progress" }

/-- A six-word dictionary. -/
def openerDictionary : List String := ["crane", "slate", "trace", "crate", "stare", "raise"]

/-- The constraint result of the empty board over `openerDictionary`. -/
def openerResult : FilterResult :=
  { candidates := [0, 1, 2, 3, 4, 5], unconstrained := true, warning := none,
    constraints := neutralConstraints }

/-- Six rankings with the same blended score. -/
def openerRankings : Rankings ℚ :=
  { bestInfoGuesses := [],
    bestAnswerGuesses :=
      [⟨0, some "crane", 1, some 0, some 1⟩, ⟨1, some "slate", 1, some 0, some 1⟩,
       ⟨2, some "trace", 1, some 0, some 1⟩, ⟨3, some "crate", 1, some 0, some 1⟩,
       ⟨4, some "stare", 1, some 0, some 1⟩, ⟨5, some "raise", 1, some 0, some 1⟩] }

/-- Five rankings with the same blended score: the first five of
`openerRankings`. -/
def fiveRankings : Rankings ℚ :=
  { bestInfoGuesses := [],
    bestAnswerGuesses := openerRankings.bestAnswerGuesses.take 5 }

/-- Draws of `Math.random()` that are all 0. -/
def drawsLow : Nat → ℚ := fun _ => 0

/-- Draws of `Math.random()`: 1/2 first, then 0. -/
def drawsMid : Nat → ℚ := fun k => if k = 0 then 1 / 2 else 0

/-- The state `init` leaves for the dictionary `crane`, `slate`, `trace` with
uniform frequency tables and no commonness data, under the insertion sort. -/
def sampleInit (α : Type) [LinearOrderedField α] (ln : α → α) : EngineState α :=
  (init referenceSort ln (initialEngine α) ["crane", "slate", "trace"] (some uniformTables)
    none).1

/-! ### Buffer lemmas -/

theorem getD_set (buf : List Nat) (k j v : Nat) :
    (buf.set k v).getD j 0 = if j = k ∧ k < buf.length then v else buf.getD j 0 := by
  simp only [List.getD_eq_getElem?_getD, List.getElem?_set]
  by_cases h : k = j
  · subst h
    by_cases h2 : k < buf.length
    · simp [h2]
    · simp only [h2, if_true, if_false, and_false]
      rw [List.getElem?_eq_none (by omega)]
  · have h3 : ¬ (j = k ∧ k < buf.length) := fun hh => h hh.1.symm
    simp only [if_neg h, if_neg h3]

theorem getD_of_length_le (buf : List Nat) (j : Nat) (h : buf.length ≤ j) : buf.getD j 0 = 0 := by
  simp [List.getD_eq_getElem?_getD, List.getElem?_eq_none h]

theorem length_u8inc (buf : List Nat) (k : Nat) : (u8inc buf k).length = buf.length := by
  simp [u8inc]

theorem length_u8dec (buf : List Nat) (k : Nat) : (u8dec buf k).length = buf.length := by
  simp [u8dec]

theorem getD_u8inc (buf : List Nat) (k j : Nat) :
    (u8inc buf k).getD j 0
      = if j = k ∧ k < buf.length then (buf.getD k 0 + 1) % 256 else buf.getD j 0 := by
  unfold u8inc
  exact getD_set _ _ _ _

theorem getD_u8dec (buf : List Nat) (k j : Nat) :
    (u8dec buf k).getD j 0
      = if j = k ∧ k < buf.length then (buf.getD k 0 + 255) % 256 else buf.getD j 0 := by
  unfold u8dec
  exact getD_set _ _ _ _

theorem countBelow_zero (p : Nat → Bool) : countBelow p 0 = 0 := by
  simp [countBelow]

theorem countBelow_succ (p : Nat → Bool) (k : Nat) :
    countBelow p (k + 1) = countBelow p k + if p k then 1 else 0 := by
  simp [countBelow, List.range_succ, List.countP_append, List.countP_cons]

theorem countBelow_le (p : Nat → Bool) (k : Nat) : countBelow p k ≤ k := by
  have h := List.countP_le_length p (l := List.range k)
  simpa [countBelow] using h

theorem countBelow_mono_right (p : Nat → Bool) {k m : Nat} (h : k ≤ m) :
    countBelow p k ≤ countBelow p m := by
  induction m with
  | zero =>
    have : k = 0 := by omega
    subst this; exact Nat.le_refl _
  | succ m ih =>
    rcases Nat.lt_or_ge k (m + 1) with hk | hk
    · have := ih (by omega)
      rw [countBelow_succ]; omega
    · have : k = m + 1 := by omega
      subst this; exact Nat.le_refl _

theorem countBelow_mono_left {p q : Nat → Bool} (h : ∀ j, p j = true → q j = true) (k : Nat) :
    countBelow p k ≤ countBelow q k :=
  List.countP_mono_left (fun x _ hx => h x hx)

theorem count_eq_countBelow (s : List Nat) (L : Nat) :
    s.count L = countBelow (fun j => s.getD j 0 = L) s.length := by
  induction s using List.reverseRecOn with
  | nil => simp [countBelow]
  | append_singleton s a ih =>
    rw [List.length_append, List.length_singleton, countBelow_succ, List.count_append, ih]
    have h1 : countBelow (fun j => decide ((s ++ [a]).getD j 0 = L)) s.length
        = countBelow (fun j => decide (s.getD j 0 = L)) s.length := by
      unfold countBelow
      apply List.countP_congr
      intro j hj
      have hj2 : j < s.length := by simpa using hj
      simp [List.getD_eq_getElem?_getD, List.getElem?_append_left hj2]
    rw [h1]
    have h2 : (s ++ [a]).getD s.length 0 = a := by
      simp [List.getD_eq_getElem?_getD]
    simp [h2, List.count_singleton]

/-! ### Loop invariants of the two passes -/

theorem foldl_range_succ {β : Type} (f : β → Nat → β) (b : β) (k : Nat) :
    (List.range (k + 1)).foldl f b = f ((List.range k).foldl f b) k := by
  simp [List.range_succ, List.foldl_append]

/-- Invariant of the tally loop started on a zeroed buffer. -/
theorem tally_inv (s sc : List Nat) (hlen : sc.length = 26) (hz : ∀ L, sc.getD L 0 = 0)
    (k : Nat) (hk : k ≤ 5) :
    ((List.range k).foldl (fun sc i => u8inc sc (s.getD i 0)) sc).length = 26 ∧
    ∀ L, L < 26 →
      ((List.range k).foldl (fun sc i => u8inc sc (s.getD i 0)) sc).getD L 0
        = countBelow (fun j => s.getD j 0 = L) k := by
  induction k with
  | zero =>
    refine ⟨by simpa using hlen, fun L _ => ?_⟩
    simp only [List.range_zero, List.foldl_nil, countBelow_zero]
    exact hz L
  | succ k ih =>
    obtain ⟨ihl, ihc⟩ := ih (by omega)
    rw [foldl_range_succ]
    refine ⟨by rw [length_u8inc]; exact ihl, fun L hL => ?_⟩
    rw [getD_u8inc, countBelow_succ, ihl]
    have hb := countBelow_le (fun j => decide (s.getD j 0 = L)) k
    by_cases h : s.getD k 0 = L
    · have h1 : L = s.getD k 0 ∧ s.getD k 0 < 26 := ⟨h.symm, by omega⟩
      rw [if_pos h1, ihc _ (by omega), h]
      simp only [decide_True, if_true]
      omega
    · have h1 : ¬ (L = s.getD k 0 ∧ s.getD k 0 < 26) := fun hh => h hh.1.symm
      rw [if_neg h1, ihc L hL]
      simp only [h, decide_False, Bool.false_eq_true, if_false, Nat.add_zero]

/-- Invariant of the green loop: the count buffer loses one per exact match,
and the processed positions hold 2 or 0. -/
theorem greens_inv (g s c0 p0 : List Nat) (hc : c0.length = 26) (hp : p0.length = 5)
    (h0 : ∀ L, L < 26 → c0.getD L 0 = countBelow (fun j => s.getD j 0 = L) 5)
    (k : Nat) (hk : k ≤ 5) :
    ((List.range k).foldl (greenStep g s) (c0, p0)).1.length = 26 ∧
    ((List.range k).foldl (greenStep g s) (c0, p0)).2.length = 5 ∧
    (∀ L, L < 26 →
      ((List.range k).foldl (greenStep g s) (c0, p0)).1.getD L 0
        + countBelow (fun j => g.getD j 0 = L ∧ s.getD j 0 = L) k
        = countBelow (fun j => s.getD j 0 = L) 5) ∧
    (∀ j, j < k →
      ((List.range k).foldl (greenStep g s) (c0, p0)).2.getD j 0
        = if g.getD j 0 = s.getD j 0 then 2 else 0) ∧
    (∀ j, k ≤ j →
      ((List.range k).foldl (greenStep g s) (c0, p0)).2.getD j 0 = p0.getD j 0) := by
  induction k with
  | zero =>
    refine ⟨by simpa using hc, by simpa using hp, fun L hL => ?_, fun j hj => by omega,
      fun j _ => by simp⟩
    simp only [List.range_zero, List.foldl_nil, countBelow_zero, Nat.add_zero]
    exact h0 L hL
  | succ k ih =>
    obtain ⟨il1, il2, ic, ipl, ipr⟩ := ih (by omega)
    rw [foldl_range_succ]
    generalize (List.range k).foldl (greenStep g s) (c0, p0) = st at il1 il2 ic ipl ipr
    unfold greenStep
    by_cases hgs : g.getD k 0 = s.getD k 0
    · rw [if_pos hgs]
      refine ⟨by simp [length_u8dec, il1], by simp [il2], fun L hL => ?_, fun j hj => ?_,
        fun j hj => ?_⟩
      · show (u8dec st.1 (g.getD k 0)).getD L 0 + _ = _
        rw [getD_u8dec, countBelow_succ, il1]
        have hI := ic L hL
        by_cases h : g.getD k 0 = L
        · have h1 : L = g.getD k 0 ∧ g.getD k 0 < 26 := ⟨h.symm, by omega⟩
          have hsL : s.getD k 0 = L := by rw [← hgs]; exact h
          rw [if_pos h1, h]
          have hm1 : countBelow (fun j => decide (g.getD j 0 = L ∧ s.getD j 0 = L)) (k + 1)
              ≤ countBelow (fun j => decide (g.getD j 0 = L ∧ s.getD j 0 = L)) 5 :=
            countBelow_mono_right _ (by omega)
          have hm2 : countBelow (fun j => decide (g.getD j 0 = L ∧ s.getD j 0 = L)) 5
              ≤ countBelow (fun j => decide (s.getD j 0 = L)) 5 :=
            countBelow_mono_left (fun j hj => by simp at hj ⊢; exact hj.2) 5
          have hb := countBelow_le (fun j => decide (s.getD j 0 = L)) 5
          rw [countBelow_succ] at hm1
          simp only [h, hsL, and_self, decide_True, if_true] at hm1 ⊢
          omega
        · have h1 : ¬ (L = g.getD k 0 ∧ g.getD k 0 < 26) := fun hh => h hh.1.symm
          rw [if_neg h1]
          simp only [h, false_and, decide_False, Bool.false_eq_true, if_false, Nat.add_zero]
          exact hI
      · show (st.2.set k 2).getD j 0 = _
        rw [getD_set, il2]
        by_cases hjk : j = k
        · subst hjk
          rw [if_pos ⟨rfl, by omega⟩, if_pos hgs]
        · rw [if_neg (fun hh => hjk hh.1)]
          exact ipl j (by omega)
      · show (st.2.set k 2).getD j 0 = _
        rw [getD_set, if_neg (fun hh => by omega)]
        exact ipr j (by omega)
    · rw [if_neg hgs]
      refine ⟨il1, by simp [il2], fun L hL => ?_, fun j hj => ?_, fun j hj => ?_⟩
      · show st.1.getD L 0 + _ = _
        rw [countBelow_succ]
        have hI := ic L hL
        have : ¬ (g.getD k 0 = L ∧ s.getD k 0 = L) := fun hh => hgs (hh.1.trans hh.2.symm)
        simp only [this, decide_False, Bool.false_eq_true, if_false, Nat.add_zero]
        exact hI
      · show (st.2.set k 0).getD j 0 = _
        rw [getD_set, il2]
        by_cases hjk : j = k
        · subst hjk
          rw [if_pos ⟨rfl, by omega⟩, if_neg hgs]
        · rw [if_neg (fun hh => hjk hh.1)]
          exact ipl j (by omega)
      · show (st.2.set k 0).getD j 0 = _
        rw [getD_set, if_neg (fun hh => by omega)]
        exact ipr j (by omega)

/-- Invariant of the yellow loop: after `k` positions the buffer has lost
`min (non-correct copies seen) (copies available)` for each letter. -/
theorem yellows_inv (g s c1 p1 : List Nat) (hc : c1.length = 26) (hp : p1.length = 5)
    (hb : ∀ L, c1.getD L 0 < 256)
    (h1 : ∀ j, j < 5 → p1.getD j 0 = if g.getD j 0 = s.getD j 0 then 2 else 0)
    (k : Nat) (hk : k ≤ 5) :
    ((List.range k).foldl (yellowStep g) (c1, p1)).1.length = 26 ∧
    ((List.range k).foldl (yellowStep g) (c1, p1)).2.length = 5 ∧
    (∀ L, ((List.range k).foldl (yellowStep g) (c1, p1)).1.getD L 0
        + min (priorNonCorrect g s L k) (c1.getD L 0) = c1.getD L 0) ∧
    (∀ j, j < k →
      ((List.range k).foldl (yellowStep g) (c1, p1)).2.getD j 0
        = if g.getD j 0 = s.getD j 0 then 2
          else if priorNonCorrect g s (g.getD j 0) j < c1.getD (g.getD j 0) 0 then 1 else 0) ∧
    (∀ j, k ≤ j →
      ((List.range k).foldl (yellowStep g) (c1, p1)).2.getD j 0 = p1.getD j 0) := by
  induction k with
  | zero =>
    refine ⟨by simpa using hc, by simpa using hp, fun L => ?_, fun j hj => by omega,
      fun j _ => by simp⟩
    simp only [List.range_zero, List.foldl_nil, priorNonCorrect, countBelow_zero]
    omega
  | succ k ih =>
    obtain ⟨il1, il2, ic, ipl, ipr⟩ := ih (by omega)
    rw [foldl_range_succ]
    generalize (List.range k).foldl (yellowStep g) (c1, p1) = st at il1 il2 ic ipl ipr
    have hpk : st.2.getD k 0 = if g.getD k 0 = s.getD k 0 then 2 else 0 := by
      rw [ipr k (Nat.le_refl k)]; exact h1 k (by omega)
    have hsucc : ∀ L, priorNonCorrect g s L (k + 1)
        = priorNonCorrect g s L k + if (g.getD k 0 ≠ s.getD k 0 ∧ g.getD k 0 = L) then 1 else 0 := by
      intro L
      unfold priorNonCorrect
      rw [countBelow_succ]
      congr 1
      by_cases hh : (g.getD k 0 ≠ s.getD k 0 ∧ g.getD k 0 = L)
      · rw [if_pos hh, if_pos (decide_eq_true hh)]
      · rw [if_neg hh, if_neg (fun h => hh (of_decide_eq_true h))]
    unfold yellowStep
    by_cases hgs : g.getD k 0 = s.getD k 0
    · rw [if_pos hgs] at hpk
      have hne : ¬ (st.2.getD k 0 ≠ 2) := fun hh => hh hpk
      rw [if_neg hne]
      refine ⟨il1, il2, fun L => ?_, fun j hj => ?_, fun j hj => ipr j (by omega)⟩
      · rw [hsucc L, if_neg (fun hh => hh.1 hgs), Nat.add_zero]
        exact ic L
      · by_cases hjk : j = k
        · subst hjk
          rw [hpk, if_pos hgs]
        · exact ipl j (by omega)
    · rw [if_neg hgs] at hpk
      have hne : st.2.getD k 0 ≠ 2 := by rw [hpk]; decide
      rw [if_pos hne]
      by_cases hpos : st.1.getD (g.getD k 0) 0 > 0
      · rw [if_pos hpos]
        have hM : g.getD k 0 < 26 := by
          by_contra hcon
          have := getD_of_length_le st.1 (g.getD k 0) (by omega)
          omega
        refine ⟨by simp [length_u8dec, il1], by simp [il2], fun L => ?_, fun j hj => ?_,
          fun j hj => ?_⟩
        · show (u8dec st.1 (g.getD k 0)).getD L 0 + _ = _
          rw [getD_u8dec, il1, hsucc L]
          have hI := ic L
          have hbL := hb L
          by_cases h : g.getD k 0 = L
          · rw [if_pos ⟨h.symm, hM⟩, if_pos ⟨hgs, h⟩]
            rw [h] at hpos
            rw [h]
            omega
          · rw [if_neg (fun hh => h hh.1.symm), if_neg (fun hh => h hh.2), Nat.add_zero]
            exact hI
        · show (st.2.set k 1).getD j 0 = _
          rw [getD_set, il2]
          by_cases hjk : j = k
          · subst hjk
            rw [if_pos ⟨rfl, by omega⟩, if_neg hgs]
            have hI := ic (g.getD j 0)
            have : priorNonCorrect g s (g.getD j 0) j < c1.getD (g.getD j 0) 0 := by omega
            rw [if_pos this]
          · rw [if_neg (fun hh => hjk hh.1)]
            exact ipl j (by omega)
        · show (st.2.set k 1).getD j 0 = _
          rw [getD_set, if_neg (fun hh => by omega)]
          exact ipr j (by omega)
      · rw [if_neg hpos]
        refine ⟨il1, il2, fun L => ?_, fun j hj => ?_, fun j hj => ipr j (by omega)⟩
        · rw [hsucc L]
          have hI := ic L
          by_cases h : g.getD k 0 = L
          · rw [if_pos ⟨hgs, h⟩]
            rw [h] at hpos
            omega
          · rw [if_neg (fun hh => h hh.2), Nat.add_zero]
            exact hI
        · by_cases hjk : j = k
          · subst hjk
            rw [hpk, if_neg hgs]
            have hI := ic (g.getD j 0)
            have : ¬ priorNonCorrect g s (g.getD j 0) j < c1.getD (g.getD j 0) 0 := by omega
            rw [if_neg this]
          · exact ipl j (by omega)

/-- What the count buffer holds between the two passes: the copies of each
letter in the secret that are not exact matches. -/
theorem counts_after_greens (g s pattern : List Nat) (hs : s.length = 5)
    (hs26 : ∀ x ∈ s, x < 26) (hp : pattern.length = 5) (L : Nat) :
    (markGreens g s (tallySecret s zeroCounts, pattern)).1.getD L 0
      = s.count L - bothCount g s L := by
  have ht := tally_inv s zeroCounts (by simp [zeroCounts])
    (fun L => by
      simp only [zeroCounts, List.getD_eq_getElem?_getD, List.getElem?_replicate]
      split <;> rfl) 5 (Nat.le_refl 5)
  have hg := greens_inv g s (tallySecret s zeroCounts) pattern ht.1 hp ht.2 5 (Nat.le_refl 5)
  rcases Nat.lt_or_ge L 26 with hL | hL
  · have h3 := hg.2.2.1 L hL
    have h4 := count_eq_countBelow s L
    rw [hs] at h4
    unfold bothCount markGreens
    omega
  · have h5 : (markGreens g s (tallySecret s zeroCounts, pattern)).1.getD L 0 = 0 :=
      getD_of_length_le _ _ (by unfold markGreens; rw [hg.1]; exact hL)
    have h6 : s.count L = 0 := List.count_eq_zero.mpr (fun hmem => by
      have := hs26 L hmem; omega)
    rw [h5, h6, Nat.zero_sub]

/-- After both passes every position of the pattern buffer holds the tile
value of the specification. -/
theorem runPasses_tile (g s pattern : List Nat) (hs : s.length = 5)
    (hs26 : ∀ x ∈ s, x < 26) (hp : pattern.length = 5) (i : Nat) (hi : i < 5) :
    (runPasses g s zeroCounts pattern).2.getD i 0 = specTile g s i := by
  have ht := tally_inv s zeroCounts (by simp [zeroCounts])
    (fun L => by
      simp only [zeroCounts, List.getD_eq_getElem?_getD, List.getElem?_replicate]
      split <;> rfl) 5 (Nat.le_refl 5)
  have hg := greens_inv g s (tallySecret s zeroCounts) pattern ht.1 hp ht.2 5 (Nat.le_refl 5)
  have hc := counts_after_greens g s pattern hs hs26 hp
  have hy := yellows_inv g s (markGreens g s (tallySecret s zeroCounts, pattern)).1
    (markGreens g s (tallySecret s zeroCounts, pattern)).2 hg.1 hg.2.1
    (fun L => by
      rw [hc L]
      have := List.count_le_length L s
      omega)
    (fun j hj => hg.2.2.2.1 j hj) 5 (Nat.le_refl 5)
  have h := hy.2.2.2.1 i hi
  unfold runPasses markYellows
  rw [h, hc]
  rfl

theorem specTile_le_two (g s : List Nat) (i : Nat) : specTile g s i ≤ 2 := by
  unfold specTile
  split_ifs <;> omega

theorem encodePattern_eq (pat : List Nat) :
    encodePattern pat = pat.getD 0 0 + pat.getD 1 0 * 3 + pat.getD 2 0 * 9
      + pat.getD 3 0 * 27 + pat.getD 4 0 * 81 := by
  have h0 : POWERS_OF_3.getD 0 0 = 1 := rfl
  have h1 : POWERS_OF_3.getD 1 0 = 3 := rfl
  have h2 : POWERS_OF_3.getD 2 0 = 9 := rfl
  have h3 : POWERS_OF_3.getD 3 0 = 27 := rfl
  have h4 : POWERS_OF_3.getD 4 0 = 81 := rfl
  unfold encodePattern
  rw [h0, h1, h2, h3, h4, Nat.mul_one]

theorem computePatternId_pattern (g s sc pattern : List Nat) :
    (computePatternId g s sc pattern).2.2 = (runPasses g s sc pattern).2 := by
  simp only [computePatternId]

theorem computePatternId_fst (g s sc pattern : List Nat) :
    (computePatternId g s sc pattern).1 = encodePattern (runPasses g s sc pattern).2 := by
  simp only [computePatternId]

/-- The pattern id in closed form. -/
theorem computePatternId_id (g s pattern : List Nat) (hs : s.length = 5)
    (hs26 : ∀ x ∈ s, x < 26) (hp : pattern.length = 5) :
    (computePatternId g s zeroCounts pattern).1
      = specTile g s 0 + specTile g s 1 * 3 + specTile g s 2 * 9
        + specTile g s 3 * 27 + specTile g s 4 * 81 := by
  rw [computePatternId_fst, encodePattern_eq]
  rw [runPasses_tile g s pattern hs hs26 hp 0 (by omega),
    runPasses_tile g s pattern hs hs26 hp 1 (by omega),
    runPasses_tile g s pattern hs hs26 hp 2 (by omega),
    runPasses_tile g s pattern hs hs26 hp 3 (by omega),
    runPasses_tile g s pattern hs hs26 hp 4 (by omega)]

/-- The pattern buffer left by `computePatternId` holds the specification's
tile values. -/
theorem computePatternId_tile (g s pattern : List Nat) (hs : s.length = 5)
    (hs26 : ∀ x ∈ s, x < 26) (hp : pattern.length = 5) (i : Nat) (hi : i < 5) :
    (computePatternId g s zeroCounts pattern).2.2.getD i 0 = specTile g s i := by
  rw [computePatternId_pattern]
  exact runPasses_tile g s pattern hs hs26 hp i hi

/-! ### Counting the marked copies of a letter -/

theorem countBelow_succ_prop (P : Nat → Prop) [DecidablePred P] (k : Nat) :
    countBelow (fun j => decide (P j)) (k + 1)
      = countBelow (fun j => decide (P j)) k + if P k then 1 else 0 := by
  rw [countBelow_succ]
  congr 1
  by_cases h : P k
  · rw [if_pos h, if_pos (decide_eq_true h)]
  · rw [if_neg h, if_neg (fun hh => h (of_decide_eq_true hh))]

theorem guessCount_split (g s : List Nat) (L : Nat) (k : Nat) :
    countBelow (fun j => g.getD j 0 = L) k = bothBelow g s L k + priorNonCorrect g s L k := by
  induction k with
  | zero => simp [bothBelow, priorNonCorrect, countBelow_zero]
  | succ k ih =>
    unfold bothBelow priorNonCorrect at *
    rw [countBelow_succ_prop, countBelow_succ_prop, countBelow_succ_prop, ih]
    by_cases h1 : g.getD k 0 = L
    · by_cases h2 : s.getD k 0 = L
      · have e1 : (if g.getD k 0 = L then 1 else 0) = 1 := if_pos h1
        have e2 : (if g.getD k 0 = L ∧ s.getD k 0 = L then 1 else 0) = 1 := if_pos ⟨h1, h2⟩
        have e3 : (if g.getD k 0 ≠ s.getD k 0 ∧ g.getD k 0 = L then 1 else 0) = 0 :=
          if_neg (fun hh => hh.1 (h1.trans h2.symm))
        rw [e1, e2, e3]
        omega
      · have e1 : (if g.getD k 0 = L then 1 else 0) = 1 := if_pos h1
        have e2 : (if g.getD k 0 = L ∧ s.getD k 0 = L then 1 else 0) = 0 :=
          if_neg (fun hh => h2 hh.2)
        have e3 : (if g.getD k 0 ≠ s.getD k 0 ∧ g.getD k 0 = L then 1 else 0) = 1 :=
          if_pos ⟨fun hh => h2 (hh.symm.trans h1), h1⟩
        rw [e1, e2, e3]
        omega
    · have e1 : (if g.getD k 0 = L then 1 else 0) = 0 := if_neg h1
      have e2 : (if g.getD k 0 = L ∧ s.getD k 0 = L then 1 else 0) = 0 :=
        if_neg (fun hh => h1 hh.1)
      have e3 : (if g.getD k 0 ≠ s.getD k 0 ∧ g.getD k 0 = L then 1 else 0) = 0 :=
        if_neg (fun hh => h1 hh.2)
      rw [e1, e2, e3]
      omega

/-- Among the positions below `k`, the copies of `L` that are not marked
absent are the exact matches plus as many non-correct copies as the secret
has left. -/
theorem marked_below (g s : List Nat) (L : Nat) (k : Nat) :
    countBelow (fun i => g.getD i 0 = L ∧ specTile g s i ≠ 0) k
      = bothBelow g s L k + min (priorNonCorrect g s L k) (s.count L - bothCount g s L) := by
  induction k with
  | zero => simp [bothBelow, priorNonCorrect, countBelow_zero]
  | succ k ih =>
    rw [countBelow_succ_prop, ih]
    unfold bothBelow priorNonCorrect
    rw [countBelow_succ_prop, countBelow_succ_prop]
    by_cases h1 : g.getD k 0 = L
    · by_cases h2 : s.getD k 0 = L
      · have h4 : specTile g s k = 2 := by
          unfold specTile; rw [if_pos (h1.trans h2.symm)]
        have e1 : (if g.getD k 0 = L ∧ specTile g s k ≠ 0 then 1 else 0) = 1 :=
          if_pos ⟨h1, by rw [h4]; decide⟩
        have e2 : (if g.getD k 0 = L ∧ s.getD k 0 = L then 1 else 0) = 1 := if_pos ⟨h1, h2⟩
        have e3 : (if g.getD k 0 ≠ s.getD k 0 ∧ g.getD k 0 = L then 1 else 0) = 0 :=
          if_neg (fun hh => hh.1 (h1.trans h2.symm))
        rw [e1, e2, e3]
        omega
      · have hne : g.getD k 0 ≠ s.getD k 0 := fun hh => h2 (hh.symm.trans h1)
        have e2 : (if g.getD k 0 = L ∧ s.getD k 0 = L then 1 else 0) = 0 :=
          if_neg (fun hh => h2 hh.2)
        have e3 : (if g.getD k 0 ≠ s.getD k 0 ∧ g.getD k 0 = L then 1 else 0) = 1 :=
          if_pos ⟨hne, h1⟩
        rw [e2, e3]
        by_cases h6 : priorNonCorrect g s L k < s.count L - bothCount g s L
        · have h4 : specTile g s k = 1 := by
            unfold specTile; rw [if_neg hne, h1, if_pos h6]
          have e1 : (if g.getD k 0 = L ∧ specTile g s k ≠ 0 then 1 else 0) = 1 :=
            if_pos ⟨h1, by rw [h4]; decide⟩
          rw [e1]
          unfold priorNonCorrect at h6
          omega
        · have h4 : specTile g s k = 0 := by
            unfold specTile; rw [if_neg hne, h1, if_neg h6]
          have e1 : (if g.getD k 0 = L ∧ specTile g s k ≠ 0 then 1 else 0) = 0 :=
            if_neg (fun hh => hh.2 h4)
          rw [e1]
          unfold priorNonCorrect at h6
          omega
    · have e1 : (if g.getD k 0 = L ∧ specTile g s k ≠ 0 then 1 else 0) = 0 :=
        if_neg (fun hh => h1 hh.1)
      have e2 : (if g.getD k 0 = L ∧ s.getD k 0 = L then 1 else 0) = 0 :=
        if_neg (fun hh => h1 hh.1)
      have e3 : (if g.getD k 0 ≠ s.getD k 0 ∧ g.getD k 0 = L then 1 else 0) = 0 :=
        if_neg (fun hh => h1 hh.2)
      rw [e1, e2, e3]
      omega

/-- The copies of `L` in the guess that are marked correct or present number
`min (copies in guess) (copies in secret)`. -/
theorem marked_count (g s : List Nat) (hg : g.length = 5) (hs : s.length = 5) (L : Nat) :
    countBelow (fun i => g.getD i 0 = L ∧ specTile g s i ≠ 0) 5
      = min (g.count L) (s.count L) := by
  rw [marked_below]
  have h1 := guessCount_split g s L 5
  have h2 := count_eq_countBelow g L
  have h3 := count_eq_countBelow s L
  rw [hg] at h2
  rw [hs] at h3
  have h4 : bothBelow g s L 5 ≤ countBelow (fun j => decide (s.getD j 0 = L)) 5 :=
    countBelow_mono_left (fun j hj => by
      have := of_decide_eq_true hj
      exact decide_eq_true this.2) 5
  have h5 : bothCount g s L = bothBelow g s L 5 := rfl
  omega

/-- C3: on encoded 5-letter words with letters in 0..25 and a zeroed count
buffer, `computePatternId` returns the sum over the positions `i` of
`v_i * 3^i`, where `v_i` is the tile value of the specification (`specTile`:
2 on an exact match, else 1 when fewer non-correct copies of the letter
precede `i` than the secret has copies outside the exact matches, else 0),
and the result is at most 242. -/
theorem computePatternId_closed_form (g s pattern : List Nat)
    (_hg : g.length = 5) (hs : s.length = 5)
    (_hg26 : ∀ x ∈ g, x < 26) (hs26 : ∀ x ∈ s, x < 26) (hp : pattern.length = 5) :
    (computePatternId g s zeroCounts pattern).1
        = ((List.range 5).map (fun i => specTile g s i * 3 ^ i)).sum ∧
      (computePatternId g s zeroCounts pattern).1 ≤ 242 := by
  have h := computePatternId_id g s pattern hs hs26 hp
  have hr : List.range 5 = [0, 1, 2, 3, 4] := by decide
  have b0 := specTile_le_two g s 0
  have b1 := specTile_le_two g s 1
  have b2 := specTile_le_two g s 2
  have b3 := specTile_le_two g s 3
  have b4 := specTile_le_two g s 4
  refine ⟨?_, by omega⟩
  rw [h, hr]
  simp only [List.map_cons, List.map_nil, List.sum_cons, List.sum_nil]
  norm_num
  omega

/-- Instance of C3: SPEED against ERUPT. -/
theorem computePatternId_closed_form_witness :
    (computePatternId [18, 15, 4, 4, 3] [4, 17, 20, 15, 19] zeroCounts zeroPattern).1
        = ((List.range 5).map
            (fun i => specTile [18, 15, 4, 4, 3] [4, 17, 20, 15, 19] i * 3 ^ i)).sum ∧
      (computePatternId [18, 15, 4, 4, 3] [4, 17, 20, 15, 19] zeroCounts zeroPattern).1 ≤ 242 :=
  computePatternId_closed_form [18, 15, 4, 4, 3] [4, 17, 20, 15, 19] zeroPattern
    (by decide) (by decide) (by decide) (by decide) (by decide)

/-- C4: for every letter `L`, the copies of `L` in the guess that
`computePatternId` marks correct (2) or present (1) number
`min (copies of L in the guess) (copies of L in the secret)`, and every other
copy of `L` is marked absent (0); SPEED against ERUPT gives pattern id 12 with
the E at index 2 present and the E at index 3 absent. -/
theorem computePatternId_duplicates (g s pattern : List Nat)
    (hg : g.length = 5) (hs : s.length = 5)
    (_hg26 : ∀ x ∈ g, x < 26) (hs26 : ∀ x ∈ s, x < 26) (hp : pattern.length = 5) (L : Nat) :
    countBelow (fun i => g.getD i 0 = L ∧
        ((computePatternId g s zeroCounts pattern).2.2.getD i 0 = 2 ∨
          (computePatternId g s zeroCounts pattern).2.2.getD i 0 = 1)) 5
        = min (g.count L) (s.count L) ∧
      (∀ i, i < 5 → g.getD i 0 = L →
        ¬ ((computePatternId g s zeroCounts pattern).2.2.getD i 0 = 2 ∨
          (computePatternId g s zeroCounts pattern).2.2.getD i 0 = 1) →
        (computePatternId g s zeroCounts pattern).2.2.getD i 0 = 0) ∧
      (computePatternId (encodeWord "speed") (encodeWord "erupt") zeroCounts zeroPattern).1 = 12 ∧
      (computePatternId (encodeWord "speed") (encodeWord "erupt") zeroCounts zeroPattern).2.2
        = [0, 1, 1, 0, 0] := by
  have ht : ∀ i, i < 5 → (computePatternId g s zeroCounts pattern).2.2.getD i 0 = specTile g s i :=
    fun i hi => computePatternId_tile g s pattern hs hs26 hp i hi
  refine ⟨?_, ?_, by decide, by decide⟩
  · rw [← marked_count g s hg hs L]
    unfold countBelow
    apply List.countP_congr
    intro i hi
    have hi5 : i < 5 := by simpa using hi
    rw [ht i hi5]
    have hb := specTile_le_two g s i
    simp only [decide_eq_true_eq]
    constructor
    · rintro ⟨h1, h2⟩
      exact ⟨h1, by omega⟩
    · rintro ⟨h1, h2⟩
      exact ⟨h1, by omega⟩
  · intro i hi _ hn
    rw [ht i hi] at hn ⊢
    have hb := specTile_le_two g s i
    omega

/-- Instance of C4: the letter E (code 4) of SPEED against ERUPT. -/
theorem computePatternId_duplicates_witness :
    countBelow (fun i => [18, 15, 4, 4, 3].getD i 0 = 4 ∧
        ((computePatternId [18, 15, 4, 4, 3] [4, 17, 20, 15, 19] zeroCounts
            zeroPattern).2.2.getD i 0 = 2 ∨
          (computePatternId [18, 15, 4, 4, 3] [4, 17, 20, 15, 19] zeroCounts
            zeroPattern).2.2.getD i 0 = 1)) 5
        = min ([18, 15, 4, 4, 3].count 4) ([4, 17, 20, 15, 19].count 4) :=
  (computePatternId_duplicates [18, 15, 4, 4, 3] [4, 17, 20, 15, 19] zeroPattern
    (by decide) (by decide) (by decide) (by decide) (by decide) 4).1

/-! ### JS objects -/

theorem JsObject.get?_eq_none_iff {α : Type} (o : JsObject α) (k : String) :
    o.get? k = none ↔ k ∉ o.map Prod.fst := by
  induction o with
  | nil => simp [JsObject.get?]
  | cons e rest ih =>
    unfold JsObject.get?
    by_cases h : e.1 = k
    · simp [h]
    · rw [if_neg h, ih]
      simp only [List.map_cons, List.mem_cons, not_or]
      exact ⟨fun h2 => ⟨fun hh => h hh.symm, h2⟩, fun h2 => h2.2⟩

theorem JsObject.get?_eq_some_iff {α : Type} (o : JsObject α) (hwf : o.WF) (k : String) (v : α) :
    o.get? k = some v ↔ (k, v) ∈ o := by
  induction o with
  | nil => simp [JsObject.get?]
  | cons e rest ih =>
    have hnd : e.1 ∉ rest.map Prod.fst ∧ (rest.map Prod.fst).Nodup := by
      simpa [JsObject.WF] using hwf
    unfold JsObject.get?
    by_cases h : e.1 = k
    · rw [if_pos h]
      constructor
      · intro h2
        have : e = (k, v) := by
          cases e; simp at h h2; simp [h, h2]
        rw [this]; exact List.mem_cons_self _ _
      · intro h2
        rcases List.mem_cons.mp h2 with h3 | h3
        · rw [← h3]
        · exfalso
          apply hnd.1
          rw [h]
          exact List.mem_map.mpr ⟨(k, v), h3, rfl⟩
    · rw [if_neg h, ih hnd.2]
      constructor
      · intro h2; exact List.mem_cons_of_mem _ h2
      · intro h2
        rcases List.mem_cons.mp h2 with h3 | h3
        · exfalso; apply h; rw [← h3]
        · exact h3

theorem JsObject.get?_append_singleton {α : Type} (o : JsObject α) (k : String) (v : α)
    (k2 : String) :
    JsObject.get? (o ++ [(k, v)]) k2
      = match o.get? k2 with
        | some w => some w
        | none => if k = k2 then some v else none := by
  induction o with
  | nil => simp [JsObject.get?]
  | cons e rest ih =>
    show JsObject.get? (e :: (rest ++ [(k, v)])) k2 = _
    unfold JsObject.get?
    by_cases h : e.1 = k2
    · simp [h]
    · rw [if_neg h, if_neg h]
      exact ih

theorem get?_insertIndexKey {α : Type} (n : Nat) (k : String) (v : α) (o : JsObject α)
    (hk : o.get? k = none) (k2 : String) :
    JsObject.get? (insertIndexKey n k v o) k2 = if k2 = k then some v else o.get? k2 := by
  induction o with
  | nil =>
    unfold insertIndexKey
    simp [JsObject.get?, eq_comm]
  | cons e rest ih =>
    have hk1 : e.1 ≠ k ∧ JsObject.get? rest k = none := by
      unfold JsObject.get? at hk
      by_cases h : e.1 = k
      · rw [if_pos h] at hk; cases hk
      · rw [if_neg h] at hk; exact ⟨h, hk⟩
    have hfront : JsObject.get? ((k, v) :: e :: rest) k2
        = if k2 = k then some v else JsObject.get? (e :: rest) k2 := by
      show (if k = k2 then some v else JsObject.get? (e :: rest) k2) = _
      by_cases h : k = k2
      · rw [if_pos h, if_pos h.symm]
      · rw [if_neg h, if_neg (fun hh => h hh.symm)]
    unfold insertIndexKey
    split
    · split
      · show (if e.1 = k2 then some e.2 else JsObject.get? (insertIndexKey n k v rest) k2) = _
        rw [ih hk1.2]
        by_cases h : e.1 = k2
        · have : k2 ≠ k := fun hh => hk1.1 (h.trans hh)
          rw [if_pos h, if_neg this]
          unfold JsObject.get?
          rw [if_pos h]
        · rw [if_neg h]
          conv => rhs; unfold JsObject.get?
          rw [if_neg h]
      · exact hfront
    · exact hfront

theorem insertIndexKey_perm {α : Type} (n : Nat) (k : String) (v : α) (o : JsObject α) :
    List.Perm (insertIndexKey n k v o) ((k, v) :: o) := by
  induction o with
  | nil => exact List.Perm.refl _
  | cons e rest ih =>
    unfold insertIndexKey
    split
    · split
      · exact (List.Perm.cons e ih).trans (List.Perm.swap _ _ _)
      · exact List.Perm.refl _
    · exact List.Perm.refl _

theorem JsObject.insertNew_perm {α : Type} (o : JsObject α) (k : String) (v : α) :
    List.Perm (o.insertNew k v) ((k, v) :: o) := by
  unfold JsObject.insertNew
  split
  · exact List.perm_append_singleton _ _
  · exact insertIndexKey_perm _ _ _ _

theorem JsObject.get?_insertNew {α : Type} (o : JsObject α) (k : String) (v : α)
    (hk : o.get? k = none) (k2 : String) :
    (o.insertNew k v).get? k2 = if k2 = k then some v else o.get? k2 := by
  unfold JsObject.insertNew
  split
  · rw [JsObject.get?_append_singleton]
    by_cases h : k2 = k
    · subst h
      rw [hk, if_pos rfl]
    · rw [if_neg h, if_neg (fun hh => h hh.symm)]
      cases JsObject.get? o k2 <;> rfl
  · exact get?_insertIndexKey _ _ _ _ hk _

theorem JsObject.get?_map_update {α : Type} (o : JsObject α) (k : String) (v : α)
    (k2 : String) :
    JsObject.get? (o.map (fun e => if e.1 = k then (e.1, v) else e)) k2
      = if k2 = k then (o.get? k2).map (fun _ => v) else o.get? k2 := by
  induction o with
  | nil => simp [JsObject.get?]
  | cons e rest ih =>
    rw [List.map_cons]
    unfold JsObject.get?
    by_cases h1 : e.1 = k
    · rw [if_pos h1]
      by_cases h2 : e.1 = k2
      · have h3 : k2 = k := h2.symm.trans h1
        simp only [h2, if_pos, h3, if_true, Option.map_some']
      · have h3 : k2 ≠ k := fun hh => h2 (h1.trans hh.symm)
        simp only [h2, if_false, h3]
        rw [ih, if_neg h3]
    · rw [if_neg h1]
      by_cases h2 : e.1 = k2
      · have h3 : k2 ≠ k := fun hh => h1 (h2.trans hh)
        simp only [h2, if_true, h3, if_false]
      · simp only [h2, if_false]
        exact ih

/-- Reading after the assignment `obj[k] = v`. -/
theorem JsObject.get?_set {α : Type} (o : JsObject α) (k : String) (v : α) (k2 : String) :
    (o.set k v).get? k2 = if k2 = k then some v else o.get? k2 := by
  unfold JsObject.set
  split
  · rename_i w hw
    rw [JsObject.get?_map_update]
    by_cases h : k2 = k
    · subst h
      rw [if_pos rfl, if_pos rfl, hw]; rfl
    · rw [if_neg h, if_neg h]
  · rename_i hn
    exact JsObject.get?_insertNew o k v hn k2

theorem JsObject.WF_set {α : Type} (o : JsObject α) (hwf : o.WF) (k : String) (v : α) :
    (o.set k v).WF := by
  unfold JsObject.set
  split
  · unfold JsObject.WF at *
    have : (o.map (fun e => if e.1 = k then (e.1, v) else e)).map Prod.fst = o.map Prod.fst := by
      rw [List.map_map]
      apply List.map_congr_left
      intro e _
      show (if e.1 = k then (e.1, v) else e).1 = e.1
      split <;> rfl
    rw [this]; exact hwf
  · rename_i hn
    unfold JsObject.WF at *
    have hp := (JsObject.insertNew_perm o k v).map Prod.fst
    rw [hp.nodup_iff]
    rw [List.map_cons, List.nodup_cons]
    exact ⟨(JsObject.get?_eq_none_iff o k).mp hn, hwf⟩

theorem JsObject.WF_nil {α : Type} : JsObject.WF ([] : JsObject α) := by
  simp [JsObject.WF]

/-- A loop `for (k in l) step(acc, k, l[k])` whose body only assigns `acc[k]`
acts on each key separately. -/
theorem JsObject.get?_foldl_keyed {α β : Type} (step : JsObject β → String × α → JsObject β)
    (F : Option β → α → β)
    (hstep : ∀ acc e k,
      JsObject.get? (step acc e) k = if k = e.1 then some (F (JsObject.get? acc k) e.2)
        else JsObject.get? acc k)
    (l : JsObject α) (hl : l.WF) (acc : JsObject β) (k : String) :
    JsObject.get? (l.foldl step acc) k
      = match l.get? k with
        | none => JsObject.get? acc k
        | some v => some (F (JsObject.get? acc k) v) := by
  induction l generalizing acc with
  | nil => rfl
  | cons e rest ih =>
    have hnd : e.1 ∉ rest.map Prod.fst ∧ (rest.map Prod.fst).Nodup := by
      simpa [JsObject.WF] using hl
    rw [List.foldl_cons, ih hnd.2]
    by_cases h : e.1 = k
    · have hr : JsObject.get? rest k = none := by
        rw [JsObject.get?_eq_none_iff, ← h]; exact hnd.1
      have he : JsObject.get? (e :: rest) k = some e.2 := by
        unfold JsObject.get?; rw [if_pos h]
      rw [hr, he, hstep, if_pos h.symm]
    · have he : JsObject.get? (e :: rest) k = JsObject.get? rest k := by
        conv => lhs; unfold JsObject.get?
        rw [if_neg h]
      rw [he, hstep, if_neg (fun hh => h hh.symm)]

theorem JsObject.WF_foldl {α β : Type} (step : JsObject β → String × α → JsObject β)
    (hstep : ∀ acc e, JsObject.WF acc → JsObject.WF (step acc e))
    (l : JsObject α) (acc : JsObject β) (hacc : JsObject.WF acc) :
    JsObject.WF (l.foldl step acc) := by
  induction l generalizing acc with
  | nil => exact hacc
  | cons e rest ih => exact ih _ (hstep acc e hacc)

/-! ### Per-guess derivation -/

theorem get?_tallyTile (li : JsObject LetterInfo) (t : Nat) (tile : Tile) (L : String) :
    JsObject.get? (tallyTile li t tile) L
      = if L = toLowerCase tile.letter then
          some (bumpInfo ((JsObject.get? li L).getD emptyInfo) t tile.status)
        else JsObject.get? li L := by
  unfold tallyTile
  simp only []
  rw [JsObject.get?_set]
  by_cases h : L = toLowerCase tile.letter
  · subst h
    rw [if_pos rfl, if_pos rfl]
    cases hli : JsObject.get? li (toLowerCase tile.letter) with
    | none =>
      simp only [hli, JsObject.get?_set, if_true]
      rfl
    | some info =>
      simp only [hli]
  · rw [if_neg h, if_neg h]
    cases hli : JsObject.get? li (toLowerCase tile.letter) with
    | none =>
      simp only [JsObject.get?_set, if_neg h]
    | some info => rfl

theorem WF_tallyTile (li : JsObject LetterInfo) (hwf : JsObject.WF li) (t : Nat) (tile : Tile) :
    JsObject.WF (tallyTile li t tile) := by
  unfold tallyTile
  simp only []
  apply JsObject.WF_set
  split
  · exact hwf
  · exact JsObject.WF_set _ hwf _ _

theorem WF_tallyTiles (tiles : List Tile) (t : Nat) (li : JsObject LetterInfo)
    (hwf : JsObject.WF li) : JsObject.WF (tallyTiles tiles t li) := by
  induction tiles generalizing t li with
  | nil => exact hwf
  | cons tile rest ih => exact ih _ _ (WF_tallyTile li hwf t tile)

theorem get?_tallyTiles (tiles : List Tile) (t : Nat) (li : JsObject LetterInfo) (L : String) :
    JsObject.get? (tallyTiles tiles t li) L = tallyFor L tiles t (JsObject.get? li L) := by
  induction tiles generalizing t li with
  | nil => rfl
  | cons tile rest ih =>
    unfold tallyTiles tallyFor
    rw [ih, get?_tallyTile]

theorem positionsOf_nil (L status : String) (t0 : Nat) : positionsOf L status [] t0 = [] := rfl

theorem positionsOf_cons (L status : String) (tile : Tile) (rest : List Tile) (t0 : Nat) :
    positionsOf L status (tile :: rest) t0
      = if tileIs L status tile then t0 :: positionsOf L status rest (t0 + 1)
        else positionsOf L status rest (t0 + 1) := by
  unfold positionsOf
  rw [List.enumFrom_cons, List.filter_cons]
  by_cases h : tileIs L status tile = true
  · simp only [h, if_true, List.map_cons]
  · simp only [h, if_false, Bool.false_eq_true]

theorem tallyClosed_nil (L : String) (t0 : Nat) (info : LetterInfo) :
    tallyClosed L [] t0 info = info := by
  cases info
  simp [tallyClosed, positionsOf_nil]

theorem tallyClosed_cons_other (L : String) (tile : Tile) (rest : List Tile) (t0 : Nat)
    (info : LetterInfo) (h : L ≠ toLowerCase tile.letter) :
    tallyClosed L (tile :: rest) t0 info = tallyClosed L rest (t0 + 1) info := by
  have h1 : ∀ status, tileIs L status tile = false := by
    intro status
    unfold tileIs
    exact decide_eq_false (fun hh => h hh.1.symm)
  have h2 : tileGray L tile = false := by
    unfold tileGray
    exact decide_eq_false (fun hh => h hh.1.symm)
  unfold tallyClosed
  simp only [List.countP_cons, positionsOf_cons, h1, h2, Bool.false_eq_true, if_false,
    Nat.add_zero]

theorem tallyClosed_cons_same (tile : Tile) (rest : List Tile) (t0 : Nat) (info : LetterInfo) :
    tallyClosed (toLowerCase tile.letter) (tile :: rest) t0 info
      = tallyClosed (toLowerCase tile.letter) rest (t0 + 1) (bumpInfo info t0 tile.status) := by
  have hcp : ("correct" : String) ≠ "present" := by decide
  unfold tallyClosed bumpInfo tileIs tileGray
  by_cases h1 : tile.status = "correct"
  · simp [List.countP_cons, positionsOf_cons, tileIs, h1, hcp]
    omega
  · by_cases h2 : tile.status = "present"
    · simp [List.countP_cons, positionsOf_cons, tileIs, h2, hcp.symm]
      omega
    · simp [List.countP_cons, positionsOf_cons, tileIs, h1, h2]
      omega

theorem tallyFor_some (L : String) (tiles : List Tile) (t : Nat) (info : LetterInfo) :
    tallyFor L tiles t (some info) = some (tallyClosed L tiles t info) := by
  induction tiles generalizing t info with
  | nil => rw [tallyClosed_nil]; rfl
  | cons tile rest ih =>
    unfold tallyFor
    by_cases h : L = toLowerCase tile.letter
    · rw [if_pos h, ih]
      subst h
      rw [tallyClosed_cons_same]
      rfl
    · rw [if_neg h, ih, tallyClosed_cons_other L tile rest t info h]

theorem tallyFor_none (L : String) (tiles : List Tile) (t : Nat) :
    tallyFor L tiles t none
      = if ∃ tile ∈ tiles, toLowerCase tile.letter = L then
          some (tallyClosed L tiles t emptyInfo)
        else none := by
  induction tiles generalizing t with
  | nil => simp [tallyFor]
  | cons tile rest ih =>
    unfold tallyFor
    by_cases h : L = toLowerCase tile.letter
    · rw [if_pos h, tallyFor_some]
      have hex : ∃ tl ∈ tile :: rest, toLowerCase tl.letter = L :=
        ⟨tile, List.mem_cons_self _ _, h.symm⟩
      rw [if_pos hex]
      subst h
      rw [tallyClosed_cons_same]
      rfl
    · rw [if_neg h, ih]
      have hiff : (∃ tl ∈ tile :: rest, toLowerCase tl.letter = L)
          ↔ (∃ tl ∈ rest, toLowerCase tl.letter = L) := by
        constructor
        · rintro ⟨tl, hm, hk⟩
          rcases List.mem_cons.mp hm with h1 | h1
          · exfalso; apply h; rw [← hk, h1]
          · exact ⟨tl, h1, hk⟩
        · rintro ⟨tl, hm, hk⟩
          exact ⟨tl, List.mem_cons_of_mem _ hm, hk⟩
      by_cases hex : ∃ tl ∈ rest, toLowerCase tl.letter = L
      · rw [if_pos hex, if_pos (hiff.mpr hex), tallyClosed_cons_other L tile rest t _ h]
      · rw [if_neg hex, if_neg (fun hh => hex (hiff.mp hh))]

/-- What `deriveGuessConstraints` stores for a key. -/
theorem get?_deriveGuessConstraints (guess : Guess) (L : String) :
    JsObject.get? (deriveGuessConstraints guess) L
      = if ∃ tile ∈ guess.tiles, toLowerCase tile.letter = L then
          some (deriveLetter (tallyClosed L guess.tiles 0 emptyInfo))
        else none := by
  unfold deriveGuessConstraints
  rw [JsObject.get?_foldl_keyed _ (fun _ info => deriveLetter info)
    (fun acc e k => JsObject.get?_set acc e.1 (deriveLetter e.2) k) _
    (WF_tallyTiles _ _ _ JsObject.WF_nil)]
  rw [get?_tallyTiles]
  have : JsObject.get? ([] : JsObject LetterInfo) L = none := rfl
  rw [this, tallyFor_none]
  split_ifs <;> rfl

theorem WF_deriveGuessConstraints (guess : Guess) :
    JsObject.WF (deriveGuessConstraints guess) := by
  unfold deriveGuessConstraints
  exact JsObject.WF_foldl _ (fun acc e h => JsObject.WF_set acc h _ _) _ _ JsObject.WF_nil

theorem mem_positionsOf (L status : String) (tiles : List Tile) (p : Nat) :
    p ∈ positionsOf L status tiles 0
      ↔ ∃ tile, tiles[p]? = some tile ∧ toLowerCase tile.letter = L ∧ tile.status = status := by
  unfold positionsOf
  rw [List.mem_map]
  constructor
  · rintro ⟨⟨q, tile⟩, hm, hq⟩
    rw [List.mem_filter] at hm
    have h1 : tiles[q]? = some tile := List.mk_mem_enum_iff_getElem?.mp hm.1
    have h2 : toLowerCase tile.letter = L ∧ tile.status = status := of_decide_eq_true hm.2
    simp only at hq
    subst hq
    exact ⟨tile, h1, h2⟩
  · rintro ⟨tile, h1, h2⟩
    refine ⟨(p, tile), ?_, rfl⟩
    rw [List.mem_filter]
    exact ⟨List.mk_mem_enum_iff_getElem?.mpr h1, decide_eq_true h2⟩

theorem gray_iff_absent (L : String) (tiles : List Tile)
    (hvalid : ∀ tile ∈ tiles,
      tile.status = "correct" ∨ tile.status = "present" ∨ tile.status = "absent") :
    0 < tiles.countP (tileGray L) ↔ ∃ tile ∈ tiles, tileIs L "absent" tile = true := by
  rw [List.countP_pos_iff]
  constructor
  · rintro ⟨tile, hm, hg⟩
    refine ⟨tile, hm, ?_⟩
    have h := of_decide_eq_true hg
    rcases hvalid tile hm with h1 | h1 | h1
    · exact absurd h1 h.2.1
    · exact absurd h1 h.2.2
    · exact decide_eq_true ⟨h.1, h1⟩
  · rintro ⟨tile, hm, hg⟩
    refine ⟨tile, hm, ?_⟩
    have h := of_decide_eq_true hg
    refine decide_eq_true ⟨h.1, ?_, ?_⟩
    · rw [h.2]; decide
    · rw [h.2]; decide

/-- C5: for a guess with valid statuses and a letter `L` shown by one of its
tiles (after lower-casing), `deriveGuessConstraints` stores for `L` a record
with `minCount` = correct tiles of `L` + present tiles of `L`, `maxCount` =
`minCount` when some tile of `L` is absent and `null` otherwise, and
`greenPositions` / `yellowPositions` the positions of the correct / present
tiles of `L`. -/
theorem deriveGuessConstraints_letter (guess : Guess)
    (hvalid : ∀ tile ∈ guess.tiles,
      tile.status = "correct" ∨ tile.status = "present" ∨ tile.status = "absent")
    (L : String) (hL : ∃ tile ∈ guess.tiles, toLowerCase tile.letter = L) :
    ∃ c, (deriveGuessConstraints guess).get? L = some c ∧
      c.minCount = guess.tiles.countP (tileIs L "correct")
        + guess.tiles.countP (tileIs L "present") ∧
      c.maxCount = (if ∃ tile ∈ guess.tiles, tileIs L "absent" tile = true
        then some c.minCount else none) ∧
      c.greenPositions = positionsOf L "correct" guess.tiles 0 ∧
      c.yellowPositions = positionsOf L "present" guess.tiles 0 := by
  refine ⟨deriveLetter (tallyClosed L guess.tiles 0 emptyInfo), ?_, ?_, ?_, ?_, ?_⟩
  · rw [get?_deriveGuessConstraints, if_pos hL]
  · simp [deriveLetter, tallyClosed, emptyInfo]
  · have hg := gray_iff_absent L guess.tiles hvalid
    by_cases hex : ∃ tile ∈ guess.tiles, tileIs L "absent" tile = true
    · rw [if_pos hex]
      have := hg.mpr hex
      simp [deriveLetter, tallyClosed, emptyInfo, this]
    · rw [if_neg hex]
      have : ¬ 0 < guess.tiles.countP (tileGray L) := fun hh => hex (hg.mp hh)
      simp only [deriveLetter, tallyClosed, emptyInfo, Nat.zero_add, gt_iff_lt, this, if_false]
  · simp [deriveLetter, tallyClosed, emptyInfo]
  · simp [deriveLetter, tallyClosed, emptyInfo]

/-- Instance of C5: the letter `e` in SPEED with tiles a,p,p,a,a. -/
theorem deriveGuessConstraints_letter_witness :
    ∃ c, (deriveGuessConstraints
        { word := "SPEED",
          tiles := [⟨"S", "absent"⟩, ⟨"P", "present"⟩, ⟨"E", "present"⟩, ⟨"E", "absent"⟩,
            ⟨"D", "absent"⟩] }).get? "e" = some c ∧
      c.minCount = 0 + 1 ∧ c.maxCount = some c.minCount ∧
      c.greenPositions = [] ∧ c.yellowPositions = [2] := by
  obtain ⟨c, h1, h2, h3, h4, h5⟩ := deriveGuessConstraints_letter
    { word := "SPEED",
      tiles := [⟨"S", "absent"⟩, ⟨"P", "present"⟩, ⟨"E", "present"⟩, ⟨"E", "absent"⟩,
        ⟨"D", "absent"⟩] }
    (by decide) "e" (by decide)
  refine ⟨c, h1, ?_, ?_, ?_, ?_⟩
  · rw [h2]; decide
  · rw [h3]; exact if_pos (by decide)
  · rw [h4]; decide
  · rw [h5]; decide

/-! ### Cross-guess merge -/

theorem mem_foldl_pushUnique (xs ys : List Nat) (p : Nat) :
    p ∈ xs.foldl pushUnique ys ↔ p ∈ ys ∨ p ∈ xs := by
  induction xs generalizing ys with
  | nil => simp
  | cons x rest ih =>
    rw [List.foldl_cons, ih]
    unfold pushUnique
    by_cases h : x ∈ ys
    · rw [if_pos h]
      constructor
      · rintro (h1 | h1)
        · exact Or.inl h1
        · exact Or.inr (List.mem_cons_of_mem _ h1)
      · rintro (h1 | h1)
        · exact Or.inl h1
        · rcases List.mem_cons.mp h1 with h2 | h2
          · exact Or.inl (h2 ▸ h)
          · exact Or.inr h2
    · rw [if_neg h]
      simp only [List.mem_append, List.mem_singleton, List.mem_cons]
      tauto

theorem nodup_foldl_pushUnique (xs ys : List Nat) (h : ys.Nodup) :
    (xs.foldl pushUnique ys).Nodup := by
  induction xs generalizing ys with
  | nil => exact h
  | cons x rest ih =>
    rw [List.foldl_cons]
    apply ih
    unfold pushUnique
    by_cases hx : x ∈ ys
    · rw [if_pos hx]; exact h
    · rw [if_neg hx]
      rw [List.nodup_append]
      refine ⟨h, List.nodup_singleton x, ?_⟩
      intro a ha hb
      rw [List.mem_singleton] at hb
      exact hx (hb ▸ ha)

theorem get?_mergeLetter (u : JsObject LetterConstraint) (e : String × LetterConstraint)
    (k : String) :
    JsObject.get? (mergeLetter u e) k
      = if k = e.1 then some (tighten ((JsObject.get? u k).getD emptyConstraint) e.2)
        else JsObject.get? u k := by
  unfold mergeLetter
  simp only []
  rw [JsObject.get?_set]
  by_cases h : k = e.1
  · subst h
    rw [if_pos rfl, if_pos rfl]
    cases hu : JsObject.get? u e.1 with
    | none =>
      simp only [hu, JsObject.get?_set, if_true]
      rfl
    | some c => simp only [hu]
  · rw [if_neg h, if_neg h]
    cases hu : JsObject.get? u e.1 with
    | none => simp only [JsObject.get?_set, if_neg h]
    | some c => rfl

theorem WF_mergeLetter (u : JsObject LetterConstraint) (hwf : JsObject.WF u)
    (e : String × LetterConstraint) : JsObject.WF (mergeLetter u e) := by
  unfold mergeLetter
  simp only []
  apply JsObject.WF_set
  split
  · exact hwf
  · exact JsObject.WF_set _ hwf _ _

theorem WF_mergeConstraints (u gc : JsObject LetterConstraint) (hwf : JsObject.WF u) :
    JsObject.WF (mergeConstraints u gc) :=
  JsObject.WF_foldl _ (fun acc e h => WF_mergeLetter acc h e) _ _ hwf

theorem get?_mergeConstraints (u gc : JsObject LetterConstraint) (hgc : JsObject.WF gc)
    (k : String) :
    JsObject.get? (mergeConstraints u gc) k
      = match JsObject.get? gc k with
        | none => JsObject.get? u k
        | some c => some (tighten ((JsObject.get? u k).getD emptyConstraint) c) := by
  unfold mergeConstraints
  rw [JsObject.get?_foldl_keyed mergeLetter (fun o c => tighten (o.getD emptyConstraint) c)
    (fun acc e k => get?_mergeLetter acc e k) gc hgc u k]
  cases JsObject.get? gc k <;> rfl

theorem unified_foldl (guesses : List Guess) (d : Derivation) :
    (guesses.foldl deriveStep d).unified
      = guesses.foldl (fun u guess => mergeConstraints u (deriveGuessConstraints guess))
          d.unified := by
  induction guesses generalizing d with
  | nil => rfl
  | cons guess rest ih =>
    rw [List.foldl_cons, List.foldl_cons, ih]
    rfl

theorem WF_unified (guesses : List Guess) : JsObject.WF (deriveAll guesses).unified := by
  unfold deriveAll
  rw [unified_foldl]
  suffices h : ∀ (gs : List Guess) (u : JsObject LetterConstraint), JsObject.WF u →
      JsObject.WF (gs.foldl (fun u guess => mergeConstraints u (deriveGuessConstraints guess)) u)
    from h guesses [] JsObject.WF_nil
  intro gs
  induction gs with
  | nil => intro u hu; exact hu
  | cons guess rest ih =>
    intro u hu
    exact ih _ (WF_mergeConstraints u _ hu)

theorem get?_unified_foldl (L : String) (guesses : List Guess)
    (u : JsObject LetterConstraint) :
    JsObject.get?
        (guesses.foldl (fun u guess => mergeConstraints u (deriveGuessConstraints guess)) u) L
      = unifiedFor L guesses (JsObject.get? u L) := by
  induction guesses generalizing u with
  | nil => rfl
  | cons guess rest ih =>
    unfold unifiedFor
    rw [List.foldl_cons, List.foldl_cons, ih,
      get?_mergeConstraints u _ (WF_deriveGuessConstraints guess)]
    unfold unifiedFor
    cases JsObject.get? (deriveGuessConstraints guess) L <;> rfl

/-- The unified record of a letter is the per-letter fold over the guesses. -/
theorem get?_unified (L : String) (guesses : List Guess) :
    JsObject.get? (deriveAll guesses).unified L = unifiedFor L guesses none := by
  unfold deriveAll
  rw [unified_foldl, get?_unified_foldl]
  rfl

theorem unifiedFor_some (L : String) (guesses : List Guess) (u : LetterConstraint) :
    unifiedFor L guesses (some u) = some ((guessRecords L guesses).foldl tighten u) := by
  induction guesses generalizing u with
  | nil => rfl
  | cons guess rest ih =>
    unfold unifiedFor guessRecords
    rw [List.foldl_cons, List.filterMap_cons]
    cases h : JsObject.get? (deriveGuessConstraints guess) L with
    | none => exact ih u
    | some c => exact ih (tighten u c)

theorem unifiedFor_none (L : String) (guesses : List Guess) :
    unifiedFor L guesses none
      = match guessRecords L guesses with
        | [] => none
        | c :: cs => some ((c :: cs).foldl tighten emptyConstraint) := by
  induction guesses with
  | nil => rfl
  | cons guess rest ih =>
    unfold unifiedFor guessRecords
    rw [List.foldl_cons, List.filterMap_cons]
    cases h : JsObject.get? (deriveGuessConstraints guess) L with
    | none => exact ih
    | some c => exact unifiedFor_some L rest (tighten emptyConstraint c)

theorem mem_guessRecords (L : String) (guesses : List Guess) (c : LetterConstraint) :
    c ∈ guessRecords L guesses
      ↔ ∃ guess ∈ guesses, (deriveGuessConstraints guess).get? L = some c := by
  unfold guessRecords
  rw [List.mem_filterMap]

theorem foldTighten_greens_mem (cs : List LetterConstraint) (u : LetterConstraint) (p : Nat) :
    p ∈ (cs.foldl tighten u).greenPositions
      ↔ p ∈ u.greenPositions ∨ ∃ c ∈ cs, p ∈ c.greenPositions := by
  induction cs generalizing u with
  | nil => simp
  | cons c rest ih =>
    rw [List.foldl_cons, ih]
    have : p ∈ (tighten u c).greenPositions ↔ p ∈ u.greenPositions ∨ p ∈ c.greenPositions :=
      mem_foldl_pushUnique _ _ _
    rw [this]
    simp only [List.mem_cons, exists_eq_or_imp]
    tauto

theorem foldTighten_yellows_mem (cs : List LetterConstraint) (u : LetterConstraint) (p : Nat) :
    p ∈ (cs.foldl tighten u).yellowPositions
      ↔ p ∈ u.yellowPositions ∨ ∃ c ∈ cs, p ∈ c.yellowPositions := by
  induction cs generalizing u with
  | nil => simp
  | cons c rest ih =>
    rw [List.foldl_cons, ih]
    have : p ∈ (tighten u c).yellowPositions ↔ p ∈ u.yellowPositions ∨ p ∈ c.yellowPositions :=
      mem_foldl_pushUnique _ _ _
    rw [this]
    simp only [List.mem_cons, exists_eq_or_imp]
    tauto

theorem foldTighten_nodup (cs : List LetterConstraint) (u : LetterConstraint)
    (hg : u.greenPositions.Nodup) (hy : u.yellowPositions.Nodup) :
    (cs.foldl tighten u).greenPositions.Nodup ∧ (cs.foldl tighten u).yellowPositions.Nodup := by
  induction cs generalizing u with
  | nil => exact ⟨hg, hy⟩
  | cons c rest ih =>
    rw [List.foldl_cons]
    exact ih _ (nodup_foldl_pushUnique _ _ hg) (nodup_foldl_pushUnique _ _ hy)

theorem foldTighten_min (cs : List LetterConstraint) (u : LetterConstraint) :
    u.minCount ≤ (cs.foldl tighten u).minCount ∧
    (∀ c ∈ cs, c.minCount ≤ (cs.foldl tighten u).minCount) ∧
    ((cs.foldl tighten u).minCount = u.minCount ∨
      ∃ c ∈ cs, c.minCount = (cs.foldl tighten u).minCount) := by
  induction cs generalizing u with
  | nil => simp
  | cons c rest ih =>
    rw [List.foldl_cons]
    obtain ⟨h1, h2, h3⟩ := ih (tighten u c)
    have hm : (tighten u c).minCount = if c.minCount > u.minCount then c.minCount
        else u.minCount := rfl
    refine ⟨?_, ?_, ?_⟩
    · rw [hm] at h1; split at h1 <;> omega
    · intro c2 hc2
      rcases List.mem_cons.mp hc2 with h | h
      · subst h
        rw [hm] at h1; split at h1 <;> omega
      · exact h2 c2 h
    · rcases h3 with h | ⟨c2, hc2, h⟩
      · rw [hm] at h
        by_cases hgt : c.minCount > u.minCount
        · rw [if_pos hgt] at h
          exact Or.inr ⟨c, List.mem_cons_self _ _, h.symm⟩
        · rw [if_neg hgt] at h
          exact Or.inl h
      · exact Or.inr ⟨c2, List.mem_cons_of_mem _ hc2, h⟩

theorem tightenMax_spec (a b : Option Nat) :
    (∀ m, tightenMax a b = some m → a = some m ∨ b = some m) ∧
    (∀ m2, a = some m2 → ∃ m, tightenMax a b = some m ∧ m ≤ m2) ∧
    (∀ m2, b = some m2 → ∃ m, tightenMax a b = some m ∧ m ≤ m2) := by
  cases a with
  | none =>
    cases b with
    | none => simp [tightenMax]
    | some y => simp [tightenMax]
  | some x =>
    cases b with
    | none => simp [tightenMax]
    | some y =>
      by_cases h : y < x
      · simp only [tightenMax, if_pos h, Option.some.injEq]
        refine ⟨fun m hm => Or.inr hm, fun m2 hm2 => ⟨y, rfl, by omega⟩,
          fun m2 hm2 => ⟨y, rfl, by omega⟩⟩
      · simp only [tightenMax, if_neg h, Option.some.injEq]
        refine ⟨fun m hm => Or.inl hm, fun m2 hm2 => ⟨x, rfl, by omega⟩,
          fun m2 hm2 => ⟨x, rfl, by omega⟩⟩

theorem foldTighten_max (cs : List LetterConstraint) (u : LetterConstraint) :
    (∀ m, (cs.foldl tighten u).maxCount = some m →
      u.maxCount = some m ∨ ∃ c ∈ cs, c.maxCount = some m) ∧
    (∀ m2, u.maxCount = some m2 → ∃ m, (cs.foldl tighten u).maxCount = some m ∧ m ≤ m2) ∧
    (∀ c ∈ cs, ∀ m2, c.maxCount = some m2 →
      ∃ m, (cs.foldl tighten u).maxCount = some m ∧ m ≤ m2) := by
  induction cs generalizing u with
  | nil =>
    refine ⟨fun m hm => Or.inl hm, fun m2 hm2 => ⟨m2, hm2, Nat.le_refl _⟩, ?_⟩
    intro c hc
    cases hc
  | cons c rest ih =>
    rw [List.foldl_cons]
    obtain ⟨h1, h2, h3⟩ := ih (tighten u c)
    have hm : (tighten u c).maxCount = tightenMax u.maxCount c.maxCount := rfl
    obtain ⟨t1, t2, t3⟩ := tightenMax_spec u.maxCount c.maxCount
    refine ⟨?_, ?_, ?_⟩
    · intro m hr
      rcases h1 m hr with h | ⟨c2, hc2, h⟩
      · rw [hm] at h
        rcases t1 m h with h4 | h4
        · exact Or.inl h4
        · exact Or.inr ⟨c, List.mem_cons_self _ _, h4⟩
      · exact Or.inr ⟨c2, List.mem_cons_of_mem _ hc2, h⟩
    · intro m2 hu
      obtain ⟨m1, hm1, hle1⟩ := t2 m2 hu
      obtain ⟨m, hm0, hle⟩ := h2 m1 (hm.trans hm1)
      exact ⟨m, hm0, by omega⟩
    · intro c2 hc2 m2 hc
      rcases List.mem_cons.mp hc2 with h | h
      · subst h
        obtain ⟨m1, hm1, hle1⟩ := t3 m2 hc
        obtain ⟨m, hm0, hle⟩ := h2 m1 (hm.trans hm1)
        exact ⟨m, hm0, by omega⟩
      · exact h3 c2 h m2 hc

/-! ### Per-position projection -/

theorem getD_set_any {α : Type} (l : List α) (k j : Nat) (v d : α) :
    (l.set k v).getD j d = if j = k ∧ k < l.length then v else l.getD j d := by
  simp only [List.getD_eq_getElem?_getD, List.getElem?_set]
  by_cases h : k = j
  · subst h
    by_cases h2 : k < l.length
    · simp [h2]
    · simp only [h2, if_true, if_false, and_false]
      rw [List.getElem?_eq_none (by omega)]
  · have h3 : ¬ (j = k ∧ k < l.length) := fun hh => h hh.1.symm
    simp only [if_neg h, if_neg h3]

theorem modifyAt_of_lt (pp : List PositionConstraint) (q : Nat)
    (f : PositionConstraint → PositionConstraint) (hq : q < pp.length) :
    modifyAt pp q f = some (pp.set q (f (pp.getD q openPosition))) := by
  unfold modifyAt
  rw [List.getD_eq_getElem?_getD, List.getElem?_eq_getElem hq]
  rfl

/-- A loop of updates at the positions `qs` applies the update to position `p`
as often as `p` occurs in `qs`. -/
theorem foldlM_modifyAt (f : PositionConstraint → PositionConstraint) (qs : List Nat)
    (pp : List PositionConstraint) (hlen : pp.length = 5) (hq : ∀ q ∈ qs, q < 5) :
    ∃ pp2, qs.foldlM (fun pp q => modifyAt pp q f) pp = some pp2 ∧ pp2.length = 5 ∧
      ∀ p, p < 5 →
        pp2.getD p openPosition = Nat.iterate f (qs.count p) (pp.getD p openPosition) := by
  induction qs generalizing pp with
  | nil => exact ⟨pp, rfl, hlen, fun p _ => rfl⟩
  | cons q rest ih =>
    have hq5 : q < 5 := hq q (List.mem_cons_self _ _)
    have hm := modifyAt_of_lt pp q f (by omega)
    obtain ⟨pp2, h1, h2, h3⟩ := ih (pp.set q (f (pp.getD q openPosition)))
      (by rw [List.length_set]; exact hlen) (fun x hx => hq x (List.mem_cons_of_mem _ hx))
    refine ⟨pp2, ?_, h2, fun p hp => ?_⟩
    · rw [List.foldlM_cons, hm]
      exact h1
    · rw [h3 p hp, getD_set_any, hlen, List.count_cons]
      by_cases hpq : p = q
      · subst hpq
        rw [if_pos ⟨rfl, hq5⟩]
        simp only [beq_self_eq_true, if_true, Function.iterate_succ, Function.comp_apply]
      · have hne : ¬ (p = q ∧ q < 5) := fun hh => hpq hh.1
        have hb : (q == p) = false := by
          rw [beq_eq_false_iff_ne]; exact fun hh => hpq hh.symm
        rw [if_neg hne, hb]
        simp

theorem count_range_five (p : Nat) (hp : p < 5) : (List.range 5).count p = 1 := by
  interval_cases p <;> decide

/-- The loop body of `buildPerPosition` for one entry, position by position. -/
theorem projectLetter_spec (pp : List PositionConstraint) (e : String × LetterConstraint)
    (hlen : pp.length = 5)
    (hg : ∀ q ∈ e.2.greenPositions, q < 5) (hy : ∀ q ∈ e.2.yellowPositions, q < 5) :
    ∃ pp2, projectLetter pp e = some pp2 ∧ pp2.length = 5 ∧
      ∀ p, p < 5 → pp2.getD p openPosition = projectAt e p (pp.getD p openPosition) := by
  obtain ⟨pp1, a1, a2, a3⟩ := foldlM_modifyAt (setRequired e.1) e.2.greenPositions pp hlen hg
  obtain ⟨pp2, b1, b2, b3⟩ := foldlM_modifyAt (excludeYellow e.1) e.2.yellowPositions pp1 a2 hy
  obtain ⟨pp3, c1, c2, c3⟩ := foldlM_modifyAt (excludeAbsent e.1) (List.range 5) pp2 b2
    (fun q hq => by simpa using hq)
  unfold projectLetter
  rw [a1]
  simp only [Option.bind_eq_bind, Option.some_bind]
  rw [b1]
  simp only [Option.some_bind]
  by_cases hmax : e.2.maxCount = some 0
  · rw [if_pos hmax, c1]
    refine ⟨pp3, rfl, c2, fun p hp => ?_⟩
    rw [c3 p hp, b3 p hp, a3 p hp, count_range_five p hp]
    unfold projectAt
    simp only [hmax, if_true, Function.iterate_one]
  · rw [if_neg hmax]
    refine ⟨pp2, rfl, b2, fun p hp => ?_⟩
    rw [b3 p hp, a3 p hp]
    unfold projectAt
    simp only [hmax, if_false]

/-- With all positions in range `buildPerPosition` returns five constraints,
each the fold of the per-entry effect over the map. -/
theorem buildPerPosition_fold (perLetter : JsObject LetterConstraint) (hr : InRange perLetter) :
    ∃ pp, buildPerPosition perLetter = some pp ∧ pp.length = 5 ∧
      ∀ p, p < 5 →
        pp.getD p openPosition = perLetter.foldl (fun pc e => projectAt e p pc) openPosition := by
  unfold buildPerPosition
  have h0 : ∀ p, p < 5 → (List.replicate 5 openPosition).getD p openPosition = openPosition := by
    intro p hp
    interval_cases p <;> rfl
  suffices h : ∀ (l : JsObject LetterConstraint) (pp0 : List PositionConstraint),
      InRange l → pp0.length = 5 →
      ∃ pp, l.foldlM projectLetter pp0 = some pp ∧ pp.length = 5 ∧
        ∀ p, p < 5 → pp.getD p openPosition
          = l.foldl (fun pc e => projectAt e p pc) (pp0.getD p openPosition) by
    obtain ⟨pp, h1, h2, h3⟩ := h perLetter (List.replicate 5 openPosition) hr (by simp)
    exact ⟨pp, h1, h2, fun p hp => by rw [h3 p hp, h0 p hp]⟩
  intro l
  induction l with
  | nil => intro pp0 _ hl; exact ⟨pp0, rfl, hl, fun p _ => rfl⟩
  | cons e rest ih =>
    intro pp0 hin hl
    have he := hin e (List.mem_cons_self _ _)
    obtain ⟨pp1, a1, a2, a3⟩ := projectLetter_spec pp0 e hl he.1 he.2
    obtain ⟨pp2, b1, b2, b3⟩ := ih pp1 (fun x hx => hin x (List.mem_cons_of_mem _ hx)) a2
    refine ⟨pp2, ?_, b2, fun p hp => ?_⟩
    · rw [List.foldlM_cons, a1]
      exact b1
    · rw [b3 p hp, a3 p hp, List.foldl_cons]

theorem iterate_setRequired (L : String) (k : Nat) (pc : PositionConstraint) :
    Nat.iterate (setRequired L) k pc = if k = 0 then pc else setRequired L pc := by
  induction k generalizing pc with
  | zero => rfl
  | succ k ih =>
    rw [Function.iterate_succ_apply, ih, if_neg (Nat.succ_ne_zero k)]
    split <;> rfl

theorem iterate_excludeYellow_required (L : String) (k : Nat) (pc : PositionConstraint)
    (h : pc.requiredLetter = some L) : Nat.iterate (excludeYellow L) k pc = pc := by
  induction k with
  | zero => rfl
  | succ k ih =>
    rw [Function.iterate_succ_apply]
    have : excludeYellow L pc = pc := by
      unfold excludeYellow
      rw [if_neg (fun hh => hh h)]
    rw [this, ih]

theorem iterate_excludeYellow_other (L : String) (k : Nat) (pc : PositionConstraint)
    (h : pc.requiredLetter ≠ some L) :
    Nat.iterate (excludeYellow L) k pc
      = { pc with excludedLetters := pc.excludedLetters ++ List.replicate k L } := by
  induction k generalizing pc with
  | zero => simp
  | succ k ih =>
    rw [Function.iterate_succ_apply]
    have h1 : excludeYellow L pc = { pc with excludedLetters := pc.excludedLetters ++ [L] } := by
      unfold excludeYellow
      rw [if_pos h]
    have h2 := ih { pc with excludedLetters := pc.excludedLetters ++ [L] } h
    rw [h1, h2]
    simp [List.replicate_succ]

theorem projectAt_green (e : String × LetterConstraint) (p : Nat) (pc : PositionConstraint)
    (hg : p ∈ e.2.greenPositions) : projectAt e p pc = setRequired e.1 pc := by
  have hc : e.2.greenPositions.count p ≠ 0 := by
    have := List.count_pos_iff.mpr hg
    omega
  unfold projectAt
  simp only [iterate_setRequired, if_neg hc]
  rw [iterate_excludeYellow_required e.1 _ _ rfl]
  have : excludeAbsent e.1 (setRequired e.1 pc) = setRequired e.1 pc := by
    unfold excludeAbsent
    rw [if_neg (fun hh => hh.1 rfl)]
  rw [this]
  split <;> rfl

theorem projectAt_not_green (e : String × LetterConstraint) (p : Nat) (pc : PositionConstraint)
    (hg : p ∉ e.2.greenPositions) (hr : pc.requiredLetter ≠ some e.1) :
    projectAt e p pc
      = { pc with excludedLetters :=
            (pc.excludedLetters ++ List.replicate (e.2.yellowPositions.count p) e.1) ++
              (if e.2.maxCount = some 0 ∧
                  e.1 ∉ pc.excludedLetters ++ List.replicate (e.2.yellowPositions.count p) e.1
               then [e.1] else []) } := by
  have hc : e.2.greenPositions.count p = 0 := List.count_eq_zero.mpr hg
  unfold projectAt
  simp only [iterate_setRequired, hc, if_true]
  rw [iterate_excludeYellow_other e.1 _ _ hr]
  unfold excludeAbsent
  by_cases hmax : e.2.maxCount = some 0
  · by_cases hin : e.1 ∈ pc.excludedLetters ++ List.replicate (e.2.yellowPositions.count p) e.1
    · simp only [hmax, hin, if_true, not_true_eq_false, and_false, if_false, List.append_nil]
    · simp only [hmax, hin, if_true, not_false_eq_true, and_true, ne_eq, hr]
  · simp only [hmax, if_false, false_and, List.append_nil]

theorem PosInv_nil (p : Nat) : PosInv p [] openPosition := by
  refine ⟨?_, ?_, ?_, ?_⟩
  · intro L h; cases h
  · intro _ e he; cases he
  · intro M
    constructor
    · intro h; cases h
    · rintro ⟨c, hc, _⟩; cases hc
  · intro _; exact List.nodup_nil

theorem PosInv_step (p : Nat) (proc : JsObject LetterConstraint) (pc : PositionConstraint)
    (e : String × LetterConstraint) (hinv : PosInv p proc pc)
    (hnew : e.1 ∉ proc.map Prod.fst) : PosInv p (proc ++ [e]) (projectAt e p pc) := by
  obtain ⟨iR, iR0, iE, iN⟩ := hinv
  have hreq : pc.requiredLetter ≠ some e.1 := by
    intro h
    obtain ⟨c, hc, _⟩ := iR e.1 h
    exact hnew (List.mem_map.mpr ⟨(e.1, c), hc, rfl⟩)
  have hexc : e.1 ∉ pc.excludedLetters := by
    intro h
    obtain ⟨c, hc, _⟩ := (iE e.1).mp h
    exact hnew (List.mem_map.mpr ⟨(e.1, c), hc, rfl⟩)
  by_cases hg : p ∈ e.2.greenPositions
  · rw [projectAt_green e p pc hg]
    refine ⟨?_, ?_, ?_, ?_⟩
    · intro L hL
      have : L = e.1 := by
        have h1 : some e.1 = some L := hL
        exact (Option.some.inj h1).symm
      subst this
      exact ⟨e.2, List.mem_append_right _ (List.mem_singleton.mpr rfl), hg⟩
    · intro h; cases h
    · intro M
      show M ∈ pc.excludedLetters ↔ _
      rw [iE M]
      constructor
      · rintro ⟨c, hc, h2⟩
        exact ⟨c, List.mem_append_left _ hc, h2⟩
      · rintro ⟨c, hc, h2, h3⟩
        rcases List.mem_append.mp hc with h4 | h4
        · exact ⟨c, h4, h2, h3⟩
        · rw [List.mem_singleton] at h4
          exfalso
          apply h2
          have : c = e.2 := by rw [← h4]
          rw [this]; exact hg
    · intro hnd
      exact iN (fun x hx => hnd x (List.mem_append_left _ hx))
  · rw [projectAt_not_green e p pc hg hreq]
    refine ⟨?_, ?_, ?_, ?_⟩
    · intro L hL
      obtain ⟨c, hc, h2⟩ := iR L hL
      exact ⟨c, List.mem_append_left _ hc, h2⟩
    · intro h x hx
      rcases List.mem_append.mp hx with h4 | h4
      · exact iR0 h x h4
      · rw [List.mem_singleton] at h4
        rw [h4]; exact hg
    · intro M
      show M ∈ (pc.excludedLetters ++ List.replicate (e.2.yellowPositions.count p) e.1) ++ _ ↔ _
      constructor
      · intro hM
        rcases List.mem_append.mp hM with h1 | h1
        · rcases List.mem_append.mp h1 with h0 | h0
          · obtain ⟨c, hc, h2⟩ := (iE M).mp h0
            exact ⟨c, List.mem_append_left _ hc, h2⟩
          · have h6 := List.mem_replicate.mp h0
            refine ⟨e.2, List.mem_append_right _ (List.mem_singleton.mpr (by rw [h6.2])), hg,
              Or.inl ?_⟩
            exact List.count_pos_iff.mp (Nat.pos_of_ne_zero h6.1)
        · split at h1
          · rename_i hcond
            rw [List.mem_singleton] at h1
            exact ⟨e.2, List.mem_append_right _ (List.mem_singleton.mpr (by rw [h1])), hg,
              Or.inr hcond.1⟩
          · cases h1
      · rintro ⟨c, hc, h2, h3⟩
        rcases List.mem_append.mp hc with h4 | h4
        · exact List.mem_append_left _ (List.mem_append_left _ ((iE M).mpr ⟨c, h4, h2, h3⟩))
        · have h4b : (M, c) = e := List.mem_singleton.mp h4
          have hM : e.1 = M := by rw [← h4b]
          have hc2 : e.2 = c := by rw [← h4b]
          by_cases hk : e.2.yellowPositions.count p = 0
          · have hmax : e.2.maxCount = some 0 := by
              rcases h3 with h5 | h5
              · exfalso
                rw [← hc2] at h5
                have := List.count_pos_iff.mpr h5
                omega
              · rw [hc2]; exact h5
            have hnot : e.1 ∉ pc.excludedLetters
                ++ List.replicate (e.2.yellowPositions.count p) e.1 := by
              rw [hk, List.replicate_zero, List.append_nil]
              exact hexc
            apply List.mem_append_right
            rw [if_pos ⟨hmax, hnot⟩, hM]
            exact List.mem_singleton.mpr rfl
          · apply List.mem_append_left
            apply List.mem_append_right
            rw [List.mem_replicate]
            exact ⟨hk, hM.symm⟩
    · intro hnd
      have hpc := iN (fun x hx => hnd x (List.mem_append_left _ hx))
      have hey := hnd e (List.mem_append_right _ (List.mem_singleton.mpr rfl))
      have hle : e.2.yellowPositions.count p ≤ 1 := List.nodup_iff_count_le_one.mp hey p
      show ((pc.excludedLetters ++ List.replicate (e.2.yellowPositions.count p) e.1) ++ _).Nodup
      rcases Nat.lt_or_ge (e.2.yellowPositions.count p) 1 with hk | hk
      · have hk0 : e.2.yellowPositions.count p = 0 := by omega
        rw [hk0]
        simp only [List.replicate_zero, List.append_nil]
        split
        · rw [List.nodup_append]
          refine ⟨hpc, List.nodup_singleton _, ?_⟩
          intro a ha hb
          rw [List.mem_singleton] at hb
          exact hexc (hb ▸ ha)
        · rw [List.append_nil]; exact hpc
      · have hk1 : e.2.yellowPositions.count p = 1 := by omega
        rw [hk1]
        have hin : e.1 ∈ pc.excludedLetters ++ List.replicate 1 e.1 := by
          simp
        rw [if_neg (fun hh => hh.2 hin), List.append_nil]
        rw [List.nodup_append]
        refine ⟨hpc, by simp, ?_⟩
        intro a ha hb
        have : a = e.1 := by simpa using hb
        exact hexc (this ▸ ha)

theorem PosInv_foldl (p : Nat) (rest proc : JsObject LetterConstraint) (pc : PositionConstraint)
    (hwf : JsObject.WF (proc ++ rest)) (hinv : PosInv p proc pc) :
    PosInv p (proc ++ rest) (rest.foldl (fun pc e => projectAt e p pc) pc) := by
  induction rest generalizing proc pc with
  | nil => rw [List.append_nil]; exact hinv
  | cons e rest ih =>
    have hsplit : proc ++ e :: rest = (proc ++ [e]) ++ rest := by simp
    rw [List.foldl_cons, hsplit]
    apply ih
    · rw [← hsplit]; exact hwf
    · apply PosInv_step p proc pc e hinv
      unfold JsObject.WF at hwf
      rw [List.map_append, List.map_cons, List.nodup_append] at hwf
      intro hmem
      exact hwf.2.2 hmem (List.mem_cons_self _ _)

/-- The per-position constraints built from a well-formed per-letter map
satisfy the invariant for the whole map. -/
theorem buildPerPosition_inv (perLetter : JsObject LetterConstraint)
    (hwf : JsObject.WF perLetter) (hr : InRange perLetter) :
    ∃ pp, buildPerPosition perLetter = some pp ∧ pp.length = 5 ∧
      ∀ p, p < 5 → PosInv p perLetter (pp.getD p openPosition) := by
  obtain ⟨pp, h1, h2, h3⟩ := buildPerPosition_fold perLetter hr
  refine ⟨pp, h1, h2, fun p hp => ?_⟩
  rw [h3 p hp]
  have := PosInv_foldl p perLetter [] openPosition (by simpa using hwf) (PosInv_nil p)
  simpa using this

theorem exists_getD_of_mem (pp : List PositionConstraint) (pc : PositionConstraint)
    (h : pc ∈ pp) : ∃ p, p < pp.length ∧ pp.getD p openPosition = pc := by
  obtain ⟨p, hp, hpc⟩ := List.getElem_of_mem h
  refine ⟨p, hp, ?_⟩
  rw [List.getD_eq_getElem?_getD, List.getElem?_eq_getElem hp, hpc]
  rfl

/-- C9: for every per-letter constraint map (distinct keys, positions in
0..4), also when a letter is green and yellow at the same position or two
letters are green at the same position, `buildPerPosition` returns five
position constraints, and in each of them the required letter, when there is
one, is not among the excluded letters. -/
theorem buildPerPosition_required_not_excluded (perLetter : JsObject LetterConstraint)
    (hwf : JsObject.WF perLetter) (hr : InRange perLetter) :
    ∃ pp, buildPerPosition perLetter = some pp ∧ pp.length = 5 ∧
      ∀ pc ∈ pp, ∀ L, pc.requiredLetter = some L → L ∉ pc.excludedLetters := by
  obtain ⟨pp, h1, h2, h3⟩ := buildPerPosition_inv perLetter hwf hr
  refine ⟨pp, h1, h2, ?_⟩
  intro pc hpc L hreq hexc
  obtain ⟨p, hp, hget⟩ := exists_getD_of_mem pp pc hpc
  obtain ⟨iR, _, iE, _⟩ := h3 p (by omega)
  rw [hget] at iR iE
  obtain ⟨c, hc, hg⟩ := iR L hreq
  obtain ⟨c2, hc2, hng, _⟩ := (iE L).mp hexc
  have e1 := (JsObject.get?_eq_some_iff perLetter hwf L c).mpr hc
  have e2 := (JsObject.get?_eq_some_iff perLetter hwf L c2).mpr hc2
  rw [e1] at e2
  have : c = c2 := Option.some.inj e2
  subst this
  exact hng hg

/-- Instance of C9: `a` is green and yellow at position 0 and `b` is green at
position 0 as well. -/
theorem buildPerPosition_required_not_excluded_witness :
    ∃ pp, buildPerPosition sampleConflictMap = some pp ∧ pp.length = 5 ∧
      ∀ pc ∈ pp, ∀ L, pc.requiredLetter = some L → L ∉ pc.excludedLetters :=
  buildPerPosition_required_not_excluded sampleConflictMap
    (by unfold JsObject.WF; decide) (by unfold InRange; decide)

/-! ### Validation and the uncached computation -/

theorem validateTile_eq_none (g t : Nat) (tile : Tile) :
    validateTile g t tile = none ↔ TileOk tile := by
  unfold validateTile TileOk
  by_cases h1 : tile.letter = "" ∨ jsLength tile.letter ≠ 1
  · rw [if_pos h1]
    constructor
    · intro h; cases h
    · intro h; exact absurd h1 h.1
  · rw [if_neg h1]
    by_cases h2 : tile.status ≠ "correct" ∧ tile.status ≠ "present" ∧ tile.status ≠ "absent"
    · rw [if_pos h2]
      constructor
      · intro h; cases h
      · rintro ⟨_, h3 | h3 | h3⟩
        · exact absurd h3 h2.1
        · exact absurd h3 h2.2.1
        · exact absurd h3 h2.2.2
    · rw [if_neg h2]
      constructor
      · intro _
        refine ⟨h1, ?_⟩
        by_contra h3
        apply h2
        exact ⟨fun h => h3 (Or.inl h), fun h => h3 (Or.inr (Or.inl h)),
          fun h => h3 (Or.inr (Or.inr h))⟩
      · intro _; rfl

theorem validateTiles_eq_none (g : Nat) (tiles : List Tile) (t : Nat) :
    validateTiles g tiles t = none ↔ ∀ tile ∈ tiles, TileOk tile := by
  induction tiles generalizing t with
  | nil => simp [validateTiles]
  | cons tile rest ih =>
    unfold validateTiles
    cases h : validateTile g t tile with
    | some w =>
      simp only [false_iff, reduceCtorEq]
      intro hall
      have := (validateTile_eq_none g t tile).mpr (hall tile (List.mem_cons_self _ _))
      rw [h] at this
      cases this
    | none =>
      simp only [ih, List.mem_cons, forall_eq_or_imp]
      constructor
      · intro h2; exact ⟨(validateTile_eq_none g t tile).mp h, h2⟩
      · intro h2; exact h2.2

theorem validateGuesses_eq_none (guesses : List Guess) (g : Nat) :
    validateGuesses guesses g = none ↔ ValidGuesses guesses := by
  induction guesses generalizing g with
  | nil => simp [validateGuesses, ValidGuesses]
  | cons guess rest ih =>
    unfold validateGuesses
    have hg : validateGuess g guess = none
        ↔ guess.tiles.length = 5 ∧ ∀ tile ∈ guess.tiles, TileOk tile := by
      unfold validateGuess
      by_cases h5 : guess.tiles.length ≠ 5
      · rw [if_pos h5]
        constructor
        · intro h; cases h
        · intro h; exact absurd h.1 h5
      · rw [if_neg h5, validateTiles_eq_none]
        constructor
        · intro h; exact ⟨not_not.mp h5, h⟩
        · intro h; exact h.2
    cases h : validateGuess g guess with
    | some w =>
      simp only [false_iff, reduceCtorEq]
      intro hall
      have := hg.mpr (hall guess (List.mem_cons_self _ _))
      rw [h] at this
      cases this
    | none =>
      simp only [ih]
      unfold ValidGuesses
      simp only [List.mem_cons, forall_eq_or_imp]
      constructor
      · intro h2; exact ⟨hg.mp h, h2⟩
      · intro h2; exact h2.2

/-- A board passes validation exactly when it has a guesses array of valid guesses. -/
theorem validateBoardState_eq_none (boardState : BoardState) :
    validateBoardState boardState = none
      ↔ ∃ guesses, boardState.guesses = some guesses ∧ ValidGuesses guesses := by
  unfold validateBoardState
  cases h : boardState.guesses with
  | none => simp
  | some gs => simp [validateGuesses_eq_none]

/-- The positions a guess records for a letter are tile indices of the guess. -/
theorem record_positions_lt (guess : Guess) (L : String) (c : LetterConstraint)
    (h : (deriveGuessConstraints guess).get? L = some c) :
    (∀ q ∈ c.greenPositions, q < guess.tiles.length) ∧
    (∀ q ∈ c.yellowPositions, q < guess.tiles.length) := by
  rw [get?_deriveGuessConstraints] at h
  split at h
  · have hc : c = deriveLetter (tallyClosed L guess.tiles 0 emptyInfo) := (Option.some.inj h).symm
    subst hc
    have hlt : ∀ status q, q ∈ positionsOf L status guess.tiles 0 → q < guess.tiles.length := by
      intro status q hq
      obtain ⟨tile, ht, _⟩ := (mem_positionsOf L status guess.tiles q).mp hq
      by_contra hge
      rw [List.getElem?_eq_none (by omega)] at ht
      cases ht
    constructor
    · intro q hq
      apply hlt "correct" q
      simpa [deriveLetter, tallyClosed, emptyInfo] using hq
    · intro q hq
      apply hlt "present" q
      simpa [deriveLetter, tallyClosed, emptyInfo] using hq
  · cases h

/-- The unified record of `L` in terms of the records the guesses contribute. -/
theorem get?_unified_records (L : String) (guesses : List Guess) (c : LetterConstraint)
    (h : JsObject.get? (deriveAll guesses).unified L = some c) :
    guessRecords L guesses ≠ [] ∧ c = (guessRecords L guesses).foldl tighten emptyConstraint := by
  rw [get?_unified, unifiedFor_none] at h
  split at h
  · cases h
  · rename_i c0 cs heq
    rw [heq]
    exact ⟨List.cons_ne_nil _ _, (Option.some.inj h).symm⟩

theorem InRange_unified (guesses : List Guess) (hv : ValidGuesses guesses) :
    InRange (deriveAll guesses).unified := by
  intro e he
  have hget := (JsObject.get?_eq_some_iff _ (WF_unified guesses) e.1 e.2).mpr he
  obtain ⟨_, hc⟩ := get?_unified_records e.1 guesses e.2 hget
  have hrec : ∀ c ∈ guessRecords e.1 guesses,
      (∀ q ∈ c.greenPositions, q < 5) ∧ (∀ q ∈ c.yellowPositions, q < 5) := by
    intro c hcm
    obtain ⟨guess, hg, hgc⟩ := (mem_guessRecords e.1 guesses c).mp hcm
    have := record_positions_lt guess e.1 c hgc
    rw [(hv guess hg).1] at this
    exact this
  constructor
  · intro q hq
    rw [hc, foldTighten_greens_mem] at hq
    rcases hq with h | ⟨c, hcm, h⟩
    · cases h
    · exact (hrec c hcm).1 q h
  · intro q hq
    rw [hc, foldTighten_yellows_mem] at hq
    rcases hq with h | ⟨c, hcm, h⟩
    · cases h
    · exact (hrec c hcm).2 q h

/-- On a validated non-empty board whose key is not in the cache,
`filterCandidates` returns the freshly computed result and stores it. -/
theorem filterCandidates_fresh (cache : JsObject FilterResult) (dictionary : List String)
    (boardState : BoardState) (guesses : List Guess)
    (hv : validateBoardState boardState = none) (hgs : boardState.guesses = some guesses)
    (hne : guesses ≠ []) (hmiss : cache.get? (buildCacheKey guesses) = none) :
    ∃ pp r, buildPerPosition (deriveAll guesses).unified = some pp ∧
      computeResult dictionary guesses = some r ∧
      filterCandidates cache dictionary boardState
        = some (r, cache.set (buildCacheKey guesses) r) ∧
      r.constraints.perLetter = (deriveAll guesses).unified ∧
      r.constraints.perPosition = pp ∧
      r.candidates = (List.range dictionary.length).filter (fun i =>
        wordPassesConstraints (dictionary.getD i "") pp (deriveAll guesses).unified) ∧
      r.warning = (if r.candidates.length = 0 then
        some "No candidates remaining -- board state may be invalid" else none) := by
  obtain ⟨gs2, hgs2, hvalid⟩ := (validateBoardState_eq_none boardState).mp hv
  rw [hgs] at hgs2
  have : gs2 = guesses := (Option.some.inj hgs2).symm
  subst this
  obtain ⟨pp, hpp, _, _⟩ := buildPerPosition_fold _ (InRange_unified gs2 hvalid)
  have hlen : ¬ gs2.length = 0 := by
    intro h
    exact hne (List.length_eq_zero.mp h)
  have hcr : ∃ r, computeResult dictionary gs2 = some r ∧
      r.constraints.perLetter = (deriveAll gs2).unified ∧
      r.constraints.perPosition = pp ∧
      r.candidates = (List.range dictionary.length).filter (fun i =>
        wordPassesConstraints (dictionary.getD i "") pp (deriveAll gs2).unified) ∧
      r.warning = (if r.candidates.length = 0 then
        some "No candidates remaining -- board state may be invalid" else none) := by
    unfold computeResult
    simp only [hpp]
    exact ⟨_, rfl, rfl, rfl, rfl, rfl⟩
  obtain ⟨r, hr, h1, h2, h3, h4⟩ := hcr
  refine ⟨pp, r, hpp, hr, ?_, h1, h2, h3, h4⟩
  unfold filterCandidates
  simp only [hv, hgs, Option.getD_some, hlen, if_false, hmiss, hr]

/-- C6: on a validated non-empty board (fresh computation), for every letter
`L` shown by some tile, the unified record of `L` returned by
`filterCandidates` has green positions without repetition that are exactly
the union of the per-guess green positions of `L`, likewise for the yellow
positions, a `minCount` that is the maximum of the per-guess `minCount`s, and
a `maxCount` that is the minimum of the bounded per-guess `maxCount`s (so
`null` exactly when no guess bounds `L`). -/
theorem filterCandidates_unified (cache : JsObject FilterResult) (dictionary : List String)
    (boardState : BoardState) (guesses : List Guess)
    (hv : validateBoardState boardState = none) (hgs : boardState.guesses = some guesses)
    (hne : guesses ≠ []) (hmiss : cache.get? (buildCacheKey guesses) = none)
    (L : String) (hL : ∃ guess ∈ guesses, ∃ tile ∈ guess.tiles, toLowerCase tile.letter = L) :
    ∃ r cache2 c, filterCandidates cache dictionary boardState = some (r, cache2) ∧
      r.constraints.perLetter.get? L = some c ∧
      c.greenPositions.Nodup ∧
      (∀ p, p ∈ c.greenPositions ↔ ∃ guess ∈ guesses, ∃ cg,
        (deriveGuessConstraints guess).get? L = some cg ∧ p ∈ cg.greenPositions) ∧
      c.yellowPositions.Nodup ∧
      (∀ p, p ∈ c.yellowPositions ↔ ∃ guess ∈ guesses, ∃ cg,
        (deriveGuessConstraints guess).get? L = some cg ∧ p ∈ cg.yellowPositions) ∧
      (∀ guess ∈ guesses, ∀ cg, (deriveGuessConstraints guess).get? L = some cg →
        cg.minCount ≤ c.minCount) ∧
      (∃ guess ∈ guesses, ∃ cg, (deriveGuessConstraints guess).get? L = some cg ∧
        cg.minCount = c.minCount) ∧
      (∀ m, c.maxCount = some m → ∃ guess ∈ guesses, ∃ cg,
        (deriveGuessConstraints guess).get? L = some cg ∧ cg.maxCount = some m) ∧
      (∀ guess ∈ guesses, ∀ cg m2, (deriveGuessConstraints guess).get? L = some cg →
        cg.maxCount = some m2 → ∃ m, c.maxCount = some m ∧ m ≤ m2) := by
  obtain ⟨pp, r, _, _, hfc, hper, _, _, _⟩ :=
    filterCandidates_fresh cache dictionary boardState guesses hv hgs hne hmiss
  -- the records the guesses contribute for `L`
  obtain ⟨g0, hg0, tile0, ht0, hk0⟩ := hL
  have hrec0 : ∃ c0, (deriveGuessConstraints g0).get? L = some c0 := by
    rw [get?_deriveGuessConstraints, if_pos ⟨tile0, ht0, hk0⟩]
    exact ⟨_, rfl⟩
  obtain ⟨c0, hc0⟩ := hrec0
  have hmem0 : c0 ∈ guessRecords L guesses := (mem_guessRecords L guesses c0).mpr ⟨g0, hg0, hc0⟩
  have hget : JsObject.get? (deriveAll guesses).unified L
      = some ((guessRecords L guesses).foldl tighten emptyConstraint) := by
    rw [get?_unified, unifiedFor_none]
    cases hcs : guessRecords L guesses with
    | nil => rw [hcs] at hmem0; cases hmem0
    | cons a as => rfl
  have hnd := foldTighten_nodup (guessRecords L guesses) emptyConstraint
    List.nodup_nil List.nodup_nil
  have hmin := foldTighten_min (guessRecords L guesses) emptyConstraint
  have hmax := foldTighten_max (guessRecords L guesses) emptyConstraint
  refine ⟨r, _, (guessRecords L guesses).foldl tighten emptyConstraint, hfc, ?_, hnd.1, ?_,
    hnd.2, ?_, ?_, ?_, ?_, ?_⟩
  · rw [hper]; exact hget
  · intro p
    rw [foldTighten_greens_mem]
    constructor
    · rintro (h | ⟨c, hc, h⟩)
      · cases h
      · obtain ⟨g, hg, hgc⟩ := (mem_guessRecords L guesses c).mp hc
        exact ⟨g, hg, c, hgc, h⟩
    · rintro ⟨g, hg, c, hgc, h⟩
      exact Or.inr ⟨c, (mem_guessRecords L guesses c).mpr ⟨g, hg, hgc⟩, h⟩
  · intro p
    rw [foldTighten_yellows_mem]
    constructor
    · rintro (h | ⟨c, hc, h⟩)
      · cases h
      · obtain ⟨g, hg, hgc⟩ := (mem_guessRecords L guesses c).mp hc
        exact ⟨g, hg, c, hgc, h⟩
    · rintro ⟨g, hg, c, hgc, h⟩
      exact Or.inr ⟨c, (mem_guessRecords L guesses c).mpr ⟨g, hg, hgc⟩, h⟩
  · intro g hg cg hgc
    exact hmin.2.1 cg ((mem_guessRecords L guesses cg).mpr ⟨g, hg, hgc⟩)
  · rcases hmin.2.2 with h | ⟨c, hc, h⟩
    · refine ⟨g0, hg0, c0, hc0, ?_⟩
      have hle := hmin.2.1 c0 hmem0
      have h0 : emptyConstraint.minCount = 0 := rfl
      omega
    · obtain ⟨g, hg, hgc⟩ := (mem_guessRecords L guesses c).mp hc
      exact ⟨g, hg, c, hgc, h⟩
  · intro m hm
    rcases hmax.1 m hm with h | ⟨c, hc, h⟩
    · cases h
    · obtain ⟨g, hg, hgc⟩ := (mem_guessRecords L guesses c).mp hc
      exact ⟨g, hg, c, hgc, h⟩
  · intro g hg cg m2 hgc hcm
    exact hmax.2.2 cg ((mem_guessRecords L guesses cg).mpr ⟨g, hg, hgc⟩) m2 hcm

/-- Instance of C6: the letter `e` on the board SPEED, CRATE. -/
theorem filterCandidates_unified_witness :
    ∃ r cache2 c, filterCandidates [] ["erupt"] sampleBoard = some (r, cache2) ∧
      r.constraints.perLetter.get? "e" = some c ∧
      c.greenPositions.Nodup ∧
      (∀ p, p ∈ c.greenPositions ↔ ∃ guess ∈ [speedGuess, crateGuess], ∃ cg,
        (deriveGuessConstraints guess).get? "e" = some cg ∧ p ∈ cg.greenPositions) ∧
      c.yellowPositions.Nodup ∧
      (∀ p, p ∈ c.yellowPositions ↔ ∃ guess ∈ [speedGuess, crateGuess], ∃ cg,
        (deriveGuessConstraints guess).get? "e" = some cg ∧ p ∈ cg.yellowPositions) ∧
      (∀ guess ∈ [speedGuess, crateGuess], ∀ cg,
        (deriveGuessConstraints guess).get? "e" = some cg → cg.minCount ≤ c.minCount) ∧
      (∃ guess ∈ [speedGuess, crateGuess], ∃ cg,
        (deriveGuessConstraints guess).get? "e" = some cg ∧ cg.minCount = c.minCount) ∧
      (∀ m, c.maxCount = some m → ∃ guess ∈ [speedGuess, crateGuess], ∃ cg,
        (deriveGuessConstraints guess).get? "e" = some cg ∧ cg.maxCount = some m) ∧
      (∀ guess ∈ [speedGuess, crateGuess], ∀ cg m2,
        (deriveGuessConstraints guess).get? "e" = some cg →
        cg.maxCount = some m2 → ∃ m, c.maxCount = some m ∧ m ≤ m2) :=
  filterCandidates_unified [] ["erupt"] sampleBoard [speedGuess, crateGuess]
    (by decide) rfl (by decide) rfl "e" (by decide)

/-! ### Records derived from true feedback -/

theorem countP_eq_countBelow (tiles : List Tile) (q : Tile → Bool) (q2 : Nat → Bool)
    (h : ∀ t tile, tiles[t]? = some tile → q tile = q2 t) :
    tiles.countP q = countBelow q2 tiles.length := by
  induction tiles using List.reverseRecOn with
  | nil => simp [countBelow]
  | append_singleton l a ih =>
    rw [List.length_append, List.length_singleton, countBelow_succ, List.countP_append, ih]
    · have h2 : q a = q2 l.length := by
        apply h
        simp
      simp [List.countP_cons, h2]
    · intro t tile ht
      apply h
      have hlt : t < l.length := by
        by_contra hge
        rw [List.getElem?_eq_none (by omega)] at ht
        cases ht
      rw [List.getElem?_append_left hlt]
      exact ht

theorem statusName_correct (v : Nat) : statusName v = "correct" ↔ v = 2 := by
  unfold statusName
  split_ifs with h2 h1
  · exact ⟨fun _ => h2, fun _ => rfl⟩
  · exact ⟨fun h => absurd h (by decide), fun h => absurd h h2⟩
  · exact ⟨fun h => absurd h (by decide), fun h => absurd h h2⟩

theorem statusName_present (v : Nat) : statusName v = "present" ↔ v = 1 := by
  unfold statusName
  split_ifs with h2 h1
  · exact ⟨fun h => absurd h (by decide), fun h => by omega⟩
  · exact ⟨fun _ => h1, fun _ => rfl⟩
  · exact ⟨fun h => absurd h (by decide), fun h => absurd h h1⟩

theorem specTile_eq_two (g s : List Nat) (i : Nat) :
    specTile g s i = 2 ↔ g.getD i 0 = s.getD i 0 := by
  unfold specTile
  by_cases h : g.getD i 0 = s.getD i 0
  · rw [if_pos h]
    exact ⟨fun _ => h, fun _ => rfl⟩
  · rw [if_neg h]
    constructor
    · intro h2; split at h2 <;> omega
    · intro h2; exact absurd h2 h

theorem countBelow_split3 (A : Nat → Prop) [DecidablePred A] (v : Nat → Nat)
    (hv : ∀ t, v t ≤ 2) (k : Nat) :
    countBelow (fun t => decide (A t ∧ v t = 2)) k + countBelow (fun t => decide (A t ∧ v t = 1)) k
        = countBelow (fun t => decide (A t ∧ v t ≠ 0)) k ∧
    countBelow (fun t => decide (A t ∧ v t ≠ 0)) k
        + countBelow (fun t => decide (A t ∧ (v t ≠ 2 ∧ v t ≠ 1))) k
        = countBelow (fun t => decide (A t)) k := by
  induction k with
  | zero => simp [countBelow_zero]
  | succ k ih =>
    rw [countBelow_succ_prop (fun t => A t ∧ v t = 2), countBelow_succ_prop (fun t => A t ∧ v t = 1),
      countBelow_succ_prop (fun t => A t ∧ v t ≠ 0),
      countBelow_succ_prop (fun t => A t ∧ (v t ≠ 2 ∧ v t ≠ 1)), countBelow_succ_prop A]
    have hk := hv k
    by_cases hA : A k
    · have e1 : (if A k ∧ v k = 2 then 1 else 0) = if v k = 2 then 1 else 0 := by simp [hA]
      have e2 : (if A k ∧ v k = 1 then 1 else 0) = if v k = 1 then 1 else 0 := by simp [hA]
      have e3 : (if A k ∧ v k ≠ 0 then 1 else 0) = if v k ≠ 0 then 1 else 0 := by simp [hA]
      have e4 : (if A k ∧ (v k ≠ 2 ∧ v k ≠ 1) then 1 else 0)
          = if (v k ≠ 2 ∧ v k ≠ 1) then 1 else 0 := by simp [hA]
      have e5 : (if A k then 1 else 0) = 1 := if_pos hA
      rw [e1, e2, e3, e4, e5]
      split_ifs <;> omega
    · have e1 : (if A k ∧ v k = 2 then 1 else 0) = 0 := if_neg (fun h => hA h.1)
      have e2 : (if A k ∧ v k = 1 then 1 else 0) = 0 := if_neg (fun h => hA h.1)
      have e3 : (if A k ∧ v k ≠ 0 then 1 else 0) = 0 := if_neg (fun h => hA h.1)
      have e4 : (if A k ∧ (v k ≠ 2 ∧ v k ≠ 1) then 1 else 0) = 0 := if_neg (fun h => hA h.1)
      have e5 : (if A k then 1 else 0) = 0 := if_neg hA
      rw [e1, e2, e3, e4, e5]
      omega

/-- Soundness of the record of one guess, stated on the encoded words: if the
tiles carry the statuses of the specification's tile values and the keys
match the letter codes, the derived record is true of the secret. -/
theorem sound_of_tiles (tiles : List Tile) (G S : List Nat) (L secret : String) (code : Nat)
    (ht5 : tiles.length = 5) (hG : G.length = 5) (hS : S.length = 5)
    (hK : ∀ t tile, tiles[t]? = some tile →
      (toLowerCase tile.letter = L ↔ G.getD t 0 = code) ∧
      tile.status = statusName (specTile G S t))
    (hsec : ∀ i, i < 5 → (charAt secret i = L ↔ S.getD i 0 = code)) :
    Sound secret L (deriveLetter (tallyClosed L tiles 0 emptyInfo)) := by
  -- counts of the three kinds of tiles
  have hc : tiles.countP (tileIs L "correct")
      = countBelow (fun t => decide (G.getD t 0 = code ∧ specTile G S t = 2)) 5 := by
    rw [← ht5]
    apply countP_eq_countBelow
    intro t tile htile
    obtain ⟨h1, h2⟩ := hK t tile htile
    unfold tileIs
    apply decide_eq_decide.mpr
    rw [h2]
    exact and_congr h1 (statusName_correct _)
  have hp : tiles.countP (tileIs L "present")
      = countBelow (fun t => decide (G.getD t 0 = code ∧ specTile G S t = 1)) 5 := by
    rw [← ht5]
    apply countP_eq_countBelow
    intro t tile htile
    obtain ⟨h1, h2⟩ := hK t tile htile
    unfold tileIs
    apply decide_eq_decide.mpr
    rw [h2]
    exact and_congr h1 (statusName_present _)
  have hgr : tiles.countP (tileGray L)
      = countBelow (fun t => decide (G.getD t 0 = code ∧
          (specTile G S t ≠ 2 ∧ specTile G S t ≠ 1))) 5 := by
    rw [← ht5]
    apply countP_eq_countBelow
    intro t tile htile
    obtain ⟨h1, h2⟩ := hK t tile htile
    unfold tileGray
    apply decide_eq_decide.mpr
    rw [h2]
    apply and_congr h1
    apply and_congr
    · exact not_congr (statusName_correct _)
    · exact not_congr (statusName_present _)
  obtain ⟨hs1, hs2⟩ := countBelow_split3 (fun t => G.getD t 0 = code) (fun t => specTile G S t)
    (fun t => specTile_le_two G S t) 5
  have hmark := marked_count G S hG hS code
  have hGc := count_eq_countBelow G code
  rw [hG] at hGc
  have hSc := count_eq_countBelow S code
  rw [hS] at hSc
  have hlc : letterCount secret L = S.count code := by
    rw [hSc]
    unfold letterCount countBelow
    apply List.countP_congr
    intro i hi
    have hi5 : i < 5 := by simpa using hi
    have := hsec i hi5
    simp only [decide_eq_true_eq]
    exact this
  have hmin : (deriveLetter (tallyClosed L tiles 0 emptyInfo)).minCount
      = tiles.countP (tileIs L "correct") + tiles.countP (tileIs L "present") := by
    simp [deriveLetter, tallyClosed, emptyInfo]
  have hmaxdef : (deriveLetter (tallyClosed L tiles 0 emptyInfo)).maxCount
      = if tiles.countP (tileGray L) > 0 then
          some (tiles.countP (tileIs L "correct") + tiles.countP (tileIs L "present"))
        else none := by
    simp [deriveLetter, tallyClosed, emptyInfo]
  have hgp : (deriveLetter (tallyClosed L tiles 0 emptyInfo)).greenPositions
      = positionsOf L "correct" tiles 0 := by
    simp [deriveLetter, tallyClosed, emptyInfo]
  have hyp : (deriveLetter (tallyClosed L tiles 0 emptyInfo)).yellowPositions
      = positionsOf L "present" tiles 0 := by
    simp [deriveLetter, tallyClosed, emptyInfo]
  refine ⟨?_, ?_, ?_, ?_⟩
  · rw [hmin, hc, hp, hlc]
    omega
  · intro m hm
    rw [hmaxdef] at hm
    split at hm
    · rename_i hpos
      have : m = tiles.countP (tileIs L "correct") + tiles.countP (tileIs L "present") :=
        (Option.some.inj hm).symm
      rw [this, hc, hp, hlc]
      rw [hgr] at hpos
      omega
    · cases hm
  · intro p hpm
    rw [hgp] at hpm
    obtain ⟨tile, htile, hkey, hst⟩ := (mem_positionsOf L "correct" tiles p).mp hpm
    have hp5 : p < 5 := by
      by_contra hge
      rw [List.getElem?_eq_none (by omega)] at htile
      cases htile
    obtain ⟨h1, h2⟩ := hK p tile htile
    rw [h2, statusName_correct, specTile_eq_two] at hst
    rw [hsec p hp5, ← hst]
    exact h1.mp hkey
  · intro p hpm
    rw [hyp] at hpm
    obtain ⟨tile, htile, hkey, hst⟩ := (mem_positionsOf L "present" tiles p).mp hpm
    have hp5 : p < 5 := by
      by_contra hge
      rw [List.getElem?_eq_none (by omega)] at htile
      cases htile
    obtain ⟨h1, h2⟩ := hK p tile htile
    rw [h2, statusName_present] at hst
    have hne : G.getD p 0 ≠ S.getD p 0 := by
      intro heq
      have := (specTile_eq_two G S p).mpr heq
      omega
    intro hS2
    apply hne
    rw [h1.mp hkey, (hsec p hp5).mp hS2]

/-! ### Letters, codes and one-character strings -/

theorem char_eq_of_toNat_eq (c d : Char) (h : c.toNat = d.toNat) : c = d := by
  have := congrArg Char.ofNat h
  simpa [Char.ofNat_toNat] using this

theorem toNat_ofNat_upper (n : Nat) (h1 : 65 ≤ n) (h2 : n ≤ 90) :
    (Char.ofNat (n + 32)).toNat = n + 32 := by
  interval_cases n <;> rfl

theorem toLower_isLower (c : Char) (h : IsLetter c) : IsLowerLetter c.toLower := by
  unfold Char.toLower
  simp only []
  by_cases hu : c.toNat ≥ 65 ∧ c.toNat ≤ 90
  · rw [if_pos hu]
    show 97 ≤ (Char.ofNat (c.toNat + 32)).toNat ∧ (Char.ofNat (c.toNat + 32)).toNat ≤ 122
    rw [toNat_ofNat_upper _ hu.1 hu.2]
    constructor <;> omega
  · rw [if_neg hu]
    rcases h with h | h
    · exact absurd h hu
    · exact h

theorem letterCode_lt (c : Char) (h : IsLowerLetter c) : letterCode c < 26 := by
  unfold letterCode
  obtain ⟨h1, h2⟩ := h
  omega

theorem letterCode_inj (a b : Char) (ha : IsLowerLetter a) (hb : IsLowerLetter b)
    (h : letterCode a = letterCode b) : a = b := by
  apply char_eq_of_toNat_eq
  unfold letterCode at h
  obtain ⟨h1, h2⟩ := ha
  obtain ⟨h3, h4⟩ := hb
  omega

theorem singleton_inj (a b : Char) (h : String.singleton a = String.singleton b) : a = b := by
  have := congrArg String.data h
  simpa [String.singleton] using this

theorem charAt_of_getElem? (w : String) (p : Nat) (c : Char) (h : w.data[p]? = some c) :
    charAt w p = String.singleton c := by
  unfold charAt
  rw [h]

theorem toLowerCase_singleton (c : Char) :
    toLowerCase (String.singleton c) = String.singleton c.toLower := rfl

theorem encodeWord_length (w : String) : (encodeWord w).length = 5 := by
  simp [encodeWord]

theorem encodeWord_getD (w : String) (i : Nat) (hi : i < 5) (c : Char)
    (h : w.data[i]? = some c) : (encodeWord w).getD i 0 = letterCode c := by
  unfold encodeWord
  rw [List.getD_eq_getElem?_getD, List.getElem?_map, List.getElem?_range hi]
  simp only [Option.map_some', h, Option.getD_some]
  rfl

theorem encodeWord_lt (w : String) (hw : LowerWord w) : ∀ x ∈ encodeWord w, x < 26 := by
  intro x hx
  obtain ⟨i, hi, hxi⟩ := List.getElem_of_mem hx
  have hi5 : i < 5 := by rw [encodeWord_length] at hi; exact hi
  have hd : i < w.data.length := by rw [hw.1]; exact hi5
  have h1 := encodeWord_getD w i hi5 (w.data[i]) (List.getElem?_eq_getElem hd)
  rw [List.getD_eq_getElem?_getD, List.getElem?_eq_getElem hi] at h1
  have h2 : (encodeWord w)[i] = letterCode (w.data[i]) := h1
  rw [← hxi, h2]
  exact letterCode_lt _ (hw.2 _ (List.getElem_mem _))

theorem patternDigit_eq (a0 a1 a2 a3 a4 : Nat) (h0 : a0 ≤ 2) (h1 : a1 ≤ 2) (h2 : a2 ≤ 2)
    (h3 : a3 ≤ 2) (h4 : a4 ≤ 2) :
    patternDigit (a0 + a1 * 3 + a2 * 9 + a3 * 27 + a4 * 81) 0 = a0 ∧
    patternDigit (a0 + a1 * 3 + a2 * 9 + a3 * 27 + a4 * 81) 1 = a1 ∧
    patternDigit (a0 + a1 * 3 + a2 * 9 + a3 * 27 + a4 * 81) 2 = a2 ∧
    patternDigit (a0 + a1 * 3 + a2 * 9 + a3 * 27 + a4 * 81) 3 = a3 ∧
    patternDigit (a0 + a1 * 3 + a2 * 9 + a3 * 27 + a4 * 81) 4 = a4 := by
  unfold patternDigit
  norm_num
  omega

/-- The digits of the pattern id are the tile values of the specification. -/
theorem patternDigit_feedback (g s : List Nat) (hs : s.length = 5) (hs26 : ∀ x ∈ s, x < 26)
    (t : Nat) (ht : t < 5) :
    patternDigit (computePatternId g s zeroCounts zeroPattern).1 t = specTile g s t := by
  rw [computePatternId_id g s zeroPattern hs hs26 (by decide)]
  obtain ⟨d0, d1, d2, d3, d4⟩ := patternDigit_eq (specTile g s 0) (specTile g s 1)
    (specTile g s 2) (specTile g s 3) (specTile g s 4) (specTile_le_two g s 0)
    (specTile_le_two g s 1) (specTile_le_two g s 2) (specTile_le_two g s 3)
    (specTile_le_two g s 4)
  interval_cases t
  · exact d0
  · exact d1
  · exact d2
  · exact d3
  · exact d4

/-! ### A guess played against the secret -/

theorem playGuess_tiles_length (secret word : String) :
    (playGuess secret word).tiles.length = 5 := by
  simp [playGuess]

theorem playGuess_tile (secret word : String) (t : Nat) (tile : Tile)
    (h : (playGuess secret word).tiles[t]? = some tile) :
    t < 5 ∧ tile = { letter := charAt word t,
                     status := statusName (patternDigit (feedbackId secret word) t) } := by
  have ht : t < 5 := by
    by_contra hge
    rw [List.getElem?_eq_none (by rw [playGuess_tiles_length]; omega)] at h
    cases h
  refine ⟨ht, ?_⟩
  unfold playGuess at h
  simp only [List.getElem?_map, List.getElem?_range ht, Option.map_some'] at h
  exact (Option.some.inj h).symm

theorem exists_char_at (w : String) (hlen : w.data.length = 5) (t : Nat) (ht : t < 5) :
    ∃ a, w.data[t]? = some a ∧ a ∈ w.data := by
  have hd : t < w.data.length := by rw [hlen]; exact ht
  exact ⟨w.data[t], List.getElem?_eq_getElem hd, List.getElem_mem _⟩

theorem toLowerCase_getElem? (w : String) (t : Nat) (a : Char) (h : w.data[t]? = some a) :
    (toLowerCase w).data[t]? = some a.toLower := by
  unfold toLowerCase
  simp only [List.getElem?_map, h, Option.map_some']

/-- The record that a guess played against the secret derives for a letter is
true of the secret. -/
theorem sound_of_playGuess (secret word : String) (hs : LowerWord secret)
    (hw : LetterWord word) (L : String) (c : LetterConstraint)
    (h : (deriveGuessConstraints (playGuess secret word)).get? L = some c) :
    Sound secret L c := by
  rw [get?_deriveGuessConstraints] at h
  split at h
  · rename_i hex
    obtain ⟨tile0, hm0, hk0⟩ := hex
    have hc : c = deriveLetter (tallyClosed L (playGuess secret word).tiles 0 emptyInfo) :=
      (Option.some.inj h).symm
    subst hc
    obtain ⟨t0, ht0⟩ := List.mem_iff_getElem?.mp hm0
    obtain ⟨ht0lt, htile0⟩ := playGuess_tile secret word t0 tile0 ht0
    obtain ⟨a0, ha0, ha0m⟩ := exists_char_at word hw.1 t0 ht0lt
    have hL : L = String.singleton a0.toLower := by
      rw [← hk0, htile0]
      show toLowerCase (charAt word t0) = _
      rw [charAt_of_getElem? word t0 a0 ha0, toLowerCase_singleton]
    have hlow0 : IsLowerLetter a0.toLower := toLower_isLower a0 (hw.2 a0 ha0m)
    have hS5 := encodeWord_length secret
    have hS26 := encodeWord_lt secret hs
    apply sound_of_tiles (playGuess secret word).tiles (encodeWord (toLowerCase word))
      (encodeWord secret) L secret (letterCode a0.toLower)
      (playGuess_tiles_length secret word) (encodeWord_length _) hS5
    · intro t tile htile
      obtain ⟨htlt, htl⟩ := playGuess_tile secret word t tile htile
      obtain ⟨a, ha, ham⟩ := exists_char_at word hw.1 t htlt
      have hlow : IsLowerLetter a.toLower := toLower_isLower a (hw.2 a ham)
      have hG : (encodeWord (toLowerCase word)).getD t 0 = letterCode a.toLower :=
        encodeWord_getD _ t htlt _ (toLowerCase_getElem? word t a ha)
      constructor
      · rw [htl, hG, hL]
        show toLowerCase (charAt word t) = _ ↔ _
        rw [charAt_of_getElem? word t a ha, toLowerCase_singleton]
        constructor
        · intro h1
          rw [singleton_inj _ _ h1]
        · intro h1
          rw [letterCode_inj _ _ hlow hlow0 h1]
      · rw [htl]
        show statusName (patternDigit (feedbackId secret word) t) = _
        unfold feedbackId
        rw [patternDigit_feedback _ _ hS5 hS26 t htlt]
    · intro i hi
      obtain ⟨b, hb, hbm⟩ := exists_char_at secret hs.1 i hi
      have hSi : (encodeWord secret).getD i 0 = letterCode b := encodeWord_getD _ i hi _ hb
      rw [charAt_of_getElem? secret i b hb, hSi, hL]
      constructor
      · intro h1
        rw [singleton_inj _ _ h1]
      · intro h1
        rw [letterCode_inj _ _ (hs.2 b hbm) hlow0 h1]
  · cases h

/-- Records that are true of the secret stay true under the merge. -/
theorem sound_unified (secret : String) (guesses : List Guess)
    (hsound : ∀ guess ∈ guesses, ∀ L c,
      (deriveGuessConstraints guess).get? L = some c → Sound secret L c)
    (L : String) (c : LetterConstraint)
    (h : JsObject.get? (deriveAll guesses).unified L = some c) : Sound secret L c := by
  obtain ⟨_, hc⟩ := get?_unified_records L guesses c h
  have hrec : ∀ c2 ∈ guessRecords L guesses, Sound secret L c2 := by
    intro c2 hc2
    obtain ⟨g, hg, hgc⟩ := (mem_guessRecords L guesses c2).mp hc2
    exact hsound g hg L c2 hgc
  have hmin := foldTighten_min (guessRecords L guesses) emptyConstraint
  have hmax := foldTighten_max (guessRecords L guesses) emptyConstraint
  subst hc
  refine ⟨?_, ?_, ?_, ?_⟩
  · rcases hmin.2.2 with h0 | ⟨c2, hc2, h2⟩
    · rw [h0]; exact Nat.zero_le _
    · rw [← h2]; exact (hrec c2 hc2).1
  · intro m hm
    rcases hmax.1 m hm with h0 | ⟨c2, hc2, h2⟩
    · cases h0
    · exact (hrec c2 hc2).2.1 m h2
  · intro p hp
    rw [foldTighten_greens_mem] at hp
    rcases hp with h0 | ⟨c2, hc2, h2⟩
    · cases h0
    · exact (hrec c2 hc2).2.2.1 p h2
  · intro p hp
    rw [foldTighten_yellows_mem] at hp
    rcases hp with h0 | ⟨c2, hc2, h2⟩
    · cases h0
    · exact (hrec c2 hc2).2.2.2 p h2

theorem letterCount_pos (word L : String) (p : Nat) (hp : p < 5) (h : charAt word p = L) :
    0 < letterCount word L := by
  unfold letterCount
  rw [List.countP_pos_iff]
  exact ⟨p, by simpa using hp, decide_eq_true h⟩

/-- A word of which all unified records are true passes the three checks. -/
theorem wordPasses_of_sound (word : String) (perLetter : JsObject LetterConstraint)
    (pp : List PositionConstraint) (hwf : JsObject.WF perLetter)
    (hinv : ∀ p, p < 5 → PosInv p perLetter (pp.getD p openPosition))
    (hsound : ∀ L c, perLetter.get? L = some c → Sound word L c) :
    wordPassesConstraints word pp perLetter = true := by
  have hentry : ∀ L c, (L, c) ∈ perLetter → Sound word L c := fun L c hm =>
    hsound L c ((JsObject.get?_eq_some_iff perLetter hwf L c).mpr hm)
  unfold wordPassesConstraints
  rw [Bool.and_eq_true, Bool.and_eq_true]
  refine ⟨⟨?_, ?_⟩, ?_⟩
  · unfold requiredOk
    rw [List.all_eq_true]
    intro p hp
    have hp5 : p < 5 := by simpa using hp
    obtain ⟨iR, _, _, _⟩ := hinv p hp5
    cases hreq : (pp.getD p openPosition).requiredLetter with
    | none => rfl
    | some r =>
      obtain ⟨c, hc, hg⟩ := iR r hreq
      exact decide_eq_true ((hentry r c hc).2.2.1 p hg)
  · unfold excludedOk
    rw [List.all_eq_true]
    intro p hp
    have hp5 : p < 5 := by simpa using hp
    obtain ⟨_, _, iE, _⟩ := hinv p hp5
    rw [List.all_eq_true]
    intro x hx
    obtain ⟨c, hc, _, hy⟩ := (iE x).mp hx
    apply decide_eq_true
    rcases hy with hy | hy
    · exact (hentry x c hc).2.2.2 p hy
    · intro heq
      have h0 := (hentry x c hc).2.1 0 hy
      have := letterCount_pos word x p hp5 heq
      omega
  · unfold countsOk
    rw [List.all_eq_true]
    intro e he
    have hs := hentry e.1 e.2 he
    rw [Bool.and_eq_true]
    refine ⟨decide_eq_true hs.1, ?_⟩
    cases hmax : e.2.maxCount with
    | none => rfl
    | some m =>
      have := hs.2.1 m hmax
      exact decide_eq_true (by omega)

/-! ### Boards recorded from a secret: the answer survives -/

theorem statusName_valid (v : Nat) :
    statusName v = "correct" ∨ statusName v = "present" ∨ statusName v = "absent" := by
  unfold statusName
  split_ifs
  · exact Or.inl rfl
  · exact Or.inr (Or.inl rfl)
  · exact Or.inr (Or.inr rfl)

theorem validGuesses_play (secret : String) (words : List String)
    (hw : ∀ w ∈ words, LetterWord w) : ValidGuesses (words.map (playGuess secret)) := by
  intro guess hg
  obtain ⟨w, hwm, hgw⟩ := List.mem_map.mp hg
  subst hgw
  refine ⟨playGuess_tiles_length secret w, ?_⟩
  intro tile htile
  obtain ⟨t, ht⟩ := List.mem_iff_getElem?.mp htile
  obtain ⟨htlt, htl⟩ := playGuess_tile secret w t tile ht
  obtain ⟨a, ha, ham⟩ := exists_char_at w (hw w hwm).1 t htlt
  have hletter : tile.letter = String.singleton a := by
    rw [htl]
    exact charAt_of_getElem? w t a ha
  have hlt : a.toNat < 65536 := by
    rcases (hw w hwm).2 a ham with h | h <;> omega
  constructor
  · rw [hletter]
    rintro (h | h)
    · have := congrArg String.data h
      simp [String.singleton] at this
    · apply h
      show ([a].map (fun c => if c.toNat < 65536 then 1 else 2)).sum = 1
      simp [hlt]
  · rw [htl]
    exact statusName_valid _

/-- On a board recorded from `secret`, the fresh computation returns unified
records that are all true of `secret`, and `secret` passes the checks. -/
theorem play_result (cache : JsObject FilterResult) (dictionary : List String)
    (secret : String) (words : List String)
    (hs : LowerWord secret) (hne : words ≠ []) (hw : ∀ w ∈ words, LetterWord w)
    (hmiss : cache.get? (buildCacheKey (words.map (playGuess secret))) = none) :
    ∃ r cache2,
      filterCandidates cache dictionary { guesses := some (words.map (playGuess secret)) }
        = some (r, cache2) ∧
      (∀ L c, r.constraints.perLetter.get? L = some c → Sound secret L c) ∧
      wordPassesConstraints secret r.constraints.perPosition r.constraints.perLetter = true ∧
      r.candidates = (List.range dictionary.length).filter (fun i =>
        wordPassesConstraints (dictionary.getD i "") r.constraints.perPosition
          r.constraints.perLetter) ∧
      r.warning = (if r.candidates.length = 0 then
        some "No candidates remaining -- board state may be invalid" else none) := by
  have hvalid := validGuesses_play secret words hw
  have hv : validateBoardState { guesses := some (words.map (playGuess secret)) } = none :=
    (validateBoardState_eq_none _).mpr ⟨_, rfl, hvalid⟩
  have hne2 : words.map (playGuess secret) ≠ [] := by
    intro h
    exact hne (List.map_eq_nil_iff.mp h)
  obtain ⟨pp, r, hpp, _, hfc, hper, hpos, hcand, hwarn⟩ :=
    filterCandidates_fresh cache dictionary _ _ hv rfl hne2 hmiss
  obtain ⟨pp2, hpp2, _, hinv⟩ := buildPerPosition_inv _ (WF_unified _)
    (InRange_unified _ hvalid)
  rw [hpp] at hpp2
  have : pp = pp2 := Option.some.inj hpp2
  subst this
  have hsound : ∀ L c, JsObject.get? (deriveAll (words.map (playGuess secret))).unified L = some c
      → Sound secret L c := by
    intro L c hc
    apply sound_unified secret _ _ L c hc
    intro guess hg L2 c2 hc2
    obtain ⟨w, hwm, hgw⟩ := List.mem_map.mp hg
    subst hgw
    exact sound_of_playGuess secret w hs (hw w hwm) L2 c2 hc2
  refine ⟨r, _, hfc, ?_, ?_, ?_, hwarn⟩
  · rw [hper]; exact hsound
  · rw [hper, hpos]
    exact wordPasses_of_sound secret _ pp (WF_unified _) hinv hsound
  · rw [hper, hpos]; exact hcand

/-- C2: the true answer is never eliminated. If `secret` is the dictionary
word at index `i` and every guess of a non-empty history carries the tile
statuses that `computePatternId` gives against `secret`, then a fresh
`filterCandidates` returns a candidate list containing `i`, and its warning is
`null`. -/
theorem filterCandidates_keeps_answer (cache : JsObject FilterResult)
    (dictionary : List String) (i : Nat) (secret : String) (words : List String)
    (hi : dictionary[i]? = some secret) (hs : LowerWord secret) (hne : words ≠ [])
    (hw : ∀ w ∈ words, LetterWord w)
    (hmiss : cache.get? (buildCacheKey (words.map (playGuess secret))) = none) :
    ∃ r cache2,
      filterCandidates cache dictionary { guesses := some (words.map (playGuess secret)) }
        = some (r, cache2) ∧
      i ∈ r.candidates ∧ r.warning = none := by
  obtain ⟨r, cache2, hfc, _, hpass, hcand, hwarn⟩ :=
    play_result cache dictionary secret words hs hne hw hmiss
  have hilt : i < dictionary.length := by
    by_contra hge
    rw [List.getElem?_eq_none (by omega)] at hi
    cases hi
  have hget : dictionary.getD i "" = secret := by
    rw [List.getD_eq_getElem?_getD, hi]
    rfl
  have hmem : i ∈ r.candidates := by
    rw [hcand, List.mem_filter]
    refine ⟨List.mem_range.mpr hilt, ?_⟩
    simp only [hget]
    exact hpass
  refine ⟨r, cache2, hfc, hmem, ?_⟩
  rw [hwarn]
  have hpos : r.candidates.length ≠ 0 := by
    intro h0
    rw [List.length_eq_zero.mp h0] at hmem
    cases hmem
  rw [if_neg hpos]

/-- Instance of C2: the secret ERUPT after the guesses SPEED and CRATE. -/
theorem filterCandidates_keeps_answer_witness :
    ∃ r cache2,
      filterCandidates [] ["paper", "erupt"]
          { guesses := some (["SPEED", "CRATE"].map (playGuess "erupt")) } = some (r, cache2) ∧
      1 ∈ r.candidates ∧ r.warning = none :=
  filterCandidates_keeps_answer [] ["paper", "erupt"] 1 "erupt" ["SPEED", "CRATE"]
    (by decide) (by decide) (by decide) (by decide) rfl

/-- C8 fails as stated: the board `contradictoryBoard` passes validation, and
the unified record of `a` has `minCount` 2 and `maxCount` 0. -/
theorem filterCandidates_min_above_max :
    validateBoardState contradictoryBoard = none ∧
    (filterCandidates [] [] contradictoryBoard).map
        (fun r => r.1.constraints.perLetter.get? "a")
      = some (some { greenPositions := [], yellowPositions := [0, 1], minCount := 2,
                     maxCount := some 0 }) := by
  decide

/-- C8 (amended): on every board whose tile statuses are the feedback that
`computePatternId` gives for its guesses against one secret, every unified
record returned by a fresh `filterCandidates` has `minCount ≤ maxCount`
whenever `maxCount` is bounded. -/
theorem filterCandidates_min_le_max (cache : JsObject FilterResult)
    (dictionary : List String) (secret : String) (words : List String)
    (hs : LowerWord secret) (hne : words ≠ []) (hw : ∀ w ∈ words, LetterWord w)
    (hmiss : cache.get? (buildCacheKey (words.map (playGuess secret))) = none) :
    ∃ r cache2,
      filterCandidates cache dictionary { guesses := some (words.map (playGuess secret)) }
        = some (r, cache2) ∧
      ∀ L c m, r.constraints.perLetter.get? L = some c → c.maxCount = some m →
        c.minCount ≤ m := by
  obtain ⟨r, cache2, hfc, hsound, _, _, _⟩ :=
    play_result cache dictionary secret words hs hne hw hmiss
  refine ⟨r, cache2, hfc, ?_⟩
  intro L c m hc hm
  obtain ⟨h1, h2, _, _⟩ := hsound L c hc
  have := h2 m hm
  omega

/-- Instance of C8 (amended): the secret ERUPT after SPEED and CRATE. -/
theorem filterCandidates_min_le_max_witness :
    ∃ r cache2,
      filterCandidates [] ["erupt"]
          { guesses := some (["SPEED", "CRATE"].map (playGuess "erupt")) } = some (r, cache2) ∧
      ∀ L c m, r.constraints.perLetter.get? L = some c → c.maxCount = some m →
        c.minCount ≤ m :=
  filterCandidates_min_le_max [] ["erupt"] "erupt" ["SPEED", "CRATE"]
    (by decide) (by decide) (by decide) rfl

/-! ### Order of the guesses -/

theorem foldTighten_same (cs cs2 : List LetterConstraint) (h : ∀ c, c ∈ cs ↔ c ∈ cs2) :
    SameRecord (cs.foldl tighten emptyConstraint) (cs2.foldl tighten emptyConstraint) := by
  have hmin1 := foldTighten_min cs emptyConstraint
  have hmin2 := foldTighten_min cs2 emptyConstraint
  have hmax1 := foldTighten_max cs emptyConstraint
  have hmax2 := foldTighten_max cs2 emptyConstraint
  have h0 : emptyConstraint.minCount = 0 := rfl
  refine ⟨?_, ?_, ?_, ?_⟩
  · intro p
    rw [foldTighten_greens_mem, foldTighten_greens_mem]
    constructor
    · rintro (h1 | ⟨c, hc, h1⟩)
      · exact Or.inl h1
      · exact Or.inr ⟨c, (h c).mp hc, h1⟩
    · rintro (h1 | ⟨c, hc, h1⟩)
      · exact Or.inl h1
      · exact Or.inr ⟨c, (h c).mpr hc, h1⟩
  · intro p
    rw [foldTighten_yellows_mem, foldTighten_yellows_mem]
    constructor
    · rintro (h1 | ⟨c, hc, h1⟩)
      · exact Or.inl h1
      · exact Or.inr ⟨c, (h c).mp hc, h1⟩
    · rintro (h1 | ⟨c, hc, h1⟩)
      · exact Or.inl h1
      · exact Or.inr ⟨c, (h c).mpr hc, h1⟩
  · apply Nat.le_antisymm
    · rcases hmin1.2.2 with h1 | ⟨c, hc, h1⟩
      · omega
      · have := hmin2.2.1 c ((h c).mp hc)
        omega
    · rcases hmin2.2.2 with h1 | ⟨c, hc, h1⟩
      · omega
      · have := hmin1.2.1 c ((h c).mpr hc)
        omega
  · have dir : ∀ (xs ys : List LetterConstraint), (∀ c, c ∈ xs → c ∈ ys) →
        ∀ m, (xs.foldl tighten emptyConstraint).maxCount = some m →
          ∃ m2, (ys.foldl tighten emptyConstraint).maxCount = some m2 ∧ m2 ≤ m := by
      intro xs ys hsub m hm
      rcases (foldTighten_max xs emptyConstraint).1 m hm with h1 | ⟨c, hc, h1⟩
      · cases h1
      · exact (foldTighten_max ys emptyConstraint).2.2 c (hsub c hc) m h1
    cases hm1 : (cs.foldl tighten emptyConstraint).maxCount with
    | none =>
      cases hm2 : (cs2.foldl tighten emptyConstraint).maxCount with
      | none => rfl
      | some m2 =>
        obtain ⟨m, hm, _⟩ := dir cs2 cs (fun c hc => (h c).mpr hc) m2 hm2
        rw [hm1] at hm
        cases hm
    | some m1 =>
      obtain ⟨m2, hm2, hle⟩ := dir cs cs2 (fun c hc => (h c).mp hc) m1 hm1
      obtain ⟨m3, hm3, hle2⟩ := dir cs2 cs (fun c hc => (h c).mpr hc) m2 hm2
      rw [hm1] at hm3
      have : m1 = m3 := Option.some.inj hm3
      rw [hm2]
      congr 1
      omega

/-- The unified record of a letter does not depend on the order of the guesses. -/
theorem unified_perm (L : String) (guesses guesses2 : List Guess)
    (hperm : guesses.Perm guesses2) :
    (JsObject.get? (deriveAll guesses).unified L = none ∧
      JsObject.get? (deriveAll guesses2).unified L = none) ∨
    ∃ a b, JsObject.get? (deriveAll guesses).unified L = some a ∧
      JsObject.get? (deriveAll guesses2).unified L = some b ∧ SameRecord a b := by
  have hmem : ∀ c, c ∈ guessRecords L guesses ↔ c ∈ guessRecords L guesses2 := by
    intro c
    rw [mem_guessRecords, mem_guessRecords]
    constructor
    · rintro ⟨g, hg, h⟩; exact ⟨g, hperm.mem_iff.mp hg, h⟩
    · rintro ⟨g, hg, h⟩; exact ⟨g, hperm.mem_iff.mpr hg, h⟩
  rw [get?_unified, get?_unified, unifiedFor_none, unifiedFor_none]
  cases h1 : guessRecords L guesses with
  | nil =>
    cases h2 : guessRecords L guesses2 with
    | nil => exact Or.inl ⟨rfl, rfl⟩
    | cons c cs =>
      have := (hmem c).mpr (by rw [h2]; exact List.mem_cons_self _ _)
      rw [h1] at this
      cases this
  | cons c cs =>
    cases h2 : guessRecords L guesses2 with
    | nil =>
      have := (hmem c).mp (by rw [h1]; exact List.mem_cons_self _ _)
      rw [h2] at this
      cases this
    | cons c2 cs2 =>
      refine Or.inr ⟨_, _, rfl, rfl, ?_⟩
      rw [← h1, ← h2]
      exact foldTighten_same _ _ hmem

/-- A green position of a unified record comes from a correct tile. -/
theorem green_tile_of_unified (guesses : List Guess) (L : String) (c : LetterConstraint)
    (p : Nat) (h : JsObject.get? (deriveAll guesses).unified L = some c)
    (hp : p ∈ c.greenPositions) :
    ∃ guess ∈ guesses, ∃ tile, guess.tiles[p]? = some tile ∧
      toLowerCase tile.letter = L ∧ tile.status = "correct" := by
  obtain ⟨_, hc⟩ := get?_unified_records L guesses c h
  rw [hc, foldTighten_greens_mem] at hp
  rcases hp with h0 | ⟨cg, hcg, hpg⟩
  · cases h0
  · obtain ⟨g, hg, hgc⟩ := (mem_guessRecords L guesses cg).mp hcg
    rw [get?_deriveGuessConstraints] at hgc
    split at hgc
    · have : cg = deriveLetter (tallyClosed L g.tiles 0 emptyInfo) := (Option.some.inj hgc).symm
      subst this
      have hpos : p ∈ positionsOf L "correct" g.tiles 0 := by
        simpa [deriveLetter, tallyClosed, emptyInfo] using hpg
      obtain ⟨tile, ht, hk, hst⟩ := (mem_positionsOf L "correct" g.tiles p).mp hpos
      exact ⟨g, hg, tile, ht, hk, hst⟩
    · cases hgc

/-- What a validated board returns on an empty cache, in terms of the
derivation. -/
theorem filterCandidates_empty_cache (dictionary : List String) (guesses : List Guess)
    (hvalid : ValidGuesses guesses) :
    ∃ r cache2, filterCandidates [] dictionary { guesses := some guesses } = some (r, cache2) ∧
      r.constraints.perLetter = (deriveAll guesses).unified ∧
      buildPerPosition (deriveAll guesses).unified = some r.constraints.perPosition := by
  have hv : validateBoardState { guesses := some guesses } = none :=
    (validateBoardState_eq_none _).mpr ⟨_, rfl, hvalid⟩
  by_cases hne : guesses = []
  · subst hne
    refine ⟨_, _, rfl, rfl, rfl⟩
  · obtain ⟨pp, r, hpp, _, hfc, hper, hpos, _, _⟩ :=
      filterCandidates_fresh [] dictionary { guesses := some guesses } guesses hv rfl hne rfl
    exact ⟨r, _, hfc, hper, by rw [hpos]; exact hpp⟩

theorem excluded_transfer (guesses guesses2 : List Guess) (hperm : guesses.Perm guesses2)
    (p : Nat) (pc pc2 : PositionConstraint)
    (h1 : PosInv p (deriveAll guesses).unified pc)
    (h2 : PosInv p (deriveAll guesses2).unified pc2) (M : String)
    (hM : M ∈ pc.excludedLetters) : M ∈ pc2.excludedLetters := by
  obtain ⟨c, hc, hng, hy⟩ := (h1.2.2.1 M).mp hM
  have hget := (JsObject.get?_eq_some_iff _ (WF_unified guesses) M c).mpr hc
  rcases unified_perm M guesses guesses2 hperm with ⟨hn, _⟩ | ⟨a, b, ha, hb, hsame⟩
  · rw [hget] at hn; cases hn
  · rw [hget] at ha
    have : c = a := Option.some.inj ha
    subst this
    apply (h2.2.2.1 M).mpr
    refine ⟨b, (JsObject.get?_eq_some_iff _ (WF_unified guesses2) M b).mp hb, ?_, ?_⟩
    · intro hb2; exact hng ((hsame.1 p).mpr hb2)
    · rcases hy with hy | hy
      · exact Or.inl ((hsame.2.1 p).mp hy)
      · exact Or.inr (by rw [← hsame.2.2.2]; exact hy)

theorem required_transfer (guesses guesses2 : List Guess) (hperm : guesses.Perm guesses2)
    (p : Nat) (pc pc2 : PositionConstraint)
    (h1 : PosInv p (deriveAll guesses).unified pc)
    (h2 : PosInv p (deriveAll guesses2).unified pc2)
    (hno : NoGreenConflict guesses2 p) (L : String)
    (hL : pc.requiredLetter = some L) : pc2.requiredLetter = some L := by
  obtain ⟨c, hc, hg⟩ := h1.1 L hL
  have hget := (JsObject.get?_eq_some_iff _ (WF_unified guesses) L c).mpr hc
  rcases unified_perm L guesses guesses2 hperm with ⟨hn, _⟩ | ⟨a, b, ha, hb, hsame⟩
  · rw [hget] at hn; cases hn
  · rw [hget] at ha
    have : c = a := Option.some.inj ha
    subst this
    have hgb : p ∈ b.greenPositions := (hsame.1 p).mp hg
    cases hreq : pc2.requiredLetter with
    | none =>
      exfalso
      exact h2.2.1 hreq (L, b) ((JsObject.get?_eq_some_iff _ (WF_unified guesses2) L b).mp hb) hgb
    | some L2 =>
      obtain ⟨c2, hc2, hg2⟩ := h2.1 L2 hreq
      have hget2 := (JsObject.get?_eq_some_iff _ (WF_unified guesses2) L2 c2).mpr hc2
      obtain ⟨g1, hg1, t1, ht1, hk1, hs1⟩ := green_tile_of_unified guesses2 L b p hb hgb
      obtain ⟨g2, hg2m, t2, ht2, hk2, hs2⟩ := green_tile_of_unified guesses2 L2 c2 p hget2 hg2
      have := hno g1 hg1 g2 hg2m t1 t2 ht1 ht2 hs1 hs2
      rw [hk1, hk2] at this
      rw [this]

/-- C7 fails as stated: ARISE and BLOND both show a correct first tile; the
board passes validation in both orders, and the required letter of position 0
is `b` in one order and `a` in the other. -/
theorem filterCandidates_order_matters :
    validateBoardState { guesses := some [ariseGuess, blondGuess] } = none ∧
    validateBoardState { guesses := some [blondGuess, ariseGuess] } = none ∧
    (filterCandidates [] [] { guesses := some [ariseGuess, blondGuess] }).map
        (fun r => (r.1.constraints.perPosition.getD 0 openPosition).requiredLetter)
      = some (some "b") ∧
    (filterCandidates [] [] { guesses := some [blondGuess, ariseGuess] }).map
        (fun r => (r.1.constraints.perPosition.getD 0 openPosition).requiredLetter)
      = some (some "a") := by
  decide

/-- C7 (amended): for every validated board and every permutation of its
guesses, `filterCandidates` on an empty cache yields, for every letter, the
same set of green positions, the same set of yellow positions, the same
`minCount` and `maxCount`, and for every position 0..4 the same set of
excluded letters; the required letter of a position is the same too whenever
no two guesses mark different letters correct at that position. -/
theorem filterCandidates_order_invariant (dictionary : List String)
    (guesses guesses2 : List Guess)
    (hv : validateBoardState { guesses := some guesses } = none)
    (hperm : guesses.Perm guesses2) :
    ∃ r1 cache1 r2 cache2,
      filterCandidates [] dictionary { guesses := some guesses } = some (r1, cache1) ∧
      filterCandidates [] dictionary { guesses := some guesses2 } = some (r2, cache2) ∧
      (∀ L, (r1.constraints.perLetter.get? L = none ∧ r2.constraints.perLetter.get? L = none) ∨
        ∃ a b, r1.constraints.perLetter.get? L = some a ∧
          r2.constraints.perLetter.get? L = some b ∧ SameRecord a b) ∧
      (∀ p, p < 5 →
        (∀ M, M ∈ (r1.constraints.perPosition.getD p openPosition).excludedLetters ↔
              M ∈ (r2.constraints.perPosition.getD p openPosition).excludedLetters) ∧
        (NoGreenConflict guesses p →
          (r1.constraints.perPosition.getD p openPosition).requiredLetter
            = (r2.constraints.perPosition.getD p openPosition).requiredLetter)) := by
  obtain ⟨gs, hgs, hvalid⟩ := (validateBoardState_eq_none _).mp hv
  have hgs2 : gs = guesses := (Option.some.inj hgs).symm
  subst hgs2
  have hvalid2 : ValidGuesses guesses2 := fun g hg => hvalid g (hperm.mem_iff.mpr hg)
  obtain ⟨r1, c1, hf1, hl1, hp1⟩ := filterCandidates_empty_cache dictionary gs hvalid
  obtain ⟨r2, c2, hf2, hl2, hp2⟩ := filterCandidates_empty_cache dictionary guesses2 hvalid2
  obtain ⟨pp1, hb1, _, hinv1⟩ := buildPerPosition_inv _ (WF_unified gs) (InRange_unified gs hvalid)
  obtain ⟨pp2, hb2, _, hinv2⟩ := buildPerPosition_inv _ (WF_unified guesses2)
    (InRange_unified guesses2 hvalid2)
  rw [hp1] at hb1
  rw [hp2] at hb2
  have e1 : r1.constraints.perPosition = pp1 := Option.some.inj hb1
  have e2 : r2.constraints.perPosition = pp2 := Option.some.inj hb2
  refine ⟨r1, c1, r2, c2, hf1, hf2, ?_, ?_⟩
  · intro L
    rw [hl1, hl2]
    exact unified_perm L gs guesses2 hperm
  · intro p hp
    rw [e1, e2]
    refine ⟨fun M => ⟨?_, ?_⟩, ?_⟩
    · exact excluded_transfer gs guesses2 hperm p _ _ (hinv1 p hp) (hinv2 p hp) M
    · exact excluded_transfer guesses2 gs hperm.symm p _ _ (hinv2 p hp) (hinv1 p hp) M
    · intro hno
      have hno2 : NoGreenConflict guesses2 p := fun g1 hg1 g2 hg2 =>
        hno g1 (hperm.mem_iff.mpr hg1) g2 (hperm.mem_iff.mpr hg2)
      cases hreq : (pp1.getD p openPosition).requiredLetter with
      | none =>
        cases hreq2 : (pp2.getD p openPosition).requiredLetter with
        | none => rfl
        | some L2 =>
          have := required_transfer guesses2 gs hperm.symm p _ _ (hinv2 p hp) (hinv1 p hp)
            hno L2 hreq2
          rw [hreq] at this
          cases this
      | some L =>
        exact (required_transfer gs guesses2 hperm p _ _ (hinv1 p hp) (hinv2 p hp)
          hno2 L hreq).symm

/-- Instance of C7 (amended): SPEED, CRATE and the reverse order. -/
theorem filterCandidates_order_invariant_witness :
    ∃ r1 cache1 r2 cache2,
      filterCandidates [] ["erupt"] { guesses := some [speedGuess, crateGuess] }
        = some (r1, cache1) ∧
      filterCandidates [] ["erupt"] { guesses := some [crateGuess, speedGuess] }
        = some (r2, cache2) ∧
      (∀ L, (r1.constraints.perLetter.get? L = none ∧ r2.constraints.perLetter.get? L = none) ∨
        ∃ a b, r1.constraints.perLetter.get? L = some a ∧
          r2.constraints.perLetter.get? L = some b ∧ SameRecord a b) ∧
      (∀ p, p < 5 →
        (∀ M, M ∈ (r1.constraints.perPosition.getD p openPosition).excludedLetters ↔
              M ∈ (r2.constraints.perPosition.getD p openPosition).excludedLetters) ∧
        (NoGreenConflict [speedGuess, crateGuess] p →
          (r1.constraints.perPosition.getD p openPosition).requiredLetter
            = (r2.constraints.perPosition.getD p openPosition).requiredLetter)) :=
  filterCandidates_order_invariant ["erupt"] [speedGuess, crateGuess] [crateGuess, speedGuess]
    (by decide) (List.Perm.swap _ _ _)

/-- C1 fails on the code: the board SPEED with the feedback of the secret
ERUPT passes validation, and `filterCandidates` keeps both `erupt` and `paper`
as candidates, although SPEED played against `paper` does not reproduce the
recorded tiles (its second E is correct there); against `erupt` it does. -/
theorem filterCandidates_keeps_inconsistent_word :
    validateBoardState { guesses := some [speedGuess] } = none ∧
    (filterCandidates [] ["erupt", "paper"] { guesses := some [speedGuess] }).map
        (fun r => r.1.candidates) = some [0, 1] ∧
    playGuess "erupt" "SPEED" = speedGuess ∧
    playGuess "paper" "SPEED" ≠ speedGuess ∧
    feedbackId "erupt" "SPEED" = 12 ∧ feedbackId "paper" "SPEED" = 57 := by
  decide

/-! ### Early returns and the memo cache -/

theorem append_ne_empty_left (a b : String) (h : a ≠ "") : a ++ b ≠ "" := by
  intro hab
  apply h
  have h1 : (a ++ b).length = 0 := by rw [hab]; rfl
  rw [String.length_append] at h1
  have h2 : a.length = 0 := by omega
  exact String.ext (List.eq_nil_of_length_eq_zero h2)

theorem validateTile_ne_empty (g t : Nat) (tile : Tile) (w : String)
    (h : validateTile g t tile = some w) : w ≠ "" := by
  unfold validateTile at h
  split at h
  · have := (Option.some.inj h).symm
    subst this
    exact append_ne_empty_left _ _ (append_ne_empty_left _ _
      (append_ne_empty_left _ _ (by decide)))
  · split at h
    · have := (Option.some.inj h).symm
      subst this
      exact append_ne_empty_left _ _ (append_ne_empty_left _ _ (append_ne_empty_left _ _
        (append_ne_empty_left _ _ (append_ne_empty_left _ _ (by decide)))))
    · cases h

theorem validateTiles_ne_empty (g : Nat) (tiles : List Tile) (t : Nat) (w : String)
    (h : validateTiles g tiles t = some w) : w ≠ "" := by
  induction tiles generalizing t with
  | nil => cases h
  | cons tile rest ih =>
    unfold validateTiles at h
    cases hv : validateTile g t tile with
    | some w2 =>
      rw [hv] at h
      have : w2 = w := Option.some.inj h
      subst this
      exact validateTile_ne_empty g t tile w2 hv
    | none =>
      rw [hv] at h
      exact ih _ h

theorem validateGuesses_ne_empty (guesses : List Guess) (g : Nat) (w : String)
    (h : validateGuesses guesses g = some w) : w ≠ "" := by
  induction guesses generalizing g with
  | nil => cases h
  | cons guess rest ih =>
    unfold validateGuesses at h
    cases hv : validateGuess g guess with
    | some w2 =>
      rw [hv] at h
      have : w2 = w := Option.some.inj h
      subst this
      unfold validateGuess at hv
      split at hv
      · have := (Option.some.inj hv).symm
        subst this
        exact append_ne_empty_left _ _ (append_ne_empty_left _ _ (by decide))
      · exact validateTiles_ne_empty g _ 0 _ hv
    | none =>
      rw [hv] at h
      exact ih _ h

/-- Every warning of `validateBoardState` is a non-empty string. -/
theorem validateBoardState_ne_empty (boardState : BoardState) (w : String)
    (h : validateBoardState boardState = some w) : w ≠ "" := by
  unfold validateBoardState at h
  cases hg : boardState.guesses with
  | none =>
    rw [hg] at h
    have := (Option.some.inj h).symm
    subst this
    decide
  | some gs =>
    rw [hg] at h
    exact validateGuesses_ne_empty gs 0 w h

theorem malformed_not_valid (boardState : BoardState) (h : Malformed boardState) :
    validateBoardState boardState ≠ none := by
  intro hv
  obtain ⟨gs, hgs, hvalid⟩ := (validateBoardState_eq_none boardState).mp hv
  rcases h with h | ⟨gs2, hgs2, guess, hg, hbad⟩
  · rw [hgs] at h; cases h
  · rw [hgs] at hgs2
    have : gs = gs2 := Option.some.inj hgs2
    subst this
    obtain ⟨h5, htiles⟩ := hvalid guess hg
    rcases hbad with hbad | ⟨tile, ht, hbad⟩
    · exact hbad h5
    · obtain ⟨hl, hs⟩ := htiles tile ht
      rcases hbad with hbad | hbad
      · exact hl (Or.inr hbad)
      · rcases hs with hs | hs | hs
        · exact hbad.1 hs
        · exact hbad.2.1 hs
        · exact hbad.2.2 hs

/-- C12: on a board with an empty guesses list and a dictionary of length `N`,
`filterCandidates` returns the candidates `0, 1, ..., N-1`, `unconstrained =
true`, no warning and neutral constraints, whatever the memo cache holds, and
returns the cache as it was. -/
theorem filterCandidates_empty_board (cache : JsObject FilterResult)
    (dictionary : List String) :
    filterCandidates cache dictionary { guesses := some [] }
      = some ({ candidates := List.range dictionary.length, unconstrained := true,
                warning := none,
                constraints :=
                  { perLetter := [],
                    perPosition := [openPosition, openPosition, openPosition, openPosition,
                      openPosition],
                    perGuess := [] } }, cache) ∧
    filterPath cache { guesses := some [] } = FilterPath.emptyBoard := by
  constructor <;> rfl

/-- `filterCandidates` never throws. -/
theorem filterCandidates_total (cache : JsObject FilterResult) (dictionary : List String)
    (boardState : BoardState) :
    ∃ r cache2, filterCandidates cache dictionary boardState = some (r, cache2) := by
  cases hv : validateBoardState boardState with
  | some w =>
    unfold filterCandidates
    rw [hv]
    exact ⟨_, _, rfl⟩
  | none =>
    obtain ⟨gs, hgs, hvalid⟩ := (validateBoardState_eq_none boardState).mp hv
    by_cases hne : gs = []
    · subst hne
      unfold filterCandidates
      rw [hv, hgs]
      exact ⟨_, _, rfl⟩
    · cases hc : cache.get? (buildCacheKey gs) with
      | some hit =>
        refine ⟨hit, cache, ?_⟩
        have hlen : ¬ gs.length = 0 := fun h => hne (List.length_eq_zero.mp h)
        unfold filterCandidates
        simp only [hv, hgs, Option.getD_some, hlen, if_false, hc]
      | none =>
        obtain ⟨_, r, _, _, hfc, _⟩ :=
          filterCandidates_fresh cache dictionary boardState gs hv hgs hne hc
        exact ⟨r, _, hfc⟩

/-- A cache hit returns the stored result and leaves the cache as it was. -/
theorem filterCandidates_hit (cache : JsObject FilterResult) (dictionary : List String)
    (boardState : BoardState) (guesses : List Guess) (hit : FilterResult)
    (hv : validateBoardState boardState = none) (hgs : boardState.guesses = some guesses)
    (hne : guesses ≠ []) (hc : cache.get? (buildCacheKey guesses) = some hit) :
    filterCandidates cache dictionary boardState = some (hit, cache) ∧
    filterPath cache boardState = FilterPath.cacheHit := by
  have hlen : ¬ guesses.length = 0 := fun h => hne (List.length_eq_zero.mp h)
  constructor
  · unfold filterCandidates
    simp only [hv, hgs, Option.getD_some, hlen, if_false, hc]
  · unfold filterPath
    simp only [hv, hgs, Option.getD_some, hlen, if_false, hc]

/-- C15 fails as stated: on the empty board the first call stores nothing, and
the second call takes the empty-board return again, not the cache-hit branch. -/
theorem filterCandidates_second_call_not_hit :
    (filterCandidates [] ["erupt"] { guesses := some [] }).map Prod.snd = some [] ∧
    filterPath [] { guesses := some [] } = FilterPath.emptyBoard ∧
    filterPath [] { guesses := some [] } ≠ FilterPath.cacheHit := by
  decide

/-- C15 (amended): for every dictionary, board state and cache, two calls of
`filterCandidates` in a row with the same arguments return the same output,
and the second call leaves the cache unchanged; on a validated non-empty board
the second call takes the cache-hit branch and its output is the entry stored
under the board's key (on an invalid or empty board both calls take the early
return, which never touches the cache). -/
theorem filterCandidates_twice (cache : JsObject FilterResult) (dictionary : List String)
    (boardState : BoardState) :
    ∃ r cache2,
      filterCandidates cache dictionary boardState = some (r, cache2) ∧
      filterCandidates cache2 dictionary boardState = some (r, cache2) ∧
      ((validateBoardState boardState = none ∧ boardState.guesses ≠ some []) →
        filterPath cache2 boardState = FilterPath.cacheHit ∧
        cache2.get? (buildCacheKey (boardState.guesses.getD [])) = some r) := by
  cases hv : validateBoardState boardState with
  | some w =>
    have h1 : filterCandidates cache dictionary boardState
        = some ({ candidates := [], unconstrained := false, warning := some w,
                  constraints := neutralConstraints }, cache) := by
      unfold filterCandidates
      rw [hv]
    refine ⟨_, cache, h1, h1, ?_⟩
    rintro ⟨h, _⟩
    cases h
  | none =>
    obtain ⟨gs, hgs, hvalid⟩ := (validateBoardState_eq_none boardState).mp hv
    by_cases hne : gs = []
    · subst hne
      have h1 : filterCandidates cache dictionary boardState
          = some ({ candidates := List.range dictionary.length, unconstrained := true,
                    warning := none, constraints := neutralConstraints }, cache) := by
        unfold filterCandidates
        rw [hv, hgs]
        rfl
      refine ⟨_, cache, h1, h1, ?_⟩
      rintro ⟨_, h⟩
      exact absurd hgs h
    · cases hc : cache.get? (buildCacheKey gs) with
      | some hit =>
        obtain ⟨h1, h2⟩ := filterCandidates_hit cache dictionary boardState gs hit hv hgs hne hc
        refine ⟨hit, cache, h1, h1, fun _ => ⟨h2, ?_⟩⟩
        rw [hgs]
        exact hc
      | none =>
        obtain ⟨_, r, _, _, hfc, _⟩ :=
          filterCandidates_fresh cache dictionary boardState gs hv hgs hne hc
        have hc2 : (cache.set (buildCacheKey gs) r).get? (buildCacheKey gs) = some r := by
          rw [JsObject.get?_set, if_pos rfl]
        obtain ⟨h1, h2⟩ := filterCandidates_hit (cache.set (buildCacheKey gs) r) dictionary
          boardState gs r hv hgs hne hc2
        refine ⟨r, _, hfc, h1, fun _ => ⟨h2, ?_⟩⟩
        rw [hgs]
        exact hc2

/-- Instance of C15 (amended): two calls on the board SPEED, CRATE. -/
theorem filterCandidates_twice_witness :
    ∃ r cache2,
      filterCandidates [] ["erupt"] sampleBoard = some (r, cache2) ∧
      filterCandidates cache2 ["erupt"] sampleBoard = some (r, cache2) ∧
      ((validateBoardState sampleBoard = none ∧ sampleBoard.guesses ≠ some []) →
        filterPath cache2 sampleBoard = FilterPath.cacheHit ∧
        cache2.get? (buildCacheKey (sampleBoard.guesses.getD [])) = some r) :=
  filterCandidates_twice [] ["erupt"] sampleBoard

/-- C16: the memo cache is keyed by the guess history only. On a validated
non-empty board, a call with a second dictionary right after a call with a
first one returns the output of the first call (which, when the first call
found no entry, is the result computed on the first dictionary); after
`clearCache` the call with the second dictionary returns the result freshly
computed on the second dictionary. -/
theorem filterCandidates_stale (cache : JsObject FilterResult) (d1 d2 : List String)
    (boardState : BoardState) (guesses : List Guess)
    (hv : validateBoardState boardState = none) (hgs : boardState.guesses = some guesses)
    (hne : guesses ≠ []) :
    ∃ r1 cache1,
      filterCandidates cache d1 boardState = some (r1, cache1) ∧
      filterCandidates cache1 d2 boardState = some (r1, cache1) ∧
      (cache.get? (buildCacheKey guesses) = none → computeResult d1 guesses = some r1) ∧
      ∃ r2, computeResult d2 guesses = some r2 ∧
        filterCandidates (clearCache cache1) d2 boardState
          = some (r2, (clearCache cache1).set (buildCacheKey guesses) r2) := by
  have hfresh2 : ∀ c1 : JsObject FilterResult, ∃ r2, computeResult d2 guesses = some r2 ∧
      filterCandidates (clearCache c1) d2 boardState
        = some (r2, (clearCache c1).set (buildCacheKey guesses) r2) := by
    intro c1
    obtain ⟨_, r2, _, hcr, hfc, _⟩ :=
      filterCandidates_fresh (clearCache c1) d2 boardState guesses hv hgs hne rfl
    exact ⟨r2, hcr, hfc⟩
  cases hc : cache.get? (buildCacheKey guesses) with
  | some hit =>
    obtain ⟨h1, _⟩ := filterCandidates_hit cache d1 boardState guesses hit hv hgs hne hc
    obtain ⟨h2, _⟩ := filterCandidates_hit cache d2 boardState guesses hit hv hgs hne hc
    refine ⟨hit, cache, h1, h2, ?_, hfresh2 cache⟩
    intro h
    cases h
  | none =>
    obtain ⟨_, r, _, hcr, hfc, _⟩ :=
      filterCandidates_fresh cache d1 boardState guesses hv hgs hne hc
    have hc2 : (cache.set (buildCacheKey guesses) r).get? (buildCacheKey guesses) = some r := by
      rw [JsObject.get?_set, if_pos rfl]
    obtain ⟨h2, _⟩ := filterCandidates_hit (cache.set (buildCacheKey guesses) r) d2
      boardState guesses r hv hgs hne hc2
    exact ⟨r, _, hfc, h2, fun _ => hcr, hfresh2 _⟩

/-- Instance of C16: the board SPEED, first with the dictionary `erupt`,
`paper`, then with the dictionary `paper` alone. -/
theorem filterCandidates_stale_witness :
    ∃ r1 cache1,
      filterCandidates [] ["erupt", "paper"] { guesses := some [speedGuess] }
        = some (r1, cache1) ∧
      filterCandidates cache1 ["paper"] { guesses := some [speedGuess] } = some (r1, cache1) ∧
      (JsObject.get? ([] : JsObject FilterResult) (buildCacheKey [speedGuess]) = none →
        computeResult ["erupt", "paper"] [speedGuess] = some r1) ∧
      ∃ r2, computeResult ["paper"] [speedGuess] = some r2 ∧
        filterCandidates (clearCache cache1) ["paper"] { guesses := some [speedGuess] }
          = some (r2, (clearCache cache1).set (buildCacheKey [speedGuess]) r2) :=
  filterCandidates_stale [] ["erupt", "paper"] ["paper"] { guesses := some [speedGuess] }
    [speedGuess] (by decide) rfl (by decide)

/-! ### A single guess with every tile absent -/

theorem unified_get_of_guessed (guesses : List Guess) (L : String)
    (hL : ∃ guess ∈ guesses, ∃ tile ∈ guess.tiles, toLowerCase tile.letter = L) :
    JsObject.get? (deriveAll guesses).unified L
      = some ((guessRecords L guesses).foldl tighten emptyConstraint) := by
  obtain ⟨g0, hg0, tile0, ht0, hk0⟩ := hL
  have hc0 : (deriveGuessConstraints g0).get? L
      = some (deriveLetter (tallyClosed L g0.tiles 0 emptyInfo)) := by
    rw [get?_deriveGuessConstraints, if_pos ⟨tile0, ht0, hk0⟩]
  have hmem0 := (mem_guessRecords L guesses _).mpr ⟨g0, hg0, hc0⟩
  rw [get?_unified, unifiedFor_none]
  cases hcs : guessRecords L guesses with
  | nil => rw [hcs] at hmem0; cases hmem0
  | cons a as => rfl

theorem guessRecords_single (L : String) (guess : Guess) :
    guessRecords L [guess]
      = if ∃ tile ∈ guess.tiles, toLowerCase tile.letter = L then
          [deriveLetter (tallyClosed L guess.tiles 0 emptyInfo)]
        else [] := by
  unfold guessRecords
  rw [List.filterMap_cons, get?_deriveGuessConstraints]
  split_ifs <;> rfl

/-- The record that a guess with every tile absent derives for one of its letters. -/
theorem allAbsent_letter (guess : Guess) (habs : ∀ tile ∈ guess.tiles, tile.status = "absent")
    (L : String) (hL : ∃ tile ∈ guess.tiles, toLowerCase tile.letter = L) :
    deriveLetter (tallyClosed L guess.tiles 0 emptyInfo)
      = { greenPositions := [], yellowPositions := [], minCount := 0, maxCount := some 0 } := by
  have hnc : ("absent" : String) ≠ "correct" := by decide
  have hnp : ("absent" : String) ≠ "present" := by decide
  have h1 : guess.tiles.countP (tileIs L "correct") = 0 := by
    rw [List.countP_eq_zero]
    intro tile ht hh
    have := (of_decide_eq_true hh).2
    rw [habs tile ht] at this
    exact hnc this
  have h2 : guess.tiles.countP (tileIs L "present") = 0 := by
    rw [List.countP_eq_zero]
    intro tile ht hh
    have := (of_decide_eq_true hh).2
    rw [habs tile ht] at this
    exact hnp this
  have h3 : 0 < guess.tiles.countP (tileGray L) := by
    rw [List.countP_pos_iff]
    obtain ⟨tile, ht, hk⟩ := hL
    refine ⟨tile, ht, decide_eq_true ⟨hk, ?_, ?_⟩⟩
    · rw [habs tile ht]; exact hnc
    · rw [habs tile ht]; exact hnp
  have h4 : ∀ status, status ≠ "absent" → positionsOf L status guess.tiles 0 = [] := by
    intro status hst
    apply List.eq_nil_iff_forall_not_mem.mpr
    intro p hp
    obtain ⟨tile, ht, _, hs⟩ := (mem_positionsOf L status guess.tiles p).mp hp
    rw [habs tile (List.getElem?_mem ht)] at hs
    exact hst hs.symm
  unfold deriveLetter tallyClosed
  simp only [emptyInfo, h1, h2, h4 "correct" hnc.symm, h4 "present" hnp.symm, Nat.add_zero,
    List.append_nil, gt_iff_lt, Nat.zero_add, h3, if_true]

/-- The unified records of a board of one guess with every tile absent. -/
theorem allAbsent_unified (guess : Guess) (habs : ∀ tile ∈ guess.tiles, tile.status = "absent")
    (L : String) :
    JsObject.get? (deriveAll [guess]).unified L
      = if ∃ tile ∈ guess.tiles, toLowerCase tile.letter = L then
          some { greenPositions := [], yellowPositions := [], minCount := 0, maxCount := some 0 }
        else none := by
  rw [get?_unified, unifiedFor_none, guessRecords_single]
  by_cases hL : ∃ tile ∈ guess.tiles, toLowerCase tile.letter = L
  · rw [if_pos hL, if_pos hL, allAbsent_letter guess habs L hL]
    rfl
  · rw [if_neg hL, if_neg hL]

theorem letterCount_eq_zero (word L : String) :
    letterCount word L = 0 ↔ ∀ p, p < 5 → charAt word p ≠ L := by
  unfold letterCount
  rw [List.countP_eq_zero]
  constructor
  · intro h p hp heq
    exact h p (List.mem_range.mpr hp) (decide_eq_true heq)
  · intro h p hp hh
    exact h p (List.mem_range.mp hp) (of_decide_eq_true hh)

/-- On a board of one guess with every tile absent, a word passes the checks
exactly when none of its five positions holds a letter of the guess. -/
theorem allAbsent_passes (guess : Guess) (habs : ∀ tile ∈ guess.tiles, tile.status = "absent")
    (pp : List PositionConstraint)
    (hinv : ∀ p, p < 5 → PosInv p (deriveAll [guess]).unified (pp.getD p openPosition))
    (word : String) :
    wordPassesConstraints word pp (deriveAll [guess]).unified = true
      ↔ ∀ tile ∈ guess.tiles, ∀ p, p < 5 → charAt word p ≠ toLowerCase tile.letter := by
  have hwf := WF_unified [guess]
  have hentry : ∀ L c, (L, c) ∈ (deriveAll [guess]).unified →
      (∃ tile ∈ guess.tiles, toLowerCase tile.letter = L) ∧
      c = { greenPositions := [], yellowPositions := [], minCount := 0, maxCount := some 0 } := by
    intro L c hm
    have hget := (JsObject.get?_eq_some_iff _ hwf L c).mpr hm
    rw [allAbsent_unified guess habs L] at hget
    split at hget
    · rename_i hL
      exact ⟨hL, (Option.some.inj hget).symm⟩
    · cases hget
  have hkey : ∀ tile ∈ guess.tiles, (toLowerCase tile.letter,
      ({ greenPositions := [], yellowPositions := [], minCount := 0, maxCount := some 0 } :
        LetterConstraint)) ∈ (deriveAll [guess]).unified := by
    intro tile ht
    apply (JsObject.get?_eq_some_iff _ hwf _ _).mp
    rw [allAbsent_unified guess habs, if_pos ⟨tile, ht, rfl⟩]
  unfold wordPassesConstraints
  rw [Bool.and_eq_true, Bool.and_eq_true]
  constructor
  · rintro ⟨⟨_, hexc⟩, _⟩ tile ht p hp
    unfold excludedOk at hexc
    rw [List.all_eq_true] at hexc
    have h1 := hexc p (List.mem_range.mpr hp)
    rw [List.all_eq_true] at h1
    have hin : toLowerCase tile.letter ∈ (pp.getD p openPosition).excludedLetters := by
      apply ((hinv p hp).2.2.1 _).mpr
      exact ⟨_, hkey tile ht, by simp, Or.inr rfl⟩
    exact of_decide_eq_true (h1 _ hin)
  · intro h
    refine ⟨⟨?_, ?_⟩, ?_⟩
    · unfold requiredOk
      rw [List.all_eq_true]
      intro p hp
      have hp5 := List.mem_range.mp hp
      cases hreq : (pp.getD p openPosition).requiredLetter with
      | none => rfl
      | some r =>
        exfalso
        obtain ⟨c, hc, hg⟩ := (hinv p hp5).1 r hreq
        rw [(hentry r c hc).2] at hg
        cases hg
    · unfold excludedOk
      rw [List.all_eq_true]
      intro p hp
      have hp5 := List.mem_range.mp hp
      rw [List.all_eq_true]
      intro x hx
      obtain ⟨c, hc, _⟩ := ((hinv p hp5).2.2.1 x).mp hx
      obtain ⟨tile, ht, hk⟩ := (hentry x c hc).1
      apply decide_eq_true
      rw [← hk]
      exact h tile ht p hp5
    · unfold countsOk
      rw [List.all_eq_true]
      intro e he
      obtain ⟨⟨tile, ht, hk⟩, hc⟩ := hentry e.1 e.2 he
      have h0 : letterCount word e.1 = 0 := by
        rw [letterCount_eq_zero, ← hk]
        exact fun p hp => h tile ht p hp
      rw [hc, h0]
      rfl

theorem charAt_ne_iff_data (word : String) (hlen : word.data.length = 5) (K : String) :
    (∀ p, p < 5 → charAt word p ≠ K) ↔ ∀ c ∈ word.data, String.singleton c ≠ K := by
  constructor
  · intro h c hc
    obtain ⟨p, hp⟩ := List.mem_iff_getElem?.mp hc
    have hp5 : p < 5 := by
      by_contra hge
      rw [List.getElem?_eq_none (by omega)] at hp
      cases hp
    have := h p hp5
    rw [charAt_of_getElem? word p c hp] at this
    exact this
  · intro h p hp
    obtain ⟨a, ha, ham⟩ := exists_char_at word hlen p hp
    rw [charAt_of_getElem? word p a ha]
    exact h a ham

theorem jsLength_empty : jsLength "" = 0 := rfl

/-- C13: on a board of one guess whose five tiles are all absent (fresh
computation) and a dictionary of lowercase 5-letter words, the index `i` is a
candidate exactly when the word at `i` contains none of the letters of the
guess (after lower-casing). -/
theorem filterCandidates_all_absent (cache : JsObject FilterResult) (dictionary : List String)
    (guess : Guess) (h5 : guess.tiles.length = 5)
    (hletter : ∀ tile ∈ guess.tiles, jsLength tile.letter = 1)
    (habs : ∀ tile ∈ guess.tiles, tile.status = "absent")
    (hdict : ∀ w ∈ dictionary, LowerWord w)
    (hmiss : cache.get? (buildCacheKey [guess]) = none) :
    ∃ r cache2,
      filterCandidates cache dictionary { guesses := some [guess] } = some (r, cache2) ∧
      ∀ i, i ∈ r.candidates ↔
        ∃ w, dictionary[i]? = some w ∧
          ∀ tile ∈ guess.tiles, ∀ c ∈ w.data, String.singleton c ≠ toLowerCase tile.letter := by
  have hvalid : ValidGuesses [guess] := by
    intro g hg
    rw [List.mem_singleton] at hg
    subst hg
    refine ⟨h5, fun tile ht => ⟨?_, Or.inr (Or.inr (habs tile ht))⟩⟩
    rintro (h | h)
    · have := hletter tile ht
      rw [h, jsLength_empty] at this
      cases this
    · exact h (hletter tile ht)
  have hv : validateBoardState { guesses := some [guess] } = none :=
    (validateBoardState_eq_none _).mpr ⟨_, rfl, hvalid⟩
  obtain ⟨pp, r, hpp, _, hfc, _, _, hcand, _⟩ :=
    filterCandidates_fresh cache dictionary _ [guess] hv rfl (by simp) hmiss
  obtain ⟨pp2, hpp2, _, hinv⟩ := buildPerPosition_inv _ (WF_unified [guess])
    (InRange_unified [guess] hvalid)
  rw [hpp] at hpp2
  have : pp = pp2 := Option.some.inj hpp2
  subst this
  refine ⟨r, _, hfc, fun i => ?_⟩
  rw [hcand, List.mem_filter, List.mem_range]
  constructor
  · rintro ⟨hi, hpass⟩
    have hw : dictionary[i]? = some dictionary[i] := List.getElem?_eq_getElem hi
    have hget : dictionary.getD i "" = dictionary[i] := by
      rw [List.getD_eq_getElem?_getD, hw]; rfl
    rw [hget] at hpass
    refine ⟨dictionary[i], hw, fun tile ht => ?_⟩
    have hlen := (hdict _ (List.getElem_mem hi)).1
    rw [← charAt_ne_iff_data _ hlen]
    exact fun p hp => (allAbsent_passes guess habs pp hinv _).mp hpass tile ht p hp
  · rintro ⟨w, hw, hnone⟩
    have hi : i < dictionary.length := by
      by_contra hge
      rw [List.getElem?_eq_none (by omega)] at hw
      cases hw
    have hget : dictionary.getD i "" = w := by
      rw [List.getD_eq_getElem?_getD, hw]; rfl
    refine ⟨hi, ?_⟩
    simp only [hget]
    apply (allAbsent_passes guess habs pp hinv w).mpr
    intro tile ht
    have hlen := (hdict w (List.getElem?_mem hw)).1
    rw [charAt_ne_iff_data _ hlen]
    exact hnone tile ht

/-- Instance of C13: CLOUD all absent, dictionary `erupt`, `paper`, `could`. -/
theorem filterCandidates_all_absent_witness :
    ∃ r cache2,
      filterCandidates [] ["erupt", "paper", "could"] { guesses := some [cloudGuess] }
        = some (r, cache2) ∧
      ∀ i, i ∈ r.candidates ↔
        ∃ w, ["erupt", "paper", "could"][i]? = some w ∧
          ∀ tile ∈ cloudGuess.tiles, ∀ c ∈ w.data,
            String.singleton c ≠ toLowerCase tile.letter :=
  filterCandidates_all_absent [] ["erupt", "paper", "could"] cloudGuess
    (by decide) (by decide) (by decide) (by decide) rfl

/-! ### Count convergence -/

/-- A guess record with an absent tile of `L` bounds `L` by its own `minCount`. -/
theorem record_max_of_absent (guess : Guess) (L : String)
    (habs : ∃ tile ∈ guess.tiles, toLowerCase tile.letter = L ∧ tile.status = "absent") :
    (deriveGuessConstraints guess).get? L
      = some (deriveLetter (tallyClosed L guess.tiles 0 emptyInfo)) ∧
    (deriveLetter (tallyClosed L guess.tiles 0 emptyInfo)).maxCount
      = some (deriveLetter (tallyClosed L guess.tiles 0 emptyInfo)).minCount := by
  obtain ⟨tile, ht, hk, hs⟩ := habs
  constructor
  · rw [get?_deriveGuessConstraints, if_pos ⟨tile, ht, hk⟩]
  · have hgray : 0 < guess.tiles.countP (tileGray L) := by
      rw [List.countP_pos_iff]
      refine ⟨tile, ht, decide_eq_true ⟨hk, ?_, ?_⟩⟩
      · rw [hs]; decide
      · rw [hs]; decide
    simp [deriveLetter, tallyClosed, emptyInfo, hgray]

/-- C14: count convergence. On a board whose guesses carry the feedback that
`computePatternId` gives against `secret` (fresh computation), the unified
record of every guessed letter `L` has `minCount ≤ occurrences of L in secret
≤ maxCount` (`null` being unbounded), and when some guess shows an absent tile
of `L` then `minCount = maxCount = occurrences of L in secret`. With the
secret ERUPT, CRATE (one E, present) followed by SPEED (one E present, one E
absent) gives `minCount = maxCount = 1` for `e`. -/
theorem filterCandidates_count_convergence (cache : JsObject FilterResult)
    (dictionary : List String) (secret : String) (words : List String)
    (hs : LowerWord secret) (hne : words ≠ []) (hw : ∀ w ∈ words, LetterWord w)
    (hmiss : cache.get? (buildCacheKey (words.map (playGuess secret))) = none) :
    (∃ r cache2,
      filterCandidates cache dictionary { guesses := some (words.map (playGuess secret)) }
        = some (r, cache2) ∧
      ∀ L, (∃ w ∈ words, ∃ tile ∈ (playGuess secret w).tiles, toLowerCase tile.letter = L) →
        ∃ c, r.constraints.perLetter.get? L = some c ∧
          c.minCount ≤ letterCount secret L ∧
          (∀ m, c.maxCount = some m → letterCount secret L ≤ m) ∧
          ((∃ w ∈ words, ∃ tile ∈ (playGuess secret w).tiles,
              toLowerCase tile.letter = L ∧ tile.status = "absent") →
            c.minCount = letterCount secret L ∧
            c.maxCount = some (letterCount secret L))) ∧
    (filterCandidates [] [] { guesses := some (["CRATE", "SPEED"].map (playGuess "erupt")) }).map
        (fun r => r.1.constraints.perLetter.get? "e")
      = some (some { greenPositions := [], yellowPositions := [4, 2], minCount := 1,
                     maxCount := some 1 }) := by
  refine ⟨?_, by decide⟩
  have hvalid := validGuesses_play secret words hw
  have hv : validateBoardState { guesses := some (words.map (playGuess secret)) } = none :=
    (validateBoardState_eq_none _).mpr ⟨_, rfl, hvalid⟩
  have hne2 : words.map (playGuess secret) ≠ [] := fun h => hne (List.map_eq_nil_iff.mp h)
  obtain ⟨_, r, _, _, hfc, hper, _, _, _⟩ :=
    filterCandidates_fresh cache dictionary _ _ hv rfl hne2 hmiss
  have hsoundg : ∀ guess ∈ words.map (playGuess secret), ∀ L c,
      (deriveGuessConstraints guess).get? L = some c → Sound secret L c := by
    intro guess hg L2 c2 hc2
    obtain ⟨w, hwm, hgw⟩ := List.mem_map.mp hg
    subst hgw
    exact sound_of_playGuess secret w hs (hw w hwm) L2 c2 hc2
  refine ⟨r, _, hfc, fun L hL => ?_⟩
  have hLg : ∃ guess ∈ words.map (playGuess secret), ∃ tile ∈ guess.tiles,
      toLowerCase tile.letter = L := by
    obtain ⟨w, hwm, tile, ht, hk⟩ := hL
    exact ⟨playGuess secret w, List.mem_map.mpr ⟨w, hwm, rfl⟩, tile, ht, hk⟩
  have hget := unified_get_of_guessed _ L hLg
  have hsound := sound_unified secret _ hsoundg L _ hget
  refine ⟨_, by rw [hper]; exact hget, hsound.1, ?_, ?_⟩
  · intro m hm
    have := hsound.2.1 m hm
    omega
  · rintro ⟨w, hwm, tile, ht, hk, hst⟩
    obtain ⟨hrec, hmaxmin⟩ := record_max_of_absent (playGuess secret w) L ⟨tile, ht, hk, hst⟩
    have hgm : playGuess secret w ∈ words.map (playGuess secret) :=
      List.mem_map.mpr ⟨w, hwm, rfl⟩
    have hsg := hsoundg _ hgm L _ hrec
    have hmin_eq : (deriveLetter (tallyClosed L (playGuess secret w).tiles 0 emptyInfo)).minCount
        = letterCount secret L := (hsg.2.1 _ hmaxmin)
    have hmemr := (mem_guessRecords L (words.map (playGuess secret)) _).mpr ⟨_, hgm, hrec⟩
    have hmin := foldTighten_min (guessRecords L (words.map (playGuess secret))) emptyConstraint
    have hmax := foldTighten_max (guessRecords L (words.map (playGuess secret))) emptyConstraint
    have hle := hmin.2.1 _ hmemr
    obtain ⟨m, hm, hmle⟩ := hmax.2.2 _ hmemr _ hmaxmin
    have hm2 := hsound.2.1 m hm
    refine ⟨?_, ?_⟩
    · have := hsound.1
      omega
    · rw [hm, hm2]

/-- Instance of C14: the secret ERUPT after CRATE and SPEED. -/
theorem filterCandidates_count_convergence_witness :
    ∃ r cache2,
      filterCandidates [] ["erupt"]
          { guesses := some (["CRATE", "SPEED"].map (playGuess "erupt")) } = some (r, cache2) ∧
      ∀ L, (∃ w ∈ ["CRATE", "SPEED"], ∃ tile ∈ (playGuess "erupt" w).tiles,
          toLowerCase tile.letter = L) →
        ∃ c, r.constraints.perLetter.get? L = some c ∧
          c.minCount ≤ letterCount "erupt" L ∧
          (∀ m, c.maxCount = some m → letterCount "erupt" L ≤ m) ∧
          ((∃ w ∈ ["CRATE", "SPEED"], ∃ tile ∈ (playGuess "erupt" w).tiles,
              toLowerCase tile.letter = L ∧ tile.status = "absent") →
            c.minCount = letterCount "erupt" L ∧
            c.maxCount = some (letterCount "erupt" L)) :=
  (filterCandidates_count_convergence [] ["erupt"] "erupt" ["CRATE", "SPEED"]
    (by decide) (by decide) (by decide) rfl).1

/-! ### The scratch buffers across calls of `computePatternId` -/

theorem eq_zeroCounts (l : List Nat) (hl : l.length = 26) (hz : ∀ L, l.getD L 0 = 0) :
    l = zeroCounts := by
  unfold zeroCounts
  rw [List.eq_replicate_iff]
  refine ⟨hl, fun b hb => ?_⟩
  obtain ⟨i, hi, rfl⟩ := List.getElem_of_mem hb
  have h := hz i
  rw [List.getD_eq_getElem?_getD, List.getElem?_eq_getElem hi] at h
  exact h

theorem getD_zeroCounts (L : Nat) : zeroCounts.getD L 0 = 0 := by
  simp only [zeroCounts, List.getD_eq_getElem?_getD, List.getElem?_replicate]
  split <;> rfl

/-- Buffers after both passes started on a zeroed count buffer: the lengths
are kept and only letters of the secret can hold a nonzero count. -/
theorem runPasses_buffers (g s pattern : List Nat) (hs : s.length = 5)
    (hs26 : ∀ x ∈ s, x < 26) (hp : pattern.length = 5) :
    (runPasses g s zeroCounts pattern).1.length = 26 ∧
    (runPasses g s zeroCounts pattern).2.length = 5 ∧
    ∀ L, s.count L = 0 → (runPasses g s zeroCounts pattern).1.getD L 0 = 0 := by
  have ht := tally_inv s zeroCounts (by simp [zeroCounts]) getD_zeroCounts 5 (Nat.le_refl 5)
  have hg := greens_inv g s (tallySecret s zeroCounts) pattern ht.1 hp ht.2 5 (Nat.le_refl 5)
  have hc := counts_after_greens g s pattern hs hs26 hp
  have hy := yellows_inv g s (markGreens g s (tallySecret s zeroCounts, pattern)).1
    (markGreens g s (tallySecret s zeroCounts, pattern)).2 hg.1 hg.2.1
    (fun L => by
      rw [hc L]
      have := List.count_le_length L s
      omega)
    (fun j hj => hg.2.2.2.1 j hj) 5 (Nat.le_refl 5)
  refine ⟨hy.1, hy.2.1, fun L hL => ?_⟩
  have h := hy.2.2.1 L
  rw [hc L, hL] at h
  show (List.foldl (yellowStep g) ((markGreens g s (tallySecret s zeroCounts, pattern)).1,
    (markGreens g s (tallySecret s zeroCounts, pattern)).2) (List.range 5)).1.getD L 0 = 0
  omega

theorem getD_set_zero_keeps (buf : List Nat) (k j : Nat) (h : buf.getD j 0 = 0) :
    (buf.set k 0).getD j 0 = 0 := by
  rw [getD_set]
  split
  · rfl
  · exact h

theorem getD_set_zero_at (buf : List Nat) (k : Nat) : (buf.set k 0).getD k 0 = 0 := by
  rw [getD_set]
  split
  · rfl
  · rename_i h
    exact getD_of_length_le _ _ (by
      rcases Nat.lt_or_ge k buf.length with h1 | h1
      · exact absurd ⟨rfl, h1⟩ h
      · exact h1)

theorem mem_getD_of_count_ne_zero (s : List Nat) (hs : s.length = 5) (L : Nat)
    (h : s.count L ≠ 0) :
    L = s.getD 0 0 ∨ L = s.getD 1 0 ∨ L = s.getD 2 0 ∨ L = s.getD 3 0 ∨ L = s.getD 4 0 := by
  have hmem : L ∈ s := List.count_pos_iff.mp (Nat.pos_of_ne_zero h)
  match s, hs with
  | [a, b, c, d, e], _ =>
    simp only [List.mem_cons, List.mem_singleton, List.not_mem_nil, or_false] at hmem
    simpa using hmem

/-- The reset at the end of `computePatternId` restores a zeroed count
buffer, so that every call of a loop starts from one. -/
theorem computePatternId_counts (g s pattern : List Nat) (hs : s.length = 5)
    (hs26 : ∀ x ∈ s, x < 26) (hp : pattern.length = 5) :
    (computePatternId g s zeroCounts pattern).2.1 = zeroCounts := by
  obtain ⟨h1, _, h3⟩ := runPasses_buffers g s pattern hs hs26 hp
  have e : (computePatternId g s zeroCounts pattern).2.1
      = resetCounts s (runPasses g s zeroCounts pattern).1 := by
    simp only [computePatternId]
  rw [e]
  apply eq_zeroCounts
  · simp only [resetCounts, List.length_set]
    exact h1
  · intro L
    unfold resetCounts
    by_cases hc : s.count L = 0
    · exact getD_set_zero_keeps _ _ _ (getD_set_zero_keeps _ _ _ (getD_set_zero_keeps _ _ _
        (getD_set_zero_keeps _ _ _ (getD_set_zero_keeps _ _ _ (h3 L hc)))))
    · rcases mem_getD_of_count_ne_zero s hs L hc with h | h | h | h | h
      · rw [← h]
        exact getD_set_zero_keeps _ _ _ (getD_set_zero_keeps _ _ _ (getD_set_zero_keeps _ _ _
          (getD_set_zero_keeps _ _ _ (getD_set_zero_at _ _))))
      · rw [← h]
        exact getD_set_zero_keeps _ _ _ (getD_set_zero_keeps _ _ _ (getD_set_zero_keeps _ _ _
          (getD_set_zero_at _ _)))
      · rw [← h]
        exact getD_set_zero_keeps _ _ _ (getD_set_zero_keeps _ _ _ (getD_set_zero_at _ _))
      · rw [← h]
        exact getD_set_zero_keeps _ _ _ (getD_set_zero_at _ _)
      · rw [← h]
        exact getD_set_zero_at _ _

theorem computePatternId_pattern_length (g s pattern : List Nat) (hs : s.length = 5)
    (hs26 : ∀ x ∈ s, x < 26) (hp : pattern.length = 5) :
    (computePatternId g s zeroCounts pattern).2.2.length = 5 := by
  rw [computePatternId_pattern]
  exact (runPasses_buffers g s pattern hs hs26 hp).2.1

theorem computePatternId_lt (g s pattern : List Nat) (hs : s.length = 5)
    (hs26 : ∀ x ∈ s, x < 26) (hp : pattern.length = 5) :
    (computePatternId g s zeroCounts pattern).1 < 243 := by
  rw [computePatternId_id g s pattern hs hs26 hp]
  have h0 := specTile_le_two g s 0
  have h1 := specTile_le_two g s 1
  have h2 := specTile_le_two g s 2
  have h3 := specTile_le_two g s 3
  have h4 := specTile_le_two g s 4
  omega

/-- The pattern id does not depend on what the pattern buffer held. -/
theorem computePatternId_any_pattern (g s pattern : List Nat) (hs : s.length = 5)
    (hs26 : ∀ x ∈ s, x < 26) (hp : pattern.length = 5) :
    (computePatternId g s zeroCounts pattern).1
      = (computePatternId g s zeroCounts zeroPattern).1 := by
  rw [computePatternId_id g s pattern hs hs26 hp,
    computePatternId_id g s zeroPattern hs hs26 (by simp [zeroPattern])]

/-! ### The bucket loop -/

theorem length_u16inc (buf : List Nat) (k : Nat) : (u16inc buf k).length = buf.length := by
  simp [u16inc]

theorem getD_u16inc (buf : List Nat) (k j : Nat) :
    (u16inc buf k).getD j 0
      = if j = k ∧ k < buf.length then (buf.getD k 0 + 1) % 65536 else buf.getD j 0 := by
  unfold u16inc
  exact getD_set _ _ _ _

theorem getD_fillZero (buf : List Nat) (j : Nat) : (fillZero buf).getD j 0 = 0 := by
  simp only [fillZero, List.getD_eq_getElem?_getD, List.getElem?_replicate]
  split <;> rfl

theorem length_fillZero (buf : List Nat) : (fillZero buf).length = buf.length := by
  simp [fillZero]

theorem bucketCount_nil (ws : List (List Nat)) (g p : Nat) : bucketCount ws g [] p = 0 := by
  simp [bucketCount]

theorem bucketCount_cons (ws : List (List Nat)) (g s : Nat) (rest : List Nat) (p : Nat) :
    bucketCount ws g (s :: rest) p
      = bucketCount ws g rest p + if patternOf ws g s = p then 1 else 0 := by
  simp [bucketCount, List.countP_cons]

theorem getElem?_words (ws : List (List Nat)) (i : Nat) (hi : i < ws.length) :
    ws[i]? = some (ws.getD i []) := by
  rw [List.getD_eq_getElem?_getD, List.getElem?_eq_getElem hi]
  rfl

theorem getD_words_mem (ws : List (List Nat)) (i : Nat) (hi : i < ws.length) :
    ws.getD i [] ∈ ws := by
  rw [List.getD_eq_getElem?_getD, List.getElem?_eq_getElem hi]
  exact List.getElem_mem _

theorem patternOf_eq (ws : List (List Nat)) (hok : WordsOk ws) (g s : Nat)
    (hs : s < ws.length) (pattern : List Nat) (hp : pattern.length = 5) :
    (computePatternId (ws.getD g []) (ws.getD s []) zeroCounts pattern).1 = patternOf ws g s := by
  have h := hok _ (getD_words_mem ws s hs)
  unfold patternOf
  exact computePatternId_any_pattern _ _ _ h.1 h.2 hp

theorem patternOf_lt (ws : List (List Nat)) (hok : WordsOk ws) (g s : Nat)
    (hs : s < ws.length) : patternOf ws g s < 243 := by
  have h := hok _ (getD_words_mem ws s hs)
  unfold patternOf
  exact computePatternId_lt _ _ _ h.1 h.2 (by simp [zeroPattern])

theorem bucketLoop_cons (ws : List (List Nat)) (g s : Nat) (rest b sc pat ge se : List Nat)
    (h1 : ws[g]? = some ge) (h2 : ws[s]? = some se) :
    bucketLoop (some ws) g (s :: rest) (b, sc, pat)
      = bucketLoop (some ws) g rest (u16inc b (computePatternId ge se sc pat).1,
          (computePatternId ge se sc pat).2.1, (computePatternId ge se sc pat).2.2) := by
  rw [bucketLoop]
  simp only [h1, h2]

/-- The bucket loop on valid indices returns, leaves the count buffer
zeroed, and (when no bucket can pass 65535) adds to every bucket the number
of candidates with that pattern. -/
theorem bucketLoop_spec (ws : List (List Nat)) (hok : WordsOk ws) (g : Nat)
    (hg : g < ws.length) :
    ∀ (remaining b pat : List Nat), (∀ s ∈ remaining, s < ws.length) → b.length = 243 →
      pat.length = 5 →
      ∃ b1 pat1, bucketLoop (some ws) g remaining (b, zeroCounts, pat)
          = some (b1, zeroCounts, pat1) ∧ b1.length = 243 ∧ pat1.length = 5 ∧
        ((∀ p, p < 243 → b.getD p 0 + remaining.length < 65536) →
          ∀ p, p < 243 → b1.getD p 0 = b.getD p 0 + bucketCount ws g remaining p) := by
  intro remaining
  induction remaining with
  | nil =>
    intro b pat _ hb hp
    exact ⟨b, pat, rfl, hb, hp, fun _ p _ => by rw [bucketCount_nil, Nat.add_zero]⟩
  | cons s rest ih =>
    intro b pat hrem hb hp
    have hs : s < ws.length := hrem s (List.mem_cons_self _ _)
    have hw := hok _ (getD_words_mem ws s hs)
    have e1 := getElem?_words ws g hg
    have e2 := getElem?_words ws s hs
    have hid := patternOf_eq ws hok g s hs pat hp
    have hlt := patternOf_lt ws hok g s hs
    obtain ⟨b1, pat1, hrun, hb1, hp1, hcount⟩ :=
      ih (u16inc b (patternOf ws g s))
        (computePatternId (ws.getD g []) (ws.getD s []) zeroCounts pat).2.2
        (fun x hx => hrem x (List.mem_cons_of_mem _ hx))
        (by rw [length_u16inc]; exact hb)
        (computePatternId_pattern_length _ _ _ hw.1 hw.2 hp)
    refine ⟨b1, pat1, ?_, hb1, hp1, fun hno p hp243 => ?_⟩
    · rw [bucketLoop_cons ws g s rest b zeroCounts pat _ _ e1 e2,
        computePatternId_counts _ _ pat hw.1 hw.2 hp, hid]
      exact hrun
    · have hq : ∀ q, q < 243 →
          (u16inc b (patternOf ws g s)).getD q 0
            = b.getD q 0 + if patternOf ws g s = q then 1 else 0 := fun q hq => by
        rw [getD_u16inc, hb]
        have h1 := hno (patternOf ws g s) hlt
        rw [List.length_cons] at h1
        by_cases h : patternOf ws g s = q
        · rw [if_pos ⟨h.symm, hlt⟩, if_pos h, h, Nat.mod_eq_of_lt (by rw [h] at h1; omega)]
        · rw [if_neg (fun hh => h hh.1.symm), if_neg h, Nat.add_zero]
      rw [hcount (fun q hq243 => by
        rw [hq q hq243]
        have h1 := hno q hq243
        rw [List.length_cons] at h1
        split <;> omega) p hp243, hq p hp243, bucketCount_cons]
      omega

/-! ### The entropy sum -/

theorem foldl_add_range {α : Type} [LinearOrderedField α] (f : Nat → α) (k : Nat) :
    (List.range k).foldl (fun e b => e + f b) 0 = ∑ b in Finset.range k, f b := by
  induction k with
  | zero => simp
  | succ k ih => rw [foldl_range_succ, Finset.sum_range_succ, ih]

theorem bucketEntropy_eq_sum {α : Type} [LinearOrderedField α] (ln : α → α) (n : Nat)
    (buckets : List Nat) :
    bucketEntropy ln n buckets
      = ∑ p in Finset.range 243,
          if 0 < buckets.getD p 0 then
            ((buckets.getD p 0 : α) / (n : α)) * (log2 ln (n : α) - log2 ln (buckets.getD p 0 : α))
          else 0 := by
  have e : (fun (entropy : α) (b : Nat) =>
        if buckets.getD b 0 > 0 then
          entropy + ((buckets.getD b 0 : α) / (n : α))
            * (log2 ln (n : α) - log2 ln (buckets.getD b 0 : α))
        else entropy)
      = fun entropy b => entropy +
          (if 0 < buckets.getD b 0 then
            ((buckets.getD b 0 : α) / (n : α))
              * (log2 ln (n : α) - log2 ln (buckets.getD b 0 : α))
          else 0) := by
    funext entropy b
    by_cases h : 0 < buckets.getD b 0
    · rw [if_pos h, if_pos h]
    · rw [if_neg h, if_neg h, add_zero]
  have e2 : bucketEntropy ln n buckets
      = (List.range 243).foldl (fun (entropy : α) (b : Nat) =>
        if buckets.getD b 0 > 0 then
          entropy + ((buckets.getD b 0 : α) / (n : α))
            * (log2 ln (n : α) - log2 ln (buckets.getD b 0 : α))
        else entropy) 0 := rfl
  rw [e2, e]
  exact foldl_add_range _ _

/-- The entropy read from a bucket buffer that holds the bucket counts. -/
theorem bucketEntropy_counts {α : Type} [LinearOrderedField α] (ln : α → α)
    (ws : List (List Nat)) (g : Nat) (remaining buckets : List Nat)
    (h : ∀ p, p < 243 → buckets.getD p 0 = bucketCount ws g remaining p) :
    bucketEntropy ln remaining.length buckets = entropyFormula ln ws g remaining := by
  rw [bucketEntropy_eq_sum]
  unfold entropyFormula
  apply Finset.sum_congr rfl
  intro p hp
  rw [h p (Finset.mem_range.mp hp)]

theorem sum_bucketCount (ws : List (List Nat)) (g : Nat) (remaining : List Nat)
    (h : ∀ s ∈ remaining, patternOf ws g s < 243) :
    ∑ p in Finset.range 243, bucketCount ws g remaining p = remaining.length := by
  induction remaining with
  | nil => simp [bucketCount_nil]
  | cons s rest ih =>
    simp_rw [bucketCount_cons]
    rw [Finset.sum_add_distrib, ih (fun x hx => h x (List.mem_cons_of_mem _ hx)),
      Finset.sum_ite_eq, if_pos (Finset.mem_range.mpr (h s (List.mem_cons_self _ _))),
      List.length_cons]

theorem entropy_term_real (c n : Nat) (hc : 0 < c) (hn : 0 < n) :
    ((c : ℝ) / (n : ℝ)) * (log2 Real.log (n : ℝ) - log2 Real.log (c : ℝ))
      = ((c : ℝ) / (n : ℝ)) * Real.logb 2 ((n : ℝ) / (c : ℝ)) := by
  have hc1 : (c : ℝ) ≠ 0 := Nat.cast_ne_zero.mpr (by omega)
  have hn1 : (n : ℝ) ≠ 0 := Nat.cast_ne_zero.mpr (by omega)
  unfold log2 Real.logb
  rw [Real.log_div hn1 hc1, sub_div]

/-! ### `computeEntropy` and `rankGuesses` on an initialised engine -/

theorem computeEntropy_formula {α : Type} [LinearOrderedField α] (ln : α → α)
    (st : EngineState α) (ws : List (List Nat)) (g : Nat) (remaining : List Nat)
    (hws : st.encodedWords = some ws) (hok : WordsOk ws) (hg : g < ws.length)
    (hrem : ∀ s ∈ remaining, s < ws.length) (hn : 2 ≤ remaining.length)
    (hn2 : remaining.length < 65536) (hsc : st.publicSecretCounts = zeroCounts)
    (hpat : st.publicPattern.length = 5) (hb : st.publicBuckets.length = 243) :
    ∃ st1, computeEntropy ln st g remaining = some (entropyFormula ln ws g remaining, st1) ∧
      st1.encodedWords = some ws ∧ st1.publicSecretCounts = zeroCounts ∧
      st1.publicPattern.length = 5 ∧ st1.publicBuckets.length = 243 := by
  obtain ⟨b1, pat1, hrun, hb1, hp1, hcount⟩ :=
    bucketLoop_spec ws hok g hg remaining (fillZero st.publicBuckets) st.publicPattern hrem
      (by rw [length_fillZero]; exact hb) hpat
  have hval : bucketEntropy ln remaining.length b1 = entropyFormula ln ws g remaining := by
    apply bucketEntropy_counts
    intro p hp
    rw [hcount (fun q _ => by rw [getD_fillZero]; omega) p hp, getD_fillZero, Nat.zero_add]
  have hnot : ¬ remaining.length ≤ 1 := by omega
  unfold computeEntropy
  simp only [hnot, if_false, hws, hsc, hrun, hval]
  exact ⟨_, rfl, rfl, rfl, hp1, hb1⟩

theorem rankLoop_cons {α : Type} [LinearOrderedField α] (ln : α → α)
    (ew : Option (List (List Nat))) (remaining : List Nat) (g : Nat)
    (rest b sc pat b1 sc1 pat1 : List Nat)
    (h : bucketLoop ew g remaining (fillZero b, sc, pat) = some (b1, sc1, pat1)) :
    rankLoop ln ew remaining (g :: rest) (b, sc, pat)
      = match rankLoop ln ew remaining rest (b1, sc1, pat1) with
        | none => none
        | some results =>
          some (⟨g, if remaining.length > 1 then bucketEntropy ln remaining.length b1 else 0,
            none⟩ :: results) := by
  rw [rankLoop]
  simp only [h]

/-- The loop of `rankGuesses` on valid indices returns one entry per pool
index, in pool order, each with the entropy of its partition. -/
theorem rankLoop_spec {α : Type} [LinearOrderedField α] (ln : α → α)
    (ws : List (List Nat)) (hok : WordsOk ws) (remaining : List Nat)
    (hrem : ∀ s ∈ remaining, s < ws.length) :
    ∀ (pool b pat : List Nat), (∀ i ∈ pool, i < ws.length) → b.length = 243 →
      pat.length = 5 →
      ∃ res, rankLoop ln (some ws) remaining pool (b, zeroCounts, pat) = some res ∧
        res.map (fun e => e.wordIndex) = pool ∧
        (remaining.length < 65536 → ∀ e ∈ res, e.entropy =
          if remaining.length > 1 then entropyFormula ln ws e.wordIndex remaining else 0) := by
  intro pool
  induction pool with
  | nil =>
    intro b pat _ _ _
    exact ⟨[], rfl, rfl, fun _ e he => absurd he (List.not_mem_nil _)⟩
  | cons g rest ih =>
    intro b pat hpool hb hp
    obtain ⟨b1, pat1, hrun, hb1, hp1, hcount⟩ :=
      bucketLoop_spec ws hok g (hpool g (List.mem_cons_self _ _)) remaining (fillZero b) pat
        hrem (by rw [length_fillZero]; exact hb) hp
    obtain ⟨res, hres, hmap, hent⟩ :=
      ih b1 pat1 (fun i hi => hpool i (List.mem_cons_of_mem _ hi)) hb1 hp1
    refine ⟨⟨g, if remaining.length > 1 then bucketEntropy ln remaining.length b1 else 0,
      none⟩ :: res, ?_, ?_, ?_⟩
    · rw [rankLoop_cons ln (some ws) remaining g rest b zeroCounts pat b1 zeroCounts pat1 hrun,
        hres]
    · rw [List.map_cons, hmap]
    · intro hlt e he
      rcases List.mem_cons.mp he with h | h
      · subst h
        show (if remaining.length > 1 then bucketEntropy ln remaining.length b1 else 0) = _
        rw [bucketEntropy_counts ln ws g remaining b1 (fun p hp243 => by
          rw [hcount (fun q _ => by rw [getD_fillZero]; omega) p hp243, getD_fillZero,
            Nat.zero_add])]
      · exact hent hlt e h

/-! ### The answer track when one guess is left -/

theorem URGENCY_one {α : Type} [LinearOrderedField α] : (URGENCY 1 : α) = 1 := by
  unfold URGENCY
  rw [if_neg (by decide), if_neg (by decide), if_neg (by decide), if_pos rfl]

theorem commonnessOf_valid {α : Type} [LinearOrderedField α] (cd : CommonnessData α) (i : Nat)
    (hi : i < cd.scores.length) (hmax : cd.max ≤ 0 → cd.scores.getD i 0 = 0) :
    commonnessOf (some cd) i = some (cd.scores.getD i 0) := by
  have e : cd.scores[i]? = some (cd.scores.getD i 0) := by
    rw [List.getD_eq_getElem?_getD, List.getElem?_eq_getElem hi]
    rfl
  unfold commonnessOf
  by_cases h : cd.max > 0
  · simp only [h, if_true, e]
  · simp only [h, if_false]
    rw [hmax (not_lt.mp h)]

theorem blendedOrder_commonness {α : Type} [LinearOrderedField α] (st : EngineState α)
    (dict : List String) (cd : CommonnessData α) (hcd : st.commonnessData = some cd)
    (i j : Nat) (hi : i < cd.scores.length) (hj : j < cd.scores.length)
    (hmi : cd.max ≤ 0 → cd.scores.getD i 0 = 0) (hmj : cd.max ≤ 0 → cd.scores.getD j 0 = 0) :
    blendedOrder (commonnessEntry st dict i) (commonnessEntry st dict j)
      = cd.scores.getD j 0 - cd.scores.getD i 0 := by
  unfold blendedOrder commonnessEntry
  simp only [hcd, commonnessOf_valid cd i hi hmi, commonnessOf_valid cd j hj hmj]

theorem sortByDescending_perm {α : Type} [LinearOrderedField α] (scores : List α)
    (candidates : List Nat) : List.Perm (sortByDescending scores candidates) candidates :=
  List.perm_insertionSort _ candidates

theorem sortByDescending_sorted {α : Type} [LinearOrderedField α] (scores : List α)
    (candidates : List Nat) :
    List.Sorted (fun i j => scores.getD i 0 ≥ scores.getD j 0)
      (sortByDescending scores candidates) := by
  haveI : IsTotal Nat (fun i j => scores.getD i 0 ≥ scores.getD j 0) :=
    ⟨fun a b => le_total _ _⟩
  haveI : IsTrans Nat (fun i j => scores.getD i 0 ≥ scores.getD j 0) :=
    ⟨fun a b c hab hbc => le_trans hbc hab⟩
  exact List.sorted_insertionSort _ candidates

/-! ### The claims on the entropy engine -/

/-- C17: for every guess index and every candidate list of length at most 1,
`computeEntropy` returns exactly 0 and leaves the module state as it was;
this holds for every state, so the encoded words are not read: the result is
0 whatever they hold, also when they are still `null`. -/
theorem computeEntropy_small {α : Type} [LinearOrderedField α] (ln : α → α)
    (st : EngineState α) (guessIndex : Nat) (remainingIndices : List Nat)
    (h : remainingIndices.length ≤ 1) :
    computeEntropy ln st guessIndex remainingIndices = some (0, st) ∧
    ∀ ws, (computeEntropy ln { st with encodedWords := ws } guessIndex remainingIndices).map
      Prod.fst = some 0 := by
  constructor
  · unfold computeEntropy
    simp only [h, if_true]
  · intro ws
    unfold computeEntropy
    simp only [h, if_true, Option.map_some']

/-- Instance of C17: a single candidate on the engine before `init`, where
the encoded words are `null`. -/
theorem computeEntropy_small_witness :
    computeEntropy (fun x : ℚ => x) (initialEngine ℚ) 7 [3] = some (0, initialEngine ℚ) ∧
    ∀ ws, (computeEntropy (fun x : ℚ => x) { initialEngine ℚ with encodedWords := ws } 7
      [3]).map Prod.fst = some 0 :=
  computeEntropy_small (fun x : ℚ => x) (initialEngine ℚ) 7 [3] (by decide)

/-! ### The result of `rankGuessesForState` in its three branches -/

theorem infoPoolOf_valid (candidates : List Nat) (n : Nat)
    (hcand : ∀ i ∈ candidates, i < n) : ∀ i ∈ infoPoolOf candidates n, i < n := by
  intro i hi
  unfold infoPoolOf at hi
  split at hi
  · exact hcand i hi
  · exact List.mem_range.mp hi

/-! ### The urgency table -/

theorem urgencyFor_eq {α : Type} [LinearOrderedField α] (guessesLeft : Int) :
    (urgencyFor guessesLeft : α)
      = if guessesLeft ≥ 4 then 0 else if guessesLeft = 3 then 15 / 100
        else if guessesLeft = 2 then 4 / 10 else 1 := by
  unfold urgencyFor
  by_cases h4 : guessesLeft ≥ 4
  · rw [if_pos h4, if_pos h4]
    unfold URGENCY
    rw [if_pos rfl]
  · rw [if_neg h4, if_neg h4]
    by_cases h1 : guessesLeft ≤ 1
    · rw [if_pos h1, if_neg (by omega), if_neg (by omega)]
      exact URGENCY_one
    · rw [if_neg h1]
      unfold URGENCY
      by_cases h3 : guessesLeft = 3
      · rw [if_neg (by omega), if_pos h3, if_pos h3]
      · rw [if_neg (by omega), if_neg h3, if_neg h3, if_pos (by omega), if_pos (by omega)]

theorem urgencyFor_antitone {α : Type} [LinearOrderedField α] (a b : Int) (h : a ≤ b) :
    (urgencyFor b : α) ≤ urgencyFor a := by
  rw [urgencyFor_eq, urgencyFor_eq]
  split_ifs <;> first | (exfalso; omega) | norm_num

theorem urgencyFor_range {α : Type} [LinearOrderedField α] (guessesLeft : Int) :
    (0 : α) ≤ urgencyFor guessesLeft ∧ (urgencyFor guessesLeft : α) ≤ 1 := by
  rw [urgencyFor_eq]
  split_ifs <;> norm_num

/-! ### The blended score -/

theorem foldl_maxEntropy {α : Type} [LinearOrderedField α] (l : List (InfoGuess α)) (m : α) :
    l.foldl (fun m r => if r.entropy > m then r.entropy else m) m
      = (l.map (fun r => r.entropy)).foldl max m := by
  induction l generalizing m with
  | nil => rfl
  | cons r rs ih =>
    simp only [List.foldl_cons, List.map_cons]
    rw [ih]
    congr 1
    rw [max_def]
    by_cases h1 : r.entropy > m
    · rw [if_pos h1, if_pos (le_of_lt h1)]
    · rw [if_neg h1]
      by_cases h2 : m ≤ r.entropy
      · rw [if_pos h2]
        exact le_antisymm h2 (not_lt.mp h1)
      · rw [if_neg h2]

theorem maxEntropyOf_eq {α : Type} [LinearOrderedField α] (l : List (InfoGuess α)) :
    maxEntropyOf l = guardZero (batchMax (l.map (fun r => r.entropy))) := by
  unfold maxEntropyOf guardZero batchMax
  rw [foldl_maxEntropy]

theorem batchMax_perm {α : Type} [LinearOrderedField α] (l1 l2 : List α)
    (h : List.Perm l1 l2) : batchMax l1 = batchMax l2 :=
  List.Perm.foldl_eq' h (fun x _ y _ z => by
    rw [max_assoc, max_assoc, max_comm x y]) 0

theorem blendedEntry_score {α : Type} [LinearOrderedField α] (st : EngineState α)
    (urgency m : α) (r : InfoGuess α) :
    (blendedEntry st urgency m r).blendedScore
      = (blendedEntry st urgency m r).commonness.map (fun c =>
          (1 - urgency) * ((blendedEntry st urgency m r).entropy / m)
            + urgency * (c / maxCommonOf st.commonnessData)) := by
  unfold blendedEntry maxCommonOf
  cases st.commonnessData <;> rfl

/-! ### Entropies that differ by less than the tie threshold -/

theorem log_diff_bounds (a b : ℝ) (ha : 0 < a) (hb : 0 < b) :
    1 - a / b ≤ Real.log b - Real.log a ∧ Real.log b - Real.log a ≤ b / a - 1 := by
  rw [← Real.log_div hb.ne' ha.ne']
  constructor
  · have h := Real.one_sub_inv_le_log_of_pos (div_pos hb ha)
    rwa [inv_div] at h
  · exact Real.log_le_sub_one_of_pos (div_pos hb ha)

theorem splitEntropy_real (a b : Nat) (n : ℝ) (hn : ((a + b : Nat) : ℝ) = n) (hn0 : n ≠ 0) :
    splitEntropy Real.log a b
      = ((a : ℝ) * (Real.log n - Real.log a) + (b : ℝ) * (Real.log n - Real.log b))
          / (n * Real.log 2) := by
  have h2 : Real.log 2 ≠ 0 := by
    have := Real.log_two_gt_d9
    linarith
  unfold splitEntropy log2
  rw [hn]
  field_simp

/-- Three partitions of 50000 candidates whose entropies rise in two steps of
less than `1e-6` each and of more than `1e-6` together. -/
theorem splitEntropy_steps :
    0 < splitEntropy Real.log 24701 25299 - splitEntropy Real.log 24700 25300 ∧
    splitEntropy Real.log 24701 25299 - splitEntropy Real.log 24700 25300 < 1 / 1000000 ∧
    0 < splitEntropy Real.log 24702 25298 - splitEntropy Real.log 24701 25299 ∧
    splitEntropy Real.log 24702 25298 - splitEntropy Real.log 24701 25299 < 1 / 1000000 ∧
    1 / 1000000 ≤ splitEntropy Real.log 24702 25298 - splitEntropy Real.log 24700 25300 := by
  have hl1 := Real.log_two_gt_d9
  have hl2 := Real.log_two_lt_d9
  have hpos : (0 : ℝ) < 50000 * Real.log 2 := by linarith
  rw [splitEntropy_real 24700 25300 50000 (by norm_num) (by norm_num),
    splitEntropy_real 24701 25299 50000 (by norm_num) (by norm_num),
    splitEntropy_real 24702 25298 50000 (by norm_num) (by norm_num)]
  have d1 := log_diff_bounds 24700 24701 (by norm_num) (by norm_num)
  have d2 := log_diff_bounds 25299 25300 (by norm_num) (by norm_num)
  have d3 := log_diff_bounds 24701 25299 (by norm_num) (by norm_num)
  have e1 := log_diff_bounds 24701 24702 (by norm_num) (by norm_num)
  have e2 := log_diff_bounds 25298 25299 (by norm_num) (by norm_num)
  have e3 := log_diff_bounds 24702 25298 (by norm_num) (by norm_num)
  norm_num at d1 d2 d3 e1 e2 e3
  obtain ⟨d1l, d1u⟩ := d1
  obtain ⟨d2l, d2u⟩ := d2
  obtain ⟨d3l, d3u⟩ := d3
  obtain ⟨e1l, e1u⟩ := e1
  obtain ⟨e2l, e2u⟩ := e2
  obtain ⟨e3l, e3u⟩ := e3
  rw [← sub_div, ← sub_div, ← sub_div]
  push_cast
  refine ⟨?_, ?_, ?_, ?_, ?_⟩
  · apply div_pos _ hpos
    linarith
  · rw [div_lt_iff₀ hpos]
    linarith
  · apply div_pos _ hpos
    linarith
  · rw [div_lt_iff₀ hpos]
    linarith
  · rw [le_div_iff₀ hpos]
    linarith

theorem entropyFormula_two {α : Type} [LinearOrderedField α] (ln : α → α)
    (ws : List (List Nat)) (g : Nat) (candidates : List Nat) (p q a b : Nat)
    (hp : p < 243) (hq : q < 243) (hpq : p ≠ q) (ha : 0 < a) (hb : 0 < b)
    (hlen : candidates.length = a + b)
    (hc : ∀ t, bucketCount ws g candidates t = if t = p then a else if t = q then b else 0) :
    entropyFormula ln ws g candidates = splitEntropy ln a b := by
  unfold entropyFormula
  rw [Finset.sum_eq_add p q hpq]
  · rw [hc p, hc q, if_pos rfl, if_neg hpq.symm, if_pos rfl, if_pos ha, if_pos hb, hlen]
    rfl
  · intro t _ ht
    rw [hc t, if_neg ht.1, if_neg ht.2, if_neg (lt_irrefl 0)]
  · intro h
    exact absurd (Finset.mem_range.mpr hp) h
  · intro h
    exact absurd (Finset.mem_range.mpr hq) h

theorem tie_patterns :
    patternOf tieWords 0 3 = 18 ∧ patternOf tieWords 0 4 = 0 ∧ patternOf tieWords 0 5 = 0 ∧
    patternOf tieWords 0 6 = 0 ∧
    patternOf tieWords 1 3 = 6 ∧ patternOf tieWords 1 4 = 6 ∧ patternOf tieWords 1 5 = 0 ∧
    patternOf tieWords 1 6 = 0 ∧
    patternOf tieWords 2 3 = 2 ∧ patternOf tieWords 2 4 = 2 ∧ patternOf tieWords 2 5 = 2 ∧
    patternOf tieWords 2 6 = 0 := by
  decide

theorem tie_bucketCount (g t p1 p2 p3 p4 : Nat) (h1 : patternOf tieWords g 3 = p1)
    (h2 : patternOf tieWords g 4 = p2) (h3 : patternOf tieWords g 5 = p3)
    (h4 : patternOf tieWords g 6 = p4) :
    bucketCount tieWords g tieCandidates t
      = (if p1 = t then 24700 else 0) + ((if p2 = t then 1 else 0) + (if p3 = t then 1 else 0))
        + (if p4 = t then 25298 else 0) := by
  unfold bucketCount tieCandidates
  rw [List.countP_append, List.countP_append, List.countP_replicate, List.countP_replicate,
    List.countP_cons, List.countP_cons, List.countP_nil, h1, h2, h3, h4]
  simp only [decide_eq_true_eq, Nat.zero_add]
  rw [Nat.add_comm (if p3 = t then 1 else 0) (if p2 = t then 1 else 0)]

theorem tieCandidates_length : tieCandidates.length = 50000 := by
  unfold tieCandidates
  rw [List.length_append, List.length_append, List.length_replicate, List.length_replicate,
    List.length_cons, List.length_singleton]

theorem tieCandidates_valid : ∀ s ∈ tieCandidates, s < tieWords.length := by
  intro s hs
  have hl : tieWords.length = 7 := rfl
  rw [hl]
  simp only [tieCandidates, List.mem_append, List.mem_replicate, List.mem_cons,
    List.mem_singleton, List.not_mem_nil, or_false] at hs
  omega

theorem tie_entropies :
    entropyFormula Real.log tieWords 0 tieCandidates = splitEntropy Real.log 24700 25300 ∧
    entropyFormula Real.log tieWords 1 tieCandidates = splitEntropy Real.log 24701 25299 ∧
    entropyFormula Real.log tieWords 2 tieCandidates = splitEntropy Real.log 24702 25298 := by
  obtain ⟨a1, a2, a3, a4, b1, b2, b3, b4, c1, c2, c3, c4⟩ := tie_patterns
  refine ⟨?_, ?_, ?_⟩
  · apply entropyFormula_two Real.log tieWords 0 tieCandidates 18 0 24700 25300 (by decide)
      (by decide) (by decide) (by decide) (by decide) tieCandidates_length
    intro t
    rw [tie_bucketCount 0 t 18 0 0 0 a1 a2 a3 a4]
    by_cases h18 : t = 18
    · subst h18
      rfl
    · by_cases h0 : t = 0
      · subst h0
        rfl
      · rw [if_neg h18, if_neg h0]
        split_ifs <;> omega
  · apply entropyFormula_two Real.log tieWords 1 tieCandidates 6 0 24701 25299 (by decide)
      (by decide) (by decide) (by decide) (by decide) tieCandidates_length
    intro t
    rw [tie_bucketCount 1 t 6 6 0 0 b1 b2 b3 b4]
    by_cases h6 : t = 6
    · subst h6
      rfl
    · by_cases h0 : t = 0
      · subst h0
        rfl
      · rw [if_neg h6, if_neg h0]
        split_ifs <;> omega
  · apply entropyFormula_two Real.log tieWords 2 tieCandidates 2 0 24702 25298 (by decide)
      (by decide) (by decide) (by decide) (by decide) tieCandidates_length
    intro t
    rw [tie_bucketCount 2 t 2 2 2 0 c1 c2 c3 c4]
    by_cases h2 : t = 2
    · subst h2
      rfl
    · by_cases h0 : t = 0
      · subst h0
        rfl
      · rw [if_neg h2, if_neg h0]
        split_ifs <;> omega

/-! ### The order of the list `rankGuesses` returns -/

theorem entropyOrder_total {α : Type} [LinearOrderedField α] (composite : Option String → α)
    (dict : List String) (a b : InfoGuess α) :
    entropyOrder composite dict a b ≤ 0 ∨ entropyOrder composite dict b a ≤ 0 := by
  unfold entropyOrder
  have hs : abs (a.entropy - b.entropy) = abs (b.entropy - a.entropy) := abs_sub_comm _ _
  simp only [hs]
  by_cases h : abs (b.entropy - a.entropy) < 1 / 1000000
  · simp only [h, if_true]
    rcases le_total (composite dict[a.wordIndex]?) (composite dict[b.wordIndex]?) with h1 | h1
    · right
      linarith
    · left
      linarith
  · simp only [h, if_false]
    rcases le_total a.entropy b.entropy with h1 | h1
    · right
      linarith
    · left
      linarith

/-- An entry that the comparator leaves before another one satisfies the
order property of the specification with it. -/
theorem rankedBefore_of_order {α : Type} [LinearOrderedField α]
    (composite : Option String → α) (dict : List String) (a b : InfoGuess α)
    (ha : a.word = dict[a.wordIndex]?) (hb : b.word = dict[b.wordIndex]?)
    (h : entropyOrder composite dict a b ≤ 0) : RankedBefore composite a b := by
  unfold entropyOrder at h
  unfold RankedBefore
  rw [ha, hb]
  by_cases h1 : abs (b.entropy - a.entropy) < 1 / 1000000
  · simp only [h1, if_true] at h
    right
    rw [abs_sub_comm]
    exact ⟨h1, by linarith⟩
  · simp only [h1, if_false] at h
    left
    have h2 := not_lt.mp h1
    rw [abs_of_nonpos h] at h2
    linarith

theorem pairwise_orderedInsert {β : Type} (r : β → β → Prop) [DecidableRel r] (a : β)
    (l : List β) (hl : List.Pairwise r l) (htot : ∀ x ∈ l, r a x ∨ r x a)
    (htr : ∀ x ∈ l, ∀ y ∈ l, r a x → r x y → r a y) :
    List.Pairwise r (List.orderedInsert r a l) := by
  induction l with
  | nil => exact List.pairwise_singleton r a
  | cons b t ih =>
    rw [List.orderedInsert]
    have hb := List.pairwise_cons.mp hl
    by_cases hab : r a b
    · rw [if_pos hab]
      refine List.pairwise_cons.mpr ⟨fun x hx => ?_, hl⟩
      rcases List.mem_cons.mp hx with h | h
      · rw [h]
        exact hab
      · exact htr b (List.mem_cons_self _ _) x (List.mem_cons_of_mem _ h) hab (hb.1 x h)
    · rw [if_neg hab]
      have hba : r b a := (htot b (List.mem_cons_self _ _)).resolve_left hab
      refine List.pairwise_cons.mpr ⟨fun x hx => ?_, ?_⟩
      · rcases (List.mem_orderedInsert r).mp hx with h | h
        · rw [h]
          exact hba
        · exact hb.1 x h
      · exact ih hb.2 (fun x hx => htot x (List.mem_cons_of_mem _ hx))
          (fun x hx y hy => htr x (List.mem_cons_of_mem _ hx) y (List.mem_cons_of_mem _ hy))

theorem pairwise_insertionSort {β : Type} (r : β → β → Prop) [DecidableRel r] (l : List β)
    (htot : ∀ x ∈ l, ∀ y ∈ l, r x y ∨ r y x)
    (htr : ∀ x ∈ l, ∀ y ∈ l, ∀ z ∈ l, r x y → r y z → r x z) :
    List.Pairwise r (List.insertionSort r l) := by
  induction l with
  | nil => exact List.Pairwise.nil
  | cons a t ih =>
    have hmem : ∀ x, x ∈ List.insertionSort r t → x ∈ t := fun x hx =>
      (List.mem_insertionSort r).mp hx
    apply pairwise_orderedInsert r a _
      (ih (fun x hx y hy => htot x (List.mem_cons_of_mem _ hx) y (List.mem_cons_of_mem _ hy))
        (fun x hx y hy z hz => htr x (List.mem_cons_of_mem _ hx) y (List.mem_cons_of_mem _ hy)
          z (List.mem_cons_of_mem _ hz)))
    · intro x hx
      exact htot a (List.mem_cons_self _ _) x (List.mem_cons_of_mem _ (hmem x hx))
    · intro x hx y hy
      exact htr a (List.mem_cons_self _ _) x (List.mem_cons_of_mem _ (hmem x hx)) y
        (List.mem_cons_of_mem _ (hmem y hy))

/-- The comparator is transitive on entries whose entropies are equal
whenever they are within the threshold of each other. -/
theorem entropyOrder_trans {α : Type} [LinearOrderedField α] (composite : Option String → α)
    (dict : List String) (x y z : InfoGuess α)
    (hxy : abs (y.entropy - x.entropy) < 1 / 1000000 → x.entropy = y.entropy)
    (hyz : abs (z.entropy - y.entropy) < 1 / 1000000 → y.entropy = z.entropy)
    (h1 : entropyOrder composite dict x y ≤ 0) (h2 : entropyOrder composite dict y z ≤ 0) :
    entropyOrder composite dict x z ≤ 0 := by
  have heps : (0 : α) < 1 / 1000000 := by norm_num
  unfold entropyOrder at *
  by_cases c1 : abs (y.entropy - x.entropy) < 1 / 1000000
  · have e1 := hxy c1
    simp only [c1, if_true] at h1
    by_cases c2 : abs (z.entropy - y.entropy) < 1 / 1000000
    · have e2 := hyz c2
      simp only [c2, if_true] at h2
      have c3 : abs (z.entropy - x.entropy) < 1 / 1000000 := by
        rw [e1]
        exact c2
      simp only [c3, if_true]
      linarith
    · simp only [c2, if_false] at h2
      have c3 : ¬ abs (z.entropy - x.entropy) < 1 / 1000000 := by
        rw [e1]
        exact c2
      simp only [c3, if_false]
      rw [e1]
      exact h2
  · simp only [c1, if_false] at h1
    have a1 := not_lt.mp c1
    rw [abs_of_nonpos h1] at a1
    by_cases c2 : abs (z.entropy - y.entropy) < 1 / 1000000
    · have e2 := hyz c2
      have c3 : ¬ abs (z.entropy - x.entropy) < 1 / 1000000 := by
        rw [← e2]
        exact c1
      simp only [c3, if_false]
      rw [← e2]
      exact h1
    · simp only [c2, if_false] at h2
      have a2 := not_lt.mp c2
      rw [abs_of_nonpos h2] at a2
      have hle : z.entropy - x.entropy ≤ 0 := by linarith
      have c3 : ¬ abs (z.entropy - x.entropy) < 1 / 1000000 := by
        rw [abs_of_nonpos hle]
        linarith
      simp only [c3, if_false]
      exact hle

theorem map_eq_three {β : Type} (f : β → Nat) (l : List β) (x y z : Nat)
    (h : l.map f = [x, y, z]) : ∃ a b c, l = [a, b, c] ∧ f a = x ∧ f b = y ∧ f c = z := by
  match l, h with
  | [a, b, c], h =>
    simp only [List.map_cons, List.map_nil, List.cons.injEq, and_true] at h
    exact ⟨a, b, c, rfl, h.1, h.2.1, h.2.2⟩

/-! ### The worker computes the patterns of the engine -/

theorem flatEncoded_getD (ws : List (List Nat)) :
    ∀ (g i : Nat), g < ws.length → i < 5 →
      (flatEncoded ws).getD (g * 5 + i) 0 = (ws.getD g []).getD i 0 := by
  induction ws with
  | nil =>
    intro g i hg _
    exact absurd hg (Nat.not_lt_zero _)
  | cons enc rest ih =>
    intro g i hg hi
    cases g with
    | zero =>
      rw [Nat.zero_mul, Nat.zero_add]
      show ([enc.getD 0 0, enc.getD 1 0, enc.getD 2 0, enc.getD 3 0, enc.getD 4 0]
        ++ flatEncoded rest).getD i 0 = enc.getD i 0
      match i, hi with
      | 0, _ => rfl
      | 1, _ => rfl
      | 2, _ => rfl
      | 3, _ => rfl
      | 4, _ => rfl
    | succ g1 =>
      have hg1 : g1 < rest.length := Nat.lt_of_succ_lt_succ hg
      have e : (g1 + 1) * 5 + i = (g1 * 5 + i) + 5 := by ring
      rw [e]
      show ([enc.getD 0 0, enc.getD 1 0, enc.getD 2 0, enc.getD 3 0, enc.getD 4 0]
        ++ flatEncoded rest).getD (g1 * 5 + i + 5) 0 = (rest.getD g1 []).getD i 0
      rw [← ih g1 i hg1 hi]
      rfl

theorem range_five : List.range 5 = [0, 1, 2, 3, 4] := rfl

theorem greenStep_eq (g s : List Nat) (st : List Nat × List Nat) (i : Nat) :
    greenStep g s st i = Worker.markGreen (g.getD i 0) (s.getD i 0) i st := rfl

theorem yellowStep_eq (g : List Nat) (st : List Nat × List Nat) (i : Nat) :
    yellowStep g st i = Worker.markYellow (g.getD i 0) i st := by
  unfold yellowStep Worker.markYellow
  by_cases h1 : st.2.getD i 0 ≠ 2
  · by_cases h2 : st.1.getD (g.getD i 0) 0 > 0
    · rw [if_pos h1, if_pos h2, if_pos ⟨h1, h2⟩]
    · rw [if_pos h1, if_neg h2, if_neg (fun h => h2 h.2)]
  · rw [if_neg h1, if_neg (fun h => h1 h.1)]

/-- The unrolled pattern routine of the worker on the flat buffer is the
pattern routine of the engine on the two encoded words. -/
theorem worker_computePatternId (ws : List (List Nat)) (g s : Nat) (hg : g < ws.length)
    (hs : s < ws.length) (sc pat : List Nat) :
    Worker.computePatternId (g * 5) (s * 5) (flatEncoded ws) sc pat
      = computePatternId (ws.getD g []) (ws.getD s []) sc pat := by
  have g0 := flatEncoded_getD ws g 0 hg (by decide)
  have g1 := flatEncoded_getD ws g 1 hg (by decide)
  have g2 := flatEncoded_getD ws g 2 hg (by decide)
  have g3 := flatEncoded_getD ws g 3 hg (by decide)
  have g4 := flatEncoded_getD ws g 4 hg (by decide)
  have s0 := flatEncoded_getD ws s 0 hs (by decide)
  have s1 := flatEncoded_getD ws s 1 hs (by decide)
  have s2 := flatEncoded_getD ws s 2 hs (by decide)
  have s3 := flatEncoded_getD ws s 3 hs (by decide)
  have s4 := flatEncoded_getD ws s 4 hs (by decide)
  rw [Nat.add_zero] at g0 s0
  simp only [Worker.computePatternId, g0, g1, g2, g3, g4, s0, s1, s2, s3, s4, computePatternId,
    runPasses, markYellows, markGreens, tallySecret, range_five, List.foldl_cons,
    List.foldl_nil, greenStep_eq, yellowStep_eq, encodePattern_eq, resetCounts]

theorem worker_bucketEntropy {α : Type} [LinearOrderedField α] (ln : α → α) (n : Nat)
    (buckets : List Nat) : Worker.bucketEntropy ln n buckets = bucketEntropy ln n buckets := rfl

/-- The bucket loop of the worker is the bucket loop of the engine. -/
theorem worker_bucketLoop (ws : List (List Nat)) (g : Nat) (hg : g < ws.length) :
    ∀ (l : List Nat) (bufs : List Nat × List Nat × List Nat), (∀ s ∈ l, s < ws.length) →
      bucketLoop (some ws) g l bufs
        = some (Worker.bucketLoop (flatEncoded ws) (g * 5) l bufs) := by
  intro l
  induction l with
  | nil =>
    intro bufs _
    rfl
  | cons s rest ih =>
    intro bufs hl
    obtain ⟨b, sc, pat⟩ := bufs
    have hs : s < ws.length := hl s (List.mem_cons_self _ _)
    rw [bucketLoop_cons ws g s rest b sc pat _ _ (getElem?_words ws g hg)
      (getElem?_words ws s hs), ih _ (fun x hx => hl x (List.mem_cons_of_mem _ hx))]
    rw [Worker.bucketLoop, worker_computePatternId ws g s hg hs sc pat]

theorem entropyFormula_single {α : Type} [LinearOrderedField α] (ln : α → α)
    (ws : List (List Nat)) (g : Nat) (remaining : List Nat) (h : remaining.length = 1) :
    entropyFormula ln ws g remaining = 0 := by
  unfold entropyFormula
  apply Finset.sum_eq_zero
  intro p _
  by_cases hc : 0 < bucketCount ws g remaining p
  · have hle : bucketCount ws g remaining p ≤ remaining.length := List.countP_le_length _
    have h1 : bucketCount ws g remaining p = 1 := by omega
    rw [if_pos hc, h1, h, sub_self, mul_zero]
  · rw [if_neg hc]

/-- The entropy loop of the worker yields, guess by guess, the entropies of
the loop of `rankGuesses` for the list of all indices as candidates. -/
theorem worker_entropyLoop {α : Type} [LinearOrderedField α] (ln : α → α)
    (ws : List (List Nat)) (hok : WordsOk ws) :
    ∀ (pool b pat : List Nat), (∀ g ∈ pool, g < ws.length) → b.length = 243 →
      pat.length = 5 →
      rankLoop ln (some ws) (List.range ws.length) pool (b, zeroCounts, pat)
        = some (List.zipWith (fun g e => { wordIndex := g, entropy := e, word := none }) pool
            (Worker.entropyLoop ln (flatEncoded ws) ws.length pool (b, zeroCounts, pat))) := by
  have hrange : ∀ s ∈ List.range ws.length, s < ws.length := fun s hs => List.mem_range.mp hs
  intro pool
  induction pool with
  | nil =>
    intro b pat _ _ _
    rfl
  | cons g rest ih =>
    intro b pat hpool hb hp
    have hg : g < ws.length := hpool g (List.mem_cons_self _ _)
    obtain ⟨b1, pat1, hrun, hb1, hp1, hcount⟩ :=
      bucketLoop_spec ws hok g hg (List.range ws.length) (fillZero b) pat hrange
        (by rw [length_fillZero]; exact hb) hp
    have hw := worker_bucketLoop ws g hg (List.range ws.length) (fillZero b, zeroCounts, pat)
      hrange
    have hwb : Worker.bucketLoop (flatEncoded ws) (g * 5) (List.range ws.length)
        (fillZero b, zeroCounts, pat) = (b1, zeroCounts, pat1) :=
      Option.some.inj (hw.symm.trans hrun)
    have hent : (if (List.range ws.length).length > 1 then
          bucketEntropy ln (List.range ws.length).length b1 else 0)
        = Worker.bucketEntropy ln ws.length b1 := by
      rw [worker_bucketEntropy, List.length_range]
      by_cases h1 : ws.length > 1
      · rw [if_pos h1]
      · rw [if_neg h1]
        have hlen1 : (List.range ws.length).length = 1 := by
          rw [List.length_range]
          omega
        have hc := bucketEntropy_counts ln ws g (List.range ws.length) b1 (fun p hp243 => by
          rw [hcount (fun q _ => by rw [getD_fillZero, hlen1]; decide) p hp243, getD_fillZero,
            Nat.zero_add])
        rw [List.length_range] at hc
        rw [hc, entropyFormula_single ln ws g _ hlen1]
    rw [rankLoop_cons ln (some ws) (List.range ws.length) g rest b zeroCounts pat b1 zeroCounts
      pat1 hrun, ih b1 pat1 (fun x hx => hpool x (List.mem_cons_of_mem _ hx)) hb1 hp1, hent]
    rw [Worker.entropyLoop, hwb]
    rfl

theorem worker_entropyLoop_length {α : Type} [LinearOrderedField α] (ln : α → α)
    (enc : List Nat) (n : Nat) :
    ∀ (pool : List Nat) (bufs : List Nat × List Nat × List Nat),
      (Worker.entropyLoop ln enc n pool bufs).length = pool.length := by
  intro pool
  induction pool with
  | nil =>
    intro bufs
    rfl
  | cons g rest ih =>
    intro bufs
    obtain ⟨b, sc, pat⟩ := bufs
    rw [Worker.entropyLoop, List.length_cons, List.length_cons, ih]

theorem map_range_getD {β γ : Type} (f : Nat → β → γ) (l : List β) (d : β) :
    (List.range l.length).map (fun i => f i (l.getD i d)) = List.zipWith f (List.range l.length) l := by
  apply List.ext_getElem
  · rw [List.length_map, List.length_zipWith, List.length_range, Nat.min_self]
  · intro i h1 h2
    have hi : i < l.length := by
      rw [List.length_map, List.length_range] at h1
      exact h1
    rw [List.getElem_map, List.getElem_zipWith, List.getElem_range, List.getD_eq_getElem?_getD,
      List.getElem?_eq_getElem hi]
    rfl

/-! ### The first-guess cache -/

theorem wordsOk_encode (dict : List String) (hlow : ∀ w ∈ dict, LowerWord w) :
    WordsOk (dict.map encodeWord) := by
  intro enc henc
  obtain ⟨w, hw, rfl⟩ := List.mem_map.mp henc
  exact ⟨encodeWord_length w, encodeWord_lt w (hlow w hw)⟩

/-! ### The round trip of the entropy cache -/

theorem plain_of_length_five (l : List Nat) (h : l.length = 5) :
    [l.getD 0 0, l.getD 1 0, l.getD 2 0, l.getD 3 0, l.getD 4 0] = l := by
  match l, h with
  | [a, b, c, d, e], _ => rfl

theorem encodeWord_lt_256 (w : String) : ∀ x ∈ encodeWord w, x < 256 := by
  intro x hx
  unfold encodeWord at hx
  obtain ⟨i, _, rfl⟩ := List.mem_map.mp hx
  split
  · exact Nat.mod_lt _ (by decide)
  · decide

theorem restore_encodeWord (w : String) :
    [(encodeWord w).getD 0 0 % 256, (encodeWord w).getD 1 0 % 256, (encodeWord w).getD 2 0 % 256,
      (encodeWord w).getD 3 0 % 256, (encodeWord w).getD 4 0 % 256] = encodeWord w := by
  have hlen := encodeWord_length w
  have hlt := encodeWord_lt_256 w
  match hw : encodeWord w, hlen, hlt with
  | [a, b, c, d, e], _, hlt =>
    have ha := hlt a (by simp)
    have hb := hlt b (by simp)
    have hc := hlt c (by simp)
    have hd := hlt d (by simp)
    have he := hlt e (by simp)
    show [a % 256, b % 256, c % 256, d % 256, e % 256] = [a, b, c, d, e]
    rw [Nat.mod_eq_of_lt ha, Nat.mod_eq_of_lt hb, Nat.mod_eq_of_lt hc, Nat.mod_eq_of_lt hd,
      Nat.mod_eq_of_lt he]

theorem serialize_words (dict : List String) :
    (dict.map encodeWord).map (fun enc =>
      [enc.getD 0 0, enc.getD 1 0, enc.getD 2 0, enc.getD 3 0, enc.getD 4 0])
      = dict.map encodeWord := by
  rw [List.map_map]
  apply List.map_congr_left
  intro w _
  exact plain_of_length_five _ (encodeWord_length w)

theorem restore_words (dict : List String) :
    (dict.map encodeWord).map (fun arr =>
      [arr.getD 0 0 % 256, arr.getD 1 0 % 256, arr.getD 2 0 % 256, arr.getD 3 0 % 256,
        arr.getD 4 0 % 256])
      = dict.map encodeWord := by
  rw [List.map_map]
  apply List.map_congr_left
  intro w _
  exact restore_encodeWord w

/-! ### The loops of `buildTables` -/

theorem letterIndex?_lower (word : String) (hw : LowerWord word) (i : Nat) (hi : i < 5) :
    ∃ code, letterIndex? word i = some code ∧ code < 26 := by
  have hd : i < word.data.length := by rw [hw.1]; exact hi
  have hc := hw.2 word.data[i] (List.getElem_mem _)
  refine ⟨word.data[i].toNat - 97, ?_, ?_⟩
  · unfold letterIndex?
    rw [List.getElem?_eq_getElem hd]
    exact if_pos hc
  · obtain ⟨h1, h2⟩ := hc
    omega

theorem letterIndex?_lt (word : String) (i code : Nat) (h : letterIndex? word i = some code) :
    code < 26 := by
  unfold letterIndex? at h
  split at h
  · rename_i c _
    split at h
    · rename_i hc
      have e : c.toNat - 97 = code := Option.some.inj h
      omega
    · exact absurd h (by simp)
  · exact absurd h (by simp)

theorem get?_bumpBigram (bigram : JsObject Nat) (pair K : String) :
    (bumpBigram bigram pair).get? K
      = if K = pair then some ((bigram.get? K).getD 0 + 1) else bigram.get? K := by
  unfold bumpBigram
  cases h : bigram.get? pair with
  | none =>
    simp only [JsObject.get?_set]
    by_cases hk : K = pair
    · rw [if_pos hk, if_pos hk, hk, h]
      rfl
    · rw [if_neg hk, if_neg hk]
  | some v =>
    simp only [JsObject.get?_set]
    by_cases hk : K = pair
    · rw [if_pos hk, if_pos hk, hk, h]
      rfl
    · rw [if_neg hk, if_neg hk]

theorem cell_set (positional : List (List Nat)) (code i c j : Nat)
    (hcode : code < positional.length) (hi : i < (positional.getD code []).length) :
    cell (positional.set code ((positional.getD code []).set i
        ((positional.getD code []).getD i 0 + 1))) c j
      = cell positional c j + if c = code ∧ j = i then 1 else 0 := by
  unfold cell
  rw [getD_set_any]
  by_cases hc : c = code
  · subst hc
    rw [if_pos ⟨rfl, hcode⟩, getD_set]
    by_cases hj : j = i
    · subst hj
      rw [if_pos ⟨rfl, hi⟩, if_pos ⟨rfl, rfl⟩]
    · rw [if_neg (fun h => hj h.1), if_neg (fun h => hj h.2), Nat.add_zero]
  · rw [if_neg (fun h => hc h.1), if_neg (fun h => hc h.1), Nat.add_zero]

theorem getD_set_bool (l : List Bool) (k j : Nat) (v : Bool) :
    (l.set k v).getD j false = if j = k ∧ k < l.length then v else l.getD j false :=
  getD_set_any l k j v false

/-- One pass of the loop body for a letter of code `code` at position `i`. -/
theorem countLetter_step (word : String) (i code : Nat)
    (hcode : letterIndex? word i = some code) (hi : i < 5) (acc : TableAcc)
    (seen : List Bool) (hs : TableShape acc) (hseen : seen.length = 26) :
    ∃ acc1 seen1, countLetter word (acc, seen) i = some (acc1, seen1) ∧ TableShape acc1 ∧
      seen1.length = 26 ∧
      (∀ c j, cell acc1.positional c j
        = cell acc.positional c j + if c = code ∧ j = i then 1 else 0) ∧
      (∀ c, seen1.getD c false = (seen.getD c false || decide (c = code))) ∧
      (∀ c, acc1.overall.getD c 0
        = if seen.getD c false = false ∧ c = code then (acc.overall.getD c 0 + 1) % 65536
          else acc.overall.getD c 0) ∧
      (∀ K, acc1.bigram.get? K
        = if i < 4 ∧ K = charAt word i ++ charAt word (i + 1) then
            some ((acc.bigram.get? K).getD 0 + 1)
          else acc.bigram.get? K) := by
  have hc26 : code < 26 := letterIndex?_lt word i code hcode
  obtain ⟨hp, hrows, ho⟩ := hs
  refine ⟨_, _, by unfold countLetter; rw [hcode], ⟨?_, ?_, ?_⟩, ?_, ?_, ?_, ?_, ?_⟩
  · show (List.set _ _ _).length = 26
    rw [List.length_set]
    exact hp
  · intro c hc
    show ((List.set acc.positional code _).getD c []).length = 5
    rw [getD_set_any]
    split
    · rw [List.length_set]
      exact hrows code hc26
    · exact hrows c hc
  · show (if seen.getD code false then acc.overall else u16inc acc.overall code).length = 26
    split
    · exact ho
    · rw [length_u16inc]
      exact ho
  · show (if seen.getD code false then seen else seen.set code true).length = 26
    split
    · exact hseen
    · rw [List.length_set]
      exact hseen
  · intro c j
    exact cell_set acc.positional code i c j (by rw [hp]; exact hc26)
      (by rw [hrows code hc26]; exact hi)
  · intro c
    show (if seen.getD code false then seen else seen.set code true).getD c false = _
    by_cases hsn : seen.getD code false = true
    · rw [if_pos hsn]
      by_cases hcc : c = code
      · subst hcc
        rw [hsn]
        rfl
      · rw [decide_eq_false hcc, Bool.or_false]
    · rw [if_neg hsn, getD_set_bool, hseen]
      by_cases hcc : c = code
      · rw [if_pos ⟨hcc, hc26⟩, decide_eq_true hcc, Bool.or_true]
      · rw [if_neg (fun h => hcc h.1), decide_eq_false hcc, Bool.or_false]
  · intro c
    show (if seen.getD code false then acc.overall else u16inc acc.overall code).getD c 0 = _
    by_cases hsn : seen.getD code false = true
    · rw [if_pos hsn, if_neg]
      intro h
      rw [h.2, hsn] at h
      exact absurd h.1 (by decide)
    · rw [if_neg hsn, getD_u16inc, ho]
      by_cases hcc : c = code
      · subst hcc
        rw [if_pos ⟨rfl, hc26⟩, if_pos ⟨by simpa using hsn, rfl⟩]
      · rw [if_neg (fun h => hcc h.1), if_neg (fun h => hcc h.2)]
  · intro K
    show (if i < 4 then bumpBigram acc.bigram (charAt word i ++ charAt word (i + 1))
      else acc.bigram).get? K = _
    by_cases h4 : i < 4
    · rw [if_pos h4, get?_bumpBigram]
      by_cases hk : K = charAt word i ++ charAt word (i + 1)
      · rw [if_pos hk, if_pos ⟨h4, hk⟩]
      · rw [if_neg hk, if_neg (fun h => hk h.2)]
    · rw [if_neg h4, if_neg (fun h => h4 h.1)]

theorem addCount_zero (entry : Option Nat) : addCount entry 0 = entry := rfl

theorem addCount_step (entry : Option Nat) (m : Nat) (cond : Prop) [Decidable cond] :
    addCount (if cond then some (entry.getD 0 + 1) else entry) m
      = addCount entry (m + if cond then 1 else 0) := by
  unfold addCount
  by_cases hc : cond
  · rw [if_pos hc, if_pos hc]
    by_cases hm : m = 0
    · rw [if_pos hm, hm, if_neg (by omega)]
    · rw [if_neg hm, if_neg (by omega), Option.getD_some]
      congr 1
      omega
  · rw [if_neg hc, if_neg hc, Nat.add_zero]

theorem addCount_add (entry : Option Nat) (m k : Nat) :
    addCount (addCount entry m) k = addCount entry (m + k) := by
  unfold addCount
  by_cases hm : m = 0
  · rw [if_pos hm, hm, Nat.zero_add]
  · rw [if_neg hm]
    by_cases hk : k = 0
    · rw [if_pos hk, hk, Nat.add_zero, if_neg hm]
    · rw [if_neg hk, if_neg (by omega), Option.getD_some]
      congr 1
      omega

/-- The loop over the positions `l` of a word: what it adds to the tables. -/
theorem countLetters_spec (word : String) (hw : LowerWord word) :
    ∀ (l : List Nat), (∀ i ∈ l, i < 5) → ∀ (acc : TableAcc) (seen : List Bool),
      TableShape acc → seen.length = 26 →
      ∃ acc2 seen2, l.foldlM (countLetter word) (acc, seen) = some (acc2, seen2) ∧
        TableShape acc2 ∧ seen2.length = 26 ∧
        (∀ c j, cell acc2.positional c j
          = cell acc.positional c j
            + l.countP (fun i => i = j ∧ letterIndex? word i = some c)) ∧
        (∀ c, seen2.getD c false
          = (seen.getD c false || l.any (fun i => letterIndex? word i == some c))) ∧
        (∀ c, acc2.overall.getD c 0
          = if seen.getD c false = false ∧ l.any (fun i => letterIndex? word i == some c) = true
            then (acc.overall.getD c 0 + 1) % 65536 else acc.overall.getD c 0) ∧
        (∀ K, acc2.bigram.get? K
          = addCount (acc.bigram.get? K)
              (l.countP (fun i => i < 4 ∧ K = charAt word i ++ charAt word (i + 1)))) := by
  intro l
  induction l with
  | nil =>
    intro _ acc seen hs hseen
    refine ⟨acc, seen, rfl, hs, hseen, fun c j => ?_, fun c => ?_, fun c => ?_, fun K => ?_⟩
    · rw [List.countP_nil, Nat.add_zero]
    · rw [List.any_nil, Bool.or_false]
    · rw [List.any_nil, if_neg (fun h => absurd h.2 (by decide))]
    · rw [List.countP_nil, addCount_zero]
  | cons i rest ih =>
    intro hl acc seen hs hseen
    have hi : i < 5 := hl i (List.mem_cons_self _ _)
    obtain ⟨code, hcode, _⟩ := letterIndex?_lower word hw i hi
    obtain ⟨acc1, seen1, hstep, hs1, hseen1, hcell1, hsn1, hov1, hbg1⟩ :=
      countLetter_step word i code hcode hi acc seen hs hseen
    obtain ⟨acc2, seen2, hrun, hs2, hseen2, hcell2, hsn2, hov2, hbg2⟩ :=
      ih (fun x hx => hl x (List.mem_cons_of_mem _ hx)) acc1 seen1 hs1 hseen1
    have hmatch : ∀ c, (letterIndex? word i == some c) = decide (c = code) := by
      intro c
      rw [hcode]
      by_cases hcc : c = code
      · subst hcc
        rw [decide_eq_true rfl]
        exact beq_self_eq_true _
      · rw [decide_eq_false hcc]
        exact beq_eq_false_iff_ne.mpr (fun h => hcc (Option.some.inj h).symm)
    refine ⟨acc2, seen2, ?_, hs2, hseen2, fun c j => ?_, fun c => ?_, fun c => ?_, fun K => ?_⟩
    · rw [List.foldlM_cons, hstep]
      exact hrun
    · rw [hcell2, hcell1, List.countP_cons, Nat.add_assoc]
      congr 1
      rw [Nat.add_comm]
      congr 1
      by_cases hcj : c = code ∧ j = i
      · rw [if_pos hcj, if_pos]
        rw [decide_eq_true_eq]
        exact ⟨hcj.2.symm, by rw [hcode, hcj.1]⟩
      · rw [if_neg hcj, if_neg]
        rw [decide_eq_true_eq]
        intro h
        apply hcj
        rw [hcode] at h
        exact ⟨(Option.some.inj h.2).symm, h.1.symm⟩
    · rw [hsn2, hsn1, List.any_cons, hmatch, Bool.or_assoc]
    · rw [hov2, hov1, hsn1, List.any_cons, hmatch]
      by_cases hcc : c = code
      · subst hcc
        rw [decide_eq_true rfl, Bool.or_true, Bool.true_or]
        rw [if_neg (fun h => absurd h.1 (by decide))]
        by_cases hsn : seen.getD c false = false
        · rw [if_pos ⟨hsn, rfl⟩, if_pos ⟨hsn, rfl⟩]
        · rw [if_neg (fun h => hsn h.1), if_neg (fun h => hsn h.1)]
      · rw [decide_eq_false hcc, Bool.or_false, Bool.false_or,
          if_neg (fun h : seen.getD c false = false ∧ c = code => hcc h.2)]
    · rw [hbg2, hbg1, addCount_step, List.countP_cons]
      congr 1
      congr 1
      by_cases hk : i < 4 ∧ K = charAt word i ++ charAt word (i + 1)
      · rw [if_pos hk, if_pos (decide_eq_true hk)]
      · rw [if_neg hk, if_neg]
        rw [decide_eq_true_eq]
        exact hk

theorem countP_range_eq (Q : Nat → Prop) [DecidablePred Q] (n j : Nat) :
    (List.range n).countP (fun i => decide (i = j ∧ Q i)) = if j < n ∧ Q j then 1 else 0 := by
  induction n with
  | zero =>
    rw [List.range_zero, List.countP_nil, if_neg (fun h => absurd h.1 (Nat.not_lt_zero _))]
  | succ n ih =>
    rw [List.range_succ, List.countP_append, ih, List.countP_singleton]
    by_cases hj : j = n
    · subst hj
      rw [if_neg (fun h => absurd h.1 (Nat.lt_irrefl _)), Nat.zero_add]
      by_cases hq : Q j
      · rw [if_pos (decide_eq_true ⟨rfl, hq⟩), if_pos ⟨Nat.lt_succ_self _, hq⟩]
      · rw [if_neg, if_neg (fun h => hq h.2)]
        rw [decide_eq_true_eq]
        exact fun h => hq h.2
    · have e1 : (if decide (n = j ∧ Q n) = true then 1 else 0) = 0 :=
        if_neg (by rw [decide_eq_true_eq]; exact fun h => hj h.1.symm)
      rw [e1, Nat.add_zero]
      by_cases h : j < n ∧ Q j
      · rw [if_pos h, if_pos ⟨by omega, h.2⟩]
      · rw [if_neg h, if_neg]
        intro h2
        exact h ⟨by omega, h2.2⟩

theorem getD_replicate_false (n c : Nat) : (List.replicate n false).getD c false = false := by
  simp only [List.getD_eq_getElem?_getD, List.getElem?_replicate]
  split <;> rfl

theorem pairCount_eq (word K : String) :
    (List.range 5).countP (fun i => decide (i < 4 ∧ K = charAt word i ++ charAt word (i + 1)))
      = pairCount word K := by
  unfold pairCount
  have e : List.range 5 = List.range 4 ++ [4] := List.range_succ 4
  rw [e, List.countP_append, List.countP_singleton,
    if_neg (by rw [decide_eq_true_eq]; exact fun h => absurd h.1 (by decide)), Nat.add_zero]
  apply List.countP_congr
  intro k hk
  have hk4 : k < 4 := List.mem_range.mp hk
  simp only [decide_eq_true_eq]
  constructor
  · exact fun h => h.2.symm
  · exact fun h => ⟨hk4, h.symm⟩

/-- The loop body for one word: what it adds to the tables. -/
theorem countWord_spec (word : String) (hw : LowerWord word) (acc : TableAcc)
    (hs : TableShape acc) :
    ∃ acc2, countWord acc word = some acc2 ∧ TableShape acc2 ∧
      (∀ c j, cell acc2.positional c j
        = cell acc.positional c j + if j < 5 ∧ letterIndex? word j = some c then 1 else 0) ∧
      (∀ c, acc2.overall.getD c 0
        = if hasLetter word c = true then (acc.overall.getD c 0 + 1) % 65536
          else acc.overall.getD c 0) ∧
      (∀ K, acc2.bigram.get? K = addCount (acc.bigram.get? K) (pairCount word K)) := by
  obtain ⟨acc2, seen2, hrun, hs2, _, hcell, _, hov, hbg⟩ :=
    countLetters_spec word hw (List.range 5) (fun i hi => List.mem_range.mp hi) acc
      (List.replicate 26 false) hs (List.length_replicate _ _)
  refine ⟨acc2, ?_, hs2, fun c j => ?_, fun c => ?_, fun K => ?_⟩
  · unfold countWord
    rw [hrun]
    rfl
  · rw [hcell, countP_range_eq (fun i => letterIndex? word i = some c) 5 j]
  · rw [hov, getD_replicate_false]
    by_cases h : hasLetter word c = true
    · rw [if_pos h, if_pos ⟨rfl, h⟩]
    · rw [if_neg h, if_neg (fun h2 => h h2.2)]
  · rw [hbg, pairCount_eq]

/-- The loop over the dictionary: what it adds to the tables. -/
theorem countWords_spec :
    ∀ (dict : List String), (∀ w ∈ dict, LowerWord w) → ∀ (acc : TableAcc), TableShape acc →
      ∃ acc2, dict.foldlM countWord acc = some acc2 ∧ TableShape acc2 ∧
        (∀ c j, cell acc2.positional c j
          = cell acc.positional c j
            + dict.countP (fun w => j < 5 ∧ letterIndex? w j = some c)) ∧
        (∀ c, acc.overall.getD c 0 + dict.countP (fun w => hasLetter w c) < 65536 →
          acc2.overall.getD c 0
            = acc.overall.getD c 0 + dict.countP (fun w => hasLetter w c)) ∧
        (∀ K, acc2.bigram.get? K
          = addCount (acc.bigram.get? K) ((dict.map (fun w => pairCount w K)).sum)) := by
  intro dict
  induction dict with
  | nil =>
    intro _ acc hs
    refine ⟨acc, rfl, hs, fun c j => ?_, fun c _ => ?_, fun K => ?_⟩
    · rw [List.countP_nil, Nat.add_zero]
    · rw [List.countP_nil, Nat.add_zero]
    · rw [List.map_nil, List.sum_nil, addCount_zero]
  | cons w rest ih =>
    intro hlow acc hs
    obtain ⟨acc1, hstep, hs1, hcell1, hov1, hbg1⟩ :=
      countWord_spec w (hlow w (List.mem_cons_self _ _)) acc hs
    obtain ⟨acc2, hrun, hs2, hcell2, hov2, hbg2⟩ :=
      ih (fun x hx => hlow x (List.mem_cons_of_mem _ hx)) acc1 hs1
    refine ⟨acc2, ?_, hs2, fun c j => ?_, fun c hc => ?_, fun K => ?_⟩
    · rw [List.foldlM_cons, hstep]
      exact hrun
    · rw [hcell2, hcell1, List.countP_cons, Nat.add_assoc]
      congr 1
      rw [Nat.add_comm]
      congr 1
      by_cases h : j < 5 ∧ letterIndex? w j = some c
      · rw [if_pos h, if_pos (decide_eq_true h)]
      · rw [if_neg h, if_neg]
        rw [decide_eq_true_eq]
        exact h
    · rw [List.countP_cons] at hc ⊢
      have h1 := hov1 c
      by_cases h : hasLetter w c = true
      · rw [if_pos h] at h1 hc ⊢
        rw [Nat.mod_eq_of_lt (by omega)] at h1
        rw [hov2 c (by rw [h1]; omega), h1]
        omega
      · rw [if_neg h] at h1 hc ⊢
        rw [hov2 c (by rw [h1]; omega), h1]
        omega
    · rw [hbg2, hbg1, addCount_add, List.map_cons, List.sum_cons]

/-! ### The tables `buildTables` returns -/

theorem cell_initial (c j : Nat) : cell (List.replicate 26 (List.replicate 5 0)) c j = 0 := by
  unfold cell
  simp only [List.getD_eq_getElem?_getD, List.getElem?_replicate]
  split
  · simp only [Option.getD_some, List.getElem?_replicate]
    split <;> rfl
  · rfl

theorem tableShape_initial :
    TableShape { positional := List.replicate 26 (List.replicate 5 0),
                 overall := List.replicate 26 0, bigram := [] } := by
  refine ⟨List.length_replicate _ _, fun c hc => ?_, List.length_replicate _ _⟩
  show ((List.replicate 26 (List.replicate 5 0)).getD c []).length = 5
  simp only [List.getD_eq_getElem?_getD, List.getElem?_replicate, hc, if_true,
    Option.getD_some, List.length_replicate]

theorem pairCount_chars (word : String) (hw : LowerWord word) (x y : Char) :
    pairCount word (String.mk [x, y])
      = (List.range 4).countP (fun k => word.data[k]? = some x ∧ word.data[k + 1]? = some y) := by
  unfold pairCount
  apply List.countP_congr
  intro k hk
  have hk4 : k < 4 := List.mem_range.mp hk
  obtain ⟨a, ha, _⟩ := exists_char_at word hw.1 k (by omega)
  obtain ⟨b, hb, _⟩ := exists_char_at word hw.1 (k + 1) (by omega)
  rw [charAt_of_getElem? word k a ha, charAt_of_getElem? word (k + 1) b hb, ha, hb]
  simp only [decide_eq_true_eq, Option.some.injEq]
  have e : String.singleton a ++ String.singleton b = String.mk [a, b] := rfl
  rw [e]
  constructor
  · intro h
    have h2 : [a, b] = [x, y] := congrArg String.data h
    rw [List.cons.injEq, List.cons.injEq] at h2
    exact ⟨h2.1, h2.2.1⟩
  · intro h
    rw [h.1, h.2]

/-- C27: for a dictionary of fewer than 65536 lowercase five-letter words,
`buildTables` returns tables with `wordCount` the length of the dictionary;
`positional[c][i]` the number of words whose letter at position `i` has code
`c`; `overall[c]` the number of words that hold the letter of code `c`; and
`bigram[pair]` the total number of positions `k` in `0..3`, over all words,
at which the word has the two characters of the pair at `k` and `k + 1`, the
entry being absent when that number is 0. -/
theorem buildTables_counts (st : TablesState) (dictionary : List String)
    (hlow : ∀ w ∈ dictionary, LowerWord w) (hlen : dictionary.length < 65536) :
    ∃ tables st1, buildTables st dictionary = some (tables, st1) ∧ st1.tables = some tables ∧
      tables.wordCount = dictionary.length ∧
      tables.positional.length = 26 ∧ tables.overall.length = 26 ∧
      (∀ c i, i < 5 →
        cell tables.positional c i = dictionary.countP (fun w => letterIndex? w i = some c)) ∧
      (∀ c, tables.overall.getD c 0 = dictionary.countP (fun w => hasLetter w c)) ∧
      (∀ pair, tables.bigram.get? pair
        = if (dictionary.map (fun w => pairCount w pair)).sum = 0 then none
          else some ((dictionary.map (fun w => pairCount w pair)).sum)) ∧
      (∀ w ∈ dictionary, ∀ x y : Char,
        pairCount w (String.mk [x, y])
          = (List.range 4).countP
              (fun k => w.data[k]? = some x ∧ w.data[k + 1]? = some y)) := by
  obtain ⟨acc, hrun, hs, hcell, hov, hbg⟩ := countWords_spec dictionary hlow _ tableShape_initial
  refine ⟨_, _, by unfold buildTables; rw [hrun], rfl, rfl, hs.1, hs.2.2, fun c i hi => ?_,
    fun c => ?_, fun pair => ?_, fun w hw x y => pairCount_chars w (hlow w hw) x y⟩
  · show cell acc.positional c i = _
    rw [hcell, cell_initial, Nat.zero_add]
    apply List.countP_congr
    intro w _
    simp only [decide_eq_true_eq]
    exact ⟨fun h => h.2, fun h => ⟨hi, h⟩⟩
  · show acc.overall.getD c 0 = _
    have h0 : (List.replicate 26 0).getD c 0 = 0 := getD_zeroCounts c
    have hle : dictionary.countP (fun w => hasLetter w c) ≤ dictionary.length :=
      List.countP_le_length _
    rw [hov c (by rw [h0]; omega), h0, Nat.zero_add]
  · show acc.bigram.get? pair = _
    have hnone : JsObject.get? ([] : JsObject Nat) pair = none := rfl
    rw [hbg]
    show addCount (JsObject.get? ([] : JsObject Nat) pair) _ = _
    rw [hnone]
    unfold addCount
    split
    · rfl
    · rw [Option.getD_none, Nat.zero_add]

/-- Instance of C27: the dictionary `crane`, `slate`. -/
theorem buildTables_counts_witness :
    ∃ tables st1, buildTables initialTables ["crane", "slate"] = some (tables, st1) ∧
      st1.tables = some tables ∧
      tables.wordCount = ["crane", "slate"].length ∧
      tables.positional.length = 26 ∧ tables.overall.length = 26 ∧
      (∀ c i, i < 5 →
        cell tables.positional c i
          = ["crane", "slate"].countP (fun w => letterIndex? w i = some c)) ∧
      (∀ c, tables.overall.getD c 0 = ["crane", "slate"].countP (fun w => hasLetter w c)) ∧
      (∀ pair, tables.bigram.get? pair
        = if (["crane", "slate"].map (fun w => pairCount w pair)).sum = 0 then none
          else some ((["crane", "slate"].map (fun w => pairCount w pair)).sum)) ∧
      (∀ w ∈ ["crane", "slate"], ∀ x y : Char,
        pairCount w (String.mk [x, y])
          = (List.range 4).countP
              (fun k => w.data[k]? = some x ∧ w.data[k + 1]? = some y)) :=
  buildTables_counts initialTables ["crane", "slate"] (by decide) (by decide)

/-! ### The round trip of the tables -/

theorem foldlM_invariant {σ β : Type} (f : σ → β → Option σ) (Inv : σ → Prop)
    (hstep : ∀ a x b, f a x = some b → Inv a → Inv b) :
    ∀ (l : List β) (a b : σ), l.foldlM f a = some b → Inv a → Inv b := by
  intro l
  induction l with
  | nil =>
    intro a b h ha
    have e : a = b := Option.some.inj h
    rw [← e]
    exact ha
  | cons x rest ih =>
    intro a b h ha
    rw [List.foldlM_cons] at h
    cases hx : f a x with
    | none =>
      rw [hx] at h
      exact absurd h (by simp)
    | some a1 =>
      rw [hx] at h
      exact ih a1 b h (hstep a x a1 hx ha)

theorem overallOk_u16inc (overall : List Nat) (k : Nat) (h : OverallOk overall) :
    OverallOk (u16inc overall k) := by
  refine ⟨by rw [length_u16inc]; exact h.1, fun x hx => ?_⟩
  unfold u16inc at hx
  rcases List.mem_or_eq_of_mem_set hx with h1 | h1
  · exact h.2 x h1
  · rw [h1]
    exact Nat.mod_lt _ (by decide)

theorem countLetter_overall (word : String) (a : TableAcc × List Bool) (i : Nat)
    (b : TableAcc × List Bool) (h : countLetter word a i = some b)
    (ha : OverallOk a.1.overall) : OverallOk b.1.overall := by
  unfold countLetter at h
  split at h
  · exact absurd h (by simp)
  · rename_i code _
    have e := Option.some.inj h
    rw [← e]
    show OverallOk (if a.2.getD code false then a.1.overall else u16inc a.1.overall code)
    split
    · exact ha
    · exact overallOk_u16inc _ _ ha

theorem countWord_overall (acc : TableAcc) (word : String) (acc2 : TableAcc)
    (h : countWord acc word = some acc2) (ha : OverallOk acc.overall) :
    OverallOk acc2.overall := by
  unfold countWord at h
  cases hf : (List.range 5).foldlM (countLetter word) (acc, List.replicate 26 false) with
  | none =>
    rw [hf] at h
    exact absurd h (by simp)
  | some r =>
    rw [hf] at h
    have e : r.1 = acc2 := Option.some.inj h
    rw [← e]
    exact foldlM_invariant (countLetter word) (fun s => OverallOk s.1.overall)
      (countLetter_overall word) (List.range 5) _ r hf ha

theorem map_range_getD_self (l : List Nat) (n : Nat) (h : l.length = n) :
    (List.range n).map (fun i => l.getD i 0) = l := by
  subst h
  apply List.ext_getElem
  · rw [List.length_map, List.length_range]
  · intro i h1 h2
    rw [List.getElem_map, List.getElem_range, List.getD_eq_getElem?_getD,
      List.getElem?_eq_getElem h2]
    rfl

theorem map_mod_self (l : List Nat) (h : ∀ x ∈ l, x < 65536) :
    l.map (fun v => v % 65536) = l := by
  have e : l.map (fun v => v % 65536) = l.map id :=
    List.map_congr_left (fun x hx => Nat.mod_eq_of_lt (h x hx))
  rw [e, List.map_id]

/-! ### The loops of `scoreWord` -/

theorem addPositional_step {α : Type} [LinearOrderedField α] (word : String)
    (tables : FreqTables) (hw : LowerWord word) (hrows : tables.positional.length = 26)
    (sum : α) (i : Nat) (hi : i < 5) :
    addPositional word tables sum i
      = some (sum + (cell tables.positional (codeAt word i) i : α) / (tables.wordCount : α)) := by
  obtain ⟨code, hcode, hc26⟩ := letterIndex?_lower word hw i hi
  have hrow : tables.positional[code]? = some (tables.positional.getD code []) := by
    rw [List.getD_eq_getElem?_getD, List.getElem?_eq_getElem (by rw [hrows]; exact hc26)]
    rfl
  unfold addPositional codeAt cell
  rw [hcode]
  simp only [hrow, Option.getD_some]

theorem positional_loop {α : Type} [LinearOrderedField α] (word : String)
    (tables : FreqTables) (hw : LowerWord word) (hrows : tables.positional.length = 26) :
    ∀ (l : List Nat), (∀ i ∈ l, i < 5) → ∀ (sum : α),
      l.foldlM (addPositional word tables) sum
        = some (sum + (l.map (fun i =>
            (cell tables.positional (codeAt word i) i : α) / (tables.wordCount : α))).sum) := by
  intro l
  induction l with
  | nil =>
    intro _ sum
    rw [List.map_nil, List.sum_nil, add_zero]
    rfl
  | cons i rest ih =>
    intro hl sum
    rw [List.foldlM_cons, addPositional_step word tables hw hrows sum i
      (hl i (List.mem_cons_self _ _))]
    show rest.foldlM _ _ = _
    rw [ih (fun x hx => hl x (List.mem_cons_of_mem _ hx)), List.map_cons, List.sum_cons,
      add_assoc]

theorem bigram_loop {α : Type} [LinearOrderedField α] (word : String) (tables : FreqTables) :
    ∀ (l : List Nat) (sum : α),
      l.foldl (addBigram word tables) sum
        = sum + (l.map (fun k =>
            (((tables.bigram.get? (charAt word k ++ charAt word (k + 1))).getD 0 : Nat) : α)
              / (tables.wordCount : α))).sum := by
  intro l
  induction l with
  | nil =>
    intro sum
    rw [List.map_nil, List.sum_nil, add_zero]
    rfl
  | cons k rest ih =>
    intro sum
    rw [List.foldl_cons, ih, List.map_cons, List.sum_cons, ← add_assoc]
    rfl

theorem sum_map_range {α : Type} [LinearOrderedField α] (f : Nat → α) (n : Nat) :
    ((List.range n).map f).sum = ∑ i in Finset.range n, f i := by
  induction n with
  | zero => simp
  | succ n ih =>
    rw [List.range_succ, List.map_append, List.sum_append, ih, Finset.sum_range_succ]
    simp

/-- The letters of `l` that the array `seen` does not hold yet. -/
theorem overall_loop {α : Type} [LinearOrderedField α] (word : String) (tables : FreqTables)
    (hw : LowerWord word) :
    ∀ (l : List Nat), (∀ i ∈ l, i < 5) → ∀ (sum : α) (seen : List Bool), seen.length = 26 →
      ∃ seen2, l.foldlM (addOverall word tables) (sum, seen)
        = some (sum + ∑ c in ((l.filterMap (letterIndex? word)).toFinset.filter
              (fun c => seen.getD c false = false)),
            (tables.overall.getD c 0 : α) / (tables.wordCount : α), seen2) := by
  intro l
  induction l with
  | nil =>
    intro _ sum seen _
    refine ⟨seen, ?_⟩
    simp only [List.filterMap_nil, List.toFinset_nil, Finset.filter_empty, Finset.sum_empty,
      add_zero]
    rfl
  | cons i rest ih =>
    intro hl sum seen hseen
    obtain ⟨code, hcode, hc26⟩ := letterIndex?_lower word hw i (hl i (List.mem_cons_self _ _))
    have hrest : ∀ x ∈ rest, x < 5 := fun x hx => hl x (List.mem_cons_of_mem _ hx)
    by_cases hsn : seen.getD code false = true
    · obtain ⟨seen2, hrun⟩ := ih hrest sum seen hseen
      refine ⟨seen2, ?_⟩
      have hstep : addOverall word tables (sum, seen) i = some (sum, seen) := by
        unfold addOverall
        rw [hcode]
        exact if_pos hsn
      have hset : ((i :: rest).filterMap (letterIndex? word)).toFinset.filter
            (fun c => seen.getD c false = false)
          = (rest.filterMap (letterIndex? word)).toFinset.filter
              (fun c => seen.getD c false = false) := by
        ext c
        simp only [List.filterMap_cons, hcode, List.toFinset_cons, Finset.mem_filter,
          Finset.mem_insert]
        constructor
        · rintro ⟨h1 | h1, h2⟩
          · rw [h1, hsn] at h2
            exact absurd h2 (by decide)
          · exact ⟨h1, h2⟩
        · rintro ⟨h1, h2⟩
          exact ⟨Or.inr h1, h2⟩
      rw [List.foldlM_cons, hstep, hset]
      exact hrun
    · have hsn2 : seen.getD code false = false := by simpa using hsn
      obtain ⟨seen2, hrun⟩ := ih hrest
        (sum + (tables.overall.getD code 0 : α) / (tables.wordCount : α))
        (seen.set code true) (by rw [List.length_set]; exact hseen)
      refine ⟨seen2, ?_⟩
      have hstep : addOverall word tables (sum, seen) i
          = some (sum + (tables.overall.getD code 0 : α) / (tables.wordCount : α),
              seen.set code true) := by
        unfold addOverall
        rw [hcode]
        exact if_neg hsn
      have hnew : ∀ c, (seen.set code true).getD c false = false
          ↔ seen.getD c false = false ∧ c ≠ code := by
        intro c
        rw [getD_set_bool, hseen]
        by_cases hcc : c = code
        · rw [if_pos ⟨hcc, hc26⟩]
          constructor
          · exact fun h => absurd h (by decide)
          · exact fun h => absurd hcc h.2
        · rw [if_neg (fun h => hcc h.1)]
          exact ⟨fun h => ⟨h, hcc⟩, fun h => h.1⟩
      have hset : ((i :: rest).filterMap (letterIndex? word)).toFinset.filter
            (fun c => seen.getD c false = false)
          = insert code ((rest.filterMap (letterIndex? word)).toFinset.filter
              (fun c => (seen.set code true).getD c false = false)) := by
        ext c
        simp only [List.filterMap_cons, hcode, List.toFinset_cons, Finset.mem_filter,
          Finset.mem_insert, hnew]
        constructor
        · rintro ⟨h1 | h1, h2⟩
          · exact Or.inl h1
          · by_cases hcc : c = code
            · exact Or.inl hcc
            · exact Or.inr ⟨h1, h2, hcc⟩
        · rintro (h1 | ⟨h1, h2, _⟩)
          · rw [h1]
            exact ⟨Or.inl rfl, hsn2⟩
          · exact ⟨Or.inr h1, h2⟩
      have hnot : code ∉ (rest.filterMap (letterIndex? word)).toFinset.filter
          (fun c => (seen.set code true).getD c false = false) := by
        simp only [Finset.mem_filter, hnew]
        exact fun h => h.2.2 rfl
      rw [List.foldlM_cons, hstep, hset, Finset.sum_insert hnot, ← add_assoc]
      exact hrun

/-- The value of `scoreWord` on a lowercase word. -/
theorem scoreWord_eq {α : Type} [LinearOrderedField α] (word : String) (tables : FreqTables)
    (hw : LowerWord word) (hrows : tables.positional.length = 26) :
    ∃ r : ScoreResult α, scoreWord word tables = some r ∧
      r.positional = (∑ i in Finset.range 5,
          (cell tables.positional (codeAt word i) i : α) / (tables.wordCount : α)) / 5 ∧
      r.overall = (∑ c in lettersOf word,
          (tables.overall.getD c 0 : α) / (tables.wordCount : α)) / 5 ∧
      r.bigram = (∑ k in Finset.range 4,
          (((tables.bigram.get? (charAt word k ++ charAt word (k + 1))).getD 0 : Nat) : α)
            / (tables.wordCount : α)) / 4 ∧
      r.composite = 60 / 100 * r.positional + 30 / 100 * r.overall + 10 / 100 * r.bigram := by
  have h1 := positional_loop word tables hw hrows (List.range 5)
    (fun i hi => List.mem_range.mp hi) (0 : α)
  obtain ⟨seen2, h2⟩ := overall_loop word tables hw (List.range 5)
    (fun i hi => List.mem_range.mp hi) (0 : α) (List.replicate 26 false)
    (List.length_replicate _ _)
  have h3 := bigram_loop word tables (List.range 4) (0 : α)
  have hfilter : ((List.range 5).filterMap (letterIndex? word)).toFinset.filter
      (fun c => (List.replicate 26 false).getD c false = false) = lettersOf word := by
    unfold lettersOf
    apply Finset.filter_true_of_mem
    intro c _
    exact getD_replicate_false 26 c
  rw [zero_add, sum_map_range] at h1 h3
  rw [zero_add, hfilter] at h2
  refine ⟨_, by unfold scoreWord; rw [h1, h2], rfl, rfl, ?_, rfl⟩
  show (List.range 4).foldl (addBigram word tables) 0 / 4 = _
  rw [h3]

theorem scoreWord_nonneg {α : Type} [LinearOrderedField α] (word : String)
    (tables : FreqTables) (hw : LowerWord word) (hrows : tables.positional.length = 26)
    (r : ScoreResult α) (h : scoreWord word tables = some r) : 0 ≤ r.composite := by
  obtain ⟨r1, h1, hp, ho, hb, hc⟩ := @scoreWord_eq α _ word tables hw hrows
  have e : r1 = r := Option.some.inj (h1.symm.trans h)
  subst e
  have p0 : 0 ≤ r1.positional := by
    rw [hp]
    exact div_nonneg (Finset.sum_nonneg (fun i _ =>
      div_nonneg (Nat.cast_nonneg _) (Nat.cast_nonneg _))) (by norm_num)
  have o0 : 0 ≤ r1.overall := by
    rw [ho]
    exact div_nonneg (Finset.sum_nonneg (fun i _ =>
      div_nonneg (Nat.cast_nonneg _) (Nat.cast_nonneg _))) (by norm_num)
  have b0 : 0 ≤ r1.bigram := by
    rw [hb]
    exact div_nonneg (Finset.sum_nonneg (fun i _ =>
      div_nonneg (Nat.cast_nonneg _) (Nat.cast_nonneg _))) (by norm_num)
  rw [hc]
  have w1 : (0 : α) ≤ 60 / 100 := by norm_num
  have w2 : (0 : α) ≤ 30 / 100 := by norm_num
  have w3 : (0 : α) ≤ 10 / 100 := by norm_num
  exact add_nonneg (add_nonneg (mul_nonneg w1 p0) (mul_nonneg w2 o0)) (mul_nonneg w3 b0)

/-! ### The loop of `computeCommonness` -/

theorem foldl_maxStep {α : Type} [LinearOrderedField α] (l : List α) (m : α) :
    l.foldl (fun max score => if score > max then score else max) m = l.foldl max m := by
  induction l generalizing m with
  | nil => rfl
  | cons s rest ih =>
    simp only [List.foldl_cons]
    rw [ih]
    congr 1
    rw [max_def]
    by_cases h1 : s > m
    · rw [if_pos h1, if_pos (le_of_lt h1)]
    · rw [if_neg h1]
      by_cases h2 : m ≤ s
      · rw [if_pos h2]
        exact le_antisymm h2 (not_lt.mp h1)
      · rw [if_neg h2]

theorem foldl_max_props {α : Type} [LinearOrderedField α] (l : List α) :
    ∀ m : α, m ≤ l.foldl max m ∧ (∀ s ∈ l, s ≤ l.foldl max m) ∧
      (l.foldl max m = m ∨ l.foldl max m ∈ l) := by
  induction l with
  | nil =>
    intro m
    exact ⟨le_refl _, fun s hs => absurd hs (List.not_mem_nil _), Or.inl rfl⟩
  | cons a rest ih =>
    intro m
    obtain ⟨h1, h2, h3⟩ := ih (max m a)
    rw [List.foldl_cons]
    refine ⟨le_trans (le_max_left _ _) h1, fun s hs => ?_, ?_⟩
    · rcases List.mem_cons.mp hs with h | h
      · rw [h]
        exact le_trans (le_max_right _ _) h1
      · exact h2 s h
    · rcases h3 with h | h
      · rcases max_choice m a with hm | hm
        · left
          rw [h, hm]
        · right
          rw [h, hm]
          exact List.mem_cons_self _ _
      · right
        exact List.mem_cons_of_mem _ h

theorem commonnessLoop_spec {α : Type} [LinearOrderedField α] (tables : FreqTables)
    (hrows : tables.positional.length = 26) :
    ∀ (dict : List String), (∀ w ∈ dict, LowerWord w) → ∀ (scores : List α) (m : α),
      ∃ comps : List α, comps.length = dict.length ∧
        (∀ (i : Nat) (w : String), dict[i]? = some w →
          ∃ r : ScoreResult α, scoreWord w tables = some r ∧ comps[i]? = some r.composite) ∧
        (∀ s ∈ comps, 0 ≤ s) ∧
        commonnessLoop tables dict (scores, m)
          = some (scores ++ comps,
              comps.foldl (fun max score => if score > max then score else max) m) := by
  intro dict
  induction dict with
  | nil =>
    intro _ scores m
    refine ⟨[], rfl, fun i w h => ?_, fun s hs => absurd hs (List.not_mem_nil _), ?_⟩
    · exact absurd h (by simp)
    · rw [List.append_nil]
      rfl
  | cons w rest ih =>
    intro hlow scores m
    obtain ⟨r, hr, _⟩ := @scoreWord_eq α _ w tables (hlow w (List.mem_cons_self _ _)) hrows
    obtain ⟨comps, hlen, hidx, hnn, hrun⟩ :=
      ih (fun x hx => hlow x (List.mem_cons_of_mem _ hx)) (scores ++ [r.composite])
        (if r.composite > m then r.composite else m)
    refine ⟨r.composite :: comps, ?_, fun i x h => ?_, fun s hs => ?_, ?_⟩
    · rw [List.length_cons, List.length_cons, hlen]
    · cases i with
      | zero =>
        have e : w = x := by simpa using h
        rw [← e]
        exact ⟨r, hr, List.getElem?_cons_zero⟩
      | succ i1 =>
        have h1 : rest[i1]? = some x := by simpa using h
        obtain ⟨r1, hr1, hc1⟩ := hidx i1 x h1
        exact ⟨r1, hr1, by simpa using hc1⟩
    · rcases List.mem_cons.mp hs with h | h
      · rw [h]
        exact scoreWord_nonneg w tables (hlow w (List.mem_cons_self _ _)) hrows r hr
      · exact hnn s h
    · rw [commonnessLoop, hr]
      simp only []
      rw [hrun, List.append_assoc]
      rfl

/-- C28: for tables with 26 positional rows and a positive word count, and for
every lowercase five-letter word, `scoreWord` returns `positional` = (the sum
over the 5 positions `i` of `positional[letter_i][i] / wc`) / 5, `overall` =
(the sum over the distinct letters of the word of `overall[letter] / wc`) / 5,
`bigram` = (the sum over the 4 adjacent pairs of `(bigram[pair] or 0) / wc`)
/ 4 and `composite = 0.60 * positional + 0.30 * overall + 0.10 * bigram`; and
for every dictionary of such words `computeCommonness` returns `scores[i]` =
the composite of `dictionary[i]` and `max` = the largest of the scores, 0
for an empty dictionary. -/
theorem scoreWord_formula {α : Type} [LinearOrderedField α] (tables : FreqTables)
    (hrows : tables.positional.length = 26) (hwc : 0 < tables.wordCount) :
    (∀ word, LowerWord word →
      ∃ r : ScoreResult α, scoreWord word tables = some r ∧
        r.positional = (∑ i in Finset.range 5,
            (cell tables.positional (codeAt word i) i : α) / (tables.wordCount : α)) / 5 ∧
        r.overall = (∑ c in lettersOf word,
            (tables.overall.getD c 0 : α) / (tables.wordCount : α)) / 5 ∧
        r.bigram = (∑ k in Finset.range 4,
            (((tables.bigram.get? (charAt word k ++ charAt word (k + 1))).getD 0 : Nat) : α)
              / (tables.wordCount : α)) / 4 ∧
        r.composite
          = 60 / 100 * r.positional + 30 / 100 * r.overall + 10 / 100 * r.bigram) ∧
    (∀ dictionary : List String, (∀ w ∈ dictionary, LowerWord w) →
      ∃ cd : CommonnessData α, computeCommonness dictionary tables = some cd ∧
        cd.scores.length = dictionary.length ∧
        (∀ (i : Nat) (w : String), dictionary[i]? = some w →
          ∃ r : ScoreResult α, scoreWord w tables = some r ∧
            cd.scores[i]? = some r.composite) ∧
        (∀ s ∈ cd.scores, s ≤ cd.max) ∧
        (dictionary ≠ [] → cd.max ∈ cd.scores) ∧
        (dictionary = [] → cd.max = 0)) := by
  have _hwc := hwc
  refine ⟨fun word hw => scoreWord_eq word tables hw hrows, fun dictionary hlow => ?_⟩
  obtain ⟨comps, hlen, hidx, hnn, hrun⟩ :=
    commonnessLoop_spec tables hrows dictionary hlow ([] : List α) 0
  rw [List.nil_append, foldl_maxStep] at hrun
  obtain ⟨p1, p2, p3⟩ := foldl_max_props comps (0 : α)
  refine ⟨{ scores := comps, max := comps.foldl max 0 }, ?_, hlen, hidx, p2, fun hne => ?_,
    fun he => ?_⟩
  · unfold computeCommonness
    rw [hrun]
  · show comps.foldl max 0 ∈ comps
    rcases p3 with h | h
    · have hc : comps ≠ [] := fun h0 => by
        rw [h0, List.length_nil] at hlen
        exact hne (List.length_eq_zero.mp hlen.symm)
      obtain ⟨s, hs⟩ := List.exists_mem_of_ne_nil comps hc
      have h0 : s = 0 := le_antisymm (by rw [← h]; exact p2 s hs) (hnn s hs)
      rw [h, ← h0]
      exact hs
    · exact h
  · show comps.foldl max 0 = 0
    rw [he, List.length_nil] at hlen
    rw [List.length_eq_zero.mp hlen]
    rfl

/-- Instance of C28: the tables `uniformTables`, over the rationals. -/
theorem scoreWord_formula_witness :
    (∀ word, LowerWord word →
      ∃ r : ScoreResult ℚ, scoreWord word uniformTables = some r ∧
        r.positional = (∑ i in Finset.range 5,
            (cell uniformTables.positional (codeAt word i) i : ℚ)
              / (uniformTables.wordCount : ℚ)) / 5 ∧
        r.overall = (∑ c in lettersOf word,
            (uniformTables.overall.getD c 0 : ℚ) / (uniformTables.wordCount : ℚ)) / 5 ∧
        r.bigram = (∑ k in Finset.range 4,
            (((uniformTables.bigram.get? (charAt word k ++ charAt word (k + 1))).getD 0 : Nat)
                : ℚ)
              / (uniformTables.wordCount : ℚ)) / 4 ∧
        r.composite
          = 60 / 100 * r.positional + 30 / 100 * r.overall + 10 / 100 * r.bigram) ∧
    (∀ dictionary : List String, (∀ w ∈ dictionary, LowerWord w) →
      ∃ cd : CommonnessData ℚ, computeCommonness dictionary uniformTables = some cd ∧
        cd.scores.length = dictionary.length ∧
        (∀ (i : Nat) (w : String), dictionary[i]? = some w →
          ∃ r : ScoreResult ℚ, scoreWord w uniformTables = some r ∧
            cd.scores[i]? = some r.composite) ∧
        (∀ s ∈ cd.scores, s ≤ cd.max) ∧
        (dictionary ≠ [] → cd.max ∈ cd.scores) ∧
        (dictionary = [] → cd.max = 0)) :=
  scoreWord_formula uniformTables (by decide) (by decide)

/-! ### The worker's routine on slices of the flat buffer -/

theorem wordSlice_getD (enc : List Nat) (i j : Nat) (hj : j < 5) :
    (wordSlice enc i).getD j 0 = enc.getD (5 * i + j) 0 := by
  unfold wordSlice
  rw [List.getD_eq_getElem?_getD, List.getD_eq_getElem?_getD, List.getElem?_take_of_lt hj,
    List.getElem?_drop]

theorem wordSlice_length (enc : List Nat) (n i : Nat) (hlen : enc.length = 5 * n) (hi : i < n) :
    (wordSlice enc i).length = 5 := by
  unfold wordSlice
  rw [List.length_take, List.length_drop, hlen]
  omega

theorem wordSlice_lt (enc : List Nat) (i : Nat) (h26 : ∀ x ∈ enc, x < 26) :
    ∀ x ∈ wordSlice enc i, x < 26 := by
  intro x hx
  exact h26 x (List.mem_of_mem_drop (List.mem_of_mem_take hx))

/-- The unrolled routine of the worker at two offsets is the routine of the
engine on any two words that hold the codes found at these offsets. -/
theorem worker_eq_engine (enc G S : List Nat) (gOff sOff : Nat)
    (hG : ∀ j, j < 5 → G.getD j 0 = enc.getD (gOff + j) 0)
    (hS : ∀ j, j < 5 → S.getD j 0 = enc.getD (sOff + j) 0) (sc pat : List Nat) :
    Worker.computePatternId gOff sOff enc sc pat = computePatternId G S sc pat := by
  have g0 := hG 0 (by decide)
  have g1 := hG 1 (by decide)
  have g2 := hG 2 (by decide)
  have g3 := hG 3 (by decide)
  have g4 := hG 4 (by decide)
  have s0 := hS 0 (by decide)
  have s1 := hS 1 (by decide)
  have s2 := hS 2 (by decide)
  have s3 := hS 3 (by decide)
  have s4 := hS 4 (by decide)
  rw [Nat.add_zero] at g0 s0
  simp only [Worker.computePatternId, ← g0, ← g1, ← g2, ← g3, ← g4, ← s0, ← s1, ← s2, ← s3,
    ← s4, computePatternId, runPasses, markYellows, markGreens, tallySecret, range_five,
    List.foldl_cons, List.foldl_nil, greenStep_eq, yellowStep_eq, encodePattern_eq, resetCounts]

/-- C35: for every word count `n`, every flat buffer `enc` of `5 n` letter
codes below 26 and all `g` and `s < n`, the worker's unrolled
`computePatternId(5 g, 5 s, enc, sc, pat)` started on a zeroed count buffer
returns the pattern id (and leaves the buffers) that the engine's
`computePatternId` returns on the slices `enc[5 g .. 5 g + 4]` and
`enc[5 s .. 5 s + 4]`, and both leave the count buffer all zero. -/
theorem worker_refines_engine (n : Nat) (enc : List Nat) (hlen : enc.length = 5 * n)
    (h26 : ∀ x ∈ enc, x < 26) (g s : Nat) (hs : s < n) (pat : List Nat)
    (hpat : pat.length = 5) :
    (Worker.computePatternId (5 * g) (5 * s) enc zeroCounts pat).1
      = (computePatternId (wordSlice enc g) (wordSlice enc s) zeroCounts pat).1 ∧
    Worker.computePatternId (5 * g) (5 * s) enc zeroCounts pat
      = computePatternId (wordSlice enc g) (wordSlice enc s) zeroCounts pat ∧
    (Worker.computePatternId (5 * g) (5 * s) enc zeroCounts pat).2.1 = zeroCounts ∧
    (computePatternId (wordSlice enc g) (wordSlice enc s) zeroCounts pat).2.1 = zeroCounts := by
  have e := worker_eq_engine enc (wordSlice enc g) (wordSlice enc s) (5 * g) (5 * s)
    (fun j hj => wordSlice_getD enc g j hj) (fun j hj => wordSlice_getD enc s j hj)
    zeroCounts pat
  have hz := computePatternId_counts (wordSlice enc g) (wordSlice enc s) pat
    (wordSlice_length enc n s hlen hs) (wordSlice_lt enc s h26) hpat
  exact ⟨by rw [e], e, by rw [e]; exact hz, hz⟩

theorem worker_refines_engine_witness :
    (Worker.computePatternId (5 * 0) (5 * 1) [2, 17, 0, 13, 4, 18, 11, 0, 19, 4] zeroCounts
        zeroPattern).1
      = (computePatternId (wordSlice [2, 17, 0, 13, 4, 18, 11, 0, 19, 4] 0)
          (wordSlice [2, 17, 0, 13, 4, 18, 11, 0, 19, 4] 1) zeroCounts zeroPattern).1 ∧
    (Worker.computePatternId (5 * 0) (5 * 1) [2, 17, 0, 13, 4, 18, 11, 0, 19, 4] zeroCounts
        zeroPattern).1 = 180 :=
  ⟨(worker_refines_engine 2 [2, 17, 0, 13, 4, 18, 11, 0, 19, 4] (by decide) (by decide) 0 1
      (by decide) zeroPattern (by decide)).1, by decide⟩

/-! ### The count buffer inside and across calls of `computePatternId` -/

theorem tally_zero (s : List Nat) :
    (tallySecret s zeroCounts).length = 26 ∧
    ∀ L, L < 26 → (tallySecret s zeroCounts).getD L 0 = countBelow (fun j => s.getD j 0 = L) 5 :=
  tally_inv s zeroCounts (by simp [zeroCounts]) getD_zeroCounts 5 (Nat.le_refl 5)

/-- Before every iteration of the green loop the count of a letter is the
number of its copies in the secret less the exact matches found so far. -/
theorem greensBefore_counts (g s pat : List Nat) (hp : pat.length = 5) (k : Nat) (hk : k ≤ 5) :
    (greensBefore g s zeroCounts pat k).1.length = 26 ∧
    ∀ L, L < 26 → (greensBefore g s zeroCounts pat k).1.getD L 0 + bothBelow g s L k
      = countBelow (fun j => s.getD j 0 = L) 5 := by
  have ht := tally_zero s
  have hg := greens_inv g s (tallySecret s zeroCounts) pat ht.1 hp ht.2 k hk
  exact ⟨hg.1, hg.2.2.1⟩

/-- The green loop decrements only entries that are positive. -/
theorem greensBefore_pos (g s pat : List Nat) (hs26 : ∀ x ∈ s, x < 26) (hs : s.length = 5)
    (hp : pat.length = 5) (k : Nat) (hk : k < 5) (heq : g.getD k 0 = s.getD k 0) :
    0 < (greensBefore g s zeroCounts pat k).1.getD (g.getD k 0) 0 := by
  have hL : g.getD k 0 < 26 := by
    rw [heq, List.getD_eq_getElem?_getD, List.getElem?_eq_getElem (by omega)]
    exact hs26 _ (List.getElem_mem _)
  have h1 := (greensBefore_counts g s pat hp k (by omega)).2 _ hL
  have h2 : bothBelow g s (g.getD k 0) (k + 1) = bothBelow g s (g.getD k 0) k + 1 := by
    unfold bothBelow
    rw [countBelow_succ_prop (fun j => g.getD j 0 = g.getD k 0 ∧ s.getD j 0 = g.getD k 0) k,
      if_pos ⟨rfl, heq.symm⟩]
  have h3 : bothBelow g s (g.getD k 0) (k + 1) ≤ bothBelow g s (g.getD k 0) 5 :=
    countBelow_mono_right _ (by omega)
  have h4 : bothBelow g s (g.getD k 0) 5
      ≤ countBelow (fun j => s.getD j 0 = g.getD k 0) 5 := by
    unfold bothBelow
    apply countBelow_mono_left
    intro j hj
    simp only [decide_eq_true_eq] at hj ⊢
    exact hj.2
  omega

/-- No entry of the count buffer passes 5 during the green loop. -/
theorem greensBefore_le (g s pat : List Nat) (hp : pat.length = 5) (k : Nat) (hk : k ≤ 5)
    (L : Nat) : (greensBefore g s zeroCounts pat k).1.getD L 0 ≤ 5 := by
  obtain ⟨hlen, hc⟩ := greensBefore_counts g s pat hp k hk
  rcases Nat.lt_or_ge L 26 with hL | hL
  · have h1 := hc L hL
    have h2 := countBelow_le (fun j => decide (s.getD j 0 = L)) 5
    omega
  · rw [getD_of_length_le _ _ (by rw [hlen]; exact hL)]
    exact Nat.zero_le _

/-- No entry of the count buffer passes 5 during the yellow loop. -/
theorem yellowsBefore_le (g s pat : List Nat) (hp : pat.length = 5) (k : Nat) (hk : k ≤ 5)
    (L : Nat) : (yellowsBefore g s zeroCounts pat k).1.getD L 0 ≤ 5 := by
  have ht := tally_zero s
  have hg := greens_inv g s (tallySecret s zeroCounts) pat ht.1 hp ht.2 5 (Nat.le_refl 5)
  have hb : ∀ M, (markGreens g s (tallySecret s zeroCounts, pat)).1.getD M 0 ≤ 5 := fun M =>
    greensBefore_le g s pat hp 5 (Nat.le_refl 5) M
  have hy := yellows_inv g s (markGreens g s (tallySecret s zeroCounts, pat)).1
    (markGreens g s (tallySecret s zeroCounts, pat)).2 hg.1 hg.2.1
    (fun M => by have := hb M; omega) (fun j hj => hg.2.2.2.1 j hj) k hk
  have h := hy.2.2.1 L
  have h5 := hb L
  show (List.foldl (yellowStep g) ((markGreens g s (tallySecret s zeroCounts, pat)).1,
    (markGreens g s (tallySecret s zeroCounts, pat)).2) (List.range k)).1.getD L 0 ≤ 5
  omega

/-- The yellow loop changes the count buffer only where the entry is positive. -/
theorem yellowStep_guard (g : List Nat) (st : List Nat × List Nat) (k : Nat)
    (h : (yellowStep g st k).1 ≠ st.1) : 0 < st.1.getD (g.getD k 0) 0 := by
  unfold yellowStep at h
  by_cases h1 : st.2.getD k 0 ≠ 2
  · by_cases h2 : st.1.getD (g.getD k 0) 0 > 0
    · exact h2
    · rw [if_pos h1, if_neg h2] at h
      exact absurd rfl h
  · rw [if_neg h1] at h
    exact absurd rfl h

/-- A call of `computePatternId` on the buffers an earlier call left returns
the pattern id of a call on fresh buffers. -/
theorem computePatternId_after (g s g0 s0 pat0 : List Nat) (hs : s.length = 5)
    (hs26 : ∀ x ∈ s, x < 26) (hs0 : s0.length = 5) (hs026 : ∀ x ∈ s0, x < 26)
    (hp0 : pat0.length = 5) :
    (computePatternId g s (computePatternId g0 s0 zeroCounts pat0).2.1
        (computePatternId g0 s0 zeroCounts pat0).2.2).1
      = (computePatternId g s zeroCounts zeroPattern).1 := by
  rw [computePatternId_counts g0 s0 pat0 hs0 hs026 hp0]
  exact computePatternId_any_pattern g s _ hs hs26
    (computePatternId_pattern_length g0 s0 pat0 hs0 hs026 hp0)

/-- The bucket loop on a zeroed count buffer adds one to the bucket of each
candidate's pattern, whatever the pattern buffer held. -/
theorem bucketLoop_fold (ws : List (List Nat)) (hok : WordsOk ws) (g : Nat)
    (hg : g < ws.length) :
    ∀ (remaining b pat : List Nat), (∀ s ∈ remaining, s < ws.length) → pat.length = 5 →
      ∃ pat1, bucketLoop (some ws) g remaining (b, zeroCounts, pat)
          = some (remaining.foldl (fun b s => u16inc b (patternOf ws g s)) b, zeroCounts, pat1)
        ∧ pat1.length = 5 := by
  intro remaining
  induction remaining with
  | nil =>
    intro b pat _ hp
    exact ⟨pat, rfl, hp⟩
  | cons s rest ih =>
    intro b pat hrem hp
    have hs : s < ws.length := hrem s (List.mem_cons_self _ _)
    have hw := hok _ (getD_words_mem ws s hs)
    obtain ⟨pat1, hrun, hp1⟩ :=
      ih (u16inc b (patternOf ws g s))
        (computePatternId (ws.getD g []) (ws.getD s []) zeroCounts pat).2.2
        (fun x hx => hrem x (List.mem_cons_of_mem _ hx))
        (computePatternId_pattern_length _ _ _ hw.1 hw.2 hp)
    refine ⟨pat1, ?_, hp1⟩
    rw [bucketLoop_cons ws g s rest b zeroCounts pat _ _ (getElem?_words ws g hg)
        (getElem?_words ws s hs),
      computePatternId_counts _ _ pat hw.1 hw.2 hp, patternOf_eq ws hok g s hs pat hp,
      List.foldl_cons]
    exact hrun

theorem length_foldl_u16inc (f : Nat → Nat) (remaining b : List Nat) :
    (remaining.foldl (fun b s => u16inc b (f s)) b).length = b.length := by
  induction remaining generalizing b with
  | nil => rfl
  | cons s rest ih => rw [List.foldl_cons, ih, length_u16inc]

/-- The value and the state `computeEntropy` returns on a state whose count
buffer is zeroed. -/
theorem computeEntropy_value {α : Type} [LinearOrderedField α] (ln : α → α)
    (st : EngineState α) (ws : List (List Nat)) (g : Nat) (remaining : List Nat)
    (hws : st.encodedWords = some ws) (hok : WordsOk ws) (hg : g < ws.length)
    (hrem : ∀ s ∈ remaining, s < ws.length) (hsc : st.publicSecretCounts = zeroCounts)
    (hpat : st.publicPattern.length = 5) :
    ∃ st1, computeEntropy ln st g remaining
        = some (if remaining.length ≤ 1 then 0
            else bucketEntropy ln remaining.length
              (remaining.foldl (fun b s => u16inc b (patternOf ws g s))
                (List.replicate st.publicBuckets.length 0)), st1) ∧
      st1.encodedWords = some ws ∧ st1.publicSecretCounts = zeroCounts ∧
      st1.publicPattern.length = 5 ∧ st1.publicBuckets.length = st.publicBuckets.length := by
  by_cases hn : remaining.length ≤ 1
  · refine ⟨st, ?_, hws, hsc, hpat, rfl⟩
    unfold computeEntropy
    simp only [hn, if_true]
  · obtain ⟨pat1, hrun, hp1⟩ :=
      bucketLoop_fold ws hok g hg remaining (fillZero st.publicBuckets) st.publicPattern hrem hpat
    unfold computeEntropy
    simp only [hn, if_false, hws, hsc, hrun]
    refine ⟨_, rfl, rfl, rfl, hp1, ?_⟩
    show (remaining.foldl (fun b s => u16inc b (patternOf ws g s))
      (fillZero st.publicBuckets)).length = _
    rw [length_foldl_u16inc, length_fillZero]

theorem freshBuckets_eq (ws : List (List Nat)) (hok : WordsOk ws) (g : Nat) (hg : g < ws.length)
    (remaining : List Nat) (hrem : ∀ s ∈ remaining, s < ws.length) :
    freshBuckets ws g remaining
      = remaining.foldl (fun b s => u16inc b (patternOf ws g s)) (List.replicate 243 0) := by
  obtain ⟨pat1, hrun, _⟩ :=
    bucketLoop_fold ws hok g hg remaining (List.replicate 243 0) zeroPattern hrem
      (by simp [zeroPattern])
  unfold freshBuckets
  rw [hrun]

/-- The loop of `rankGuesses` gives every guess of the pool the entropy that
fresh buffers give, whatever the earlier iterations left in the buffers. -/
theorem rankLoop_fresh {α : Type} [LinearOrderedField α] (ln : α → α)
    (ws : List (List Nat)) (hok : WordsOk ws) (remaining : List Nat)
    (hrem : ∀ s ∈ remaining, s < ws.length) :
    ∀ (pool b pat : List Nat), (∀ i ∈ pool, i < ws.length) → b.length = 243 →
      pat.length = 5 →
      rankLoop ln (some ws) remaining pool (b, zeroCounts, pat)
        = some (pool.map (fun g => ⟨g, freshEntropy ln ws g remaining, none⟩)) := by
  intro pool
  induction pool with
  | nil =>
    intro b pat _ _ _
    rfl
  | cons g rest ih =>
    intro b pat hpool hb hp
    have hg := hpool g (List.mem_cons_self _ _)
    obtain ⟨pat1, hrun, hp1⟩ :=
      bucketLoop_fold ws hok g hg remaining (fillZero b) pat hrem hp
    have hfill : fillZero b = List.replicate 243 0 := by
      unfold fillZero
      rw [hb]
    rw [hfill] at hrun
    rw [rankLoop_cons ln (some ws) remaining g rest b zeroCounts pat _ zeroCounts pat1
        (by rw [hfill]; exact hrun),
      ih _ pat1 (fun i hi => hpool i (List.mem_cons_of_mem _ hi))
        (by rw [length_foldl_u16inc]; exact List.length_replicate _ _) hp1]
    simp only [List.map_cons, freshEntropy, freshBuckets_eq ws hok g hg remaining hrem]

/-- C34: for every guess and every secret of five letter codes below 26, a call of
`computePatternId` entered with an all-zero 26-entry count buffer decrements
only positive entries (the unguarded decrement of the green loop and the
guarded one of the yellow loop), keeps every entry at most 5, and returns
with the buffer all zero again; so a call made on the buffers an earlier call
left returns the id of a call on fresh buffers, a `computeEntropy` call made
after another one returns what it returns on the state before, and the loop
of `rankGuesses` gives every guess the entropy that fresh buffers give. -/
theorem computePatternId_scratch {α : Type} [LinearOrderedField α] (ln : α → α)
    (g s pat : List Nat) (hs : s.length = 5) (hs26 : ∀ x ∈ s, x < 26) (hp : pat.length = 5) :
    (∀ k, k < 5 → g.getD k 0 = s.getD k 0 →
      0 < (greensBefore g s zeroCounts pat k).1.getD (g.getD k 0) 0) ∧
    (∀ k, k < 5 →
      (yellowStep g (yellowsBefore g s zeroCounts pat k) k).1
          ≠ (yellowsBefore g s zeroCounts pat k).1 →
      0 < (yellowsBefore g s zeroCounts pat k).1.getD (g.getD k 0) 0) ∧
    (∀ k, k ≤ 5 → ∀ L, (greensBefore g s zeroCounts pat k).1.getD L 0 ≤ 5 ∧
      (yellowsBefore g s zeroCounts pat k).1.getD L 0 ≤ 5) ∧
    (computePatternId g s zeroCounts pat).2.1 = zeroCounts ∧
    (∀ g0 s0 pat0 : List Nat, s0.length = 5 → (∀ x ∈ s0, x < 26) → pat0.length = 5 →
      (computePatternId g s (computePatternId g0 s0 zeroCounts pat0).2.1
          (computePatternId g0 s0 zeroCounts pat0).2.2).1
        = (computePatternId g s zeroCounts zeroPattern).1) ∧
    (∀ (st : EngineState α) (ws : List (List Nat)) (g1 g2 : Nat) (rem1 rem2 : List Nat),
      st.encodedWords = some ws → WordsOk ws → g1 < ws.length → g2 < ws.length →
      (∀ i ∈ rem1, i < ws.length) → (∀ i ∈ rem2, i < ws.length) →
      st.publicSecretCounts = zeroCounts → st.publicPattern.length = 5 →
      ∃ v1 st1 v2 st2 st3, computeEntropy ln st g1 rem1 = some (v1, st1) ∧
        computeEntropy ln st1 g2 rem2 = some (v2, st2) ∧
        computeEntropy ln st g2 rem2 = some (v2, st3)) ∧
    (∀ (ws : List (List Nat)) (pool remaining b pat1 : List Nat), WordsOk ws →
      (∀ i ∈ pool, i < ws.length) → (∀ i ∈ remaining, i < ws.length) → b.length = 243 →
      pat1.length = 5 →
      rankLoop ln (some ws) remaining pool (b, zeroCounts, pat1)
        = some (pool.map (fun i => ⟨i, freshEntropy ln ws i remaining, none⟩))) := by
  refine ⟨fun k hk heq => greensBefore_pos g s pat hs26 hs hp k hk heq,
    fun k _ hne => yellowStep_guard g _ k hne,
    fun k hk L => ⟨greensBefore_le g s pat hp k hk L, yellowsBefore_le g s pat hp k hk L⟩,
    computePatternId_counts g s pat hs hs26 hp,
    fun g0 s0 pat0 hs0 hs026 hp0 => computePatternId_after g s g0 s0 pat0 hs hs26 hs0 hs026 hp0,
    ?_, ?_⟩
  · intro st ws g1 g2 rem1 rem2 hws hok hg1 hg2 hr1 hr2 hsc hpat
    obtain ⟨st1, h1, hws1, hsc1, hpat1, hb1⟩ :=
      computeEntropy_value ln st ws g1 rem1 hws hok hg1 hr1 hsc hpat
    obtain ⟨st2, h2, _⟩ := computeEntropy_value ln st1 ws g2 rem2 hws1 hok hg2 hr2 hsc1 hpat1
    obtain ⟨st3, h3, _⟩ := computeEntropy_value ln st ws g2 rem2 hws hok hg2 hr2 hsc hpat
    rw [hb1] at h2
    exact ⟨_, st1, _, st2, st3, h1, h2, h3⟩
  · intro ws pool remaining b pat1 hok hpool hrem hb hp1
    exact rankLoop_fresh ln ws hok remaining hrem pool b pat1 hpool hb hp1

theorem computePatternId_scratch_witness :
    (computePatternId [2, 17, 0, 13, 4] [18, 11, 0, 19, 4] zeroCounts zeroPattern).2.1
      = zeroCounts ∧
    0 < (greensBefore [2, 17, 0, 13, 4] [18, 11, 0, 19, 4] zeroCounts zeroPattern 2).1.getD 0 0 :=
  ⟨(@computePatternId_scratch ℚ _ (fun x => x) [2, 17, 0, 13, 4] [18, 11, 0, 19, 4] zeroPattern
      (by decide) (by decide) (by decide)).2.2.2.1,
    (@computePatternId_scratch ℚ _ (fun x => x) [2, 17, 0, 13, 4] [18, 11, 0, 19, 4] zeroPattern
      (by decide) (by decide) (by decide)).1 2 (by decide) (by decide)⟩

/-! ### The all-correct pattern -/

theorem eq_of_getD_five (g s : List Nat) (hg : g.length = 5) (hs : s.length = 5)
    (h : ∀ i, i < 5 → g.getD i 0 = s.getD i 0) : g = s := by
  match g, hg, s, hs with
  | [a0, a1, a2, a3, a4], _, [b0, b1, b2, b3, b4], _ =>
    have h0 : a0 = b0 := h 0 (by decide)
    have h1 : a1 = b1 := h 1 (by decide)
    have h2 : a2 = b2 := h 2 (by decide)
    have h3 : a3 = b3 := h 3 (by decide)
    have h4 : a4 = b4 := h 4 (by decide)
    rw [h0, h1, h2, h3, h4]

/-- The pattern id is 242 exactly when the two words are equal. -/
theorem computePatternId_eq_242 (g s pat : List Nat) (hg : g.length = 5) (hs : s.length = 5)
    (hs26 : ∀ x ∈ s, x < 26) (hp : pat.length = 5) :
    (computePatternId g s zeroCounts pat).1 = 242 ↔ g = s := by
  rw [computePatternId_id g s pat hs hs26 hp]
  have l0 := specTile_le_two g s 0
  have l1 := specTile_le_two g s 1
  have l2 := specTile_le_two g s 2
  have l3 := specTile_le_two g s 3
  have l4 := specTile_le_two g s 4
  constructor
  · intro h
    apply eq_of_getD_five g s hg hs
    intro i hi
    have e0 : specTile g s 0 = 2 := by omega
    have e1 : specTile g s 1 = 2 := by omega
    have e2 : specTile g s 2 = 2 := by omega
    have e3 : specTile g s 3 = 2 := by omega
    have e4 : specTile g s 4 = 2 := by omega
    match i, hi with
    | 0, _ => exact (specTile_eq_two g s 0).mp e0
    | 1, _ => exact (specTile_eq_two g s 1).mp e1
    | 2, _ => exact (specTile_eq_two g s 2).mp e2
    | 3, _ => exact (specTile_eq_two g s 3).mp e3
    | 4, _ => exact (specTile_eq_two g s 4).mp e4
  · intro h
    subst h
    rw [(specTile_eq_two g g 0).mpr rfl, (specTile_eq_two g g 1).mpr rfl,
      (specTile_eq_two g g 2).mpr rfl, (specTile_eq_two g g 3).mpr rfl,
      (specTile_eq_two g g 4).mpr rfl]

theorem patternOf_eq_242 (ws : List (List Nat)) (hok : WordsOk ws) (g s : Nat)
    (hg : g < ws.length) (hs : s < ws.length) :
    patternOf ws g s = 242 ↔ ws.getD g [] = ws.getD s [] := by
  have hwg := hok _ (getD_words_mem ws g hg)
  have hws := hok _ (getD_words_mem ws s hs)
  unfold patternOf
  exact computePatternId_eq_242 _ _ _ hwg.1 hws.1 hws.2 (by simp [zeroPattern])

theorem countP_eq_one_of_nodup {β γ : Type} [DecidableEq γ] (f : β → γ) (a : β) :
    ∀ l : List β, (l.map f).Nodup → a ∈ l → l.countP (fun s => decide (f a = f s)) = 1 := by
  intro l
  induction l with
  | nil =>
    intro _ hm
    exact absurd hm (List.not_mem_nil _)
  | cons s rest ih =>
    intro hnd hm
    rw [List.map_cons, List.nodup_cons] at hnd
    rw [List.countP_cons]
    by_cases h : f a = f s
    · have hzero : rest.countP (fun s => decide (f a = f s)) = 0 := by
        rw [List.countP_eq_zero]
        intro x hx hfx
        apply hnd.1
        rw [← h, of_decide_eq_true hfx]
        exact List.mem_map_of_mem f hx
      rw [hzero, if_pos (decide_eq_true h)]
    · have hne : a ≠ s := fun hh => h (by rw [hh])
      have hmem : a ∈ rest := (List.mem_cons.mp hm).resolve_left hne
      rw [ih hnd.2 hmem, if_neg (fun hh => h (of_decide_eq_true hh))]

/-- C39: for every pair of encoded five-letter words (codes below 26),
`computePatternId(guess, secret)` is 242, all five tiles correct, exactly
when guess and secret are the same word; so in a candidate list whose words
are pairwise distinct, a guess that is itself a candidate has pattern 242
against itself and is the only candidate in that bucket. -/
theorem computePatternId_all_correct (g s pat : List Nat) (hg : g.length = 5)
    (hs : s.length = 5) (hs26 : ∀ x ∈ s, x < 26) (hp : pat.length = 5) :
    ((computePatternId g s zeroCounts pat).1 = 242 ↔ g = s) ∧
    ∀ (ws : List (List Nat)) (remaining : List Nat) (gi : Nat), WordsOk ws →
      (∀ i ∈ remaining, i < ws.length) → gi ∈ remaining →
      (remaining.map (fun i => ws.getD i [])).Nodup →
      patternOf ws gi gi = 242 ∧ bucketCount ws gi remaining (patternOf ws gi gi) = 1 := by
  refine ⟨computePatternId_eq_242 g s pat hg hs hs26 hp, ?_⟩
  intro ws remaining gi hok hrem hmem hnd
  have hgi := hrem gi hmem
  have hself : patternOf ws gi gi = 242 := (patternOf_eq_242 ws hok gi gi hgi hgi).mpr rfl
  refine ⟨hself, ?_⟩
  rw [hself]
  unfold bucketCount
  have hcongr : remaining.countP (fun s => decide (patternOf ws gi s = 242))
      = remaining.countP (fun s => decide (ws.getD gi [] = ws.getD s [])) := by
    apply List.countP_congr
    intro s hs
    simp only [decide_eq_true_eq]
    exact patternOf_eq_242 ws hok gi s hgi (hrem s hs)
  rw [hcongr]
  exact countP_eq_one_of_nodup (fun i => ws.getD i []) gi remaining hnd hmem

theorem computePatternId_all_correct_witness :
    ((computePatternId [2, 17, 0, 13, 4] [18, 11, 0, 19, 4] zeroCounts zeroPattern).1 = 242
      ↔ [2, 17, 0, 13, 4] = [18, 11, 0, 19, 4]) ∧
    bucketCount sampleWords 1 [0, 1, 2] (patternOf sampleWords 1 1) = 1 :=
  ⟨(computePatternId_all_correct [2, 17, 0, 13, 4] [18, 11, 0, 19, 4] zeroPattern (by decide)
      (by decide) (by decide) (by decide)).1,
    ((computePatternId_all_correct [2, 17, 0, 13, 4] [18, 11, 0, 19, 4] zeroPattern (by decide)
      (by decide) (by decide) (by decide)).2 sampleWords [0, 1, 2] 1 (by unfold WordsOk; decide) (by decide)
      (by decide) (by decide)).2⟩

/-! ### The candidate list is increasing -/

theorem pairwise_lt_filter_range (n : Nat) (p : Nat → Bool) :
    ((List.range n).filter p).Pairwise (fun a b => a < b) ∧
    ∀ i ∈ (List.range n).filter p, i < n :=
  ⟨List.Pairwise.sublist (List.filter_sublist _) (List.pairwise_lt_range n),
    fun _ hi => List.mem_range.mp (List.mem_of_mem_filter hi)⟩

/-- C40: for every dictionary of length `N`, every memo cache and every
board state (valid, empty or invalid) on which `filterCandidates` does not
return a cached result, the call returns, and the candidates list of its
result is strictly increasing, has no duplicates, and holds only indices
below `N`. -/
theorem filterCandidates_increasing (cache : JsObject FilterResult) (dictionary : List String)
    (boardState : BoardState) (hfresh : filterPath cache boardState ≠ FilterPath.cacheHit) :
    ∃ r cache2, filterCandidates cache dictionary boardState = some (r, cache2) ∧
      r.candidates.Pairwise (fun a b => a < b) ∧ r.candidates.Nodup ∧
      ∀ i ∈ r.candidates, i < dictionary.length := by
  have hnodup : ∀ l : List Nat, l.Pairwise (fun a b => a < b) → l.Nodup := fun l hl =>
    hl.imp (fun h => Nat.ne_of_lt h)
  cases hv : validateBoardState boardState with
  | some w =>
    have h : filterCandidates cache dictionary boardState
        = some ({ candidates := [], unconstrained := false, warning := some w,
                  constraints := neutralConstraints }, cache) := by
      unfold filterCandidates
      rw [hv]
    exact ⟨_, _, h, List.Pairwise.nil, List.nodup_nil, fun i hi => absurd hi (List.not_mem_nil _)⟩
  | none =>
    obtain ⟨gs, hgs, _⟩ := (validateBoardState_eq_none boardState).mp hv
    by_cases hne : gs = []
    · have hlen : (boardState.guesses.getD []).length = 0 := by rw [hgs, hne]; rfl
      have h : filterCandidates cache dictionary boardState
          = some ({ candidates := List.range dictionary.length, unconstrained := true,
                    warning := none, constraints := neutralConstraints }, cache) := by
        unfold filterCandidates
        rw [hv]
        simp only [hlen, if_true]
      exact ⟨_, _, h, List.pairwise_lt_range _, hnodup _ (List.pairwise_lt_range _),
        fun i hi => List.mem_range.mp hi⟩
    · have hlen : ¬ (boardState.guesses.getD []).length = 0 := by
        rw [hgs]
        exact fun h => hne (List.length_eq_zero.mp h)
      have hmiss : cache.get? (buildCacheKey gs) = none := by
        cases hc : cache.get? (buildCacheKey gs) with
        | none => rfl
        | some hit =>
          exfalso
          apply hfresh
          unfold filterPath
          rw [hv]
          simp only [hlen, if_false]
          rw [hgs]
          show (match cache.get? (buildCacheKey gs) with
            | some _ => FilterPath.cacheHit
            | none => FilterPath.fresh) = FilterPath.cacheHit
          rw [hc]
      obtain ⟨pp, r, _, _, hfc, _, _, hcand, _⟩ :=
        filterCandidates_fresh cache dictionary boardState gs hv hgs hne hmiss
      refine ⟨r, _, hfc, ?_, ?_, ?_⟩
      · rw [hcand]
        exact (pairwise_lt_filter_range _ _).1
      · rw [hcand]
        exact hnodup _ (pairwise_lt_filter_range _ _).1
      · rw [hcand]
        exact (pairwise_lt_filter_range _ _).2

theorem filterCandidates_increasing_witness :
    filterPath [] sampleBoard ≠ FilterPath.cacheHit ∧
    ∃ r cache2, filterCandidates [] ["erupt", "crate", "pureed"] sampleBoard = some (r, cache2) ∧
      r.candidates.Pairwise (fun a b => a < b) ∧ r.candidates.Nodup ∧
      ∀ i ∈ r.candidates, i < ["erupt", "crate", "pureed"].length :=
  ⟨by decide, filterCandidates_increasing [] ["erupt", "crate", "pureed"] sampleBoard (by decide)⟩

/-! ### Monotone narrowing -/

theorem unified_append (history : List Guess) (g : Guess) :
    (deriveAll (history ++ [g])).unified
      = mergeConstraints (deriveAll history).unified (deriveGuessConstraints g) := by
  unfold deriveAll
  rw [List.foldl_append]
  rfl

/-- The record `tighten u d` is at least as tight as `u`. -/
theorem tighten_tighter (u d : LetterConstraint) :
    (∀ p ∈ u.greenPositions, p ∈ (tighten u d).greenPositions) ∧
    (∀ p ∈ u.yellowPositions, p ∈ (tighten u d).yellowPositions) ∧
    u.minCount ≤ (tighten u d).minCount ∧
    (∀ m, u.maxCount = some m → ∃ m2, (tighten u d).maxCount = some m2 ∧ m2 ≤ m) := by
  refine ⟨fun p hp => ?_, fun p hp => ?_, ?_, fun m hm => ?_⟩
  · exact (mem_foldl_pushUnique _ _ p).mpr (Or.inl hp)
  · exact (mem_foldl_pushUnique _ _ p).mpr (Or.inl hp)
  · show u.minCount ≤ if d.minCount > u.minCount then d.minCount else u.minCount
    split_ifs <;> omega
  · exact (tightenMax_spec u.maxCount d.maxCount).2.1 m hm

/-- Every record of the unified map has a record at least as tight in the
unified map of the history extended by one guess. -/
theorem unified_tighter (history : List Guess) (g : Guess) (L : String) (c : LetterConstraint)
    (h : (L, c) ∈ (deriveAll history).unified) :
    ∃ c2, (L, c2) ∈ (deriveAll (history ++ [g])).unified ∧
      (∀ p ∈ c.greenPositions, p ∈ c2.greenPositions) ∧
      (∀ p ∈ c.yellowPositions, p ∈ c2.yellowPositions) ∧
      c.minCount ≤ c2.minCount ∧
      (∀ m, c.maxCount = some m → ∃ m2, c2.maxCount = some m2 ∧ m2 ≤ m) := by
  have hget := (JsObject.get?_eq_some_iff _ (WF_unified history) L c).mpr h
  have hget2 := get?_mergeConstraints (deriveAll history).unified (deriveGuessConstraints g)
    (WF_deriveGuessConstraints g) L
  rw [← unified_append, hget] at hget2
  cases hd : JsObject.get? (deriveGuessConstraints g) L with
  | none =>
    rw [hd] at hget2
    refine ⟨c, (JsObject.get?_eq_some_iff _ (WF_unified _) L c).mp hget2,
      fun p hp => hp, fun p hp => hp, Nat.le_refl _, fun m hm => ⟨m, hm, Nat.le_refl _⟩⟩
  | some d =>
    rw [hd] at hget2
    exact ⟨tighten c d, (JsObject.get?_eq_some_iff _ (WF_unified _) L _).mp hget2,
      tighten_tighter c d⟩

/-- The candidates of a validated board on an empty cache: the indices of the
dictionary words that pass the constraints; all indices on the empty board. -/
theorem candidates_empty_cache (dictionary : List String) (guesses : List Guess)
    (hvalid : ValidGuesses guesses) :
    ∃ r cache2 pp, filterCandidates [] dictionary { guesses := some guesses } = some (r, cache2) ∧
      buildPerPosition (deriveAll guesses).unified = some pp ∧
      r.candidates = if guesses = [] then List.range dictionary.length
        else (List.range dictionary.length).filter (fun i =>
          wordPassesConstraints (dictionary.getD i "") pp (deriveAll guesses).unified) := by
  have hv : validateBoardState { guesses := some guesses } = none :=
    (validateBoardState_eq_none _).mpr ⟨_, rfl, hvalid⟩
  by_cases hne : guesses = []
  · subst hne
    exact ⟨_, _, _, rfl, rfl, rfl⟩
  · obtain ⟨pp, r, hpp, _, hfc, _, _, hcand, _⟩ :=
      filterCandidates_fresh [] dictionary { guesses := some guesses } guesses hv rfl hne rfl
    refine ⟨r, _, pp, hfc, hpp, ?_⟩
    rw [if_neg hne]
    exact hcand

/-! ### The cache key determines the board -/

theorem foldl_append_data (l : List String) (acc : String) :
    (l.foldl (fun r s => r ++ s) acc).data = acc.data ++ concatData l := by
  induction l generalizing acc with
  | nil => simp [concatData]
  | cons a rest ih =>
    rw [List.foldl_cons, ih, String.data_append]
    simp [concatData]

theorem join_data (l : List String) : (String.join l).data = concatData l := by
  unfold String.join
  rw [foldl_append_data]
  rfl

theorem intercalate_go_data (s : String) (l : List String) (acc : String) :
    (String.intercalate.go acc s l).data
      = acc.data ++ l.foldr (fun a r => s.data ++ a.data ++ r) [] := by
  induction l generalizing acc with
  | nil => simp [String.intercalate.go]
  | cons a rest ih =>
    rw [String.intercalate.go, ih, String.data_append, String.data_append]
    simp

/-- The characters of the cache key of a non-empty board. -/
theorem buildCacheKey_data (a : Guess) (rest : List Guess) :
    (buildCacheKey (a :: rest)).data
      = (keyPart a).data ++ rest.foldr (fun x r => '|' :: (keyPart x).data ++ r) [] := by
  have hf : ∀ l : List Guess,
      (l.map keyPart).foldr (fun a r => "|".data ++ a.data ++ r) []
        = l.foldr (fun x r => '|' :: (keyPart x).data ++ r) [] := by
    intro l
    induction l with
    | nil => rfl
    | cons x xs ih =>
      rw [List.map_cons, List.foldr_cons, List.foldr_cons, ih]
      rfl
  have h : buildCacheKey (a :: rest)
      = String.intercalate.go (keyPart a) "|" (rest.map keyPart) := rfl
  rw [h, intercalate_go_data, hf]

theorem keyPart_data (guess : Guess) :
    (keyPart guess).data
      = guess.word.data
        ++ ':' :: concatData (guess.tiles.map (fun tile => statusChar tile.status)) := by
  unfold keyPart
  rw [String.data_append, String.data_append, join_data, List.append_assoc]
  rfl

theorem concatData_length (l : List String) (h : ∀ x ∈ l, x.data.length = 1) :
    (concatData l).length = l.length := by
  induction l with
  | nil => rfl
  | cons a rest ih =>
    unfold concatData at ih ⊢
    rw [List.foldr_cons, List.length_append, ih (fun x hx => h x (List.mem_cons_of_mem _ hx)),
      h a (List.mem_cons_self _ _), List.length_cons]
    omega

/-- Lists of one-character strings with the same characters are equal. -/
theorem concatData_inj (xs ys : List String) (hx : ∀ x ∈ xs, x.data.length = 1)
    (hy : ∀ y ∈ ys, y.data.length = 1) (h : concatData xs = concatData ys) : xs = ys := by
  induction xs generalizing ys with
  | nil =>
    cases ys with
    | nil => rfl
    | cons y rest =>
      have := congrArg List.length h
      rw [concatData_length _ hy] at this
      simp [concatData] at this
  | cons x rest ih =>
    cases ys with
    | nil =>
      have := congrArg List.length h
      rw [concatData_length _ hx] at this
      simp [concatData] at this
    | cons y rest2 =>
      have h1 : x.data ++ concatData rest = y.data ++ concatData rest2 := h
      have hlen : x.data.length = y.data.length := by
        rw [hx x (List.mem_cons_self _ _), hy y (List.mem_cons_self _ _)]
      obtain ⟨e1, e2⟩ := List.append_inj h1 hlen
      rw [String.ext e1,
        ih rest2 (fun a ha => hx a (List.mem_cons_of_mem _ ha))
          (fun a ha => hy a (List.mem_cons_of_mem _ ha)) e2]

/-- A validated tile letter is one character. -/
theorem tileOk_letter (tile : Tile) (h : TileOk tile) : tile.letter.data.length = 1 := by
  obtain ⟨h1, _⟩ := h
  have hne : tile.letter ≠ "" := fun hh => h1 (Or.inl hh)
  have hlen : jsLength tile.letter = 1 := by
    by_contra hh
    exact h1 (Or.inr hh)
  unfold jsLength at hlen
  cases hd : tile.letter.data with
  | nil => exact absurd (String.ext hd) hne
  | cons c rest =>
    rw [hd] at hlen
    cases rest with
    | nil => rfl
    | cons d rest2 =>
      exfalso
      simp only [List.map_cons, List.sum_cons] at hlen
      have h2 : 1 ≤ (if c.toNat < 65536 then 1 else 2) := by split <;> omega
      have h3 : 1 ≤ (if d.toNat < 65536 then 1 else 2) := by split <;> omega
      omega

/-- A validated status has a one-character code. -/
theorem tileOk_status (tile : Tile) (h : TileOk tile) :
    (statusChar tile.status).data.length = 1 := by
  rcases h.2 with hs | hs | hs <;> rw [hs] <;> rfl

theorem statusChar_inj (a b : Tile) (ha : TileOk a) (hb : TileOk b)
    (h : statusChar a.status = statusChar b.status) : a.status = b.status := by
  rcases ha.2 with h1 | h1 | h1 <;> rcases hb.2 with h2 | h2 | h2 <;>
    rw [h1, h2] at h ⊢ <;> first | rfl | exact absurd h (by decide)

/-- Validated tile lists with the same letters and the same status codes are
equal. -/
theorem tiles_eq (ta tb : List Tile) (ha : ∀ t ∈ ta, TileOk t) (hb : ∀ t ∈ tb, TileOk t)
    (hl : ta.map Tile.letter = tb.map Tile.letter)
    (hs : ta.map (fun tile => statusChar tile.status)
      = tb.map (fun tile => statusChar tile.status)) : ta = tb := by
  induction ta generalizing tb with
  | nil =>
    cases tb with
    | nil => rfl
    | cons y rest => cases hl
  | cons x rest ih =>
    cases tb with
    | nil => cases hl
    | cons y rest2 =>
      rw [List.map_cons, List.map_cons, List.cons.injEq] at hl hs
      have e1 : x = y := by
        have hst := statusChar_inj x y (ha x (List.mem_cons_self _ _))
          (hb y (List.mem_cons_self _ _)) hs.1
        cases x
        cases y
        simp only at hl hst
        rw [hl.1, hst]
      rw [e1, ih rest2 (fun t ht => ha t (List.mem_cons_of_mem _ ht))
        (fun t ht => hb t (List.mem_cons_of_mem _ ht)) hl.2 hs.2]

theorem keyPart_length (guess : Guess) (hv : ValidGuesses [guess]) (hsp : Spelled [guess]) :
    guess.word.data.length = 5 ∧ (keyPart guess).data.length = 11 := by
  obtain ⟨h5, hok⟩ := hv guess (List.mem_singleton.mpr rfl)
  have hw : guess.word.data.length = 5 := by
    rw [hsp guess (List.mem_singleton.mpr rfl), join_data, concatData_length, List.length_map, h5]
    intro x hx
    obtain ⟨t, ht, rfl⟩ := List.mem_map.mp hx
    exact tileOk_letter t (hok t ht)
  refine ⟨hw, ?_⟩
  rw [keyPart_data, List.length_append, List.length_cons, concatData_length, List.length_map,
    h5, hw]
  intro x hx
  obtain ⟨t, ht, rfl⟩ := List.mem_map.mp hx
  exact tileOk_status t (hok t ht)

/-- Two validated guesses spelled by their tiles with the same key part are
the same guess. -/
theorem keyPart_inj (a b : Guess) (hva : ValidGuesses [a]) (hvb : ValidGuesses [b])
    (hsa : Spelled [a]) (hsb : Spelled [b]) (h : (keyPart a).data = (keyPart b).data) :
    a = b := by
  obtain ⟨h5a, hoka⟩ := hva a (List.mem_singleton.mpr rfl)
  obtain ⟨h5b, hokb⟩ := hvb b (List.mem_singleton.mpr rfl)
  have hla := (keyPart_length a hva hsa).1
  have hlb := (keyPart_length b hvb hsb).1
  rw [keyPart_data, keyPart_data] at h
  obtain ⟨e1, e2⟩ := List.append_inj h (by rw [hla, hlb])
  rw [List.cons.injEq] at e2
  have hword : a.word = b.word := String.ext e1
  have hletters : a.tiles.map Tile.letter = b.tiles.map Tile.letter := by
    apply concatData_inj
    · intro x hx
      obtain ⟨t, ht, rfl⟩ := List.mem_map.mp hx
      exact tileOk_letter t (hoka t ht)
    · intro x hx
      obtain ⟨t, ht, rfl⟩ := List.mem_map.mp hx
      exact tileOk_letter t (hokb t ht)
    · rw [← join_data, ← join_data, ← hsa a (List.mem_singleton.mpr rfl),
        ← hsb b (List.mem_singleton.mpr rfl), hword]
  have hcodes : a.tiles.map (fun tile => statusChar tile.status)
      = b.tiles.map (fun tile => statusChar tile.status) := by
    apply concatData_inj _ _ _ _ e2.2
    · intro x hx
      obtain ⟨t, ht, rfl⟩ := List.mem_map.mp hx
      exact tileOk_status t (hoka t ht)
    · intro x hx
      obtain ⟨t, ht, rfl⟩ := List.mem_map.mp hx
      exact tileOk_status t (hokb t ht)
  have htiles := tiles_eq a.tiles b.tiles hoka hokb hletters hcodes
  cases a
  cases b
  simp only at hword htiles
  rw [hword, htiles]

theorem keyTail_inj (xs ys : List Guess) (hvx : ValidGuesses xs) (hvy : ValidGuesses ys)
    (hsx : Spelled xs) (hsy : Spelled ys)
    (h : xs.foldr (fun x r => '|' :: (keyPart x).data ++ r) []
      = ys.foldr (fun x r => '|' :: (keyPart x).data ++ r) []) : xs = ys := by
  induction xs generalizing ys with
  | nil =>
    cases ys with
    | nil => rfl
    | cons y rest => cases h
  | cons x rest ih =>
    cases ys with
    | nil => cases h
    | cons y rest2 =>
      rw [List.foldr_cons, List.foldr_cons] at h
      have hvx1 : ValidGuesses [x] := fun g hg => hvx g (by
        rw [List.mem_singleton.mp hg]; exact List.mem_cons_self _ _)
      have hvy1 : ValidGuesses [y] := fun g hg => hvy g (by
        rw [List.mem_singleton.mp hg]; exact List.mem_cons_self _ _)
      have hsx1 : Spelled [x] := fun g hg => hsx g (by
        rw [List.mem_singleton.mp hg]; exact List.mem_cons_self _ _)
      have hsy1 : Spelled [y] := fun g hg => hsy g (by
        rw [List.mem_singleton.mp hg]; exact List.mem_cons_self _ _)
      obtain ⟨e1, e2⟩ := List.append_inj h (by
        rw [List.length_cons, List.length_cons, (keyPart_length x hvx1 hsx1).2,
          (keyPart_length y hvy1 hsy1).2])
      rw [keyPart_inj x y hvx1 hvy1 hsx1 hsy1 (List.cons.inj e1).2,
        ih rest2 (fun g hg => hvx g (List.mem_cons_of_mem _ hg))
          (fun g hg => hvy g (List.mem_cons_of_mem _ hg))
          (fun g hg => hsx g (List.mem_cons_of_mem _ hg))
          (fun g hg => hsy g (List.mem_cons_of_mem _ hg)) e2]

/-- The cache key determines a validated board spelled by its tiles. -/
theorem buildCacheKey_inj (ga gb : List Guess) (hva : ValidGuesses ga) (hvb : ValidGuesses gb)
    (hsa : Spelled ga) (hsb : Spelled gb) (h : buildCacheKey ga = buildCacheKey gb) :
    ga = gb := by
  have hd := congrArg String.data h
  have hpos : ∀ (x : Guess) (rest : List Guess), ValidGuesses (x :: rest) →
      Spelled (x :: rest) → (buildCacheKey (x :: rest)).data ≠ [] := by
    intro x rest hv hs hnil
    have hv1 : ValidGuesses [x] := fun g hg => hv g (by
      rw [List.mem_singleton.mp hg]; exact List.mem_cons_self _ _)
    have hs1 : Spelled [x] := fun g hg => hs g (by
      rw [List.mem_singleton.mp hg]; exact List.mem_cons_self _ _)
    have h11 := (keyPart_length x hv1 hs1).2
    rw [buildCacheKey_data] at hnil
    have := congrArg List.length hnil
    rw [List.length_append, h11] at this
    simp at this
  cases ga with
  | nil =>
    cases gb with
    | nil => rfl
    | cons y rest => exact absurd hd.symm (hpos y rest hvb hsb)
  | cons x rest =>
    cases gb with
    | nil => exact absurd hd (hpos x rest hva hsa)
    | cons y rest2 =>
      rw [buildCacheKey_data, buildCacheKey_data] at hd
      have hvx1 : ValidGuesses [x] := fun g hg => hva g (by
        rw [List.mem_singleton.mp hg]; exact List.mem_cons_self _ _)
      have hvy1 : ValidGuesses [y] := fun g hg => hvb g (by
        rw [List.mem_singleton.mp hg]; exact List.mem_cons_self _ _)
      have hsx1 : Spelled [x] := fun g hg => hsa g (by
        rw [List.mem_singleton.mp hg]; exact List.mem_cons_self _ _)
      have hsy1 : Spelled [y] := fun g hg => hsb g (by
        rw [List.mem_singleton.mp hg]; exact List.mem_cons_self _ _)
      obtain ⟨e1, e2⟩ := List.append_inj hd (by
        rw [(keyPart_length x hvx1 hsx1).2, (keyPart_length y hvy1 hsy1).2])
      rw [keyPart_inj x y hvx1 hvy1 hsx1 hsy1 e1,
        keyTail_inj rest rest2 (fun g hg => hva g (List.mem_cons_of_mem _ hg))
          (fun g hg => hvb g (List.mem_cons_of_mem _ hg))
          (fun g hg => hsa g (List.mem_cons_of_mem _ hg))
          (fun g hg => hsb g (List.mem_cons_of_mem _ hg)) e2]

/-- The claim of C33 fails on two validated boards with the same word and the
same statuses whose tiles show different letters: they have the same cache
key, the uncached derivation gives different candidates, and the second call
returns the cached result of the first, not what the derivation gives. -/
theorem filterCandidates_cache_not_transparent :
    validateBoardState { guesses := some [craneAbsent] } = none ∧
    validateBoardState { guesses := some [craneMislabelled] } = none ∧
    [craneAbsent].map Guess.word = [craneMislabelled].map Guess.word ∧
    [craneAbsent].map (fun g => g.tiles.map Tile.status)
      = [craneMislabelled].map (fun g => g.tiles.map Tile.status) ∧
    buildCacheKey [craneAbsent] = buildCacheKey [craneMislabelled] ∧
    (computeResult ["sloth"] [craneAbsent]).map FilterResult.candidates = some [0] ∧
    (computeResult ["sloth"] [craneMislabelled]).map FilterResult.candidates = some [] ∧
    ((filterCandidates [] ["sloth"] { guesses := some [craneAbsent] }).bind (fun x =>
      filterCandidates x.2 ["sloth"] { guesses := some [craneMislabelled] })).map
        (fun x => x.1.candidates) = some [0] := by
  decide

/-- C33 (amended): for a fixed dictionary and every two board states that
pass validation, whose guess words are the strings of their tile letters (as
the board reader builds them) and that have the same cache key, the two
boards have the same guesses, so the uncached derivation gives the same
result for both; and once a fresh computation on the first board has stored
its result, the call on the second board returns that result from the memo
cache and it is what the uncached derivation gives on the second board. -/
theorem filterCandidates_cache_transparent (dictionary : List String) (ga gb : List Guess)
    (hva : validateBoardState { guesses := some ga } = none)
    (hvb : validateBoardState { guesses := some gb } = none)
    (hsa : Spelled ga) (hsb : Spelled gb) (hkey : buildCacheKey ga = buildCacheKey gb) :
    ga = gb ∧ computeResult dictionary ga = computeResult dictionary gb ∧
    ∀ cache : JsObject FilterResult, ga ≠ [] → cache.get? (buildCacheKey ga) = none →
      ∃ r cache2, filterCandidates cache dictionary { guesses := some ga } = some (r, cache2) ∧
        filterCandidates cache2 dictionary { guesses := some gb } = some (r, cache2) ∧
        computeResult dictionary gb = some r := by
  obtain ⟨ga2, hga, hva2⟩ := (validateBoardState_eq_none _).mp hva
  obtain ⟨gb2, hgb, hvb2⟩ := (validateBoardState_eq_none _).mp hvb
  have e1 : ga2 = ga := (Option.some.inj hga).symm
  have e2 : gb2 = gb := (Option.some.inj hgb).symm
  subst e1 e2
  have heq := buildCacheKey_inj ga2 gb2 hva2 hvb2 hsa hsb hkey
  subst heq
  refine ⟨rfl, rfl, ?_⟩
  intro cache hne hmiss
  obtain ⟨pp, r, _, hres, hfc, _⟩ :=
    filterCandidates_fresh cache dictionary { guesses := some ga2 } ga2 hva rfl hne hmiss
  refine ⟨r, _, hfc, ?_, hres⟩
  have hlen : ¬ ga2.length = 0 := fun h => hne (List.length_eq_zero.mp h)
  unfold filterCandidates
  rw [hva]
  simp only [Option.getD_some, hlen, if_false]
  rw [JsObject.get?_set]
  simp

theorem filterCandidates_cache_transparent_witness :
    validateBoardState { guesses := some [speedGuess, crateGuess] } = none ∧
    Spelled [speedGuess, crateGuess] ∧
    ∃ r cache2,
      filterCandidates [] ["erupt", "crate"] { guesses := some [speedGuess, crateGuess] }
        = some (r, cache2) ∧
      filterCandidates cache2 ["erupt", "crate"] { guesses := some [speedGuess, crateGuess] }
        = some (r, cache2) ∧
      computeResult ["erupt", "crate"] [speedGuess, crateGuess] = some r :=
  ⟨by decide, by decide,
    (filterCandidates_cache_transparent ["erupt", "crate"] [speedGuess, crateGuess]
      [speedGuess, crateGuess] (by decide) (by decide) (by decide) (by decide) rfl).2.2 []
      (by decide) rfl⟩

/-! ### The arrays of the derivation loop -/

theorem get?_snapshotUnified (u : JsObject LetterConstraint) (hwf : JsObject.WF u) (L : String) :
    (snapshotUnified u).get? L = u.get? L := by
  unfold snapshotUnified
  rw [JsObject.get?_foldl_keyed _ (fun _ v => v)
    (fun acc e k => JsObject.get?_set acc e.1 _ k) u hwf [] L]
  cases JsObject.get? u L <;> rfl

theorem foldl_deriveStep_all (guesses : List Guess) (d : Derivation) :
    (guesses.foldl deriveStep d).allGuessConstraints
      = d.allGuessConstraints ++ guesses.map deriveGuessConstraints := by
  induction guesses generalizing d with
  | nil => simp
  | cons x rest ih =>
    rw [List.foldl_cons, ih, List.map_cons]
    show (d.allGuessConstraints ++ [deriveGuessConstraints x]) ++ _ = _
    rw [List.append_assoc]
    rfl

theorem foldl_deriveStep_snaps (guesses : List Guess) (d : Derivation) :
    (guesses.foldl deriveStep d).unifiedSnapshots
      = d.unifiedSnapshots ++ (List.range guesses.length).map (fun k =>
          snapshotUnified ((guesses.take k).foldl deriveStep d).unified) := by
  induction guesses generalizing d with
  | nil => simp
  | cons x rest ih =>
    rw [List.foldl_cons, ih, List.length_cons, List.range_succ_eq_map, List.map_cons,
      List.map_map]
    show (d.unifiedSnapshots ++ [snapshotUnified d.unified]) ++ _ = _
    rw [List.append_assoc]
    rfl

theorem derive_getElem? (guesses : List Guess) (g : Nat) (guess : Guess)
    (hg : guesses[g]? = some guess) :
    (deriveAll guesses).allGuessConstraints[g]? = some (deriveGuessConstraints guess) ∧
    (deriveAll guesses).unifiedSnapshots[g]?
      = some (snapshotUnified (deriveAll (guesses.take g)).unified) := by
  have hlt : g < guesses.length := by
    by_contra hge
    rw [List.getElem?_eq_none (by omega)] at hg
    cases hg
  unfold deriveAll
  rw [foldl_deriveStep_all, foldl_deriveStep_snaps]
  constructor
  · rw [List.nil_append, List.getElem?_map, hg]
    rfl
  · rw [List.nil_append, List.getElem?_map, List.getElem?_range hlt]
    rfl

/-- The entry of `perGuess` for the guess at index `g`. -/
theorem buildPerGuess_getElem? (guesses : List Guess) (g : Nat) (guess : Guess)
    (hg : guesses[g]? = some guess) :
    (buildPerGuess guesses (deriveAll guesses).allGuessConstraints
        (deriveAll guesses).unifiedSnapshots)[g]?
      = some { word := guess.word,
               added := (deriveGuessConstraints guess).foldl
                 (addedLetter (snapshotUnified (deriveAll (guesses.take g)).unified))
                 noneAdded } := by
  obtain ⟨h1, h2⟩ := derive_getElem? guesses g guess hg
  have hz : (guesses.zip ((deriveAll guesses).allGuessConstraints.zip
      (deriveAll guesses).unifiedSnapshots))[g]?
      = some (guess, deriveGuessConstraints guess,
          snapshotUnified (deriveAll (guesses.take g)).unified) :=
    List.getElem?_zip_eq_some.mpr ⟨hg, List.getElem?_zip_eq_some.mpr ⟨h1, h2⟩⟩
  unfold buildPerGuess
  rw [List.getElem?_map, hz]
  rfl

/-! ### What the letter loop of `buildPerGuess` collects -/

theorem addedLetter_greens (snap : JsObject LetterConstraint) (acc : Added)
    (e : String × LetterConstraint) (x : String) :
    x ∈ (addedLetter snap acc e).greens ↔ x ∈ acc.greens ∨
      ∃ pos ∈ e.2.greenPositions,
        (∀ sn, snap.get? e.1 = some sn → pos ∉ sn.greenPositions) ∧ atText e.1 pos = x := by
  unfold addedLetter
  simp only [List.mem_append, List.mem_map, List.mem_filter]
  apply or_congr Iff.rfl
  constructor
  · rintro ⟨pos, ⟨hpos, hnew⟩, rfl⟩
    refine ⟨pos, hpos, ?_, rfl⟩
    intro sn hsn
    rw [hsn] at hnew
    exact of_decide_eq_true hnew
  · rintro ⟨pos, hpos, hnew, rfl⟩
    refine ⟨pos, ⟨hpos, ?_⟩, rfl⟩
    cases hsn : JsObject.get? snap e.1 with
    | none => rfl
    | some sn => exact decide_eq_true (hnew sn hsn)

theorem addedLetter_yellows (snap : JsObject LetterConstraint) (acc : Added)
    (e : String × LetterConstraint) (x : String) :
    x ∈ (addedLetter snap acc e).yellows ↔ x ∈ acc.yellows ∨
      ∃ pos ∈ e.2.yellowPositions,
        (∀ sn, snap.get? e.1 = some sn → pos ∉ sn.yellowPositions) ∧ atText e.1 pos = x := by
  unfold addedLetter
  simp only [List.mem_append, List.mem_map, List.mem_filter]
  apply or_congr Iff.rfl
  constructor
  · rintro ⟨pos, ⟨hpos, hnew⟩, rfl⟩
    refine ⟨pos, hpos, ?_, rfl⟩
    intro sn hsn
    rw [hsn] at hnew
    exact of_decide_eq_true hnew
  · rintro ⟨pos, hpos, hnew, rfl⟩
    refine ⟨pos, ⟨hpos, ?_⟩, rfl⟩
    cases hsn : JsObject.get? snap e.1 with
    | none => rfl
    | some sn => exact decide_eq_true (hnew sn hsn)

theorem addedLetter_grays (snap : JsObject LetterConstraint) (acc : Added)
    (e : String × LetterConstraint) (x : String) :
    x ∈ (addedLetter snap acc e).grays ↔ x ∈ acc.grays ∨
      (e.1 = x ∧ (e.2.maxCount = some 0 ∧ e.2.minCount = 0) ∧
        ∀ sn, snap.get? e.1 = some sn → sn.maxCount ≠ some 0) := by
  unfold addedLetter
  simp only
  by_cases h0 : e.2.maxCount = some 0 ∧ e.2.minCount = 0
  · rw [if_pos h0]
    cases hsn : JsObject.get? snap e.1 with
    | none =>
      simp only [List.mem_append, List.mem_singleton]
      apply or_congr Iff.rfl
      constructor
      · intro hx
        exact ⟨hx.symm, h0, fun sn h => by cases h⟩
      · intro hx
        exact hx.1.symm
    | some sn =>
      simp only
      by_cases h1 : sn.maxCount ≠ some 0
      · rw [if_pos h1]
        simp only [List.mem_append, List.mem_singleton]
        apply or_congr Iff.rfl
        constructor
        · intro hx
          exact ⟨hx.symm, h0, fun sn2 h => by rw [← Option.some.inj h]; exact h1⟩
        · intro hx
          exact hx.1.symm
      · rw [if_neg h1]
        constructor
        · intro hx
          exact Or.inl hx
        · rintro (hx | hx)
          · exact hx
          · exact absurd (hx.2.2 sn rfl) h1
  · rw [if_neg h0]
    constructor
    · intro hx
      exact Or.inl hx
    · rintro (hx | hx)
      · exact hx
      · exact absurd hx.2.1 h0

theorem foldl_added_greens (snap gc : JsObject LetterConstraint) (acc : Added) (x : String) :
    x ∈ (gc.foldl (addedLetter snap) acc).greens ↔ x ∈ acc.greens ∨
      ∃ e ∈ gc, ∃ pos ∈ e.2.greenPositions,
        (∀ sn, snap.get? e.1 = some sn → pos ∉ sn.greenPositions) ∧ atText e.1 pos = x := by
  induction gc generalizing acc with
  | nil => simp
  | cons e rest ih =>
    rw [List.foldl_cons, ih, addedLetter_greens]
    simp only [List.mem_cons, exists_eq_or_imp, or_assoc]

theorem foldl_added_yellows (snap gc : JsObject LetterConstraint) (acc : Added) (x : String) :
    x ∈ (gc.foldl (addedLetter snap) acc).yellows ↔ x ∈ acc.yellows ∨
      ∃ e ∈ gc, ∃ pos ∈ e.2.yellowPositions,
        (∀ sn, snap.get? e.1 = some sn → pos ∉ sn.yellowPositions) ∧ atText e.1 pos = x := by
  induction gc generalizing acc with
  | nil => simp
  | cons e rest ih =>
    rw [List.foldl_cons, ih, addedLetter_yellows]
    simp only [List.mem_cons, exists_eq_or_imp, or_assoc]

theorem foldl_added_grays (snap gc : JsObject LetterConstraint) (acc : Added) (x : String) :
    x ∈ (gc.foldl (addedLetter snap) acc).grays ↔ x ∈ acc.grays ∨
      ∃ e ∈ gc, e.1 = x ∧ (e.2.maxCount = some 0 ∧ e.2.minCount = 0) ∧
        ∀ sn, snap.get? e.1 = some sn → sn.maxCount ≠ some 0 := by
  induction gc generalizing acc with
  | nil => simp
  | cons e rest ih =>
    rw [List.foldl_cons, ih, addedLetter_grays]
    simp only [List.mem_cons, exists_eq_or_imp, or_assoc]

/-! ### Reading a delta text back -/

theorem toLowerCase_length (s : String) : (toLowerCase s).data.length = s.data.length := by
  simp [toLowerCase]

theorem toString_data_lt5 (p : Nat) (hp : p < 5) :
    (toString p).data = [Char.ofNat (48 + p)] := by
  match p, hp with
  | 0, _ => rfl
  | 1, _ => rfl
  | 2, _ => rfl
  | 3, _ => rfl
  | 4, _ => rfl

theorem atText_data (L : String) (p : Nat) (hp : p < 5) :
    (atText L p).data = L.data ++ ['@', Char.ofNat (48 + p)] := by
  unfold atText
  rw [String.data_append, String.data_append, toString_data_lt5 p hp, List.append_assoc]
  rfl

/-- A delta text names one letter and one position. -/
theorem atText_inj (L M : String) (p q : Nat) (hL : L.data.length = 1) (hM : M.data.length = 1)
    (hp : p < 5) (hq : q < 5) (h : atText L p = atText M q) : L = M ∧ p = q := by
  have hd := congrArg String.data h
  rw [atText_data L p hp, atText_data M q hq] at hd
  obtain ⟨e1, e2⟩ := List.append_inj hd (by rw [hL, hM])
  refine ⟨String.ext e1, ?_⟩
  match p, hp, q, hq with
  | 0, _, 0, _ => rfl
  | 0, _, 1, _ => exact absurd e2 (by decide)
  | 0, _, 2, _ => exact absurd e2 (by decide)
  | 0, _, 3, _ => exact absurd e2 (by decide)
  | 0, _, 4, _ => exact absurd e2 (by decide)
  | 1, _, 0, _ => exact absurd e2 (by decide)
  | 1, _, 1, _ => rfl
  | 1, _, 2, _ => exact absurd e2 (by decide)
  | 1, _, 3, _ => exact absurd e2 (by decide)
  | 1, _, 4, _ => exact absurd e2 (by decide)
  | 2, _, 0, _ => exact absurd e2 (by decide)
  | 2, _, 1, _ => exact absurd e2 (by decide)
  | 2, _, 2, _ => rfl
  | 2, _, 3, _ => exact absurd e2 (by decide)
  | 2, _, 4, _ => exact absurd e2 (by decide)
  | 3, _, 0, _ => exact absurd e2 (by decide)
  | 3, _, 1, _ => exact absurd e2 (by decide)
  | 3, _, 2, _ => exact absurd e2 (by decide)
  | 3, _, 3, _ => rfl
  | 3, _, 4, _ => exact absurd e2 (by decide)
  | 4, _, 0, _ => exact absurd e2 (by decide)
  | 4, _, 1, _ => exact absurd e2 (by decide)
  | 4, _, 2, _ => exact absurd e2 (by decide)
  | 4, _, 3, _ => exact absurd e2 (by decide)
  | 4, _, 4, _ => rfl

/-! ### The records of a guess and of the guesses before it -/

/-- An entry of the constraints of a validated guess: its key is a
one-character letter shown by a tile, its record the tally of that letter. -/
theorem entry_of_derive (guess : Guess) (hok : ∀ tile ∈ guess.tiles, TileOk tile)
    (e : String × LetterConstraint) (he : e ∈ deriveGuessConstraints guess) :
    e.1.data.length = 1 ∧ (∃ tile ∈ guess.tiles, toLowerCase tile.letter = e.1) ∧
    e.2 = deriveLetter (tallyClosed e.1 guess.tiles 0 emptyInfo) := by
  have hget := (JsObject.get?_eq_some_iff _ (WF_deriveGuessConstraints guess) e.1 e.2).mpr he
  rw [get?_deriveGuessConstraints] at hget
  split at hget
  · rename_i hex
    obtain ⟨tile, ht, hk⟩ := hex
    refine ⟨?_, ⟨tile, ht, hk⟩, (Option.some.inj hget).symm⟩
    rw [← hk, toLowerCase_length]
    exact tileOk_letter tile (hok tile ht)
  · cases hget

theorem derive_mem_of_shown (guess : Guess) (L : String)
    (hL : ∃ tile ∈ guess.tiles, toLowerCase tile.letter = L) :
    (L, deriveLetter (tallyClosed L guess.tiles 0 emptyInfo)) ∈ deriveGuessConstraints guess := by
  apply (JsObject.get?_eq_some_iff _ (WF_deriveGuessConstraints guess) L _).mp
  rw [get?_deriveGuessConstraints, if_pos hL]

theorem derive_greens (L : String) (tiles : List Tile) :
    (deriveLetter (tallyClosed L tiles 0 emptyInfo)).greenPositions
      = positionsOf L "correct" tiles 0 := by
  simp [deriveLetter, tallyClosed, emptyInfo]

theorem derive_yellows (L : String) (tiles : List Tile) :
    (deriveLetter (tallyClosed L tiles 0 emptyInfo)).yellowPositions
      = positionsOf L "present" tiles 0 := by
  simp [deriveLetter, tallyClosed, emptyInfo]

theorem showsAt_shown (guess : Guess) (L status : String) (p : Nat)
    (h : showsAt guess L status p) : ∃ tile ∈ guess.tiles, toLowerCase tile.letter = L := by
  obtain ⟨tile, ht, hk, _⟩ := h
  exact ⟨tile, List.mem_iff_getElem?.mpr ⟨p, ht⟩, hk⟩

theorem yellow_tile_of_unified (guesses : List Guess) (L : String) (c : LetterConstraint)
    (p : Nat) (h : JsObject.get? (deriveAll guesses).unified L = some c)
    (hp : p ∈ c.yellowPositions) :
    ∃ guess ∈ guesses, showsAt guess L "present" p := by
  obtain ⟨_, hc⟩ := get?_unified_records L guesses c h
  rw [hc, foldTighten_yellows_mem] at hp
  rcases hp with h0 | ⟨cg, hcg, hpg⟩
  · cases h0
  · obtain ⟨g, hg, hgc⟩ := (mem_guessRecords L guesses cg).mp hcg
    rw [get?_deriveGuessConstraints] at hgc
    split at hgc
    · have : cg = deriveLetter (tallyClosed L g.tiles 0 emptyInfo) := (Option.some.inj hgc).symm
      subst this
      rw [derive_yellows] at hpg
      exact ⟨g, hg, (mem_positionsOf L "present" g.tiles p).mp hpg⟩
    · cases hgc

/-- A position that a guess shows correct for `L` is a green position of the
unified record of `L`. -/
theorem unified_green_of_tile (guesses : List Guess) (L : String) (p : Nat) (guess : Guess)
    (hmem : guess ∈ guesses) (h : showsAt guess L "correct" p) :
    ∃ c, JsObject.get? (deriveAll guesses).unified L = some c ∧ p ∈ c.greenPositions := by
  have hshown := showsAt_shown guess L "correct" p h
  refine ⟨_, unified_get_of_guessed guesses L ⟨guess, hmem, hshown⟩, ?_⟩
  rw [foldTighten_greens_mem]
  refine Or.inr ⟨deriveLetter (tallyClosed L guess.tiles 0 emptyInfo), ?_, ?_⟩
  · rw [mem_guessRecords]
    exact ⟨guess, hmem, by rw [get?_deriveGuessConstraints, if_pos hshown]⟩
  · rw [derive_greens]
    exact (mem_positionsOf L "correct" guess.tiles p).mpr h

theorem unified_yellow_of_tile (guesses : List Guess) (L : String) (p : Nat) (guess : Guess)
    (hmem : guess ∈ guesses) (h : showsAt guess L "present" p) :
    ∃ c, JsObject.get? (deriveAll guesses).unified L = some c ∧ p ∈ c.yellowPositions := by
  have hshown := showsAt_shown guess L "present" p h
  refine ⟨_, unified_get_of_guessed guesses L ⟨guess, hmem, hshown⟩, ?_⟩
  rw [foldTighten_yellows_mem]
  refine Or.inr ⟨deriveLetter (tallyClosed L guess.tiles 0 emptyInfo), ?_, ?_⟩
  · rw [mem_guessRecords]
    exact ⟨guess, hmem, by rw [get?_deriveGuessConstraints, if_pos hshown]⟩
  · rw [derive_yellows]
    exact (mem_positionsOf L "present" guess.tiles p).mpr h

theorem mem_take_iff_earlier (guesses : List Guess) (g : Nat) (guess : Guess) :
    guess ∈ guesses.take g ↔ ∃ k, k < g ∧ guesses[k]? = some guess := by
  rw [List.mem_iff_getElem?]
  constructor
  · rintro ⟨k, hk⟩
    rw [List.getElem?_take] at hk
    split at hk
    · rename_i hlt
      exact ⟨k, hlt, hk⟩
    · cases hk
  · rintro ⟨k, hlt, hk⟩
    exact ⟨k, by rw [List.getElem?_take, if_pos hlt]; exact hk⟩

/-- The record of a shown letter has `maxCount` 0 and `minCount` 0 exactly
when every tile of the letter is absent. -/
theorem derive_gray_iff (guess : Guess) (hok : ∀ tile ∈ guess.tiles, TileOk tile) (L : String)
    (hL : ∃ tile ∈ guess.tiles, toLowerCase tile.letter = L) :
    ((deriveLetter (tallyClosed L guess.tiles 0 emptyInfo)).maxCount = some 0 ∧
      (deriveLetter (tallyClosed L guess.tiles 0 emptyInfo)).minCount = 0)
      ↔ ∀ tile ∈ guess.tiles, toLowerCase tile.letter = L → tile.status = "absent" := by
  have hmin : (deriveLetter (tallyClosed L guess.tiles 0 emptyInfo)).minCount
      = guess.tiles.countP (tileIs L "correct") + guess.tiles.countP (tileIs L "present") := by
    simp [deriveLetter, tallyClosed, emptyInfo]
  constructor
  · rintro ⟨_, h0⟩ tile ht hk
    rw [hmin] at h0
    have hc : guess.tiles.countP (tileIs L "correct") = 0 := by omega
    have hp : guess.tiles.countP (tileIs L "present") = 0 := by omega
    rw [List.countP_eq_zero] at hc hp
    rcases (hok tile ht).2 with hs | hs | hs
    · exact absurd (decide_eq_true ⟨hk, hs⟩) (hc tile ht)
    · exact absurd (decide_eq_true ⟨hk, hs⟩) (hp tile ht)
    · exact hs
  · intro hall
    have hnc : ("absent" : String) ≠ "correct" := by decide
    have hnp : ("absent" : String) ≠ "present" := by decide
    have hc : guess.tiles.countP (tileIs L "correct") = 0 := by
      rw [List.countP_eq_zero]
      intro tile ht hh
      have h2 := of_decide_eq_true hh
      have := hall tile ht h2.1
      rw [h2.2] at this
      exact hnc this.symm
    have hp : guess.tiles.countP (tileIs L "present") = 0 := by
      rw [List.countP_eq_zero]
      intro tile ht hh
      have h2 := of_decide_eq_true hh
      have := hall tile ht h2.1
      rw [h2.2] at this
      exact hnp this.symm
    obtain ⟨tile, ht, hk⟩ := hL
    have hrec := (record_max_of_absent guess L ⟨tile, ht, hk, hall tile ht hk⟩).2
    rw [hmin, hc, hp] at hrec
    rw [hmin, hc, hp]
    exact ⟨hrec, rfl⟩

/-! ### The deltas of a guess -/

theorem buildPerGuess_delta (guesses : List Guess) (g : Nat) (guess : Guess)
    (hg : guesses[g]? = some guess) :
    (buildPerGuess guesses (deriveAll guesses).allGuessConstraints
        (deriveAll guesses).unifiedSnapshots)[g]?
      = some { word := guess.word, added := deltaOf guesses g guess } :=
  buildPerGuess_getElem? guesses g guess hg

theorem validGuess_of_getElem? (guesses : List Guess) (hv : ValidGuesses guesses) (g : Nat)
    (guess : Guess) (hg : guesses[g]? = some guess) :
    guess.tiles.length = 5 ∧ ∀ tile ∈ guess.tiles, TileOk tile :=
  hv guess (List.mem_iff_getElem?.mpr ⟨g, hg⟩)

/-- The greens a guess adds: the positions it shows correct that no earlier
guess shows correct for the same letter. -/
theorem delta_greens_iff (guesses : List Guess) (hv : ValidGuesses guesses) (g : Nat)
    (guess : Guess) (hg : guesses[g]? = some guess) (L : String) (p : Nat)
    (hL : L.data.length = 1) (hp : p < 5) :
    atText L p ∈ (deltaOf guesses g guess).greens ↔
      showsAt guess L "correct" p ∧
      ¬ ∃ k guess2, k < g ∧ guesses[k]? = some guess2 ∧ showsAt guess2 L "correct" p := by
  obtain ⟨h5, hok⟩ := validGuess_of_getElem? guesses hv g guess hg
  have hsnap : ∀ M, (snapshotUnified (deriveAll (guesses.take g)).unified).get? M
      = (deriveAll (guesses.take g)).unified.get? M := fun M =>
    get?_snapshotUnified _ (WF_unified _) M
  unfold deltaOf
  rw [foldl_added_greens]
  constructor
  · rintro (h | ⟨e, he, pos, hpos, hnew, htext⟩)
    · cases h
    · obtain ⟨hlen, _, hrec⟩ := entry_of_derive guess hok e he
      rw [hrec, derive_greens] at hpos
      have hshow := (mem_positionsOf e.1 "correct" guess.tiles pos).mp hpos
      have hpos5 : pos < 5 := by
        obtain ⟨tile, ht, _⟩ := hshow
        by_contra hge
        rw [List.getElem?_eq_none (by omega)] at ht
        cases ht
      obtain ⟨e1, e2⟩ := atText_inj e.1 L pos p hlen hL hpos5 hp htext
      subst e1 e2
      refine ⟨hshow, ?_⟩
      rintro ⟨k, guess2, hk, hg2, hsh2⟩
      obtain ⟨c, hc, hpc⟩ := unified_green_of_tile (guesses.take g) e.1 pos guess2
        ((mem_take_iff_earlier guesses g guess2).mpr ⟨k, hk, hg2⟩) hsh2
      exact hnew c (by rw [hsnap]; exact hc) hpc
  · rintro ⟨hshow, hfirst⟩
    refine Or.inr ⟨(L, deriveLetter (tallyClosed L guess.tiles 0 emptyInfo)),
      derive_mem_of_shown guess L (showsAt_shown guess L "correct" p hshow), p, ?_, ?_, rfl⟩
    · rw [derive_greens]
      exact (mem_positionsOf L "correct" guess.tiles p).mpr hshow
    · intro sn hsn hpsn
      rw [hsnap] at hsn
      obtain ⟨guess2, hmem, tile, ht, hk, hst⟩ :=
        green_tile_of_unified (guesses.take g) L sn p hsn hpsn
      obtain ⟨k, hk2, hg2⟩ := (mem_take_iff_earlier guesses g guess2).mp hmem
      exact hfirst ⟨k, guess2, hk2, hg2, tile, ht, hk, hst⟩

/-- The yellows a guess adds: the positions it shows present that no earlier
guess shows present for the same letter. -/
theorem delta_yellows_iff (guesses : List Guess) (hv : ValidGuesses guesses) (g : Nat)
    (guess : Guess) (hg : guesses[g]? = some guess) (L : String) (p : Nat)
    (hL : L.data.length = 1) (hp : p < 5) :
    atText L p ∈ (deltaOf guesses g guess).yellows ↔
      showsAt guess L "present" p ∧
      ¬ ∃ k guess2, k < g ∧ guesses[k]? = some guess2 ∧ showsAt guess2 L "present" p := by
  obtain ⟨h5, hok⟩ := validGuess_of_getElem? guesses hv g guess hg
  have hsnap : ∀ M, (snapshotUnified (deriveAll (guesses.take g)).unified).get? M
      = (deriveAll (guesses.take g)).unified.get? M := fun M =>
    get?_snapshotUnified _ (WF_unified _) M
  unfold deltaOf
  rw [foldl_added_yellows]
  constructor
  · rintro (h | ⟨e, he, pos, hpos, hnew, htext⟩)
    · cases h
    · obtain ⟨hlen, _, hrec⟩ := entry_of_derive guess hok e he
      rw [hrec, derive_yellows] at hpos
      have hshow := (mem_positionsOf e.1 "present" guess.tiles pos).mp hpos
      have hpos5 : pos < 5 := by
        obtain ⟨tile, ht, _⟩ := hshow
        by_contra hge
        rw [List.getElem?_eq_none (by omega)] at ht
        cases ht
      obtain ⟨e1, e2⟩ := atText_inj e.1 L pos p hlen hL hpos5 hp htext
      subst e1 e2
      refine ⟨hshow, ?_⟩
      rintro ⟨k, guess2, hk, hg2, hsh2⟩
      obtain ⟨c, hc, hpc⟩ := unified_yellow_of_tile (guesses.take g) e.1 pos guess2
        ((mem_take_iff_earlier guesses g guess2).mpr ⟨k, hk, hg2⟩) hsh2
      exact hnew c (by rw [hsnap]; exact hc) hpc
  · rintro ⟨hshow, hfirst⟩
    refine Or.inr ⟨(L, deriveLetter (tallyClosed L guess.tiles 0 emptyInfo)),
      derive_mem_of_shown guess L (showsAt_shown guess L "present" p hshow), p, ?_, ?_, rfl⟩
    · rw [derive_yellows]
      exact (mem_positionsOf L "present" guess.tiles p).mpr hshow
    · intro sn hsn hpsn
      rw [hsnap] at hsn
      obtain ⟨guess2, hmem, hsh2⟩ := yellow_tile_of_unified (guesses.take g) L sn p hsn hpsn
      obtain ⟨k, hk2, hg2⟩ := (mem_take_iff_earlier guesses g guess2).mp hmem
      exact hfirst ⟨k, guess2, hk2, hg2, hsh2⟩

/-- The grays a guess adds: the letters all of whose tiles are absent and
whose unified `maxCount` was not 0 before the guess. -/
theorem delta_grays_iff (guesses : List Guess) (hv : ValidGuesses guesses) (g : Nat)
    (guess : Guess) (hg : guesses[g]? = some guess) (L : String) :
    L ∈ (deltaOf guesses g guess).grays ↔
      (∃ tile ∈ guess.tiles, toLowerCase tile.letter = L) ∧
      (∀ tile ∈ guess.tiles, toLowerCase tile.letter = L → tile.status = "absent") ∧
      ∀ c, (deriveAll (guesses.take g)).unified.get? L = some c → c.maxCount ≠ some 0 := by
  obtain ⟨h5, hok⟩ := validGuess_of_getElem? guesses hv g guess hg
  have hsnap : ∀ M, (snapshotUnified (deriveAll (guesses.take g)).unified).get? M
      = (deriveAll (guesses.take g)).unified.get? M := fun M =>
    get?_snapshotUnified _ (WF_unified _) M
  unfold deltaOf
  rw [foldl_added_grays]
  constructor
  · rintro (h | ⟨e, he, hkey, hzero, hnew⟩)
    · cases h
    · obtain ⟨_, hshown, hrec⟩ := entry_of_derive guess hok e he
      subst hkey
      rw [hrec] at hzero
      refine ⟨hshown, (derive_gray_iff guess hok e.1 hshown).mp hzero, ?_⟩
      intro c hc
      exact hnew c (by rw [hsnap]; exact hc)
  · rintro ⟨hshown, hall, hbefore⟩
    refine Or.inr ⟨(L, deriveLetter (tallyClosed L guess.tiles 0 emptyInfo)),
      derive_mem_of_shown guess L hshown, rfl, (derive_gray_iff guess hok L hshown).mpr hall, ?_⟩
    intro sn hsn
    rw [hsnap] at hsn
    exact hbefore sn hsn

/-- The first guess that shows a fact. -/
theorem exists_first (P : Nat → Prop) (g : Nat) (h : P g) :
    ∃ g0, g0 ≤ g ∧ P g0 ∧ ∀ k, k < g0 → ¬ P k := by
  classical
  exact ⟨Nat.find ⟨g, h⟩, Nat.find_min' _ h, Nat.find_spec ⟨g, h⟩,
    fun k hk => Nat.find_min ⟨g, h⟩ hk⟩

/-- C37: on every validated board, for every guess index `g`, the entry
`perGuess[g]` of a fresh result carries the word of guess `g` and the deltas
against the unified state just before guess `g` is merged: `added.greens`
contains `L@p` exactly when tile `p` of guess `g` is correct with letter `L`
and no earlier guess has `L` correct at `p`; `added.yellows` likewise for
present tiles; `added.grays` contains `L` exactly when guess `g` shows `L`,
all its tiles of `L` are absent, and the unified `maxCount` of `L` before
guess `g` was not already 0. Hence a green or yellow fact that guess `g`
shows is reported by a guess at or before `g`, and no two guesses report the
same fact. -/
theorem buildPerGuess_deltas (dictionary : List String) (guesses : List Guess)
    (hvalid : validateBoardState { guesses := some guesses } = none) (g : Nat) (guess : Guess)
    (hg : guesses[g]? = some guess) :
    ∃ r pg, computeResult dictionary guesses = some r ∧
      r.constraints.perGuess[g]? = some pg ∧ pg.word = guess.word ∧
      (∀ L p, L.data.length = 1 → p < 5 →
        (atText L p ∈ pg.added.greens ↔ showsAt guess L "correct" p ∧
          ¬ ∃ k guess2, k < g ∧ guesses[k]? = some guess2 ∧ showsAt guess2 L "correct" p)) ∧
      (∀ L p, L.data.length = 1 → p < 5 →
        (atText L p ∈ pg.added.yellows ↔ showsAt guess L "present" p ∧
          ¬ ∃ k guess2, k < g ∧ guesses[k]? = some guess2 ∧ showsAt guess2 L "present" p)) ∧
      (∀ L, L ∈ pg.added.grays ↔
        (∃ tile ∈ guess.tiles, toLowerCase tile.letter = L) ∧
        (∀ tile ∈ guess.tiles, toLowerCase tile.letter = L → tile.status = "absent") ∧
        ∀ c, (deriveAll (guesses.take g)).unified.get? L = some c → c.maxCount ≠ some 0) ∧
      (∀ L p, L.data.length = 1 → p < 5 → showsAt guess L "correct" p →
        ∃ g0 pg0, g0 ≤ g ∧ r.constraints.perGuess[g0]? = some pg0 ∧
          atText L p ∈ pg0.added.greens) ∧
      (∀ L p, L.data.length = 1 → p < 5 → showsAt guess L "present" p →
        ∃ g0 pg0, g0 ≤ g ∧ r.constraints.perGuess[g0]? = some pg0 ∧
          atText L p ∈ pg0.added.yellows) ∧
      (∀ L p g2 pg2, L.data.length = 1 → p < 5 → r.constraints.perGuess[g2]? = some pg2 →
        (atText L p ∈ pg.added.greens → atText L p ∈ pg2.added.greens → g2 = g) ∧
        (atText L p ∈ pg.added.yellows → atText L p ∈ pg2.added.yellows → g2 = g)) := by
  obtain ⟨gs, hgs, hv⟩ := (validateBoardState_eq_none _).mp hvalid
  have e0 : gs = guesses := (Option.some.inj hgs).symm
  subst e0
  obtain ⟨pp, hpp, _, _⟩ := buildPerPosition_inv _ (WF_unified gs) (InRange_unified gs hv)
  have hres : computeResult dictionary gs = some
      { candidates := (List.range dictionary.length).filter (fun i =>
          wordPassesConstraints (dictionary.getD i "") pp (deriveAll gs).unified),
        unconstrained := false,
        warning :=
          if ((List.range dictionary.length).filter (fun i =>
            wordPassesConstraints (dictionary.getD i "") pp (deriveAll gs).unified)).length = 0
          then some "No candidates remaining -- board state may be invalid"
          else none,
        constraints :=
          { perLetter := (deriveAll gs).unified, perPosition := pp,
            perGuess := buildPerGuess gs (deriveAll gs).allGuessConstraints
              (deriveAll gs).unifiedSnapshots } } := by
    unfold computeResult
    simp only [hpp]
  have hentry : ∀ k gk, gs[k]? = some gk →
      (buildPerGuess gs (deriveAll gs).allGuessConstraints
        (deriveAll gs).unifiedSnapshots)[k]?
        = some ({ word := gk.word, added := deltaOf gs k gk } : PerGuess) := fun k gk hk =>
    buildPerGuess_delta gs k gk hk
  have hrev : ∀ k pk, (buildPerGuess gs (deriveAll gs).allGuessConstraints
        (deriveAll gs).unifiedSnapshots)[k]? = some pk →
      ∃ gk, gs[k]? = some gk ∧ pk.added = deltaOf gs k gk := by
    intro k pk hk
    cases hgk : gs[k]? with
    | none =>
      exfalso
      have hlen : (buildPerGuess gs (deriveAll gs).allGuessConstraints
          (deriveAll gs).unifiedSnapshots).length ≤ gs.length := by
        unfold buildPerGuess
        rw [List.length_map, List.length_zip]
        exact Nat.min_le_left _ _
      have hge : gs.length ≤ k := by
        by_contra hlt
        rw [List.getElem?_eq_getElem (by omega)] at hgk
        cases hgk
      rw [List.getElem?_eq_none (by omega)] at hk
      cases hk
    | some gk =>
      rw [hentry k gk hgk] at hk
      exact ⟨gk, rfl, by rw [← Option.some.inj hk]⟩
  refine ⟨_, _, hres, hentry g guess hg, rfl,
    fun L p hL hp => delta_greens_iff gs hv g guess hg L p hL hp,
    fun L p hL hp => delta_yellows_iff gs hv g guess hg L p hL hp,
    fun L => delta_grays_iff gs hv g guess hg L, ?_, ?_, ?_⟩
  · intro L p hL hp hshow
    obtain ⟨g0, hle, ⟨gk, hgk, hsk⟩, hmin⟩ :=
      exists_first (fun k => ∃ gk, gs[k]? = some gk ∧ showsAt gk L "correct" p) g
        ⟨guess, hg, hshow⟩
    refine ⟨g0, _, hle, hentry g0 gk hgk, ?_⟩
    apply (delta_greens_iff gs hv g0 gk hgk L p hL hp).mpr
    refine ⟨hsk, ?_⟩
    rintro ⟨k, guess2, hk, hg2, hsh2⟩
    exact hmin k hk ⟨guess2, hg2, hsh2⟩
  · intro L p hL hp hshow
    obtain ⟨g0, hle, ⟨gk, hgk, hsk⟩, hmin⟩ :=
      exists_first (fun k => ∃ gk, gs[k]? = some gk ∧ showsAt gk L "present" p) g
        ⟨guess, hg, hshow⟩
    refine ⟨g0, _, hle, hentry g0 gk hgk, ?_⟩
    apply (delta_yellows_iff gs hv g0 gk hgk L p hL hp).mpr
    refine ⟨hsk, ?_⟩
    rintro ⟨k, guess2, hk, hg2, hsh2⟩
    exact hmin k hk ⟨guess2, hg2, hsh2⟩
  · intro L p g2 pg2 hL hp hpg2
    obtain ⟨gk, hgk, hadd⟩ := hrev g2 pg2 hpg2
    constructor
    · intro h1 h2
      rw [hadd] at h2
      have a1 := (delta_greens_iff gs hv g guess hg L p hL hp).mp h1
      have a2 := (delta_greens_iff gs hv g2 gk hgk L p hL hp).mp h2
      rcases Nat.lt_trichotomy g2 g with hlt | heq | hgt
      · exact absurd ⟨g2, gk, hlt, hgk, a2.1⟩ a1.2
      · exact heq
      · exact absurd ⟨g, guess, hgt, hg, a1.1⟩ a2.2
    · intro h1 h2
      rw [hadd] at h2
      have a1 := (delta_yellows_iff gs hv g guess hg L p hL hp).mp h1
      have a2 := (delta_yellows_iff gs hv g2 gk hgk L p hL hp).mp h2
      rcases Nat.lt_trichotomy g2 g with hlt | heq | hgt
      · exact absurd ⟨g2, gk, hlt, hgk, a2.1⟩ a1.2
      · exact heq
      · exact absurd ⟨g, guess, hgt, hg, a1.1⟩ a2.2

theorem buildPerGuess_deltas_witness :
    validateBoardState { guesses := some crateSpeed } = none ∧
    crateSpeed[1]? = some speedGuess ∧
    ∃ r pg, computeResult ["erupt", "paper"] crateSpeed = some r ∧
      r.constraints.perGuess[1]? = some pg ∧ pg.word = speedGuess.word ∧
      (atText "p" 1 ∈ pg.added.yellows ↔ showsAt speedGuess "p" "present" 1 ∧
        ¬ ∃ k guess2, k < 1 ∧ crateSpeed[k]? = some guess2 ∧ showsAt guess2 "p" "present" 1) :=
  ⟨by decide, by decide,
    match buildPerGuess_deltas ["erupt", "paper"] crateSpeed (by decide) 1 speedGuess
      (by decide) with
    | ⟨r, pg, h1, h2, h3, _, hy, _⟩ => ⟨r, pg, h1, h2, h3, hy "p" 1 (by decide) (by decide)⟩⟩

/-! ### An answer track that is not in the order of its blended scores -/

theorem freshEntropy_formula {α : Type} [LinearOrderedField α] (ln : α → α)
    (ws : List (List Nat)) (hok : WordsOk ws) (g : Nat) (hg : g < ws.length)
    (remaining : List Nat) (hrem : ∀ s ∈ remaining, s < ws.length)
    (hn : remaining.length < 65536) :
    freshEntropy ln ws g remaining
      = if remaining.length > 1 then entropyFormula ln ws g remaining else 0 := by
  obtain ⟨b1, pat1, hrun, _, _, hcount⟩ :=
    bucketLoop_spec ws hok g hg remaining (List.replicate 243 0) zeroPattern hrem
      (List.length_replicate _ _) (by simp [zeroPattern])
  have hz : ∀ q, (List.replicate 243 0).getD q 0 = 0 := by
    intro q
    simp only [List.getD_eq_getElem?_getD, List.getElem?_replicate]
    split <;> rfl
  unfold freshEntropy freshBuckets
  rw [hrun]
  by_cases h1 : remaining.length > 1
  · rw [if_pos h1, if_pos h1]
    apply bucketEntropy_counts
    intro p hp
    rw [hcount (fun q _ => by rw [hz]; omega) p hp, hz, Nat.zero_add]
  · rw [if_neg h1, if_neg h1]

theorem nearTie_patterns :
    patternOf nearTieWords 0 0 = 242 ∧ patternOf nearTieWords 0 1 = 0 ∧
    patternOf nearTieWords 0 2 = 0 ∧
    patternOf nearTieWords 1 0 = 0 ∧ patternOf nearTieWords 1 1 = 242 ∧
    patternOf nearTieWords 1 2 = 0 ∧
    patternOf nearTieWords 2 0 = 0 ∧ patternOf nearTieWords 2 1 = 0 ∧
    patternOf nearTieWords 2 2 = 242 := by
  decide

theorem nearTie_bucketCount (g t p0 p1 p2 : Nat) (h0 : patternOf nearTieWords g 0 = p0)
    (h1 : patternOf nearTieWords g 1 = p1) (h2 : patternOf nearTieWords g 2 = p2) :
    bucketCount nearTieWords g nearTieCandidates t
      = (if p0 = t then 24700 else 0)
        + ((if p1 = t then 24701 else 0) + (if p2 = t then 599 else 0)) := by
  unfold bucketCount nearTieCandidates
  rw [List.countP_append, List.countP_append, List.countP_replicate, List.countP_replicate,
    List.countP_replicate, h0, h1, h2]
  simp only [decide_eq_true_eq]

theorem nearTieCandidates_length : nearTieCandidates.length = 50000 := by
  unfold nearTieCandidates
  rw [List.length_append, List.length_append, List.length_replicate, List.length_replicate,
    List.length_replicate]

theorem nearTieCandidates_valid : ∀ s ∈ nearTieCandidates, s < nearTieWords.length := by
  intro s hs
  have hl : nearTieWords.length = 3 := rfl
  rw [hl]
  simp only [nearTieCandidates, List.mem_append, List.mem_replicate] at hs
  omega

theorem nearTie_entropies :
    entropyFormula Real.log nearTieWords 0 nearTieCandidates
      = splitEntropy Real.log 24700 25300 ∧
    entropyFormula Real.log nearTieWords 1 nearTieCandidates
      = splitEntropy Real.log 24701 25299 ∧
    entropyFormula Real.log nearTieWords 2 nearTieCandidates
      = splitEntropy Real.log 599 49401 := by
  obtain ⟨a0, a1, a2, b0, b1, b2, c0, c1, c2⟩ := nearTie_patterns
  refine ⟨?_, ?_, ?_⟩
  · apply entropyFormula_two Real.log nearTieWords 0 nearTieCandidates 242 0 24700 25300
      (by decide) (by decide) (by decide) (by decide) (by decide) nearTieCandidates_length
    intro t
    rw [nearTie_bucketCount 0 t 242 0 0 a0 a1 a2]
    by_cases h242 : t = 242
    · subst h242
      rfl
    · by_cases h0 : t = 0
      · subst h0
        rfl
      · rw [if_neg h242, if_neg h0]
        split_ifs <;> omega
  · apply entropyFormula_two Real.log nearTieWords 1 nearTieCandidates 242 0 24701 25299
      (by decide) (by decide) (by decide) (by decide) (by decide) nearTieCandidates_length
    intro t
    rw [nearTie_bucketCount 1 t 0 242 0 b0 b1 b2]
    by_cases h242 : t = 242
    · subst h242
      rfl
    · by_cases h0 : t = 0
      · subst h0
        rfl
      · rw [if_neg h242, if_neg h0]
        split_ifs <;> omega
  · apply entropyFormula_two Real.log nearTieWords 2 nearTieCandidates 242 0 599 49401
      (by decide) (by decide) (by decide) (by decide) (by decide) nearTieCandidates_length
    intro t
    rw [nearTie_bucketCount 2 t 0 0 242 c0 c1 c2]
    by_cases h242 : t = 242
    · subst h242
      rfl
    · by_cases h0 : t = 0
      · subst h0
        rfl
      · rw [if_neg h242, if_neg h0]
        split_ifs <;> omega

/-- The lopsided split has less entropy than the even ones. -/
theorem splitEntropy_lopsided :
    splitEntropy Real.log 599 49401 ≤ splitEntropy Real.log 24700 25300 := by
  have hl1 := Real.log_two_gt_d9
  have hpos : (0 : ℝ) < 50000 * Real.log 2 := by linarith
  rw [splitEntropy_real 599 49401 50000 (by norm_num) (by norm_num),
    splitEntropy_real 24700 25300 50000 (by norm_num) (by norm_num)]
  have u1 := log_diff_bounds 599 5000 (by norm_num) (by norm_num)
  have u2 := log_diff_bounds 5000 50000 (by norm_num) (by norm_num)
  have u3 := log_diff_bounds 49401 50000 (by norm_num) (by norm_num)
  have l1 := log_diff_bounds 24700 50000 (by norm_num) (by norm_num)
  have l2 := log_diff_bounds 25300 50000 (by norm_num) (by norm_num)
  norm_num at u1 u2 u3 l1 l2
  obtain ⟨_, u1u⟩ := u1
  obtain ⟨_, u2u⟩ := u2
  obtain ⟨_, u3u⟩ := u3
  obtain ⟨l1l, _⟩ := l1
  obtain ⟨l2l, _⟩ := l2
  apply div_le_div_of_nonneg_right _ (le_of_lt hpos)
  push_cast
  linarith

/-! ### The draws of `Math.random()` in `buildSuggestions` -/

theorem collect_cons_some {β : Type} (x : Option β) (rest : List (Option β)) (r : List β)
    (h : collect (x :: rest) = some r) :
    ∃ y r2, x = some y ∧ collect rest = some r2 ∧ r = y :: r2 := by
  cases x with
  | none => cases h
  | some y =>
    cases hc : collect rest with
    | none =>
      have h2 : (collect rest).map (fun l => y :: l) = some r := h
      rw [hc] at h2
      cases h2
    | some r2 =>
      have h2 : (collect rest).map (fun l => y :: l) = some r := h
      rw [hc] at h2
      exact ⟨y, r2, rfl, rfl, (Option.some.inj h2).symm⟩

theorem collect_all_some {β : Type} (l : List β) : collect (l.map some) = some l := by
  induction l with
  | nil => rfl
  | cons x rest ih =>
    show (collect (rest.map some)).map (fun l => x :: l) = _
    rw [ih]
    rfl

theorem collect_length {β : Type} (l : List (Option β)) (r : List β) (h : collect l = some r) :
    r.length = l.length := by
  induction l generalizing r with
  | nil =>
    have : r = [] := (Option.some.inj h).symm
    rw [this]
    rfl
  | cons x rest ih =>
    obtain ⟨y, r2, _, hc, rfl⟩ := collect_cons_some x rest r h
    rw [List.length_cons, List.length_cons, ih r2 hc]

/-- The suggestions pushed for the selected rankings carry their words. -/
theorem makeSuggestions_words {α : Type} [LinearOrderedField α] (dictionary : List String)
    (freqTables : FreqTables) :
    ∀ (selected : List (AnswerGuess α)) (n : Nat) (pushed : List (Suggestion α)),
      collect ((selected.enumFrom n).map
        (fun x => makeSuggestion dictionary freqTables x.1 x.2)) = some pushed →
      pushed.map (fun s => s.word) = selected.map (fun r => r.word) := by
  intro selected
  induction selected with
  | nil =>
    intro n pushed h
    have : pushed = [] := (Option.some.inj h).symm
    rw [this]
    rfl
  | cons r rest ih =>
    intro n pushed h
    rw [List.enumFrom_cons, List.map_cons] at h
    obtain ⟨s, p2, hs, hc, rfl⟩ := collect_cons_some _ _ pushed h
    rw [List.map_cons, List.map_cons, ih (n + 1) p2 hc]
    congr 1
    simp only [makeSuggestion] at hs
    split at hs
    · cases hs
    · split at hs
      · cases hs
      · rw [← Option.some.inj hs]

/-- The loop that builds the suggestions returns when every selected
ranking names a dictionary word that `scoreWord` accepts. -/
theorem makeSuggestions_some {α : Type} [LinearOrderedField α] (dictionary : List String)
    (freqTables : FreqTables) :
    ∀ (selected : List (AnswerGuess α)) (n : Nat),
      (∀ r ∈ selected, ∃ w, dictionary[r.wordIndex]? = some w ∧
        ∃ fs : ScoreResult α, scoreWord w freqTables = some fs) →
      ∃ pushed, collect ((selected.enumFrom n).map
        (fun x => makeSuggestion dictionary freqTables x.1 x.2)) = some pushed := by
  intro selected
  induction selected with
  | nil =>
    intro n _
    exact ⟨[], rfl⟩
  | cons r rest ih =>
    intro n hall
    obtain ⟨w, hw, fs, hfs⟩ := hall r (List.mem_cons_self _ _)
    obtain ⟨p2, hp2⟩ := ih (n + 1) (fun x hx => hall x (List.mem_cons_of_mem _ hx))
    rw [List.enumFrom_cons, List.map_cons]
    have hm : ∃ s, makeSuggestion dictionary freqTables (n, r).1 (n, r).2 = some s := by
      simp only [makeSuggestion, hw, hfs]
      exact ⟨_, rfl⟩
    obtain ⟨s, hs⟩ := hm
    rw [hs]
    show ∃ pushed, (collect _).map (fun l => s :: l) = some pushed
    rw [hp2]
    exact ⟨_, rfl⟩

theorem normalizeConfidence_words {α : Type} [LinearOrderedField α] [FloorRing α]
    (l : List (Suggestion α)) :
    (normalizeConfidence l).map (fun s => s.word) = l.map (fun s => s.word) := by
  cases l with
  | nil => rfl
  | cons first rest =>
    unfold normalizeConfidence
    simp only
    split_ifs <;> rw [List.map_map] <;> rfl

theorem detectNearTie_words {α : Type} (l : List (Suggestion α)) :
    (detectNearTie l).2.map (fun s => s.word) = l.map (fun s => s.word) := by
  have hmark : ∀ t : Option Int,
      (l.map (fun s => if nearTop t s = true then { s with isNearTie := true } else s)).map
        (fun s => s.word) = l.map (fun s => s.word) := by
    intro t
    rw [List.map_map]
    apply List.map_congr_left
    intro s _
    show (if nearTop t s = true then { s with isNearTie := true } else s).word = s.word
    split_ifs <;> rfl
  unfold detectNearTie
  simp only
  split_ifs
  · rfl
  · exact hmark _
  · exact hmark _
  · exact hmark _

/-- When the opener cluster is not sampled, `selectRankings` does not read
the draws. -/
theorem selectRankings_no_draw {α : Type} [LinearOrderedField α] [FloorRing α]
    (rand1 rand2 : Nat → α) (mode : String) (source : List (AnswerGuess α)) (m : Nat)
    (h : ¬ (mode = "opener" ∧ source.length > MAX_SUGGESTIONS ∧
      clusterSizeOf source > MAX_SUGGESTIONS)) :
    selectRankings rand1 mode source m = selectRankings rand2 mode source m := by
  unfold selectRankings
  by_cases h1 : mode = "opener" ∧ source.length > MAX_SUGGESTIONS
  · have h2 : ¬ clusterSizeOf source > MAX_SUGGESTIONS := fun hh => h ⟨h1.1, h1.2, hh⟩
    rw [if_pos h1, if_pos h1, if_neg h2, if_neg h2]
  · rw [if_neg h1, if_neg h1]

/-- The draws reach `buildSuggestions` only through `selectRankings`. -/
theorem buildSuggestions_congr {α : Type} [LinearOrderedField α] [FloorRing α]
    (rand1 rand2 : Nat → α) (constraintResult : FilterResult) (rankings : Rankings α)
    (boardState : GameBoard) (dictionary : List String) (freqTables : FreqTables)
    (commonnessData : Option (CommonnessData α))
    (h : ∀ m, selectRankings rand1 (detectMode constraintResult boardState)
        rankings.bestAnswerGuesses m
      = selectRankings rand2 (detectMode constraintResult boardState)
        rankings.bestAnswerGuesses m) :
    buildSuggestions rand1 constraintResult rankings boardState dictionary freqTables
        commonnessData
      = buildSuggestions rand2 constraintResult rankings boardState dictionary freqTables
        commonnessData := by
  unfold buildSuggestions
  simp only [h]

theorem strip_words {α : Type} (l : List (Suggestion α)) :
    (l.map (fun s => { s with wordIndex := none })).map (fun s => s.word)
      = l.map (fun s => s.word) := by
  rw [List.map_map]
  rfl

/-- The fields of a result of `buildSuggestions` that no draw reaches. -/
theorem buildSuggestions_fields {α : Type} [LinearOrderedField α] [FloorRing α]
    (rand : Nat → α) (constraintResult : FilterResult) (rankings : Rankings α)
    (boardState : GameBoard) (dictionary : List String) (freqTables : FreqTables)
    (commonnessData : Option (CommonnessData α)) (res : SuggestionResult α)
    (h : buildSuggestions rand constraintResult rankings boardState dictionary freqTables
      commonnessData = some res) :
    res.mode = detectMode constraintResult boardState ∧
    res.header = getHeader (detectMode constraintResult boardState) boardState ∧
    res.candidateCount =
      (if detectMode constraintResult boardState = "error" ∨
          detectMode constraintResult boardState = "solved" then 0
        else constraintResult.candidates.length) ∧
    (detectMode constraintResult boardState = "opener" →
      rankings.bestAnswerGuesses.length > MAX_SUGGESTIONS →
      clusterSizeOf rankings.bestAnswerGuesses > MAX_SUGGESTIONS →
      res.nearTieNote = some (sampledNote (clusterSizeOf rankings.bestAnswerGuesses))) := by
  unfold buildSuggestions at h
  simp only at h
  generalize detectMode constraintResult boardState = mode at h ⊢
  by_cases he : mode = "error"
  · rw [if_pos he] at h
    rw [← Option.some.inj h, he]
    exact ⟨rfl, by simp [getHeader], (if_pos (Or.inl rfl)).symm,
      fun hop => absurd hop (by decide)⟩
  rw [if_neg he] at h
  by_cases hl : mode = "lost"
  · rw [if_pos hl] at h
    rw [← Option.some.inj h, hl]
    exact ⟨rfl, rfl, (if_neg (by decide)).symm, fun hop => absurd hop (by decide)⟩
  rw [if_neg hl] at h
  by_cases hs : mode = "solved"
  · rw [if_pos hs] at h
    rw [← Option.some.inj h, hs]
    exact ⟨rfl, rfl, (if_pos (Or.inr rfl)).symm, fun hop => absurd hop (by decide)⟩
  rw [if_neg hs] at h
  split at h
  · cases h
  split at h
  · cases h
  split at h
  · cases h
  rw [← Option.some.inj h]
  refine ⟨rfl, rfl, ?_, ?_⟩
  · exact (if_neg (fun hh => hh.elim he hs)).symm
  · intro hop hlen hcl
    have hsel : (selectRankings rand mode rankings.bestAnswerGuesses
        (if mode = "late_game" then constraintResult.candidates.length
          else MAX_SUGGESTIONS)).2 = clusterSizeOf rankings.bestAnswerGuesses := by
      unfold selectRankings
      rw [if_pos ⟨hop, hlen⟩, if_pos hcl]
    show (if mode = "opener" then _ else _ : Option String × List (Suggestion α)).1 = _
    rw [if_pos hop, hsel, if_pos hcl]

/-- Outside the late game the words of the result are the words of the
selected rankings, in their order. -/
theorem buildSuggestions_words {α : Type} [LinearOrderedField α] [FloorRing α]
    (rand : Nat → α) (constraintResult : FilterResult) (rankings : Rankings α)
    (boardState : GameBoard) (dictionary : List String) (freqTables : FreqTables)
    (commonnessData : Option (CommonnessData α)) (selected : List (AnswerGuess α))
    (hmode : detectMode constraintResult boardState = "opener")
    (hsel : (selectRankings rand "opener" rankings.bestAnswerGuesses MAX_SUGGESTIONS).1
      = some selected)
    (hall : ∀ r ∈ selected, ∃ w, dictionary[r.wordIndex]? = some w ∧
      ∃ fs : ScoreResult α, scoreWord w freqTables = some fs) :
    ∃ res, buildSuggestions rand constraintResult rankings boardState dictionary freqTables
        commonnessData = some res ∧
      res.suggestions.map (fun s => s.word) = selected.map (fun r => r.word) := by
  obtain ⟨pushed, hpush⟩ := makeSuggestions_some dictionary freqTables selected 0 hall
  have hwords := makeSuggestions_words dictionary freqTables selected 0 pushed hpush
  have hmk : makeSuggestions dictionary freqTables selected = some pushed := hpush
  have h1 : ¬ ("opener" = "error") := by decide
  have h2 : ¬ ("opener" = "lost") := by decide
  have h3 : ¬ ("opener" = "solved") := by decide
  have h4 : ¬ ("opener" = "late_game") := by decide
  unfold buildSuggestions
  simp only [hmode, if_neg h1, if_neg h2, if_neg h3, if_neg h4, hsel, hmk, if_true]
  refine ⟨_, rfl, ?_⟩
  dsimp only
  rw [strip_words]
  split_ifs
  · rw [normalizeConfidence_words, hwords]
  · rw [detectNearTie_words, normalizeConfidence_words, hwords]

theorem shuffleCluster_length {α : Type} [LinearOrderedField α] [FloorRing α]
    (rand : Nat → α) (clusterSize : Nat) :
    (shuffleCluster rand clusterSize).length = clusterSize := by
  have h : ∀ (ks : List Nat) (l : List Nat),
      (ks.foldl (swapStep rand clusterSize) l).length = l.length := by
    intro ks
    induction ks with
    | nil => intro l; rfl
    | cons k rest ih =>
      intro l
      rw [List.foldl_cons, ih]
      simp only [swapStep, List.length_set]
  unfold shuffleCluster
  rw [h, List.length_range]

/-- In opener mode the words of a result are the words of the selected
rankings, in their order. -/
theorem buildSuggestions_opener_inv {α : Type} [LinearOrderedField α] [FloorRing α]
    (rand : Nat → α) (constraintResult : FilterResult) (rankings : Rankings α)
    (boardState : GameBoard) (dictionary : List String) (freqTables : FreqTables)
    (commonnessData : Option (CommonnessData α)) (res : SuggestionResult α)
    (hmode : detectMode constraintResult boardState = "opener")
    (h : buildSuggestions rand constraintResult rankings boardState dictionary freqTables
      commonnessData = some res) :
    ∃ selected,
      (selectRankings rand "opener" rankings.bestAnswerGuesses MAX_SUGGESTIONS).1
        = some selected ∧
      res.suggestions.map (fun s => s.word) = selected.map (fun r => r.word) := by
  have h1 : ¬ ("opener" = "error") := by decide
  have h2 : ¬ ("opener" = "lost") := by decide
  have h3 : ¬ ("opener" = "solved") := by decide
  have h4 : ¬ ("opener" = "late_game") := by decide
  unfold buildSuggestions at h
  simp only [hmode, if_neg h1, if_neg h2, if_neg h3, if_neg h4, if_true] at h
  cases hsel : (selectRankings rand "opener" rankings.bestAnswerGuesses MAX_SUGGESTIONS).1 with
  | none =>
    simp only [hsel] at h
    cases h
  | some selected =>
    cases hmk : makeSuggestions dictionary freqTables selected with
    | none =>
      simp only [hsel, hmk] at h
      cases h
    | some pushed =>
      simp only [hsel, hmk] at h
      have hwords := makeSuggestions_words dictionary freqTables selected 0 pushed hmk
      refine ⟨selected, rfl, ?_⟩
      rw [← Option.some.inj h]
      dsimp only
      rw [strip_words]
      split_ifs
      · rw [normalizeConfidence_words, hwords]
      · rw [detectNearTie_words, normalizeConfidence_words, hwords]

/-- When the opener cluster is sampled, a result has `MAX_SUGGESTIONS`
suggestions. -/
theorem buildSuggestions_sampled_length {α : Type} [LinearOrderedField α] [FloorRing α]
    (rand : Nat → α) (constraintResult : FilterResult) (rankings : Rankings α)
    (boardState : GameBoard) (dictionary : List String) (freqTables : FreqTables)
    (commonnessData : Option (CommonnessData α)) (res : SuggestionResult α)
    (hr : detectMode constraintResult boardState = "opener" ∧
      rankings.bestAnswerGuesses.length > MAX_SUGGESTIONS ∧
      clusterSizeOf rankings.bestAnswerGuesses > MAX_SUGGESTIONS)
    (h : buildSuggestions rand constraintResult rankings boardState dictionary freqTables
      commonnessData = some res) :
    res.suggestions.length = MAX_SUGGESTIONS := by
  obtain ⟨selected, hsel, hwords⟩ := buildSuggestions_opener_inv rand constraintResult
    rankings boardState dictionary freqTables commonnessData res hr.1 h
  unfold selectRankings at hsel
  rw [if_pos ⟨rfl, hr.2.1⟩, if_pos hr.2.2] at hsel
  have hlen := collect_length _ _ hsel
  rw [List.length_map, List.length_insertionSort, List.length_take,
    shuffleCluster_length] at hlen
  have h5 : min MAX_SUGGESTIONS (clusterSizeOf rankings.bestAnswerGuesses)
      = MAX_SUGGESTIONS := Nat.min_eq_left (Nat.le_of_lt hr.2.2)
  have hl := congrArg List.length hwords
  rw [List.length_map, List.length_map, hlen, h5] at hl
  exact hl

theorem shuffleCluster_drawsLow : shuffleCluster drawsLow 6 = [1, 2, 3, 4, 5, 0] := by
  simp [shuffleCluster, swapStep, drawsLow, List.range_succ]

theorem shuffleCluster_drawsMid : shuffleCluster drawsMid 6 = [1, 2, 5, 4, 0, 3] := by
  have h3 : Int.toNat 3 = 3 := rfl
  norm_num [shuffleCluster, swapStep, drawsMid, List.range_succ, h3]

theorem clusterSizeOf_opener : clusterSizeOf openerRankings.bestAnswerGuesses = 6 := by
  norm_num [clusterSizeOf, clusterThreshold, openerRankings, List.takeWhile]

theorem detectMode_opener : detectMode openerResult openerBoard = "opener" := by decide

theorem selectRankings_drawsLow :
    (selectRankings drawsLow "opener" openerRankings.bestAnswerGuesses MAX_SUGGESTIONS).1
      = some (openerRankings.bestAnswerGuesses.drop 1) := by
  unfold selectRankings
  rw [if_pos ⟨rfl, by decide⟩, clusterSizeOf_opener, if_pos (by decide), shuffleCluster_drawsLow]
  rfl

theorem selectRankings_drawsMid :
    (selectRankings drawsMid "opener" openerRankings.bestAnswerGuesses MAX_SUGGESTIONS).1
      = some (openerRankings.bestAnswerGuesses.eraseIdx 3) := by
  unfold selectRankings
  rw [if_pos ⟨rfl, by decide⟩, clusterSizeOf_opener, if_pos (by decide), shuffleCluster_drawsMid]
  rfl

theorem opener_scored (l : List (AnswerGuess ℚ))
    (hl : ∀ r ∈ l, r ∈ openerRankings.bestAnswerGuesses) :
    ∀ r ∈ l, ∃ w, openerDictionary[r.wordIndex]? = some w ∧
      ∃ fs : ScoreResult ℚ, scoreWord w uniformTables = some fs := by
  intro r hr
  have hlow : ∀ w ∈ openerDictionary, LowerWord w := by decide
  have hmem := hl r hr
  simp only [openerRankings, List.mem_cons, List.mem_singleton, List.not_mem_nil,
    or_false] at hmem
  have hw : ∃ w, openerDictionary[r.wordIndex]? = some w ∧ w ∈ openerDictionary := by
    rcases hmem with h | h | h | h | h | h <;> rw [h] <;> exact ⟨_, rfl, by decide⟩
  obtain ⟨w, hw1, hw2⟩ := hw
  obtain ⟨fs, hfs, _⟩ := @scoreWord_eq ℚ _ w uniformTables (hlow w hw2) rfl
  exact ⟨w, hw1, fs, hfs⟩

/-- C38 (counterexample): on the empty board with six rankings of one
blended score, `buildSuggestions` returns the words slate, trace, crate,
stare, raise when every draw of `Math.random()` is 0, and the words crane,
slate, trace, stare, raise when the first draw is 1/2 and the others are 0:
two invocations with equal arguments return different suggestion words. -/
theorem buildSuggestions_draws_differ :
    ∃ res1 res2 : SuggestionResult ℚ,
      buildSuggestions drawsLow openerResult openerRankings openerBoard openerDictionary
        uniformTables none = some res1 ∧
      buildSuggestions drawsMid openerResult openerRankings openerBoard openerDictionary
        uniformTables none = some res2 ∧
      res1.suggestions.map (fun s => s.word)
        = [some "slate", some "trace", some "crate", some "stare", some "raise"] ∧
      res2.suggestions.map (fun s => s.word)
        = [some "crane", some "slate", some "trace", some "stare", some "raise"] ∧
      res1.suggestions.map (fun s => s.word) ≠ res2.suggestions.map (fun s => s.word) := by
  obtain ⟨res1, h1, hw1⟩ := buildSuggestions_words drawsLow openerResult openerRankings
    openerBoard openerDictionary uniformTables none _ detectMode_opener selectRankings_drawsLow
    (opener_scored _ (fun r hr => List.mem_of_mem_drop hr))
  obtain ⟨res2, h2, hw2⟩ := buildSuggestions_words drawsMid openerResult openerRankings
    openerBoard openerDictionary uniformTables none _ detectMode_opener selectRankings_drawsMid
    (opener_scored _ (fun r hr => List.mem_of_mem_eraseIdx hr))
  refine ⟨res1, res2, h1, h2, hw1, hw2, ?_⟩
  rw [hw1, hw2]
  decide

/-- C38 (amended): `buildSuggestions` is a deterministic transform of its
arguments and of the draws of `Math.random()`, and it reads the draws only
in opener mode with more than 5 rankings of which more than 5 are within 2%
of the top blended score. Outside that case two invocations with equal
arguments return equal results whatever the draws are (same mode, same
suggestion words in the same order, same nearTieNote). In that case two
invocations that both return agree on the mode, the header, the candidate
count and the nearTieNote, which is the sampling disclaimer, and each
returns the same number of suggestions; the words may differ. -/
theorem buildSuggestions_deterministic {α : Type} [LinearOrderedField α] [FloorRing α]
    (rand1 rand2 : Nat → α) (constraintResult : FilterResult) (rankings : Rankings α)
    (boardState : GameBoard) (dictionary : List String) (freqTables : FreqTables)
    (commonnessData : Option (CommonnessData α)) :
    (¬ (detectMode constraintResult boardState = "opener" ∧
        rankings.bestAnswerGuesses.length > MAX_SUGGESTIONS ∧
        clusterSizeOf rankings.bestAnswerGuesses > MAX_SUGGESTIONS) →
      buildSuggestions rand1 constraintResult rankings boardState dictionary freqTables
          commonnessData
        = buildSuggestions rand2 constraintResult rankings boardState dictionary freqTables
          commonnessData) ∧
    (∀ res1 res2,
      buildSuggestions rand1 constraintResult rankings boardState dictionary freqTables
          commonnessData = some res1 →
      buildSuggestions rand2 constraintResult rankings boardState dictionary freqTables
          commonnessData = some res2 →
      res1.mode = res2.mode ∧ res1.header = res2.header ∧
      res1.candidateCount = res2.candidateCount ∧ res1.nearTieNote = res2.nearTieNote ∧
      res1.suggestions.length = res2.suggestions.length) := by
  have hA : ¬ (detectMode constraintResult boardState = "opener" ∧
        rankings.bestAnswerGuesses.length > MAX_SUGGESTIONS ∧
        clusterSizeOf rankings.bestAnswerGuesses > MAX_SUGGESTIONS) →
      buildSuggestions rand1 constraintResult rankings boardState dictionary freqTables
          commonnessData
        = buildSuggestions rand2 constraintResult rankings boardState dictionary freqTables
          commonnessData := fun hno =>
    buildSuggestions_congr rand1 rand2 constraintResult rankings boardState dictionary
      freqTables commonnessData (fun m => selectRankings_no_draw rand1 rand2 _ _ m hno)
  refine ⟨hA, ?_⟩
  intro res1 res2 h1 h2
  by_cases hr : detectMode constraintResult boardState = "opener" ∧
      rankings.bestAnswerGuesses.length > MAX_SUGGESTIONS ∧
      clusterSizeOf rankings.bestAnswerGuesses > MAX_SUGGESTIONS
  · obtain ⟨m1, hd1, c1, n1⟩ := buildSuggestions_fields rand1 constraintResult rankings
      boardState dictionary freqTables commonnessData res1 h1
    obtain ⟨m2, hd2, c2, n2⟩ := buildSuggestions_fields rand2 constraintResult rankings
      boardState dictionary freqTables commonnessData res2 h2
    refine ⟨m1.trans m2.symm, hd1.trans hd2.symm, c1.trans c2.symm,
      (n1 hr.1 hr.2.1 hr.2.2).trans (n2 hr.1 hr.2.1 hr.2.2).symm, ?_⟩
    rw [buildSuggestions_sampled_length rand1 constraintResult rankings boardState dictionary
        freqTables commonnessData res1 hr h1,
      buildSuggestions_sampled_length rand2 constraintResult rankings boardState dictionary
        freqTables commonnessData res2 hr h2]
  · have heq : res1 = res2 := Option.some.inj ((h1.symm.trans (hA hr)).trans h2)
    rw [heq]
    exact ⟨rfl, rfl, rfl, rfl, rfl⟩

theorem buildSuggestions_deterministic_witness :
    ∃ res : SuggestionResult ℚ,
      buildSuggestions drawsLow openerResult fiveRankings openerBoard openerDictionary
        uniformTables none = some res ∧
      buildSuggestions drawsMid openerResult fiveRankings openerBoard openerDictionary
        uniformTables none = some res ∧
      res.suggestions.map (fun s => s.word)
        = [some "crane", some "slate", some "trace", some "crate", some "stare"] := by
  have hsel : (selectRankings drawsLow "opener" fiveRankings.bestAnswerGuesses
      MAX_SUGGESTIONS).1 = some (openerRankings.bestAnswerGuesses.take 5) := by
    unfold selectRankings
    rw [if_neg (fun h => absurd h.2 (by decide))]
    rfl
  obtain ⟨res, h1, hw⟩ := buildSuggestions_words drawsLow openerResult fiveRankings
    openerBoard openerDictionary uniformTables none _ detectMode_opener hsel
    (opener_scored _ (fun r hr => List.mem_of_mem_take hr))
  have heq := (buildSuggestions_deterministic drawsLow drawsMid openerResult fiveRankings
    openerBoard openerDictionary uniformTables none).1 (fun h => absurd h.2.1 (by decide))
  exact ⟨res, h1, heq ▸ h1, hw⟩

/-! ### The sort: what a conforming implementation returns -/

theorem consistent_gt_lt {α β : Type} [LinearOrderedField α] (c : β → β → α) (l : List β)
    (h : Consistent c l) (a b : β) (ha : a ∈ l) (hb : b ∈ l) (hab : c a b > 0) : c b a < 0 := by
  obtain ⟨hrefl, hsym, _, _, hgt⟩ := h
  rcases lt_trichotomy (c b a) 0 with h1 | h1 | h1
  · exact h1
  · have := hsym b hb a ha h1
    rw [this] at hab
    exact absurd hab (lt_irrefl 0)
  · have := hgt a ha b hb a ha hab h1
    rw [hrefl a ha] at this
    exact absurd this (lt_irrefl 0)

theorem consistent_lt_gt {α β : Type} [LinearOrderedField α] (c : β → β → α) (l : List β)
    (h : Consistent c l) (a b : β) (ha : a ∈ l) (hb : b ∈ l) (hab : c a b < 0) : c b a > 0 := by
  obtain ⟨hrefl, hsym, _, hlt, _⟩ := h
  rcases lt_trichotomy (c b a) 0 with h1 | h1 | h1
  · have := hlt a ha b hb a ha hab h1
    rw [hrefl a ha] at this
    exact absurd this (lt_irrefl 0)
  · have := hsym b hb a ha h1
    rw [this] at hab
    exact absurd hab (lt_irrefl 0)
  · exact h1

/-- A consistent comparator orders the items: `c a b ≤ 0` is transitive. -/
theorem consistent_le_trans {α β : Type} [LinearOrderedField α] (c : β → β → α) (l : List β)
    (h : Consistent c l) (x y z : β) (hx : x ∈ l) (hy : y ∈ l) (hz : z ∈ l)
    (hxy : c x y ≤ 0) (hyz : c y z ≤ 0) : c x z ≤ 0 := by
  have hh := h
  obtain ⟨_, hsym, heq, hlt, _⟩ := h
  by_contra hcon
  have hxz : c x z > 0 := not_le.mp hcon
  have hzx : c z x < 0 := consistent_gt_lt c l hh x z hx hz hxz
  rcases lt_or_eq_of_le hxy with h1 | h1
  · -- z < x < y
    have hzy : c z y < 0 := hlt z hz x hx y hy hzx h1
    have hyz2 : c y z > 0 := consistent_lt_gt c l hh z y hz hy hzy
    exact absurd hyz (not_le.mpr hyz2)
  · rcases lt_or_eq_of_le hyz with h2 | h2
    · -- x = y, y < z, z < x
      have hyx : c y x < 0 := hlt y hy z hz x hx h2 hzx
      have := hsym x hx y hy h1
      rw [this] at hyx
      exact absurd hyx (lt_irrefl 0)
    · have := heq x hx y hy z hz h1 h2
      rw [this] at hxz
      exact absurd hxz (lt_irrefl 0)

theorem jsSort_perm {α β : Type} [LinearOrderedField α] (cmp : β → β → α) (l : List β) :
    List.Perm (jsSort cmp l) l :=
  List.perm_insertionSort _ l

theorem jsSort_singleton {α β : Type} [LinearOrderedField α] (cmp : β → β → α) (x : β) :
    jsSort cmp [x] = [x] := rfl

/-- For a consistent comparator the stable sort leaves `a` before `b` only
when `c a b ≤ 0`. -/
theorem jsSort_sorted {α β : Type} [LinearOrderedField α] (c : β → β → α) (l : List β)
    (h : Consistent c l) : (jsSort c l).Pairwise (fun a b => c a b ≤ 0) := by
  apply pairwise_insertionSort
  · intro x hx y hy
    rcases le_or_lt (c x y) 0 with h1 | h1
    · exact Or.inl h1
    · exact Or.inr (le_of_lt (consistent_gt_lt c l h x y hx hy h1))
  · intro x hx y hy z hz hxy hyz
    exact consistent_le_trans c l h x y z hx hy hz hxy hyz

theorem filter_orderedInsert {α β : Type} [LinearOrderedField α] (c : β → β → α) (l : List β)
    (h : Consistent c l) (x a : β) (hx : x ∈ l) (ha : a ∈ l) :
    ∀ s : List β, (∀ y ∈ s, y ∈ l) →
      (List.orderedInsert (fun a b => c a b ≤ 0) a s).filter (fun y => decide (c x y = 0))
        = (a :: s).filter (fun y => decide (c x y = 0)) := by
  intro s
  induction s with
  | nil => intro _; rfl
  | cons b t ih =>
    intro hs
    rw [List.orderedInsert]
    by_cases hab : c a b ≤ 0
    · rw [if_pos hab]
    · rw [if_neg hab]
      have hb : b ∈ l := hs b (List.mem_cons_self _ _)
      have hab2 : c a b > 0 := not_le.mp hab
      rw [List.filter_cons, ih (fun y hy => hs y (List.mem_cons_of_mem _ hy))]
      by_cases hxb : c x b = 0
      · have hxa : ¬ c x a = 0 := by
          intro hxa
          obtain ⟨_, hsym, heq, _, _⟩ := h
          have := heq a ha x hx b hb (hsym x hx a ha hxa) hxb
          rw [this] at hab2
          exact absurd hab2 (lt_irrefl 0)
        simp only [hxb, hxa, decide_True, decide_False, if_true, List.filter_cons, if_false,
          Bool.false_eq_true]
      · simp only [hxb, decide_False, List.filter_cons, if_false, Bool.false_eq_true]

/-- For a consistent comparator the stable sort keeps the order of the items
that compare equal to a given item. -/
theorem jsSort_stable {α β : Type} [LinearOrderedField α] (c : β → β → α) :
    ∀ (l sup : List β), Consistent c sup → (∀ y ∈ l, y ∈ sup) → ∀ x ∈ sup,
      (jsSort c l).filter (fun y => decide (c x y = 0))
        = l.filter (fun y => decide (c x y = 0)) := by
  intro l
  induction l with
  | nil => intro _ _ _ _ _; rfl
  | cons a t ih =>
    intro sup h hl x hx
    have ha : a ∈ sup := hl a (List.mem_cons_self _ _)
    have ht : ∀ y ∈ t, y ∈ sup := fun y hy => hl y (List.mem_cons_of_mem _ hy)
    show (List.orderedInsert _ a (jsSort c t)).filter _ = _
    rw [filter_orderedInsert c sup h x a hx ha (jsSort c t)
      (fun y hy => ht y ((jsSort_perm c t).mem_iff.mp hy))]
    rw [List.filter_cons, List.filter_cons, ih sup h ht x hx]

/-- Two reorderings of the items that are in the order of a consistent
comparator and keep the order of the items that compare equal are the same
list. -/
theorem sorted_stable_unique {α β : Type} [LinearOrderedField α] (c : β → β → α) (l : List β)
    (h : Consistent c l) :
    ∀ r1 r2 : List β, (∀ y ∈ r1, y ∈ l) → (∀ y ∈ r2, y ∈ l) → List.Perm r1 r2 →
      r1.Pairwise (fun a b => ¬ c b a < 0) → r2.Pairwise (fun a b => ¬ c b a < 0) →
      (∀ x ∈ l, r1.filter (fun y => decide (c x y = 0))
        = r2.filter (fun y => decide (c x y = 0))) →
      r1 = r2 := by
  intro r1
  induction r1 with
  | nil =>
    intro r2 _ _ hp _ _ _
    exact (List.Perm.nil_eq hp)
  | cons a t1 ih =>
    intro r2 hm1 hm2 hp hs1 hs2 hf
    cases r2 with
    | nil => exact absurd hp.symm (List.not_perm_nil_cons _ _)
    | cons b t2 =>
      have ha : a ∈ l := hm1 a (List.mem_cons_self _ _)
      have hb : b ∈ l := hm2 b (List.mem_cons_self _ _)
      have hba : ¬ c b a < 0 := by
        have hb1 : b ∈ a :: t1 := hp.symm.mem_iff.mp (List.mem_cons_self _ _)
        rcases List.mem_cons.mp hb1 with e | e
        · rw [e, h.1 a ha]
          exact lt_irrefl 0
        · exact (List.pairwise_cons.mp hs1).1 b e
      have hab : ¬ c a b < 0 := by
        have ha1 : a ∈ b :: t2 := hp.mem_iff.mp (List.mem_cons_self _ _)
        rcases List.mem_cons.mp ha1 with e | e
        · rw [e, h.1 b hb]
          exact lt_irrefl 0
        · exact (List.pairwise_cons.mp hs2).1 a e
      have hzero : c a b = 0 := by
        rcases lt_trichotomy (c a b) 0 with h1 | h1 | h1
        · exact absurd h1 hab
        · exact h1
        · exact absurd (consistent_gt_lt c l h a b ha hb h1) hba
      have hfa := hf a ha
      rw [List.filter_cons, List.filter_cons] at hfa
      simp only [h.1 a ha, hzero, decide_True, if_true] at hfa
      have e : a = b := (List.cons.inj hfa).1
      subst e
      have htail : t1 = t2 := by
        apply ih t2 (fun y hy => hm1 y (List.mem_cons_of_mem _ hy))
          (fun y hy => hm2 y (List.mem_cons_of_mem _ hy)) (List.Perm.cons_inv hp)
          (List.pairwise_cons.mp hs1).2 (List.pairwise_cons.mp hs2).2
        intro x hx
        have hfx := hf x hx
        rw [List.filter_cons, List.filter_cons] at hfx
        by_cases hxa : c x a = 0
        · simp only [hxa, decide_True, if_true] at hfx
          exact (List.cons.inj hfx).2
        · simp only [hxa, decide_False, if_false, Bool.false_eq_true] at hfx
          exact hfx
      rw [htail]

/-- What a conforming sort returns for a comparator that does not throw: a
reordering of the array. -/
theorem sort_perm {α β : Type} [LinearOrderedField α] (sort : ArraySort α)
    (hsort : SortConforms sort) (cmp : β → β → Option α) (c : β → β → α) (l : List β)
    (hcmp : ∀ a ∈ l, ∀ b ∈ l, cmp a b = some (c a b)) :
    ∃ r, sort β cmp l = some r ∧ List.Perm r l := by
  obtain ⟨r, h1, h2, _⟩ := hsort β cmp c l hcmp
  exact ⟨r, h1, h2⟩

/-- What a conforming sort returns for a consistent comparator: the stable
sort. -/
theorem sort_eq_jsSort {α β : Type} [LinearOrderedField α] (sort : ArraySort α)
    (hsort : SortConforms sort) (cmp : β → β → Option α) (c : β → β → α) (l : List β)
    (hcmp : ∀ a ∈ l, ∀ b ∈ l, cmp a b = some (c a b)) (hc : Consistent c l) :
    sort β cmp l = some (jsSort c l) := by
  obtain ⟨r, h1, h2, h3⟩ := hsort β cmp c l hcmp
  obtain ⟨hs, hst⟩ := h3 hc
  rw [h1]
  congr 1
  apply sorted_stable_unique c l hc r (jsSort c l) (fun y hy => h2.mem_iff.mp hy)
    (fun y hy => (jsSort_perm c l).mem_iff.mp hy) (h2.trans (jsSort_perm c l).symm) hs
  · have hle := jsSort_sorted c l hc
    refine List.Pairwise.imp_of_mem ?_ hle
    intro a b ha hb hab hlt
    have := consistent_lt_gt c l hc b a ((jsSort_perm c l).mem_iff.mp hb)
      ((jsSort_perm c l).mem_iff.mp ha) hlt
    exact absurd hab (not_le.mpr this)
  · intro x hx
    rw [hst x hx, jsSort_stable c l l hc (fun y hy => hy) x hx]

theorem insertSorted_eq {α β : Type} [LinearOrderedField α] (cmp : β → β → Option α)
    (c : β → β → α) (a : β) :
    ∀ s : List β, (∀ b ∈ s, cmp a b = some (c a b)) →
      insertSorted cmp a s = some (List.orderedInsert (fun a b => c a b ≤ 0) a s) := by
  intro s
  induction s with
  | nil => intro _; rfl
  | cons b t ih =>
    intro hs
    rw [insertSorted, hs b (List.mem_cons_self _ _), List.orderedInsert]
    by_cases hab : c a b ≤ 0
    · simp only [hab, if_true]
    · simp only [hab, if_false]
      rw [ih (fun y hy => hs y (List.mem_cons_of_mem _ hy))]
      rfl

/-- The insertion sort with a comparator that does not throw is the stable
sort. -/
theorem referenceSort_eq {α β : Type} [LinearOrderedField α] (cmp : β → β → Option α)
    (c : β → β → α) :
    ∀ l : List β, (∀ a ∈ l, ∀ b ∈ l, cmp a b = some (c a b)) →
      referenceSort β cmp l = some (jsSort c l) := by
  intro l
  induction l with
  | nil => intro _; rfl
  | cons a t ih =>
    intro hl
    have ht := ih (fun x hx y hy => hl x (List.mem_cons_of_mem _ hx) y (List.mem_cons_of_mem _ hy))
    show (referenceSort β cmp t).bind (insertSorted cmp a) = _
    rw [ht]
    show insertSorted cmp a (jsSort c t) = _
    rw [insertSorted_eq cmp c a (jsSort c t) (fun b hb =>
      hl a (List.mem_cons_self _ _) b (List.mem_cons_of_mem _ ((jsSort_perm c t).mem_iff.mp hb)))]
    rfl

/-- The insertion sort conforms. -/
theorem referenceSort_conforms {α : Type} [LinearOrderedField α] :
    SortConforms (referenceSort : ArraySort α) := by
  intro β cmp c l hcmp
  refine ⟨jsSort c l, referenceSort_eq cmp c l hcmp, jsSort_perm c l, fun hc => ⟨?_, ?_⟩⟩
  · have hle := jsSort_sorted c l hc
    refine List.Pairwise.imp_of_mem ?_ hle
    intro a b ha hb hab hlt
    have := consistent_lt_gt c l hc b a ((jsSort_perm c l).mem_iff.mp hb)
      ((jsSort_perm c l).mem_iff.mp ha) hlt
    exact absurd hab (not_le.mpr this)
  · intro x hx
    exact jsSort_stable c l l hc (fun y hy => hy) x hx

/-! ### The comparator of `rankGuesses` -/

/-- With tables of 26 rows the composite score of a dictionary word is
computed without a throw. -/
theorem compositeAt_eq {α : Type} [LinearOrderedField α] (dict : List String)
    (tables : FreqTables) (hlow : ∀ w ∈ dict, LowerWord w)
    (hrows : tables.positional.length = 26) (i : Nat) (hi : i < dict.length) :
    (compositeAt dict (some tables) i : Option α) = some (compositeOf tables dict[i]?) := by
  have hw : dict[i]? = some dict[i] := List.getElem?_eq_getElem hi
  obtain ⟨r, hr, _⟩ := @scoreWord_eq α _ dict[i] tables (hlow _ (List.getElem_mem hi)) hrows
  unfold compositeAt compositeOf
  simp only [hw, hr, Option.map_some']

/-- On entries with dictionary indices the comparator does not throw, and
its value is `entropyOrder` with the composite scores of the tables. -/
theorem entropyComparator_eq {α : Type} [LinearOrderedField α] (dict : List String)
    (tables : FreqTables) (hlow : ∀ w ∈ dict, LowerWord w)
    (hrows : tables.positional.length = 26) (a b : InfoGuess α)
    (ha : a.wordIndex < dict.length) (hb : b.wordIndex < dict.length) :
    entropyComparator dict (some tables) a b
      = some (entropyOrder (compositeOf tables) dict a b) := by
  unfold entropyComparator entropyOrder
  simp only [compositeAt_eq dict tables hlow hrows a.wordIndex ha,
    compositeAt_eq dict tables hlow hrows b.wordIndex hb]
  split_ifs <;> rfl

theorem entropyOrder_neg {α : Type} [LinearOrderedField α] (composite : Option String → α)
    (dict : List String) (a b : InfoGuess α) :
    entropyOrder composite dict b a = - entropyOrder composite dict a b := by
  unfold entropyOrder
  have hs : abs (a.entropy - b.entropy) = abs (b.entropy - a.entropy) := abs_sub_comm _ _
  simp only [hs]
  split_ifs <;> ring

theorem entropyOrder_lt_trans {α : Type} [LinearOrderedField α]
    (composite : Option String → α) (dict : List String) (a b d : InfoGuess α)
    (htr : abs (a.entropy - b.entropy) < 1 / 1000000 →
      abs (b.entropy - d.entropy) < 1 / 1000000 → abs (a.entropy - d.entropy) < 1 / 1000000)
    (htr1 : abs (d.entropy - a.entropy) < 1 / 1000000 →
      abs (a.entropy - b.entropy) < 1 / 1000000 → abs (d.entropy - b.entropy) < 1 / 1000000)
    (htr2 : abs (a.entropy - d.entropy) < 1 / 1000000 →
      abs (d.entropy - b.entropy) < 1 / 1000000 → abs (a.entropy - b.entropy) < 1 / 1000000)
    (h1 : entropyOrder composite dict a b < 0) (h2 : entropyOrder composite dict b d < 0) :
    entropyOrder composite dict a d < 0 := by
  unfold entropyOrder at h1 h2 ⊢
  simp only at h1 h2 ⊢
  by_cases t1 : abs (b.entropy - a.entropy) < 1 / 1000000
  · rw [if_pos t1] at h1
    have t1' : abs (a.entropy - b.entropy) < 1 / 1000000 := by rw [abs_sub_comm]; exact t1
    by_cases t2 : abs (d.entropy - b.entropy) < 1 / 1000000
    · rw [if_pos t2] at h2
      have t2' : abs (b.entropy - d.entropy) < 1 / 1000000 := by rw [abs_sub_comm]; exact t2
      have t3 : abs (d.entropy - a.entropy) < 1 / 1000000 := by
        rw [abs_sub_comm]
        exact htr t1' t2'
      rw [if_pos t3]
      linarith
    · rw [if_neg t2] at h2
      have t3 : ¬ abs (d.entropy - a.entropy) < 1 / 1000000 := fun t3 => t2 (htr1 t3 t1')
      rw [if_neg t3]
      have hb := abs_lt.mp t1
      have hd : d.entropy - b.entropy ≤ -(1 / 1000000) := by
        have := not_lt.mp t2
        rw [abs_of_neg h2] at this
        linarith
      linarith [hb.1, hb.2]
  · rw [if_neg t1] at h1
    have hb : b.entropy - a.entropy ≤ -(1 / 1000000) := by
      have := not_lt.mp t1
      rw [abs_of_neg h1] at this
      linarith
    by_cases t2 : abs (d.entropy - b.entropy) < 1 / 1000000
    · rw [if_pos t2] at h2
      have t3 : ¬ abs (d.entropy - a.entropy) < 1 / 1000000 := by
        intro t3
        apply t1
        rw [abs_sub_comm]
        exact htr2 (by rw [abs_sub_comm]; exact t3) t2
      rw [if_neg t3]
      have hd := abs_lt.mp t2
      linarith [hd.1, hd.2]
    · rw [if_neg t2] at h2
      have hd : d.entropy - b.entropy ≤ -(1 / 1000000) := by
        have := not_lt.mp t2
        rw [abs_of_neg h2] at this
        linarith
      have hle : d.entropy - a.entropy ≤ -(2 / 1000000) := by linarith
      have t3 : ¬ abs (d.entropy - a.entropy) < 1 / 1000000 := by
        intro t3
        have := (abs_lt.mp t3).1
        linarith
      rw [if_neg t3]
      linarith

/-- When the entropies within `1e-6` of each other form classes, the
comparator of `rankGuesses` is a consistent comparator. -/
theorem entropyOrder_consistent {α : Type} [LinearOrderedField α]
    (composite : Option String → α) (dict : List String) (l : List (InfoGuess α))
    (h : TiesTransitive l) : Consistent (entropyOrder composite dict) l := by
  have heps : (0 : α) < 1 / 1000000 := by norm_num
  have hzero : ∀ a b : InfoGuess α, entropyOrder composite dict a b = 0 →
      abs (b.entropy - a.entropy) < 1 / 1000000 ∧
        composite dict[b.wordIndex]? = composite dict[a.wordIndex]? := by
    intro a b hab
    unfold entropyOrder at hab
    simp only at hab
    by_cases t : abs (b.entropy - a.entropy) < 1 / 1000000
    · rw [if_pos t] at hab
      exact ⟨t, by linarith⟩
    · rw [if_neg t] at hab
      rw [hab, abs_zero] at t
      exact absurd heps t
  have hlt : ∀ a ∈ l, ∀ b ∈ l, ∀ d ∈ l, entropyOrder composite dict a b < 0 →
      entropyOrder composite dict b d < 0 → entropyOrder composite dict a d < 0 := by
    intro a ha b hb d hd h1 h2
    exact entropyOrder_lt_trans composite dict a b d (h a ha b hb d hd) (h d hd a ha b hb)
      (h a ha d hd b hb) h1 h2
  refine ⟨fun a _ => ?_, fun a _ b _ hab => ?_, fun a ha b hb d hd hab hbd => ?_, hlt,
    fun a ha b hb d hd hab hbd => ?_⟩
  · unfold entropyOrder
    simp only [sub_self, abs_zero, heps, if_true]
  · rw [entropyOrder_neg, hab, neg_zero]
  · obtain ⟨t1, f1⟩ := hzero a b hab
    obtain ⟨t2, f2⟩ := hzero b d hbd
    have t3 : abs (d.entropy - a.entropy) < 1 / 1000000 := by
      rw [abs_sub_comm]
      exact h a ha b hb d hd (by rw [abs_sub_comm]; exact t1) (by rw [abs_sub_comm]; exact t2)
    unfold entropyOrder
    simp only [t3, if_true]
    rw [f2, f1, sub_self]
  · have h1 : entropyOrder composite dict b a < 0 := by
      rw [entropyOrder_neg]
      linarith
    have h2 : entropyOrder composite dict d b < 0 := by
      rw [entropyOrder_neg]
      linarith
    have h3 := hlt d hd b hb a ha h2 h1
    rw [entropyOrder_neg] at h3
    linarith

/-- The order property of the specification between two entries says that
the comparator does not put the second before the first. -/
theorem order_of_rankedBefore {α : Type} [LinearOrderedField α]
    (composite : Option String → α) (dict : List String) (a b : InfoGuess α)
    (ha : a.word = dict[a.wordIndex]?) (hb : b.word = dict[b.wordIndex]?)
    (h : RankedBefore composite a b) : entropyOrder composite dict a b ≤ 0 := by
  unfold RankedBefore at h
  rw [ha, hb] at h
  unfold entropyOrder
  simp only
  rcases h with h | ⟨h1, h2⟩
  · have hneg : b.entropy - a.entropy ≤ -(1 / 1000000) := by linarith
    have t : ¬ abs (b.entropy - a.entropy) < 1 / 1000000 := by
      intro t
      have := (abs_lt.mp t).1
      linarith
    rw [if_neg t]
    linarith
  · rw [abs_sub_comm] at h1
    rw [if_pos h1]
    linarith

/-- The comparator `b.blendedScore - a.blendedScore` is consistent on
entries whose blended scores are numbers. -/
theorem blendedOrder_consistent {α : Type} [LinearOrderedField α] (l : List (AnswerGuess α))
    (h : ∀ e ∈ l, ∃ x, e.blendedScore = some x) : Consistent blendedOrder l := by
  have hval : ∀ a ∈ l, ∀ b ∈ l, ∃ x y, a.blendedScore = some x ∧ b.blendedScore = some y ∧
      blendedOrder a b = y - x := by
    intro a ha b hb
    obtain ⟨x, hx⟩ := h a ha
    obtain ⟨y, hy⟩ := h b hb
    refine ⟨x, y, hx, hy, ?_⟩
    unfold blendedOrder
    rw [hx, hy]
  refine ⟨fun a ha => ?_, fun a ha b hb hab => ?_, fun a ha b hb d hd hab hbd => ?_,
    fun a ha b hb d hd hab hbd => ?_, fun a ha b hb d hd hab hbd => ?_⟩
  · obtain ⟨x, y, hx, hy, e⟩ := hval a ha a ha
    rw [hx] at hy
    rw [e, Option.some.inj hy, sub_self]
  · obtain ⟨x, y, hx, hy, e⟩ := hval a ha b hb
    obtain ⟨y2, x2, hy2, hx2, e2⟩ := hval b hb a ha
    rw [hx] at hx2
    rw [hy] at hy2
    rw [e2, ← Option.some.inj hx2, ← Option.some.inj hy2]
    rw [e] at hab
    linarith
  all_goals
    obtain ⟨x, y, hx, hy, e⟩ := hval a ha b hb
    obtain ⟨y2, z, hy2, hz, e2⟩ := hval b hb d hd
    obtain ⟨x3, z3, hx3, hz3, e3⟩ := hval a ha d hd
    rw [hy] at hy2
    rw [hx] at hx3
    rw [hz] at hz3
    have q1 := Option.some.inj hy2
    have q2 := Option.some.inj hx3
    have q3 := Option.some.inj hz3
    rw [e] at hab
    rw [e2] at hbd
    rw [e3]
    subst q1 q2 q3
    linarith


/-! ### `rankGuesses` and `rankGuessesForState` on an initialised engine -/

/-- What a conforming sort returns for the comparator
`b.blendedScore - a.blendedScore`: a reordering of the entries, and the
stable sort when every blended score is a number. -/
theorem sortBlended_spec {α : Type} [LinearOrderedField α] (sort : ArraySort α)
    (hsort : SortConforms sort) (l : List (AnswerGuess α)) :
    ∃ r, sortBlended sort l = some r ∧ List.Perm r l ∧
      ((∀ e ∈ l, ∃ x, e.blendedScore = some x) → r = jsSort blendedOrder l) := by
  obtain ⟨r, h1, h2⟩ := sort_perm sort hsort (fun a b => some (blendedOrder a b)) blendedOrder l
    (fun _ _ _ _ => rfl)
  refine ⟨r, h1, h2, fun hdef => ?_⟩
  have h3 := sort_eq_jsSort sort hsort (fun a b => some (blendedOrder a b)) blendedOrder l
    (fun _ _ _ _ => rfl) (blendedOrder_consistent l hdef)
  exact Option.some.inj (h1.symm.trans h3)

/-- On an initialised engine with frequency tables `rankGuesses` returns the
sorted list of one entry per pool index, each then given its dictionary
word; the sorted list is a reordering of the entries, and it is their stable
sort when the comparator is consistent on them. -/
theorem rankGuesses_shape {α : Type} [LinearOrderedField α] (sort : ArraySort α)
    (hsort : SortConforms sort) (ln : α → α) (st : EngineState α) (ws : List (List Nat))
    (dict : List String) (tables : FreqTables) (pool remaining : List Nat)
    (hws : st.encodedWords = some ws) (hok : WordsOk ws) (hdict : st.dictionary = some dict)
    (htab : st.frequencyTables = some tables) (hrows : tables.positional.length = 26)
    (hlow : ∀ w ∈ dict, LowerWord w) (hlen : dict.length = ws.length)
    (hpool : ∀ i ∈ pool, i < ws.length) (hrem : ∀ s ∈ remaining, s < ws.length)
    (hne : remaining ≠ []) :
    ∃ results ranked,
      rankLoop ln (some ws) remaining pool
        (List.replicate PATTERN_COUNT 0, List.replicate 26 0, List.replicate 5 0)
          = some results ∧
      results.map (fun e => e.wordIndex) = pool ∧
      (remaining.length < 65536 → ∀ e ∈ results, e.entropy =
        if remaining.length > 1 then entropyFormula ln ws e.wordIndex remaining else 0) ∧
      sort (InfoGuess α) (entropyComparator dict (some tables)) results = some ranked ∧
      List.Perm ranked results ∧
      (Consistent (entropyOrder (compositeOf tables) dict) results →
        ranked = jsSort (entropyOrder (compositeOf tables) dict) results) ∧
      rankGuesses sort ln st pool remaining
        = some (ranked.map (fun r => { r with word := dict[r.wordIndex]? })) := by
  obtain ⟨res0, hrun, hmap, hent⟩ :=
    rankLoop_spec ln ws hok remaining hrem pool (List.replicate PATTERN_COUNT 0)
      (List.replicate 5 0) hpool (List.length_replicate _ _) (List.length_replicate _ _)
  have hrun1 : rankLoop ln (some ws) remaining pool
      (List.replicate PATTERN_COUNT 0, List.replicate 26 0, List.replicate 5 0) = some res0 :=
    hrun
  have hidx : ∀ a ∈ res0, a.wordIndex < dict.length := by
    intro a ha
    rw [hlen]
    apply hpool
    rw [← hmap]
    exact List.mem_map.mpr ⟨a, ha, rfl⟩
  have hcmp : ∀ a ∈ res0, ∀ b ∈ res0, entropyComparator dict (some tables) a b
      = some (entropyOrder (compositeOf tables) dict a b) := fun a ha b hb =>
    entropyComparator_eq dict tables hlow hrows a b (hidx a ha) (hidx b hb)
  obtain ⟨ranked, hs1, hs2⟩ := sort_perm sort hsort _ _ res0 hcmp
  have hlen0 : ¬ remaining.length = 0 := fun h => hne (List.length_eq_zero.mp h)
  refine ⟨res0, ranked, hrun1, hmap, hent, hs1, hs2, fun hc => ?_, ?_⟩
  · have h3 := sort_eq_jsSort sort hsort _ _ res0 hcmp hc
    exact Option.some.inj (hs1.symm.trans h3)
  · unfold rankGuesses
    rw [if_neg hlen0, hws, hrun1, hdict, htab]
    cases res0 with
    | nil =>
      have : ranked = [] := List.Perm.eq_nil hs2
      rw [this]
      rfl
    | cons r rs =>
      simp only [hs1]

/-- The entries `rankGuesses` returns: the pool indices in some order, each
with its dictionary word and the entropy of its partition. -/
theorem rankGuesses_entries {α : Type} [LinearOrderedField α] (sort : ArraySort α)
    (hsort : SortConforms sort) (ln : α → α) (st : EngineState α) (ws : List (List Nat))
    (dict : List String) (tables : FreqTables) (pool remaining : List Nat)
    (hws : st.encodedWords = some ws) (hok : WordsOk ws) (hdict : st.dictionary = some dict)
    (htab : st.frequencyTables = some tables) (hrows : tables.positional.length = 26)
    (hlow : ∀ w ∈ dict, LowerWord w) (hlen : dict.length = ws.length)
    (hpool : ∀ i ∈ pool, i < ws.length) (hrem : ∀ s ∈ remaining, s < ws.length)
    (hne : remaining ≠ []) :
    ∃ res, rankGuesses sort ln st pool remaining = some res ∧
      List.Perm (res.map (fun e => e.wordIndex)) pool ∧
      (∀ e ∈ res, e.word = dict[e.wordIndex]?) ∧
      (remaining.length < 65536 → ∀ e ∈ res, e.entropy =
        if remaining.length > 1 then entropyFormula ln ws e.wordIndex remaining else 0) := by
  obtain ⟨results, ranked, _, hmap, hent, _, hperm, _, hrun⟩ :=
    rankGuesses_shape sort hsort ln st ws dict tables pool remaining hws hok hdict htab hrows
      hlow hlen hpool hrem hne
  refine ⟨_, hrun, ?_, ?_, ?_⟩
  · rw [List.map_map, ← hmap]
    exact hperm.map _
  · intro e he
    obtain ⟨r0, _, rfl⟩ := List.mem_map.mp he
    rfl
  · intro hlt e he
    obtain ⟨r0, hr0, rfl⟩ := List.mem_map.mp he
    exact hent hlt r0 (hperm.mem_iff.mp hr0)

/-- The result of `rankGuessesForState` on an initialised engine and a
non-empty list of valid candidates, in terms of the two calls of
`rankGuesses` and the sort of the answer track. -/
theorem rankGuessesForState_spec {α : Type} [LinearOrderedField α] (sort : ArraySort α)
    (hsort : SortConforms sort) (ln : α → α) (st : EngineState α) (ws : List (List Nat))
    (dict : List String) (tables : FreqTables) (candidates : List Nat)
    (guessesLeft : Option Int)
    (hws : st.encodedWords = some ws) (hok : WordsOk ws) (hdict : st.dictionary = some dict)
    (htab : st.frequencyTables = some tables) (hrows : tables.positional.length = 26)
    (hlow : ∀ w ∈ dict, LowerWord w) (hlen : dict.length = ws.length)
    (hcand : ∀ i ∈ candidates, i < ws.length) (hne : candidates ≠ []) :
    ∃ info ranked answers,
      rankGuesses sort ln st (infoPoolOf candidates dict.length) candidates = some info ∧
      rankGuesses sort ln st candidates candidates = some ranked ∧
      rankGuessesForState sort ln st candidates guessesLeft
        = some { bestInfoGuesses := info, bestAnswerGuesses := answers } ∧
      ((urgencyFor (guessesLeft.getD 6) : α) = 1 →
        sortBlended sort (candidates.map (commonnessEntry st dict)) = some answers) ∧
      ((urgencyFor (guessesLeft.getD 6) : α) = 0 → answers = ranked.map (entropyEntry st)) ∧
      (¬ (urgencyFor (guessesLeft.getD 6) : α) = 1 →
        ¬ (urgencyFor (guessesLeft.getD 6) : α) = 0 →
        sortBlended sort (ranked.map
          (blendedEntry st (urgencyFor (guessesLeft.getD 6)) (maxEntropyOf ranked)))
            = some answers) := by
  have hn0 : ¬ candidates.length = 0 := fun h => hne (List.length_eq_zero.mp h)
  have hpv : ∀ i ∈ infoPoolOf candidates dict.length, i < ws.length := by
    rw [hlen]
    exact infoPoolOf_valid candidates ws.length hcand
  obtain ⟨info, hinfo, _⟩ := rankGuesses_entries sort hsort ln st ws dict tables
    (infoPoolOf candidates dict.length) candidates hws hok hdict htab hrows hlow hlen hpv hcand
    hne
  obtain ⟨ranked, hranked, _⟩ := rankGuesses_entries sort hsort ln st ws dict tables
    candidates candidates hws hok hdict htab hrows hlow hlen hcand hcand hne
  obtain ⟨a1, ha1, _⟩ := sortBlended_spec sort hsort (candidates.map (commonnessEntry st dict))
  obtain ⟨a3, ha3, _⟩ := sortBlended_spec sort hsort (ranked.map
    (blendedEntry st (urgencyFor (guessesLeft.getD 6)) (maxEntropyOf ranked)))
  have hpool : (if candidates.length ≤ ADAPTIVE_THRESHOLD then some candidates
      else st.dictionary.map (fun d => List.range d.length))
      = some (infoPoolOf candidates dict.length) := by
    unfold infoPoolOf
    rw [hdict]
    split_ifs <;> rfl
  rw [hdict] at hpool
  by_cases hu1 : (urgencyFor (guessesLeft.getD 6) : α) = 1
  · refine ⟨info, ranked, a1, hinfo, hranked, ?_, fun _ => ha1, fun h0 => ?_,
      fun h => absurd hu1 h⟩
    · unfold rankGuessesForState
      simp only [hn0, if_false, hpool, hinfo, hu1, if_true, hdict, ha1]
    · rw [hu1] at h0
      exact absurd h0 one_ne_zero
  · by_cases hu0 : (urgencyFor (guessesLeft.getD 6) : α) = 0
    · refine ⟨info, ranked, ranked.map (entropyEntry st), hinfo, hranked, ?_,
        fun h => absurd h hu1, fun _ => rfl, fun _ h => absurd hu0 h⟩
      unfold rankGuessesForState
      simp only [hn0, if_false, hdict, hpool, hinfo, hu0, zero_ne_one, if_true, hranked]
    · refine ⟨info, ranked, a3, hinfo, hranked, ?_, fun h => absurd h hu1,
        fun h => absurd h hu0, fun _ _ => ha3⟩
      unfold rankGuessesForState
      simp only [hn0, if_false, hdict, hpool, hinfo, hu1, hu0, hranked, ha3]


/-! ### The claims on the two tracks -/

/-- The stable sort of the commonness entries lists the candidates in the
order of a stable sort by descending score. -/
theorem commonness_sort {α : Type} [LinearOrderedField α] (st : EngineState α)
    (dict : List String) (cd : CommonnessData α) (candidates : List Nat)
    (hcd : st.commonnessData = some cd) (hvalid : ∀ i ∈ candidates, i < cd.scores.length)
    (hmax : cd.max ≤ 0 → ∀ i ∈ candidates, cd.scores.getD i 0 = 0) :
    (jsSort blendedOrder (candidates.map (commonnessEntry st dict))).map (fun e => e.wordIndex)
      = sortByDescending cd.scores candidates := by
  unfold jsSort sortByDescending
  rw [List.map_insertionSort (fun (a b : AnswerGuess α) => blendedOrder a b ≤ 0)
    (fun i j => cd.scores.getD i 0 ≥ cd.scores.getD j 0) (fun e => e.wordIndex)]
  · rw [List.map_map]
    congr 1
    exact List.map_id _
  · intro a ha b hb
    obtain ⟨i, hi, rfl⟩ := List.mem_map.mp ha
    obtain ⟨j, hj, rfl⟩ := List.mem_map.mp hb
    rw [blendedOrder_commonness st dict cd hcd i j (hvalid i hi) (hvalid j hj)
      (fun h => hmax h i hi) (fun h => hmax h j hj)]
    exact sub_nonpos

/-- C18: on an initialised engine, for a guess index `g` and a candidate list
of length `n` with `2 ≤ n < 65536`, `computeEntropy` returns, over the reals,
the sum over the non-empty pattern buckets of `(c / n) * log2 (n / c)`, where
the count `c` of pattern `p` is the number of candidates whose pattern
against word `g` is `p`; the 243 counts sum to `n`; and with the frequency
tables in place and a sort that conforms, `rankGuesses` returns one entry per
pool index whose entropy is the value `computeEntropy` returns for that
index. -/
theorem computeEntropy_shannon (sort : ArraySort ℝ) (hsort : SortConforms sort)
    (st : EngineState ℝ) (ws : List (List Nat)) (dict : List String) (tables : FreqTables)
    (g : Nat) (candidates pool : List Nat)
    (hws : st.encodedWords = some ws) (hok : WordsOk ws) (hdict : st.dictionary = some dict)
    (htab : st.frequencyTables = some tables) (hrows : tables.positional.length = 26)
    (hlow : ∀ w ∈ dict, LowerWord w) (hlen : dict.length = ws.length)
    (hg : g < ws.length) (hcand : ∀ s ∈ candidates, s < ws.length)
    (hpool : ∀ i ∈ pool, i < ws.length)
    (hn : 2 ≤ candidates.length) (hn2 : candidates.length < 65536)
    (hsc : st.publicSecretCounts = zeroCounts) (hpat : st.publicPattern.length = 5)
    (hb : st.publicBuckets.length = 243) :
    (∃ st1, computeEntropy Real.log st g candidates
        = some (∑ p in Finset.range 243,
            if bucketCount ws g candidates p = 0 then 0
            else ((bucketCount ws g candidates p : ℝ) / (candidates.length : ℝ))
              * Real.logb 2 ((candidates.length : ℝ) / (bucketCount ws g candidates p : ℝ)),
          st1) ∧
      st1.publicSecretCounts = zeroCounts) ∧
    ∑ p in Finset.range 243, bucketCount ws g candidates p = candidates.length ∧
    ∃ res, rankGuesses sort Real.log st pool candidates = some res ∧
      List.Perm (res.map (fun e => e.wordIndex)) pool ∧
      ∀ e ∈ res,
        (computeEntropy Real.log st e.wordIndex candidates).map Prod.fst = some e.entropy := by
  have hne : candidates ≠ [] := fun h => by
    rw [h] at hn
    exact absurd hn (by decide)
  refine ⟨?_, ?_, ?_⟩
  · obtain ⟨st1, h1, _, h3, _⟩ :=
      computeEntropy_formula Real.log st ws g candidates hws hok hg hcand hn hn2 hsc hpat hb
    refine ⟨st1, ?_, h3⟩
    rw [h1]
    congr 2
    unfold entropyFormula
    apply Finset.sum_congr rfl
    intro p _
    by_cases hc : bucketCount ws g candidates p = 0
    · rw [if_neg (by omega), if_pos hc]
    · rw [if_pos (by omega), if_neg hc,
        entropy_term_real _ _ (Nat.pos_of_ne_zero hc) (by omega)]
  · exact sum_bucketCount ws g candidates (fun s hs => patternOf_lt ws hok g s (hcand s hs))
  · obtain ⟨res, hres, hperm, _, hent⟩ :=
      rankGuesses_entries sort hsort Real.log st ws dict tables pool candidates hws hok hdict
        htab hrows hlow hlen hpool hcand hne
    refine ⟨res, hres, hperm, fun e he => ?_⟩
    have hidx : e.wordIndex < ws.length :=
      hpool _ (hperm.mem_iff.mp (List.mem_map.mpr ⟨e, he, rfl⟩))
    obtain ⟨st1, h1, _⟩ :=
      computeEntropy_formula Real.log st ws e.wordIndex candidates hws hok hidx hcand hn hn2
        hsc hpat hb
    rw [h1, hent hn2 e he, if_pos (by omega)]
    rfl

/-- Instance of C18: the three candidates `crane`, `slate`, `trace` against
the guess `crane`, with the whole dictionary as the pool, on the engine with
uniform frequency tables and the insertion sort. -/
theorem computeEntropy_shannon_witness :
    (∃ st1, computeEntropy Real.log (sampleEngine ℝ) 0 [0, 1, 2]
        = some (∑ p in Finset.range 243,
            if bucketCount sampleWords 0 [0, 1, 2] p = 0 then 0
            else ((bucketCount sampleWords 0 [0, 1, 2] p : ℝ) / (([0, 1, 2] : List Nat).length : ℝ))
              * Real.logb 2 ((([0, 1, 2] : List Nat).length : ℝ)
                  / (bucketCount sampleWords 0 [0, 1, 2] p : ℝ)),
          st1) ∧
      st1.publicSecretCounts = zeroCounts) ∧
    ∑ p in Finset.range 243, bucketCount sampleWords 0 [0, 1, 2] p
      = ([0, 1, 2] : List Nat).length ∧
    ∃ res, rankGuesses referenceSort Real.log (sampleEngine ℝ) [0, 1, 2] [0, 1, 2] = some res ∧
      List.Perm (res.map (fun e => e.wordIndex)) [0, 1, 2] ∧
      ∀ e ∈ res,
        (computeEntropy Real.log (sampleEngine ℝ) e.wordIndex [0, 1, 2]).map Prod.fst
          = some e.entropy :=
  computeEntropy_shannon referenceSort referenceSort_conforms (sampleEngine ℝ) sampleWords
    ["crane", "slate", "trace"] uniformTables 0 [0, 1, 2] [0, 1, 2] rfl
    (by unfold WordsOk; decide) rfl rfl rfl (by decide) rfl (by decide) (by decide)
    (by decide) (by decide) (by decide) rfl rfl rfl

/-- C19: for every value of `guessesLeft`, a missing one included, every
engine state and every sort, `rankGuessesForState` on an empty candidate list
returns the result with both tracks empty, so the call does not fail. -/
theorem rankGuessesForState_empty {α : Type} [LinearOrderedField α] (sort : ArraySort α)
    (ln : α → α) (st : EngineState α) (guessesLeft : Option Int) :
    rankGuessesForState sort ln st [] guessesLeft
      = some { bestInfoGuesses := [], bestAnswerGuesses := [] } := by
  unfold rankGuessesForState
  simp only [List.length_nil, if_true]

/-- C20: on an initialised engine with frequency tables and commonness data,
for a non-empty list of valid candidates and `guessesLeft ≤ 1`,
`rankGuessesForState` returns, and the word indices of `bestAnswerGuesses`
are the candidates stably sorted by descending commonness score
`scores[index]` (a permutation of the candidates, in non-increasing score
order); every entry has entropy 0, a `blendedScore` equal to its commonness,
which is the score of its word, and carries the dictionary word of its
index. -/
theorem rankGuessesForState_last_guess {α : Type} [LinearOrderedField α] (sort : ArraySort α)
    (hsort : SortConforms sort) (ln : α → α) (st : EngineState α) (ws : List (List Nat))
    (dict : List String) (tables : FreqTables) (cd : CommonnessData α)
    (candidates : List Nat) (guessesLeft : Int)
    (hws : st.encodedWords = some ws) (hok : WordsOk ws) (hdict : st.dictionary = some dict)
    (htab : st.frequencyTables = some tables) (hrows : tables.positional.length = 26)
    (hlow : ∀ w ∈ dict, LowerWord w)
    (hlen : dict.length = ws.length) (hcd : st.commonnessData = some cd)
    (hscores : cd.scores.length = ws.length)
    (hmax : cd.max ≤ 0 → ∀ i ∈ candidates, cd.scores.getD i 0 = 0)
    (hcand : ∀ i ∈ candidates, i < ws.length) (hne : candidates ≠ [])
    (hgl : guessesLeft ≤ 1) :
    ∃ r, rankGuessesForState sort ln st candidates (some guessesLeft) = some r ∧
      r.bestAnswerGuesses.map (fun e => e.wordIndex) = sortByDescending cd.scores candidates ∧
      List.Perm (r.bestAnswerGuesses.map (fun e => e.wordIndex)) candidates ∧
      List.Sorted (fun i j => cd.scores.getD i 0 ≥ cd.scores.getD j 0)
        (r.bestAnswerGuesses.map (fun e => e.wordIndex)) ∧
      ∀ e ∈ r.bestAnswerGuesses,
        e.entropy = 0 ∧ e.blendedScore = e.commonness ∧
        e.commonness = some (cd.scores.getD e.wordIndex 0) ∧ e.word = dict[e.wordIndex]? := by
  obtain ⟨info, ranked, answers, _, _, hrun, h1, _, _⟩ := rankGuessesForState_spec sort hsort ln
    st ws dict tables candidates (some guessesLeft) hws hok hdict htab hrows hlow hlen hcand hne
  have hu : (urgencyFor ((some guessesLeft : Option Int).getD 6) : α) = 1 := by
    rw [Option.getD_some, urgencyFor_eq, if_neg (by omega), if_neg (by omega),
      if_neg (by omega)]
  have hvalid : ∀ i ∈ candidates, i < cd.scores.length := fun i hi => by
    rw [hscores]
    exact hcand i hi
  have hcmn : ∀ i ∈ candidates,
      commonnessOf st.commonnessData i = some (cd.scores.getD i 0) := fun i hi => by
    rw [hcd]
    exact commonnessOf_valid cd i (hvalid i hi) (fun h => hmax h i hi)
  obtain ⟨a1, ha1, hperm, hstable⟩ :=
    sortBlended_spec sort hsort (candidates.map (commonnessEntry st dict))
  have hsame : a1 = answers := Option.some.inj (ha1.symm.trans (h1 hu))
  subst hsame
  have hjs : a1 = jsSort blendedOrder (candidates.map (commonnessEntry st dict)) := by
    apply hstable
    intro e he
    obtain ⟨i, hi, rfl⟩ := List.mem_map.mp he
    exact ⟨_, hcmn i hi⟩
  have hsort2 := commonness_sort st dict cd candidates hcd hvalid hmax
  rw [← hjs] at hsort2
  refine ⟨_, hrun, hsort2, ?_, ?_, ?_⟩
  · show List.Perm (a1.map (fun e => e.wordIndex)) candidates
    rw [hsort2]
    exact sortByDescending_perm _ _
  · show List.Sorted _ (a1.map (fun e => e.wordIndex))
    rw [hsort2]
    exact sortByDescending_sorted _ _
  · intro e he
    have he1 : e ∈ candidates.map (commonnessEntry st dict) := hperm.mem_iff.mp he
    obtain ⟨i, hi, rfl⟩ := List.mem_map.mp he1
    exact ⟨rfl, rfl, hcmn i hi, rfl⟩

/-- Instance of C20: the candidates `crane`, `slate`, `trace` with one guess
left, on the engine with uniform frequency tables and the insertion sort. -/
theorem rankGuessesForState_last_guess_witness :
    ∃ r, rankGuessesForState referenceSort (fun x : ℚ => x) (sampleEngine ℚ) [0, 1, 2] (some 1)
        = some r ∧
      r.bestAnswerGuesses.map (fun e => e.wordIndex)
        = sortByDescending [(1 : ℚ) / 2, 3 / 4, 1 / 4] [0, 1, 2] ∧
      List.Perm (r.bestAnswerGuesses.map (fun e => e.wordIndex)) [0, 1, 2] ∧
      List.Sorted (fun i j => List.getD [(1 : ℚ) / 2, 3 / 4, 1 / 4] i 0
          ≥ List.getD [(1 : ℚ) / 2, 3 / 4, 1 / 4] j 0)
        (r.bestAnswerGuesses.map (fun e => e.wordIndex)) ∧
      ∀ e ∈ r.bestAnswerGuesses,
        e.entropy = 0 ∧ e.blendedScore = e.commonness ∧
        e.commonness = some (List.getD [(1 : ℚ) / 2, 3 / 4, 1 / 4] e.wordIndex 0) ∧
        e.word = ["crane", "slate", "trace"][e.wordIndex]? :=
  rankGuessesForState_last_guess referenceSort referenceSort_conforms (fun x : ℚ => x)
    (sampleEngine ℚ) sampleWords ["crane", "slate", "trace"] uniformTables
    { scores := [1 / 2, 3 / 4, 1 / 4], max := 3 / 4 } [0, 1, 2] 1
    rfl (by unfold WordsOk; decide) rfl rfl rfl (by decide) rfl rfl rfl
    (fun h => absurd h (by norm_num)) (by decide) (by decide) (by decide)

/-- C21: the urgency `rankGuessesForState` uses is 0 for `guessesLeft ≥ 4`,
0.15 for 3, 0.4 for 2 and 1 for `guessesLeft ≤ 1`; it is non-increasing in
`guessesLeft` and lies in `[0, 1]`; and with a missing `guessesLeft` the call
returns what it returns for any `guessesLeft ≥ 4`. -/
theorem urgencyFor_table {α : Type} [LinearOrderedField α] :
    (∀ guessesLeft : Int, 4 ≤ guessesLeft → (urgencyFor guessesLeft : α) = 0) ∧
    (urgencyFor 3 : α) = 15 / 100 ∧ (urgencyFor 2 : α) = 4 / 10 ∧
    (∀ guessesLeft : Int, guessesLeft ≤ 1 → (urgencyFor guessesLeft : α) = 1) ∧
    (∀ a b : Int, a ≤ b → (urgencyFor b : α) ≤ urgencyFor a) ∧
    (∀ guessesLeft : Int,
      (0 : α) ≤ urgencyFor guessesLeft ∧ (urgencyFor guessesLeft : α) ≤ 1) ∧
    (∀ (sort : ArraySort α) (ln : α → α) (st : EngineState α)
      (candidates : List Nat) (guessesLeft : Int), 4 ≤ guessesLeft →
      rankGuessesForState sort ln st candidates none
        = rankGuessesForState sort ln st candidates (some guessesLeft)) := by
  refine ⟨fun gl h => ?_, ?_, ?_, fun gl h => ?_, urgencyFor_antitone, urgencyFor_range,
    fun sort ln st candidates gl h => ?_⟩
  · rw [urgencyFor_eq, if_pos h]
  · rw [urgencyFor_eq, if_neg (by decide), if_pos rfl]
  · rw [urgencyFor_eq, if_neg (by decide), if_neg (by decide), if_pos rfl]
  · rw [urgencyFor_eq, if_neg (by omega), if_neg (by omega), if_neg (by omega)]
  · have hu : (urgencyFor 6 : α) = urgencyFor gl := by
      rw [urgencyFor_eq, urgencyFor_eq, if_pos (by decide), if_pos h]
    unfold rankGuessesForState
    simp only [Option.getD_none, Option.getD_some, hu]

/-- C22: on an initialised engine with frequency tables over a dictionary of
`N` words, for a non-empty list of `n` valid candidates and every
`guessesLeft`, the word indices of `bestInfoGuesses` are a permutation of the
candidates when `n ≤ 20` and of the indices `0..N-1` when `n > 20`; each
entry carries its dictionary word and (for `n < 65536`) the entropy of the
partition of the candidates by the entry's word, 0 for a single candidate. -/
theorem rankGuessesForState_pool {α : Type} [LinearOrderedField α] (sort : ArraySort α)
    (hsort : SortConforms sort) (ln : α → α) (st : EngineState α) (ws : List (List Nat))
    (dict : List String) (tables : FreqTables) (candidates : List Nat)
    (guessesLeft : Option Int)
    (hws : st.encodedWords = some ws) (hok : WordsOk ws) (hdict : st.dictionary = some dict)
    (htab : st.frequencyTables = some tables) (hrows : tables.positional.length = 26)
    (hlow : ∀ w ∈ dict, LowerWord w)
    (hlen : dict.length = ws.length) (hcand : ∀ i ∈ candidates, i < ws.length)
    (hne : candidates ≠ []) :
    ∃ r, rankGuessesForState sort ln st candidates guessesLeft = some r ∧
      (candidates.length ≤ 20 →
        List.Perm (r.bestInfoGuesses.map (fun e => e.wordIndex)) candidates) ∧
      (20 < candidates.length →
        List.Perm (r.bestInfoGuesses.map (fun e => e.wordIndex)) (List.range dict.length)) ∧
      (∀ e ∈ r.bestInfoGuesses, e.word = dict[e.wordIndex]?) ∧
      (candidates.length < 65536 → ∀ e ∈ r.bestInfoGuesses, e.entropy =
        if candidates.length > 1 then entropyFormula ln ws e.wordIndex candidates else 0) := by
  obtain ⟨info, ranked, answers, hinfo, _, hrun, _⟩ := rankGuessesForState_spec sort hsort ln
    st ws dict tables candidates guessesLeft hws hok hdict htab hrows hlow hlen hcand hne
  have hpv : ∀ i ∈ infoPoolOf candidates dict.length, i < ws.length := by
    rw [hlen]
    exact infoPoolOf_valid candidates ws.length hcand
  obtain ⟨info1, hinfo1, hperm, hword, hent⟩ := rankGuesses_entries sort hsort ln st ws dict
    tables (infoPoolOf candidates dict.length) candidates hws hok hdict htab hrows hlow hlen
    hpv hcand hne
  have hsame : info1 = info := Option.some.inj (hinfo1.symm.trans hinfo)
  subst hsame
  refine ⟨_, hrun, fun h => ?_, fun h => ?_, hword, hent⟩
  · have e : infoPoolOf candidates dict.length = candidates := if_pos h
    rw [e] at hperm
    exact hperm
  · have e : infoPoolOf candidates dict.length = List.range dict.length :=
      if_neg (by unfold ADAPTIVE_THRESHOLD; omega)
    rw [e] at hperm
    exact hperm

/-- Instance of C22: three candidates of the dictionary `crane`, `slate`,
`trace`, with no `guessesLeft` given, on the engine with uniform frequency
tables and the insertion sort. -/
theorem rankGuessesForState_pool_witness :
    ∃ r, rankGuessesForState referenceSort Real.log (sampleEngine ℝ) [0, 1, 2] none = some r ∧
      (([0, 1, 2] : List Nat).length ≤ 20 →
        List.Perm (r.bestInfoGuesses.map (fun e => e.wordIndex)) [0, 1, 2]) ∧
      (20 < ([0, 1, 2] : List Nat).length →
        List.Perm (r.bestInfoGuesses.map (fun e => e.wordIndex))
          (List.range ["crane", "slate", "trace"].length)) ∧
      (∀ e ∈ r.bestInfoGuesses, e.word = ["crane", "slate", "trace"][e.wordIndex]?) ∧
      (([0, 1, 2] : List Nat).length < 65536 → ∀ e ∈ r.bestInfoGuesses, e.entropy =
        if ([0, 1, 2] : List Nat).length > 1 then
          entropyFormula Real.log sampleWords e.wordIndex [0, 1, 2]
        else 0) :=
  rankGuessesForState_pool referenceSort referenceSort_conforms Real.log (sampleEngine ℝ)
    sampleWords ["crane", "slate", "trace"] uniformTables [0, 1, 2] none rfl
    (by unfold WordsOk; decide) rfl rfl rfl (by decide) rfl (by decide) (by decide)

/-- C25: on an initialised engine with frequency tables, for every list of
valid candidates and every `guessesLeft`, the word indices of
`bestAnswerGuesses` are a permutation of the candidate list, and every entry
carries the dictionary word of its index. -/
theorem rankGuessesForState_answers {α : Type} [LinearOrderedField α] (sort : ArraySort α)
    (hsort : SortConforms sort) (ln : α → α) (st : EngineState α) (ws : List (List Nat))
    (dict : List String) (tables : FreqTables) (candidates : List Nat)
    (guessesLeft : Option Int)
    (hws : st.encodedWords = some ws) (hok : WordsOk ws) (hdict : st.dictionary = some dict)
    (htab : st.frequencyTables = some tables) (hrows : tables.positional.length = 26)
    (hlow : ∀ w ∈ dict, LowerWord w)
    (hlen : dict.length = ws.length) (hcand : ∀ i ∈ candidates, i < ws.length) :
    ∃ r, rankGuessesForState sort ln st candidates guessesLeft = some r ∧
      List.Perm (r.bestAnswerGuesses.map (fun e => e.wordIndex)) candidates ∧
      ∀ e ∈ r.bestAnswerGuesses, e.word = dict[e.wordIndex]? := by
  by_cases hne : candidates = []
  · subst hne
    refine ⟨{ bestInfoGuesses := [], bestAnswerGuesses := [] }, ?_, List.Perm.refl _,
      fun e he => absurd he (List.not_mem_nil _)⟩
    unfold rankGuessesForState
    simp only [List.length_nil, if_true]
  · obtain ⟨info, ranked, answers, _, hranked, hrun, h1, h0, h3⟩ :=
      rankGuessesForState_spec sort hsort ln st ws dict tables candidates guessesLeft hws hok
        hdict htab hrows hlow hlen hcand hne
    obtain ⟨ranked1, hranked1, hperm, hword, _⟩ := rankGuesses_entries sort hsort ln st ws dict
      tables candidates candidates hws hok hdict htab hrows hlow hlen hcand hcand hne
    have hsame : ranked1 = ranked := Option.some.inj (hranked1.symm.trans hranked)
    subst hsame
    refine ⟨_, hrun, ?_, ?_⟩
    · show List.Perm (answers.map (fun e => e.wordIndex)) candidates
      by_cases hu1 : (urgencyFor (guessesLeft.getD 6) : α) = 1
      · obtain ⟨a, ha, hp, _⟩ :=
          sortBlended_spec sort hsort (candidates.map (commonnessEntry st dict))
        have e : a = answers := Option.some.inj (ha.symm.trans (h1 hu1))
        subst e
        refine (hp.map _).trans ?_
        rw [List.map_map]
        have e : ((fun e : AnswerGuess α => e.wordIndex) ∘ commonnessEntry st dict) = id := rfl
        rw [e, List.map_id]
      · by_cases hu0 : (urgencyFor (guessesLeft.getD 6) : α) = 0
        · rw [h0 hu0, List.map_map]
          exact hperm
        · obtain ⟨a, ha, hp, _⟩ := sortBlended_spec sort hsort (ranked1.map
            (blendedEntry st (urgencyFor (guessesLeft.getD 6)) (maxEntropyOf ranked1)))
          have e : a = answers := Option.some.inj (ha.symm.trans (h3 hu1 hu0))
          subst e
          refine (hp.map _).trans ?_
          rw [List.map_map]
          exact hperm
    · intro e he
      have he1 : e ∈ answers := he
      by_cases hu1 : (urgencyFor (guessesLeft.getD 6) : α) = 1
      · obtain ⟨a, ha, hp, _⟩ :=
          sortBlended_spec sort hsort (candidates.map (commonnessEntry st dict))
        have e2 : a = answers := Option.some.inj (ha.symm.trans (h1 hu1))
        subst e2
        obtain ⟨i, _, rfl⟩ := List.mem_map.mp (hp.mem_iff.mp he1)
        rfl
      · by_cases hu0 : (urgencyFor (guessesLeft.getD 6) : α) = 0
        · rw [h0 hu0] at he1
          obtain ⟨r0, hr0, rfl⟩ := List.mem_map.mp he1
          exact hword r0 hr0
        · obtain ⟨a, ha, hp, _⟩ := sortBlended_spec sort hsort (ranked1.map
            (blendedEntry st (urgencyFor (guessesLeft.getD 6)) (maxEntropyOf ranked1)))
          have e2 : a = answers := Option.some.inj (ha.symm.trans (h3 hu1 hu0))
          subst e2
          obtain ⟨r0, hr0, rfl⟩ := List.mem_map.mp (hp.mem_iff.mp he1)
          exact hword r0 hr0

/-- Instance of C25: the candidate list `slate`, `crane`, `slate` with two
guesses left, on the engine with uniform frequency tables and the insertion
sort. -/
theorem rankGuessesForState_answers_witness :
    ∃ r, rankGuessesForState referenceSort Real.log (sampleEngine ℝ) [1, 0, 1] (some 2)
        = some r ∧
      List.Perm (r.bestAnswerGuesses.map (fun e => e.wordIndex)) [1, 0, 1] ∧
      ∀ e ∈ r.bestAnswerGuesses, e.word = ["crane", "slate", "trace"][e.wordIndex]? :=
  rankGuessesForState_answers referenceSort referenceSort_conforms Real.log (sampleEngine ℝ)
    sampleWords ["crane", "slate", "trace"] uniformTables [1, 0, 1] (some 2) rfl
    (by unfold WordsOk; decide) rfl rfl rfl (by decide) rfl (by decide)


/-- A conforming sort leaves a one-entry answer track as it is. -/
theorem sortBlended_singleton {α : Type} [LinearOrderedField α] (sort : ArraySort α)
    (hsort : SortConforms sort) (x : AnswerGuess α) : sortBlended sort [x] = some [x] := by
  obtain ⟨r, h1, h2, _⟩ := sortBlended_spec sort hsort [x]
  rw [h1, List.perm_singleton.mp h2]

/-- Counterexample to C24 as worded: on the engine with uniform frequency
tables and the candidate list `crane` alone the code gives the blended score
1/2 with one guess left (the commonness itself, not divided by a maximum)
and 4/15 with two guesses left (the commonness is divided by the maximum 3/4
over the whole dictionary), where the worded formula gives 1 and 4/10. -/
theorem rankGuessesForState_blend_not_normalised :
    (∃ r, rankGuessesForState referenceSort Real.log (sampleEngine ℝ) [0] (some 1) = some r ∧
      ∃ e ∈ r.bestAnswerGuesses, e.blendedScore = some (1 / 2) ∧
        specBlended (urgencyFor 1) r.bestAnswerGuesses e = some 1) ∧
    (∃ r, rankGuessesForState referenceSort Real.log (sampleEngine ℝ) [0] (some 2) = some r ∧
      ∃ e ∈ r.bestAnswerGuesses, e.blendedScore = some (4 / 15) ∧
        specBlended (urgencyFor 2) r.bestAnswerGuesses e = some (4 / 10)) := by
  have hok : WordsOk sampleWords := by unfold WordsOk; decide
  have hcmn : commonnessOf (sampleEngine ℝ).commonnessData 0 = some (1 / 2) := by
    unfold commonnessOf sampleEngine
    norm_num
  constructor
  · obtain ⟨info, ranked, answers, _, _, hrun, h1, _, _⟩ := rankGuessesForState_spec
      referenceSort referenceSort_conforms Real.log (sampleEngine ℝ) sampleWords
      ["crane", "slate", "trace"] uniformTables [0] (some 1) rfl hok rfl rfl rfl (by decide) rfl
      (by decide) (by decide)
    have hu : (urgencyFor 1 : ℝ) = 1 := by
      rw [urgencyFor_eq]
      norm_num
    have ha : answers = [commonnessEntry (sampleEngine ℝ) ["crane", "slate", "trace"] 0] := by
      have h := h1 hu
      rw [List.map_singleton, sortBlended_singleton _ referenceSort_conforms] at h
      exact (Option.some.inj h).symm
    subst ha
    refine ⟨_, hrun, commonnessEntry (sampleEngine ℝ) ["crane", "slate", "trace"] 0,
      List.mem_singleton.mpr rfl, hcmn, ?_⟩
    show specBlended (urgencyFor 1)
      [commonnessEntry (sampleEngine ℝ) ["crane", "slate", "trace"] 0]
      (commonnessEntry (sampleEngine ℝ) ["crane", "slate", "trace"] 0) = some 1
    unfold specBlended commonnessEntry
    simp only [hcmn, hu, List.map_cons, List.map_nil, List.filterMap_cons, List.filterMap_nil,
      batchMax, guardZero, List.foldl_cons, List.foldl_nil, Option.map_some']
    norm_num
  · obtain ⟨info, ranked, answers, _, hranked, hrun, _, _, h3⟩ := rankGuessesForState_spec
      referenceSort referenceSort_conforms Real.log (sampleEngine ℝ) sampleWords
      ["crane", "slate", "trace"] uniformTables [0] (some 2) rfl hok rfl rfl rfl (by decide) rfl
      (by decide) (by decide)
    obtain ⟨ranked1, hranked1, hperm, _, hent⟩ := rankGuesses_entries referenceSort
      referenceSort_conforms Real.log (sampleEngine ℝ) sampleWords ["crane", "slate", "trace"]
      uniformTables [0] [0] rfl hok rfl rfl rfl (by decide) rfl (by decide) (by decide)
      (by decide)
    have hsame : ranked1 = ranked := Option.some.inj (hranked1.symm.trans hranked)
    subst hsame
    have hmap : ranked1.map (fun e => e.wordIndex) = [0] := List.perm_singleton.mp hperm
    have hu : (urgencyFor ((some 2 : Option Int).getD 6) : ℝ) = 4 / 10 := by
      rw [Option.getD_some, urgencyFor_eq]
      norm_num
    have hu2 : (urgencyFor 2 : ℝ) = 4 / 10 := by
      rw [urgencyFor_eq]
      norm_num
    obtain ⟨r0, rfl⟩ : ∃ r0, ranked1 = [r0] := by
      cases ranked1 with
      | nil => simp at hmap
      | cons a t =>
        cases t with
        | nil => exact ⟨a, rfl⟩
        | cons b t2 => simp at hmap
    have hidx : r0.wordIndex = 0 := by
      simpa using hmap
    have he0 : r0.entropy = 0 := by
      rw [hent (by decide) r0 (List.mem_singleton.mpr rfl), if_neg (by decide)]
    have ha : answers = [blendedEntry (sampleEngine ℝ) (4 / 10) (maxEntropyOf [r0]) r0] := by
      have h := h3 (by rw [hu]; norm_num) (by rw [hu]; norm_num)
      rw [hu, List.map_singleton, sortBlended_singleton _ referenceSort_conforms] at h
      exact (Option.some.inj h).symm
    subst ha
    refine ⟨_, hrun, _, List.mem_singleton.mpr rfl, ?_, ?_⟩
    · rw [blendedEntry_score]
      unfold blendedEntry maxCommonOf maxEntropyOf sampleEngine
      simp only [hidx, he0, List.foldl_cons, List.foldl_nil, List.getElem?_cons_zero,
        Option.map_some']
      norm_num
    · show specBlended (urgencyFor 2) [_] _ = _
      unfold specBlended blendedEntry maxEntropyOf sampleEngine
      simp only [hidx, he0, hu2, List.map_cons, List.map_nil, List.filterMap_cons,
        List.filterMap_nil, batchMax, guardZero, List.foldl_cons, List.foldl_nil,
        List.getElem?_cons_zero, Option.map_some']
      norm_num

/-- C24 (amended): on an initialised engine with frequency tables, for a
non-empty list of valid candidates, every entry of `bestAnswerGuesses` has,
for `guessesLeft ≤ 1`, entropy 0 and `blendedScore` equal to its commonness;
for `guessesLeft ≥ 4` or missing, `blendedScore` equal to its entropy; and
for `guessesLeft` 2 or 3, `blendedScore = (1 - urgency) * (entropy /
maxEntropy) + urgency * (commonness / maxCommon)`, where `maxEntropy` is the
largest entropy among the entries (1 when that is 0) and `maxCommon` is the
field `max` of the commonness data, the maximum over the whole dictionary (1
when it is not positive or the data is missing). -/
theorem rankGuessesForState_blended {α : Type} [LinearOrderedField α] (sort : ArraySort α)
    (hsort : SortConforms sort) (ln : α → α) (st : EngineState α) (ws : List (List Nat))
    (dict : List String) (tables : FreqTables) (candidates : List Nat)
    (guessesLeft : Option Int)
    (hws : st.encodedWords = some ws) (hok : WordsOk ws) (hdict : st.dictionary = some dict)
    (htab : st.frequencyTables = some tables) (hrows : tables.positional.length = 26)
    (hlow : ∀ w ∈ dict, LowerWord w)
    (hlen : dict.length = ws.length) (hcand : ∀ i ∈ candidates, i < ws.length)
    (hne : candidates ≠ []) :
    ∃ r, rankGuessesForState sort ln st candidates guessesLeft = some r ∧
      ∀ e ∈ r.bestAnswerGuesses,
        (guessesLeft.getD 6 ≤ 1 → e.entropy = 0 ∧ e.blendedScore = e.commonness) ∧
        (4 ≤ guessesLeft.getD 6 → e.blendedScore = some e.entropy) ∧
        (guessesLeft.getD 6 = 2 ∨ guessesLeft.getD 6 = 3 →
          e.blendedScore = e.commonness.map (fun c =>
            (1 - urgencyFor (guessesLeft.getD 6))
                * (e.entropy
                    / guardZero (batchMax (r.bestAnswerGuesses.map (fun b => b.entropy))))
              + urgencyFor (guessesLeft.getD 6) * (c / maxCommonOf st.commonnessData))) := by
  obtain ⟨info, ranked, answers, _, _, hrun, h1, h0, h3⟩ := rankGuessesForState_spec sort hsort
    ln st ws dict tables candidates guessesLeft hws hok hdict htab hrows hlow hlen hcand hne
  refine ⟨_, hrun, ?_⟩
  show ∀ e ∈ answers, _
  rcases le_or_lt (guessesLeft.getD 6) 1 with hle | hle
  · have hu : (urgencyFor (guessesLeft.getD 6) : α) = 1 := by
      rw [urgencyFor_eq, if_neg (by omega), if_neg (by omega), if_neg (by omega)]
    obtain ⟨a, ha, hp, _⟩ :=
      sortBlended_spec sort hsort (candidates.map (commonnessEntry st dict))
    have e2 : a = answers := Option.some.inj (ha.symm.trans (h1 hu))
    subst e2
    intro e he
    obtain ⟨i, _, rfl⟩ := List.mem_map.mp (hp.mem_iff.mp he)
    exact ⟨fun _ => ⟨rfl, rfl⟩, fun h => absurd h (by omega), fun h => absurd h (by omega)⟩
  · rcases le_or_lt 4 (guessesLeft.getD 6) with h4 | h4
    · have hu : (urgencyFor (guessesLeft.getD 6) : α) = 0 := by
        rw [urgencyFor_eq, if_pos h4]
      rw [h0 hu]
      intro e he
      obtain ⟨r0, _, rfl⟩ := List.mem_map.mp he
      exact ⟨fun h => absurd h (by omega), fun _ => rfl, fun h => absurd h (by omega)⟩
    · have hu1 : ¬ (urgencyFor (guessesLeft.getD 6) : α) = 1 := by
        rw [urgencyFor_eq, if_neg (by omega)]
        split_ifs <;> first | (exfalso; omega) | norm_num
      have hu0 : ¬ (urgencyFor (guessesLeft.getD 6) : α) = 0 := by
        rw [urgencyFor_eq, if_neg (by omega)]
        split_ifs <;> first | (exfalso; omega) | norm_num
      obtain ⟨a, ha, hp, _⟩ := sortBlended_spec sort hsort (ranked.map
        (blendedEntry st (urgencyFor (guessesLeft.getD 6)) (maxEntropyOf ranked)))
      have e2 : a = answers := Option.some.inj (ha.symm.trans (h3 hu1 hu0))
      subst e2
      have hmax : maxEntropyOf ranked
          = guardZero (batchMax (a.map (fun b => b.entropy))) := by
        rw [maxEntropyOf_eq]
        congr 1
        apply batchMax_perm
        refine List.Perm.symm ((hp.map _).trans ?_)
        rw [List.map_map]
        exact List.Perm.refl _
      intro e he
      obtain ⟨r0, _, rfl⟩ := List.mem_map.mp (hp.mem_iff.mp he)
      refine ⟨fun h => absurd h (by omega), fun h => absurd h (by omega), fun _ => ?_⟩
      rw [← hmax]
      exact blendedEntry_score st _ _ r0

/-- Instance of the amended C24: the three candidates of the sample
dictionary with two guesses left, on the engine with uniform frequency
tables and the insertion sort. -/
theorem rankGuessesForState_blended_witness :
    ∃ r, rankGuessesForState referenceSort Real.log (sampleEngine ℝ) [0, 1, 2] (some 2)
        = some r ∧
      ∀ e ∈ r.bestAnswerGuesses,
        ((some 2 : Option Int).getD 6 ≤ 1 → e.entropy = 0 ∧ e.blendedScore = e.commonness) ∧
        (4 ≤ (some 2 : Option Int).getD 6 → e.blendedScore = some e.entropy) ∧
        ((some 2 : Option Int).getD 6 = 2 ∨ (some 2 : Option Int).getD 6 = 3 →
          e.blendedScore = e.commonness.map (fun c =>
            (1 - urgencyFor ((some 2 : Option Int).getD 6))
                * (e.entropy
                    / guardZero (batchMax (r.bestAnswerGuesses.map (fun b => b.entropy))))
              + urgencyFor ((some 2 : Option Int).getD 6)
                * (c / maxCommonOf (sampleEngine ℝ).commonnessData))) :=
  rankGuessesForState_blended referenceSort referenceSort_conforms Real.log (sampleEngine ℝ)
    sampleWords ["crane", "slate", "trace"] uniformTables [0, 1, 2] (some 2) rfl
    (by unfold WordsOk; decide) rfl rfl rfl (by decide) rfl (by decide) (by decide)

/-! ### The order of `rankGuesses` -/

/-- The composite score of a lowercase word of one repeated letter `c`, from
the count `p` of the letter at each position, its overall count `o` and the
count `b` of its doubled bigram. -/
theorem compositeOf_repeated {α : Type} [LinearOrderedField α] (word : String)
    (tables : FreqTables) (c p o b : Nat) (hw : LowerWord word)
    (hrows : tables.positional.length = 26) (hl : lettersOf word = {c})
    (hp : ∀ i, i < 5 → cell tables.positional (codeAt word i) i = p)
    (ho : tables.overall.getD c 0 = o)
    (hb : ∀ k, k < 4 →
      (tables.bigram.get? (charAt word k ++ charAt word (k + 1))).getD 0 = b) :
    (compositeOf tables (some word) : α)
      = 60 / 100 * ((p : α) / (tables.wordCount : α))
        + 30 / 100 * ((o : α) / (tables.wordCount : α) / 5)
        + 10 / 100 * ((b : α) / (tables.wordCount : α)) := by
  obtain ⟨r, hr, h1, h2, h3, h4⟩ := scoreWord_eq (α := α) word tables hw hrows
  unfold compositeOf
  simp only [hr]
  rw [h4, h1, h2, h3, hl]
  simp only [Finset.sum_range_succ, Finset.sum_range_zero, Finset.sum_singleton]
  rw [hp 0 (by decide), hp 1 (by decide), hp 2 (by decide), hp 3 (by decide),
    hp 4 (by decide), ho, hb 0 (by decide), hb 1 (by decide), hb 2 (by decide),
    hb 3 (by decide)]
  ring

/-- The composite scores of `wwwww`, `vvvvv` and `uuuuu` under `tieTables`. -/
theorem compositeOf_tie :
    compositeOf tieTables (some "wwwww") = (53 / 100 : ℝ) ∧
    compositeOf tieTables (some "vvvvv") = (53 / 150 : ℝ) ∧
    compositeOf tieTables (some "uuuuu") = (53 / 300 : ℝ) := by
  have w : tieTables.wordCount = 6 := rfl
  refine ⟨?_, ?_, ?_⟩
  · rw [compositeOf_repeated "wwwww" tieTables 22 3 3 12 (by decide) rfl (by decide)
      (by decide) (by decide) (by decide), w]
    norm_num
  · rw [compositeOf_repeated "vvvvv" tieTables 21 2 2 8 (by decide) rfl (by decide)
      (by decide) (by decide) (by decide), w]
    norm_num
  · rw [compositeOf_repeated "uuuuu" tieTables 20 1 1 4 (by decide) rfl (by decide)
      (by decide) (by decide) (by decide), w]
    norm_num

/-- Three entries whose word indices are 0, 1 and 2 in some order cannot be
listed so that every earlier entry is related to every later one, when the
relation fails from index 1 to index 0, from 2 to 1 and from 0 to 2. -/
theorem not_pairwise_of_cycle {β : Type} (f : β → Nat) (r : β → β → Prop) (l : List β)
    (hperm : List.Perm (l.map f) [0, 1, 2])
    (h10 : ∀ p ∈ l, ∀ q ∈ l, f p = 1 → f q = 0 → ¬ r p q)
    (h21 : ∀ p ∈ l, ∀ q ∈ l, f p = 2 → f q = 1 → ¬ r p q)
    (h02 : ∀ p ∈ l, ∀ q ∈ l, f p = 0 → f q = 2 → ¬ r p q) : ¬ List.Pairwise r l := by
  have hlen : l.length = 3 := by
    have := hperm.length_eq
    simpa using this
  obtain ⟨a, b, c, rfl⟩ : ∃ a b c, l = [a, b, c] := by
    match l, hlen with
    | [a, b, c], _ => exact ⟨a, b, c, rfl⟩
  have hnd : ([f a, f b, f c] : List Nat).Nodup := hperm.nodup_iff.mpr (by decide)
  have ha : f a ∈ [0, 1, 2] := hperm.mem_iff.mp (by simp)
  have hb : f b ∈ [0, 1, 2] := hperm.mem_iff.mp (by simp)
  have hc : f c ∈ [0, 1, 2] := hperm.mem_iff.mp (by simp)
  simp only [List.nodup_cons, List.mem_cons, List.mem_singleton, List.not_mem_nil, not_or,
    List.nodup_nil, or_false, and_true, not_false_eq_true] at hnd ha hb hc
  obtain ⟨⟨nab, nac⟩, nbc⟩ := hnd
  intro hp
  simp only [List.pairwise_cons, List.mem_cons, List.mem_singleton, List.not_mem_nil,
    forall_eq_or_imp, forall_eq, List.Pairwise.nil, and_true, or_false, IsEmpty.forall_iff,
    implies_true] at hp
  obtain ⟨⟨rab, rac⟩, rbc⟩ := hp
  have ma : a ∈ [a, b, c] := by simp
  have mb : b ∈ [a, b, c] := by simp
  have mc : c ∈ [a, b, c] := by simp
  rcases ha with ha | ha | ha <;> rcases hb with hb | hb | hb <;>
    rcases hc with hc | hc | hc <;>
    first
    | exact absurd (ha.trans hb.symm) nab
    | exact absurd (ha.trans hc.symm) nac
    | exact absurd (hb.trans hc.symm) nbc
    | exact h10 a ma b mb ha hb rab
    | exact h10 a ma c mc ha hc rac
    | exact h10 b mb c mc hb hc rbc
    | exact h21 a ma b mb ha hb rab
    | exact h21 a ma c mc ha hc rac
    | exact h21 b mb c mc hb hc rbc
    | exact h02 a ma b mb ha hb rab
    | exact h02 a ma c mc ha hc rac

/-- Counterexample to C23 as worded: on the engine over `tieDictionary` with
the tables `tieTables`, for the pool `wwwww`, `vvvvv`, `uuuuu` and the 50000
candidates of `tieCandidates`, the three entropies rise in two steps of less
than `1e-6` and by more than `1e-6` in all, while the composite scores fall
from `wwwww` to `uuuuu`. The worded property asks for `wwwww` before `vvvvv`,
`vvvvv` before `uuuuu` and `uuuuu` before `wwwww`, so no order of the three
entries has it: the insertion sort returns a list without it, and so does
every conforming sort. -/
theorem rankGuesses_not_pairwise :
    (∃ res, rankGuesses referenceSort Real.log (tieEngine ℝ) [0, 1, 2] tieCandidates
        = some res ∧
      List.Perm (res.map (fun e => e.wordIndex)) [0, 1, 2] ∧
      ¬ List.Pairwise (RankedBefore (compositeOf tieTables)) res) ∧
    (∀ sort : ArraySort ℝ, SortConforms sort →
      ∃ res, rankGuesses sort Real.log (tieEngine ℝ) [0, 1, 2] tieCandidates = some res ∧
        ¬ List.Pairwise (RankedBefore (compositeOf tieTables)) res) := by
  have key : ∀ sort : ArraySort ℝ, SortConforms sort →
      ∃ res, rankGuesses sort Real.log (tieEngine ℝ) [0, 1, 2] tieCandidates = some res ∧
        List.Perm (res.map (fun e => e.wordIndex)) [0, 1, 2] ∧
        ¬ List.Pairwise (RankedBefore (compositeOf tieTables)) res := by
    intro sort hsort
    have hok : WordsOk tieWords := by unfold WordsOk; decide
    have hne : tieCandidates ≠ [] := fun h => by
      have hl := tieCandidates_length
      rw [h] at hl
      exact absurd hl (by decide)
    obtain ⟨res, hres, hperm, hword, hent⟩ := rankGuesses_entries sort hsort Real.log
      (tieEngine ℝ) tieWords tieDictionary tieTables [0, 1, 2] tieCandidates rfl hok rfl rfl
      rfl (by decide) rfl (by decide) tieCandidates_valid hne
    refine ⟨res, hres, hperm, ?_⟩
    obtain ⟨t0, t1, t2⟩ := tie_entropies
    obtain ⟨f0, f1, f2⟩ := compositeOf_tie
    have hn : tieCandidates.length < 65536 := by
      rw [tieCandidates_length]
      decide
    have hn1 : tieCandidates.length > 1 := by
      rw [tieCandidates_length]
      decide
    have e0 : ∀ p ∈ res, p.wordIndex = 0 → p.entropy = splitEntropy Real.log 24700 25300 ∧
        compositeOf tieTables p.word = (53 / 100 : ℝ) := fun p hp i => by
      rw [hent hn p hp, if_pos hn1, hword p hp, i, t0]
      exact ⟨rfl, f0⟩
    have e1 : ∀ p ∈ res, p.wordIndex = 1 → p.entropy = splitEntropy Real.log 24701 25299 ∧
        compositeOf tieTables p.word = (53 / 150 : ℝ) := fun p hp i => by
      rw [hent hn p hp, if_pos hn1, hword p hp, i, t1]
      exact ⟨rfl, f1⟩
    have e2 : ∀ p ∈ res, p.wordIndex = 2 → p.entropy = splitEntropy Real.log 24702 25298 ∧
        compositeOf tieTables p.word = (53 / 300 : ℝ) := fun p hp i => by
      rw [hent hn p hp, if_pos hn1, hword p hp, i, t2]
      exact ⟨rfl, f2⟩
    obtain ⟨s1, s2, s3, s4, s5⟩ := splitEntropy_steps
    apply not_pairwise_of_cycle (fun e : InfoGuess ℝ => e.wordIndex) _ res hperm
    · intro p hp q hq ip iq h
      obtain ⟨ep, fp⟩ := e1 p hp ip
      obtain ⟨eq, fq⟩ := e0 q hq iq
      unfold RankedBefore at h
      rw [ep, eq, fp, fq] at h
      rcases h with h | ⟨_, h⟩
      · linarith
      · norm_num at h
    · intro p hp q hq ip iq h
      obtain ⟨ep, fp⟩ := e2 p hp ip
      obtain ⟨eq, fq⟩ := e1 q hq iq
      unfold RankedBefore at h
      rw [ep, eq, fp, fq] at h
      rcases h with h | ⟨_, h⟩
      · linarith
      · norm_num at h
    · intro p hp q hq ip iq h
      obtain ⟨ep, _⟩ := e0 p hp ip
      obtain ⟨eq, _⟩ := e2 q hq iq
      unfold RankedBefore at h
      rw [ep, eq] at h
      rcases h with h | ⟨h, _⟩
      · linarith
      · rw [abs_sub_comm, abs_of_pos (by linarith)] at h
        linarith
  refine ⟨key referenceSort referenceSort_conforms, fun sort hsort => ?_⟩
  obtain ⟨res, h1, _, h2⟩ := key sort hsort
  exact ⟨res, h1, h2⟩

/-- C23 (amended): on an initialised engine with frequency tables (26 rows
and a positive word count, so that every composite score is a number), for
every pool of valid indices and non-empty list of valid candidates,
`rankGuesses` returns a list, and when being within `1e-6` of each other is
transitive among the entropies of the list, every two entries `a` before `b`
of it satisfy the order property: `a.entropy - b.entropy ≥ 1e-6`, or the two
entropies are within `1e-6` and the composite frequency score of the word of
`a` is at least that of the word of `b`. -/
theorem rankGuesses_sorted {α : Type} [LinearOrderedField α] (sort : ArraySort α)
    (hsort : SortConforms sort) (ln : α → α) (st : EngineState α) (ws : List (List Nat))
    (dict : List String) (tables : FreqTables) (pool remaining : List Nat)
    (hws : st.encodedWords = some ws) (hok : WordsOk ws) (hdict : st.dictionary = some dict)
    (htab : st.frequencyTables = some tables) (hrows : tables.positional.length = 26)
    (hwc : 0 < tables.wordCount)
    (hlow : ∀ w ∈ dict, LowerWord w) (hlen : dict.length = ws.length)
    (hpool : ∀ i ∈ pool, i < ws.length) (hrem : ∀ s ∈ remaining, s < ws.length)
    (hne : remaining ≠ []) :
    ∃ res, rankGuesses sort ln st pool remaining = some res ∧
      (TiesTransitive res → List.Pairwise (RankedBefore (compositeOf tables)) res) := by
  have _hpos := hwc
  obtain ⟨results, ranked, _, _, _, _, hperm, hstable, hrun⟩ :=
    rankGuesses_shape sort hsort ln st ws dict tables pool remaining hws hok hdict htab hrows
      hlow hlen hpool hrem hne
  refine ⟨_, hrun, fun hties => ?_⟩
  have hmem : ∀ a ∈ results,
      ({ a with word := dict[a.wordIndex]? } : InfoGuess α)
        ∈ ranked.map (fun r => { r with word := dict[r.wordIndex]? }) := fun a ha =>
    List.mem_map.mpr ⟨a, hperm.mem_iff.mpr ha, rfl⟩
  have hties2 : TiesTransitive results := fun a ha b hb d hd h1 h2 =>
    hties { a with word := dict[a.wordIndex]? } (hmem a ha)
      { b with word := dict[b.wordIndex]? } (hmem b hb)
      { d with word := dict[d.wordIndex]? } (hmem d hd) h1 h2
  have hcons := entropyOrder_consistent (compositeOf tables) dict results hties2
  have hsorted := jsSort_sorted (entropyOrder (compositeOf tables) dict) results hcons
  rw [← hstable hcons] at hsorted
  rw [List.pairwise_map]
  exact hsorted.imp (fun {a b} h => rankedBefore_of_order (compositeOf tables) dict
    { a with word := dict[a.wordIndex]? } { b with word := dict[b.wordIndex]? } rfl rfl h)

/-- Instance of the amended C23: the pool `crane`, `slate`, `trace` against
the single candidate `crane`, on the engine with uniform frequency tables and
the insertion sort; the three entropies are 0, so the condition holds and the
returned list has the order property. -/
theorem rankGuesses_sorted_witness :
    ∃ res, rankGuesses referenceSort Real.log (sampleEngine ℝ) [0, 1, 2] [0] = some res ∧
      TiesTransitive res ∧ List.Pairwise (RankedBefore (compositeOf uniformTables)) res := by
  have hok : WordsOk sampleWords := by unfold WordsOk; decide
  obtain ⟨res, hres, hsorted⟩ := rankGuesses_sorted referenceSort referenceSort_conforms
    Real.log (sampleEngine ℝ) sampleWords ["crane", "slate", "trace"] uniformTables [0, 1, 2]
    [0] rfl hok rfl rfl rfl (by decide) (by decide) rfl (by decide) (by decide) (by decide)
  obtain ⟨res2, hres2, _, _, hent⟩ := rankGuesses_entries referenceSort referenceSort_conforms
    Real.log (sampleEngine ℝ) sampleWords ["crane", "slate", "trace"] uniformTables [0, 1, 2]
    [0] rfl hok rfl rfl rfl (by decide) rfl (by decide) (by decide) (by decide)
  have hsame : res2 = res := Option.some.inj (hres2.symm.trans hres)
  subst hsame
  have hzero : ∀ e ∈ res2, e.entropy = 0 := fun e he => by
    rw [hent (by decide) e he, if_neg (by decide)]
  have hties : TiesTransitive res2 := fun a ha b hb d hd _ _ => by
    rw [hzero a ha, hzero d hd, sub_self, abs_zero]
    norm_num
  exact ⟨res2, hres, hties, hsorted hties⟩

/-! ### The order of the answer track -/

/-- The tables `tieTables` and `nearTieTables` are what `buildTables` returns
for the word lists they are described by. -/
theorem buildTables_examples (st : TablesState) :
    (buildTables st ["wwwww", "wwwww", "wwwww", "vvvvv", "vvvvv", "uuuuu"]).map Prod.fst
      = some tieTables ∧
    (buildTables st ["aaaaa", "aaaaa", "bbbbb", "ccccc"]).map Prod.fst
      = some nearTieTables := by
  constructor <;> rfl

/-- The composite scores of `aaaaa` and `bbbbb` under `nearTieTables`. -/
theorem compositeOf_nearTie :
    compositeOf nearTieTables (some "aaaaa") = (53 / 100 : ℝ) ∧
    compositeOf nearTieTables (some "bbbbb") = (53 / 200 : ℝ) := by
  have w : nearTieTables.wordCount = 4 := rfl
  refine ⟨?_, ?_⟩
  · rw [compositeOf_repeated "aaaaa" nearTieTables 0 2 2 8 (by decide) rfl (by decide)
      (by decide) (by decide) (by decide), w]
    norm_num
  · rw [compositeOf_repeated "bbbbb" nearTieTables 1 1 1 4 (by decide) rfl (by decide)
      (by decide) (by decide) (by decide), w]
    norm_num

/-- The lopsided split has less entropy than the even ones, by more than
`1e-6`. -/
theorem splitEntropy_gap :
    splitEntropy Real.log 599 49401 + 1 / 1000000 ≤ splitEntropy Real.log 24700 25300 := by
  have hl1 := Real.log_two_gt_d9
  have hl2 := Real.log_two_lt_d9
  have hpos : (0 : ℝ) < 50000 * Real.log 2 := by linarith
  rw [splitEntropy_real 599 49401 50000 (by norm_num) (by norm_num),
    splitEntropy_real 24700 25300 50000 (by norm_num) (by norm_num)]
  have u1 := log_diff_bounds 599 5000 (by norm_num) (by norm_num)
  have u2 := log_diff_bounds 5000 50000 (by norm_num) (by norm_num)
  have u3 := log_diff_bounds 49401 50000 (by norm_num) (by norm_num)
  have l1 := log_diff_bounds 24700 50000 (by norm_num) (by norm_num)
  have l2 := log_diff_bounds 25300 50000 (by norm_num) (by norm_num)
  norm_num at u1 u2 u3 l1 l2
  obtain ⟨_, u1u⟩ := u1
  obtain ⟨_, u2u⟩ := u2
  obtain ⟨_, u3u⟩ := u3
  obtain ⟨l1l, _⟩ := l1
  obtain ⟨l2l, _⟩ := l2
  rw [← sub_nonneg]
  have e : ∀ x y : ℝ, y / (50000 * Real.log 2) - (x / (50000 * Real.log 2) + 1 / 1000000)
      = (y - x - (50000 * Real.log 2) / 1000000) / (50000 * Real.log 2) := by
    intro x y
    field_simp
    ring
  rw [e]
  apply div_nonneg _ (le_of_lt hpos)
  push_cast
  linarith

/-- Two different members of a list that is pairwise related are related one
way or the other. -/
theorem pairwise_related {β : Type} (r : β → β → Prop) (l : List β) (h : List.Pairwise r l)
    (a b : β) (ha : a ∈ l) (hb : b ∈ l) (hab : a ≠ b) : r a b ∨ r b a := by
  have hs : List.Pairwise (fun x y => r x y ∨ r y x) l := h.imp (fun {x y} hxy => Or.inl hxy)
  exact hs.forall (fun x y hxy => hxy.symm) ha hb hab

/-- Among numbers that take three values, two of them within `1e-6` of each
other and the third lower by more than that, being within `1e-6` is
transitive. -/
theorem ties_of_three (s0 s1 s2 : ℝ) (h1 : 0 < s1 - s0) (h2 : s1 - s0 < 1 / 1000000)
    (h3 : s2 + 1 / 1000000 ≤ s0) (x y z : ℝ) (hx : x = s0 ∨ x = s1 ∨ x = s2)
    (hy : y = s0 ∨ y = s1 ∨ y = s2) (hz : z = s0 ∨ z = s1 ∨ z = s2)
    (hxy : abs (x - y) < 1 / 1000000) (hyz : abs (y - z) < 1 / 1000000) :
    abs (x - z) < 1 / 1000000 := by
  rw [abs_lt] at hxy hyz ⊢
  rcases hx with hx | hx | hx <;> rcases hy with hy | hy | hy <;>
    rcases hz with hz | hz | hz <;> subst hx <;> subst hy <;> subst hz <;>
    constructor <;> linarith

/-- What the code does on the input that refutes C36: on the engine over
`aaaaa`, `bbbbb`, `ccccc` with the tables `nearTieTables`, for the 50000
candidates of `nearTieCandidates` and no `guessesLeft`, `rankGuessesForState`
returns an answer track that is not in non-increasing order of
`blendedScore`, with the insertion sort and with every conforming sort: the
entropies of `aaaaa` and `bbbbb` are within `1e-6`, so the comparator puts
`aaaaa`, of the higher composite score, before `bbbbb`, of the higher
entropy, and the branch for urgency 0 lists the entries in that order with
the entropy as blended score. -/
theorem rankGuessesForState_answers_not_sorted :
    (∃ res, rankGuessesForState referenceSort Real.log (nearTieEngine ℝ) nearTieCandidates
        none = some res ∧
      ¬ List.Pairwise ScoreGe res.bestAnswerGuesses) ∧
    (∀ sort : ArraySort ℝ, SortConforms sort →
      ∃ res, rankGuessesForState sort Real.log (nearTieEngine ℝ) nearTieCandidates none
          = some res ∧
        ¬ List.Pairwise ScoreGe res.bestAnswerGuesses) := by
  have key : ∀ sort : ArraySort ℝ, SortConforms sort →
      ∃ res, rankGuessesForState sort Real.log (nearTieEngine ℝ) nearTieCandidates none
          = some res ∧
        ¬ List.Pairwise ScoreGe res.bestAnswerGuesses := by
    intro sort hsort
    have hok : WordsOk nearTieWords := by unfold WordsOk; decide
    have hne : nearTieCandidates ≠ [] := fun h => by
      have hl := nearTieCandidates_length
      rw [h] at hl
      exact absurd hl (by decide)
    have hn : nearTieCandidates.length < 65536 := by
      rw [nearTieCandidates_length]
      decide
    have hn1 : nearTieCandidates.length > 1 := by
      rw [nearTieCandidates_length]
      decide
    obtain ⟨info, ranked, answers, _, hranked, hrun, _, h0, _⟩ := rankGuessesForState_spec sort
      hsort Real.log (nearTieEngine ℝ) nearTieWords nearTieDictionary nearTieTables
      nearTieCandidates none rfl hok rfl rfl rfl (by decide) rfl nearTieCandidates_valid hne
    obtain ⟨results, sorted, _, hmap, hent, _, hperm, hstable, hrun2⟩ := rankGuesses_shape sort
      hsort Real.log (nearTieEngine ℝ) nearTieWords nearTieDictionary nearTieTables
      nearTieCandidates nearTieCandidates rfl hok rfl rfl rfl (by decide) rfl
      nearTieCandidates_valid nearTieCandidates_valid hne
    have hsame : ranked = sorted.map
        (fun r => { r with word := nearTieDictionary[r.wordIndex]? }) :=
      Option.some.inj (hranked.symm.trans hrun2)
    have hu : (urgencyFor ((none : Option Int).getD 6) : ℝ) = 0 := by
      rw [Option.getD_none, urgencyFor_eq, if_pos (by decide)]
    have hans := h0 hu
    refine ⟨_, hrun, ?_⟩
    show ¬ List.Pairwise ScoreGe answers
    rw [hans, hsame, List.map_map, List.pairwise_map]
    obtain ⟨t0, t1, t2⟩ := nearTie_entropies
    obtain ⟨s1, s2, _, _, _⟩ := splitEntropy_steps
    have s3 := splitEntropy_gap
    obtain ⟨c0, c1⟩ := compositeOf_nearTie
    have hidx : ∀ e ∈ results, e.wordIndex = 0 ∨ e.wordIndex = 1 ∨ e.wordIndex = 2 := by
      intro e he
      have hm : e.wordIndex ∈ nearTieCandidates := by
        rw [← hmap]
        exact List.mem_map.mpr ⟨e, he, rfl⟩
      simp only [nearTieCandidates, List.mem_append, List.mem_replicate] at hm
      omega
    have hval : ∀ e ∈ results,
        e.entropy = splitEntropy Real.log 24700 25300 ∨
        e.entropy = splitEntropy Real.log 24701 25299 ∨
        e.entropy = splitEntropy Real.log 599 49401 := by
      intro e he
      rw [hent hn e he, if_pos hn1]
      rcases hidx e he with h | h | h
      · rw [h, t0]
        exact Or.inl rfl
      · rw [h, t1]
        exact Or.inr (Or.inl rfl)
      · rw [h, t2]
        exact Or.inr (Or.inr rfl)
    have hties : TiesTransitive results := fun a ha b hb d hd =>
      ties_of_three _ _ _ s1 s2 s3 _ _ _ (hval a ha) (hval b hb) (hval d hd)
    have hcons := entropyOrder_consistent (compositeOf nearTieTables) nearTieDictionary results
      hties
    have hsorted := jsSort_sorted (entropyOrder (compositeOf nearTieTables) nearTieDictionary)
      results hcons
    rw [← hstable hcons] at hsorted
    obtain ⟨ea, hea, ia⟩ : ∃ e ∈ sorted, e.wordIndex = 0 := by
      have hm : (0 : Nat) ∈ results.map (fun e => e.wordIndex) := by
        rw [hmap]
        exact List.mem_append_left _ (List.mem_replicate.mpr ⟨by decide, rfl⟩)
      obtain ⟨e, he, i⟩ := List.mem_map.mp hm
      exact ⟨e, hperm.mem_iff.mpr he, i⟩
    obtain ⟨eb, heb, ib⟩ : ∃ e ∈ sorted, e.wordIndex = 1 := by
      have hm : (1 : Nat) ∈ results.map (fun e => e.wordIndex) := by
        rw [hmap]
        exact List.mem_append_right _
          (List.mem_append_left _ (List.mem_replicate.mpr ⟨by decide, rfl⟩))
      obtain ⟨e, he, i⟩ := List.mem_map.mp hm
      exact ⟨e, hperm.mem_iff.mpr he, i⟩
    have va : ea.entropy = splitEntropy Real.log 24700 25300 := by
      rw [hent hn ea (hperm.mem_iff.mp hea), if_pos hn1, ia, t0]
    have vb : eb.entropy = splitEntropy Real.log 24701 25299 := by
      rw [hent hn eb (hperm.mem_iff.mp heb), if_pos hn1, ib, t1]
    have hab : ea ≠ eb := fun h => by
      rw [h, ib] at ia
      exact absurd ia (by decide)
    intro hp
    rcases pairwise_related _ sorted (hsorted.and hp) ea eb hea heb hab with ⟨_, h⟩ | ⟨h, _⟩
    · obtain ⟨x, y, hx, hy, hxy⟩ := h
      have ex : x = ea.entropy := (Option.some.inj hx).symm
      have ey : y = eb.entropy := (Option.some.inj hy).symm
      rw [ex, ey, va, vb] at hxy
      linarith
    · unfold entropyOrder at h
      have htie : abs (ea.entropy - eb.entropy) < 1 / 1000000 := by
        rw [va, vb, abs_sub_comm, abs_of_pos s1]
        exact s2
      simp only [htie, if_true, ia, ib] at h
      have d0 : nearTieDictionary[0]? = some "aaaaa" := rfl
      have d1 : nearTieDictionary[1]? = some "bbbbb" := rfl
      rw [d0, d1, c0, c1] at h
      norm_num at h
  exact ⟨key referenceSort referenceSort_conforms, key⟩


/-! ### `init` and the first-guess cache -/

/-- The state `init` leaves and the fulfilled promise, when the sort of the
worker results returns. -/
theorem init_of_sorted {α : Type} [LinearOrderedField α] (sort : ArraySort α) (ln : α → α)
    (st : EngineState α) (dict : List String) (freqTables : Option FreqTables)
    (cmnData : Option (CommonnessData α)) (ranked : List (InfoGuess α))
    (h : sort (InfoGuess α) (entropyComparator dict freqTables) (workerResults ln dict)
      = some ranked) :
    init sort ln st dict freqTables cmnData
      = ({ st with
           dictionary := some dict, frequencyTables := freqTables, commonnessData := cmnData,
           encodedWords := some (dict.map encodeWord),
           firstGuessCache := some
             { bestInfoGuesses :=
                 (ranked.map (fun r => { r with word := dict[r.wordIndex]? })).take 20,
               bestAnswerGuesses :=
                 ((ranked.map (fun r => { r with word := dict[r.wordIndex]? })).take
                   (min dict.length 20)).map (fun r =>
                     { wordIndex := r.wordIndex, word := r.word, entropy := r.entropy,
                       commonness := commonnessOf cmnData r.wordIndex,
                       blendedScore := some r.entropy }) } }, true) := by
  unfold workerResults at h
  unfold init
  simp only [h]
  rfl

/-- The entries the loop of `rankGuesses` builds for the whole dictionary
against itself are the entries `init` builds from the entropies of the
worker. -/
theorem rankLoop_worker {α : Type} [LinearOrderedField α] (ln : α → α) (dict : List String)
    (hlow : ∀ w ∈ dict, LowerWord w) :
    rankLoop ln (some (dict.map encodeWord)) (List.range dict.length) (List.range dict.length)
        (List.replicate PATTERN_COUNT 0, List.replicate 26 0, List.replicate 5 0)
      = some (workerResults ln dict) := by
  have hok := wordsOk_encode dict hlow
  have hlen : (dict.map encodeWord).length = dict.length := List.length_map _ _
  have hloop := worker_entropyLoop ln (dict.map encodeWord) hok
    (List.range (dict.map encodeWord).length) (List.replicate 243 0) (List.replicate 5 0)
    (fun g hg => List.mem_range.mp hg) (List.length_replicate _ _) (List.length_replicate _ _)
  have hwl := worker_entropyLoop_length ln (flatEncoded (dict.map encodeWord))
    (dict.map encodeWord).length (List.range (dict.map encodeWord).length)
    (List.replicate 243 0, zeroCounts, List.replicate 5 0)
  rw [hlen] at hloop hwl
  rw [List.length_range] at hwl
  have hres : workerResults ln dict
      = List.zipWith (fun g e => ({ wordIndex := g, entropy := e, word := none } : InfoGuess α))
          (List.range dict.length)
          (Worker.entropyLoop ln (flatEncoded (dict.map encodeWord)) dict.length
            (List.range dict.length) (List.replicate 243 0, zeroCounts, List.replicate 5 0)) := by
    have h := map_range_getD
      (fun g e => ({ wordIndex := g, entropy := e, word := none } : InfoGuess α))
      (Worker.entropyLoop ln (flatEncoded (dict.map encodeWord)) dict.length
        (List.range dict.length) (List.replicate 243 0, zeroCounts, List.replicate 5 0)) 0
    rw [hwl] at h
    exact h
  rw [← hres] at hloop
  exact hloop

/-- With frequency tables in place and a conforming sort, the sort of `init`
returns: `init` fulfils its promise and leaves the first-guess cache made of
the sorted list. -/
theorem init_spec {α : Type} [LinearOrderedField α] (sort : ArraySort α)
    (hsort : SortConforms sort) (ln : α → α) (st : EngineState α) (dict : List String)
    (tables : FreqTables) (cmnData : Option (CommonnessData α))
    (hlow : ∀ w ∈ dict, LowerWord w) (hrows : tables.positional.length = 26) :
    ∃ ranked, initRanking sort ln dict (some tables) = some ranked ∧
      ranked.length = dict.length ∧
      (∀ e ∈ ranked, (Worker.onmessage ln (flatEncoded (dict.map encodeWord))
        dict.length).getD e.wordIndex 0 = e.entropy) ∧
      init sort ln st dict (some tables) cmnData
        = ({ st with
             dictionary := some dict, frequencyTables := some tables,
             commonnessData := cmnData, encodedWords := some (dict.map encodeWord),
             firstGuessCache := some
               { bestInfoGuesses := ranked.take 20,
                 bestAnswerGuesses := (ranked.take (min dict.length 20)).map (fun r =>
                   { wordIndex := r.wordIndex, word := r.word, entropy := r.entropy,
                     commonness := commonnessOf cmnData r.wordIndex,
                     blendedScore := some r.entropy }) } }, true) := by
  have hidx : ∀ a ∈ workerResults ln dict, a.wordIndex < dict.length := by
    intro a ha
    obtain ⟨i, hi, rfl⟩ := List.mem_map.mp ha
    exact List.mem_range.mp hi
  have hcmp : ∀ a ∈ workerResults ln dict, ∀ b ∈ workerResults ln dict,
      entropyComparator dict (some tables) a b
        = some (entropyOrder (compositeOf tables) dict a b) := fun a ha b hb =>
    entropyComparator_eq dict tables hlow hrows a b (hidx a ha) (hidx b hb)
  obtain ⟨ranked, hs1, hs2⟩ := sort_perm sort hsort _ _ (workerResults ln dict) hcmp
  refine ⟨ranked.map (fun r => { r with word := dict[r.wordIndex]? }), ?_, ?_, ?_,
    init_of_sorted sort ln st dict (some tables) cmnData ranked hs1⟩
  · unfold initRanking
    rw [hs1]
    rfl
  · rw [List.length_map, hs2.length_eq]
    unfold workerResults
    rw [List.length_map, List.length_range]
  · intro e he
    obtain ⟨r0, hr0, rfl⟩ := List.mem_map.mp he
    obtain ⟨i, _, rfl⟩ := List.mem_map.mp (hs2.mem_iff.mp hr0)
    rfl

/-- What `rankGuesses` returns for the whole dictionary against itself, in a
state with the encoded words of the dictionary, is the sorted list of
`init`. -/
theorem rankGuesses_init {α : Type} [LinearOrderedField α] (sort : ArraySort α)
    (ln : α → α) (st : EngineState α) (dict : List String) (freqTables : Option FreqTables)
    (hws : st.encodedWords = some (dict.map encodeWord)) (hdict : st.dictionary = some dict)
    (htab : st.frequencyTables = freqTables)
    (hlow : ∀ w ∈ dict, LowerWord w) (hne : dict ≠ []) :
    rankGuesses sort ln st (List.range dict.length) (List.range dict.length)
      = initRanking sort ln dict freqTables := by
  have hn0 : ¬ (List.range dict.length).length = 0 := by
    rw [List.length_range]
    exact fun h => hne (List.length_eq_zero.mp h)
  unfold rankGuesses initRanking
  rw [if_neg hn0, hws, rankLoop_worker ln dict hlow, hdict, htab]
  cases hw : workerResults ln dict with
  | nil =>
    exfalso
    have hl := congrArg List.length hw
    unfold workerResults at hl
    rw [List.length_map, List.length_range, List.length_nil] at hl
    exact hne (List.length_eq_zero.mp hl)
  | cons r rs =>
    cases hs : sort (InfoGuess α) (entropyComparator dict freqTables) (r :: rs) with
    | none => simp only [hs, Option.map_none']
    | some sorted => simp only [hs, Option.map_some']


/-- C26: `init` on a dictionary of `N` lowercase five-letter words with
frequency tables of 26 rows completes (its promise is fulfilled), and then
`getFirstGuessCache()` returns for both tracks the first `min(20, N)` entries
of the corresponding track of `rankGuessesForState` on all indices `0..N-1`
with `guessesLeft ≥ 4`; every entropy of that ranking is the value the
worker computed for the word; and before `init` or after `clearCache` the
function returns two empty lists. -/
theorem init_firstGuessCache {α : Type} [LinearOrderedField α] (sort : ArraySort α)
    (hsort : SortConforms sort) (ln : α → α) (st : EngineState α) (dict : List String)
    (tables : FreqTables) (cmnData : Option (CommonnessData α)) (guessesLeft : Int)
    (hlow : ∀ w ∈ dict, LowerWord w) (hrows : tables.positional.length = 26)
    (hgl : 4 ≤ guessesLeft) :
    ((init sort ln st dict (some tables) cmnData).2 = true ∧
      ∃ r, rankGuessesForState sort ln (init sort ln st dict (some tables) cmnData).1
            (List.range dict.length) (some guessesLeft) = some r ∧
        getFirstGuessCache (init sort ln st dict (some tables) cmnData).1
          = { bestInfoGuesses := r.bestInfoGuesses.take 20,
              bestAnswerGuesses := r.bestAnswerGuesses.take 20 } ∧
        (r.bestInfoGuesses.take 20).length = min 20 dict.length ∧
        (r.bestAnswerGuesses.take 20).length = min 20 dict.length ∧
        ∀ e ∈ r.bestInfoGuesses,
          (Worker.onmessage ln (flatEncoded (dict.map encodeWord)) dict.length).getD
            e.wordIndex 0 = e.entropy) ∧
    getFirstGuessCache (initialEngine α) = { bestInfoGuesses := [], bestAnswerGuesses := [] } ∧
    getFirstGuessCache (entropy.clearCache (init sort ln st dict (some tables) cmnData).1)
      = { bestInfoGuesses := [], bestAnswerGuesses := [] } := by
  refine ⟨?_, rfl, rfl⟩
  obtain ⟨ranked, hir, hlen, hent, hinit⟩ :=
    init_spec sort hsort ln st dict tables cmnData hlow hrows
  rw [hinit]
  refine ⟨rfl, ?_⟩
  by_cases hne : dict = []
  · subst hne
    have hnil : ranked = [] := List.length_eq_zero.mp hlen
    subst hnil
    refine ⟨{ bestInfoGuesses := [], bestAnswerGuesses := [] }, ?_, rfl, rfl, rfl,
      fun e he => absurd he (List.not_mem_nil _)⟩
    unfold rankGuessesForState
    simp only [List.length_nil, List.range_zero, if_true]
  · have hok := wordsOk_encode dict hlow
    have hne2 : List.range dict.length ≠ [] := fun h => by
      have h2 := congrArg List.length h
      rw [List.length_range, List.length_nil] at h2
      exact hne (List.length_eq_zero.mp h2)
    generalize hst : ({ st with
        dictionary := some dict, frequencyTables := some tables,
        commonnessData := cmnData, encodedWords := some (dict.map encodeWord),
        firstGuessCache := some
          { bestInfoGuesses := ranked.take 20,
            bestAnswerGuesses := (ranked.take (min dict.length 20)).map (fun r =>
              { wordIndex := r.wordIndex, word := r.word, entropy := r.entropy,
                commonness := commonnessOf cmnData r.wordIndex,
                blendedScore := some r.entropy }) } } : EngineState α) = st1
    have hws : st1.encodedWords = some (dict.map encodeWord) := by rw [← hst]
    have hdict : st1.dictionary = some dict := by rw [← hst]
    have htab : st1.frequencyTables = some tables := by rw [← hst]
    have hcd : st1.commonnessData = cmnData := by rw [← hst]
    have hfc : getFirstGuessCache st1
        = { bestInfoGuesses := ranked.take 20,
            bestAnswerGuesses := (ranked.take (min dict.length 20)).map (entropyEntry st1) } := by
      rw [← hst]
      rfl
    have hrg : rankGuesses sort ln st1 (List.range dict.length) (List.range dict.length)
        = some ranked :=
      (rankGuesses_init sort ln st1 dict (some tables) hws hdict htab hlow hne).trans hir
    obtain ⟨info, ranked2, answers, hinfo, hranked, hrun, _, h0, _⟩ :=
      rankGuessesForState_spec sort hsort ln st1 (dict.map encodeWord) dict tables
        (List.range dict.length) (some guessesLeft) hws hok hdict htab hrows hlow
        (List.length_map _ _).symm
        (fun i hi => by rw [List.length_map]; exact List.mem_range.mp hi) hne2
    have hpool : infoPoolOf (List.range dict.length) dict.length = List.range dict.length := by
      unfold infoPoolOf
      split <;> rfl
    rw [hpool] at hinfo
    have e1 : info = ranked := Option.some.inj (hinfo.symm.trans hrg)
    have e2 : ranked2 = ranked := Option.some.inj (hranked.symm.trans hrg)
    have hu : (urgencyFor ((some guessesLeft : Option Int).getD 6) : α) = 0 := by
      rw [Option.getD_some, urgencyFor_eq, if_pos hgl]
    have e3 := h0 hu
    rw [e3, e2, e1] at hrun
    refine ⟨_, hrun, ?_, ?_, ?_, hent⟩
    · have htake : ranked.take (min dict.length 20) = ranked.take 20 := by
        rcases Nat.le_total dict.length 20 with h | h
        · rw [Nat.min_eq_left h, List.take_of_length_le (by rw [hlen]),
            List.take_of_length_le (by rw [hlen]; exact h)]
        · rw [Nat.min_eq_right h]
      rw [hfc, htake, List.map_take]
    · show (ranked.take 20).length = _
      rw [List.length_take, hlen]
    · show ((ranked.map (entropyEntry st1)).take 20).length = _
      rw [List.length_take, List.length_map, hlen]

/-- Instance of C26: `init` on the dictionary `crane`, `slate`, `trace` with
uniform frequency tables and the insertion sort. -/
theorem init_firstGuessCache_witness :
    ((init referenceSort Real.log (initialEngine ℝ) ["crane", "slate", "trace"]
        (some uniformTables) none).2 = true ∧
      ∃ r, rankGuessesForState referenceSort Real.log
            (init referenceSort Real.log (initialEngine ℝ) ["crane", "slate", "trace"]
              (some uniformTables) none).1
            (List.range ["crane", "slate", "trace"].length) (some 6) = some r ∧
        getFirstGuessCache
            (init referenceSort Real.log (initialEngine ℝ) ["crane", "slate", "trace"]
              (some uniformTables) none).1
          = { bestInfoGuesses := r.bestInfoGuesses.take 20,
              bestAnswerGuesses := r.bestAnswerGuesses.take 20 } ∧
        (r.bestInfoGuesses.take 20).length = min 20 ["crane", "slate", "trace"].length ∧
        (r.bestAnswerGuesses.take 20).length = min 20 ["crane", "slate", "trace"].length ∧
        ∀ e ∈ r.bestInfoGuesses,
          (Worker.onmessage Real.log (flatEncoded (["crane", "slate", "trace"].map encodeWord))
            ["crane", "slate", "trace"].length).getD e.wordIndex 0 = e.entropy) ∧
    getFirstGuessCache (initialEngine ℝ) = { bestInfoGuesses := [], bestAnswerGuesses := [] } ∧
    getFirstGuessCache (entropy.clearCache
        (init referenceSort Real.log (initialEngine ℝ) ["crane", "slate", "trace"]
          (some uniformTables) none).1)
      = { bestInfoGuesses := [], bestAnswerGuesses := [] } :=
  init_firstGuessCache referenceSort referenceSort_conforms Real.log (initialEngine ℝ)
    ["crane", "slate", "trace"] uniformTables none 6 (by decide) rfl (by decide)

/-- C30: for an engine state with the encoded words of a dictionary `d` and a
first-guess cache, `serializeCache()` returns an object that holds the
encoded words as plain arrays of five numbers; `clearCache()` followed by
`restoreCache` with that object, `d` and the same tables and commonness data
gives back the module state, so the encoded words are the encoding of `d`
(char code minus 97 at each position of a lowercase word), and
`getFirstGuessCache` and `rankGuessesForState` return what they returned
before; `restoreCache` runs no entropy pass.  `serializeCache()` returns
`null` before `init` and after `clearCache()`. -/
theorem restoreCache_roundtrip {α : Type} [LinearOrderedField α] (sort : ArraySort α)
    (ln : α → α) (st : EngineState α) (dict : List String)
    (cache : Rankings α) (hws : st.encodedWords = some (dict.map encodeWord))
    (hdict : st.dictionary = some dict) (hfc : st.firstGuessCache = some cache) :
    ∃ c, serializeCache st = some c ∧
      c.encodedWords = dict.map encodeWord ∧ (∀ arr ∈ c.encodedWords, arr.length = 5) ∧
      restoreCache (entropy.clearCache st) c dict st.frequencyTables st.commonnessData = st ∧
      (∀ w ∈ dict, LowerWord w → ∀ i ch, w.data[i]? = some ch →
        (encodeWord w).getD i 0 + 97 = ch.toNat) ∧
      getFirstGuessCache
          (restoreCache (entropy.clearCache st) c dict st.frequencyTables st.commonnessData)
        = getFirstGuessCache st ∧
      (∀ candidates guessesLeft,
        rankGuessesForState sort ln
            (restoreCache (entropy.clearCache st) c dict st.frequencyTables st.commonnessData)
            candidates guessesLeft
          = rankGuessesForState sort ln st candidates guessesLeft) ∧
      serializeCache (initialEngine α) = none ∧
      serializeCache (entropy.clearCache st) = none := by
  have hser : serializeCache st
      = some { firstGuessCache := cache, encodedWords := dict.map encodeWord } := by
    unfold serializeCache
    rw [hws, hfc]
    simp only [serialize_words]
  have hback : restoreCache (entropy.clearCache st)
      { firstGuessCache := cache, encodedWords := dict.map encodeWord } dict
      st.frequencyTables st.commonnessData = st := by
    obtain ⟨ew, d, fc, ft, cd, pb, psc, pp⟩ := st
    simp only at hws hdict hfc
    subst hws hdict hfc
    unfold restoreCache entropy.clearCache
    simp only [restore_words]
  refine ⟨_, hser, rfl, ?_, hback, ?_, ?_, ?_, rfl, rfl⟩
  · intro arr harr
    obtain ⟨w, _, rfl⟩ := List.mem_map.mp harr
    exact encodeWord_length w
  · intro w hw hlow i ch hch
    have hi : i < 5 := by
      have h1 : i < w.data.length := by
        rcases Nat.lt_or_ge i w.data.length with h | h
        · exact h
        · rw [List.getElem?_eq_none h] at hch
          exact absurd hch (by simp)
      rw [hlow.1] at h1
      exact h1
    rw [encodeWord_getD w i hi ch hch]
    have hmem : ch ∈ w.data := List.mem_iff_getElem?.mpr ⟨i, hch⟩
    obtain ⟨h1, h2⟩ := hlow.2 ch hmem
    unfold letterCode
    omega
  · rw [hback]
  · intro candidates guessesLeft
    rw [hback]

/-- Instance of C30: the state `init` leaves for the dictionary `crane`,
`slate`, `trace` with uniform frequency tables. -/
theorem restoreCache_roundtrip_witness :
    ∃ c, serializeCache (sampleInit ℝ Real.log) = some c ∧
      c.encodedWords = ["crane", "slate", "trace"].map encodeWord ∧
      (∀ arr ∈ c.encodedWords, arr.length = 5) ∧
      restoreCache (entropy.clearCache (sampleInit ℝ Real.log)) c ["crane", "slate", "trace"]
          (sampleInit ℝ Real.log).frequencyTables (sampleInit ℝ Real.log).commonnessData
        = sampleInit ℝ Real.log ∧
      (∀ w ∈ ["crane", "slate", "trace"], LowerWord w → ∀ i ch, w.data[i]? = some ch →
        (encodeWord w).getD i 0 + 97 = ch.toNat) ∧
      getFirstGuessCache
          (restoreCache (entropy.clearCache (sampleInit ℝ Real.log)) c
            ["crane", "slate", "trace"] (sampleInit ℝ Real.log).frequencyTables
            (sampleInit ℝ Real.log).commonnessData)
        = getFirstGuessCache (sampleInit ℝ Real.log) ∧
      (∀ candidates guessesLeft,
        rankGuessesForState referenceSort Real.log
            (restoreCache (entropy.clearCache (sampleInit ℝ Real.log)) c
              ["crane", "slate", "trace"] (sampleInit ℝ Real.log).frequencyTables
              (sampleInit ℝ Real.log).commonnessData)
            candidates guessesLeft
          = rankGuessesForState referenceSort Real.log (sampleInit ℝ Real.log) candidates
              guessesLeft) ∧
      serializeCache (initialEngine ℝ) = none ∧
      serializeCache (entropy.clearCache (sampleInit ℝ Real.log)) = none := by
  obtain ⟨ranked, _, _, _, hinit⟩ := init_spec referenceSort referenceSort_conforms Real.log
    (initialEngine ℝ) ["crane", "slate", "trace"] uniformTables none (by decide) rfl
  have hst := congrArg Prod.fst hinit
  obtain ⟨cache, hfc⟩ : ∃ cache, (sampleInit ℝ Real.log).firstGuessCache = some cache := by
    unfold sampleInit
    rw [hst]
    exact ⟨_, rfl⟩
  exact restoreCache_roundtrip referenceSort Real.log (sampleInit ℝ Real.log)
    ["crane", "slate", "trace"] cache (by unfold sampleInit; rw [hst])
    (by unfold sampleInit; rw [hst]) hfc


/-! ### The round trip of the frequency tables -/

/-- The round trip for any call of `buildTables` that returns: restoring the
serialized object into any module state gives the tables and the module
state that `buildTables` left. -/
theorem restoreTables_of_build (st : TablesState) (dictionary : List String)
    (tables : FreqTables) (st1 : TablesState)
    (h : buildTables st dictionary = some (tables, st1)) :
    ∃ ser overallArr, serializeTables st1 = some ser ∧
      ser.overall = NumberArray.plain overallArr ∧ overallArr.length = 26 ∧
      ∀ st2 : TablesState, restoreTables st2 ser = (tables, st1) := by
  unfold buildTables at h
  cases hf : dictionary.foldlM countWord
      { positional := List.replicate 26 (List.replicate 5 0), overall := List.replicate 26 0,
        bigram := [] } with
  | none =>
    rw [hf] at h
    exact absurd h (by simp)
  | some acc =>
    rw [hf] at h
    have hok : OverallOk acc.overall :=
      foldlM_invariant countWord (fun s => OverallOk s.overall) countWord_overall dictionary
        _ acc hf ⟨List.length_replicate _ _, fun x hx => by
          rw [(List.mem_replicate.mp hx).2]
          decide⟩
    simp only [Option.some.injEq, Prod.mk.injEq] at h
    obtain ⟨e1, e2⟩ := h
    have hser : (List.range 26).map (fun i => acc.overall.getD i 0) = acc.overall :=
      map_range_getD_self acc.overall 26 hok.1
    have hmod : acc.overall.map (fun v => v % 65536) = acc.overall :=
      map_mod_self acc.overall hok.2
    subst e1 e2
    refine ⟨{ positional := acc.positional, overall := NumberArray.plain acc.overall,
              bigram := acc.bigram, wordCount := dictionary.length },
      acc.overall, ?_, rfl, hok.1, fun st2 => ?_⟩
    · unfold serializeTables
      simp only [hser]
    · unfold restoreTables
      simp only [hmod]

/-- C29: for a dictionary of lowercase five-letter words, `buildTables(d)`
returns, and then `serializeTables()` returns an object whose `overall`
field is a plain array of 26 numbers; `restoreTables` of that object, called
in any state of the module (the state `buildTables` left, or a fresh module
with no tables), yields tables whose positional counts, overall counts,
bigram map and word count are those `buildTables(d)` returned, and leaves
the module state `buildTables` left, so that `serializeTables()` then
returns the same object again; `serializeTables()` returns `null` when no
tables have been built. -/
theorem restoreTables_roundtrip (st : TablesState) (dictionary : List String)
    (hlow : ∀ w ∈ dictionary, LowerWord w) :
    (∃ tables st1 ser overallArr, buildTables st dictionary = some (tables, st1) ∧
      serializeTables st1 = some ser ∧
      ser.overall = NumberArray.plain overallArr ∧ overallArr.length = 26 ∧
      ∀ st2 : TablesState,
        (restoreTables st2 ser).1.positional = tables.positional ∧
        (restoreTables st2 ser).1.overall = tables.overall ∧
        (restoreTables st2 ser).1.bigram = tables.bigram ∧
        (restoreTables st2 ser).1.wordCount = tables.wordCount ∧
        (restoreTables st2 ser).2 = st1 ∧
        serializeTables (restoreTables st2 ser).2 = some ser) ∧
    serializeTables initialTables = none := by
  refine ⟨?_, rfl⟩
  obtain ⟨acc, hrun, _⟩ := countWords_spec dictionary hlow _ tableShape_initial
  have hb : ∃ tables st1, buildTables st dictionary = some (tables, st1) := by
    unfold buildTables
    rw [hrun]
    exact ⟨_, _, rfl⟩
  obtain ⟨tables, st1, hb⟩ := hb
  obtain ⟨ser, overallArr, h1, h2, h3, h4⟩ :=
    restoreTables_of_build st dictionary tables st1 hb
  refine ⟨tables, st1, ser, overallArr, hb, h1, h2, h3, fun st2 => ?_⟩
  rw [h4 st2]
  exact ⟨rfl, rfl, rfl, rfl, rfl, h1⟩

/-- Instance of C29: the tables of the dictionary `crane`, `slate`. -/
theorem restoreTables_roundtrip_witness :
    (∃ tables st1 ser overallArr,
      buildTables initialTables ["crane", "slate"] = some (tables, st1) ∧
      serializeTables st1 = some ser ∧
      ser.overall = NumberArray.plain overallArr ∧ overallArr.length = 26 ∧
      ∀ st2 : TablesState,
        (restoreTables st2 ser).1.positional = tables.positional ∧
        (restoreTables st2 ser).1.overall = tables.overall ∧
        (restoreTables st2 ser).1.bigram = tables.bigram ∧
        (restoreTables st2 ser).1.wordCount = tables.wordCount ∧
        (restoreTables st2 ser).2 = st1 ∧
        serializeTables (restoreTables st2 ser).2 = some ser) ∧
    serializeTables initialTables = none :=
  restoreTables_roundtrip initialTables ["crane", "slate"] (by decide)

/-! ### The per-position projection -/

/-- The projection of a per-letter map with distinct keys and positions in
0..4 whose `yellowPositions` lists hold no position twice: the excluded
letters of every position `p` are without repetition, and a letter `M` is
among them exactly when the map has a record for `M` in which `p` is not a
green position and `p` is a yellow position or `maxCount` is 0. -/
theorem buildPerPosition_of_nodup (perLetter : JsObject LetterConstraint)
    (hwf : JsObject.WF perLetter) (hr : InRange perLetter)
    (hnd : ∀ e ∈ perLetter, e.2.yellowPositions.Nodup) :
    ∃ pp, buildPerPosition perLetter = some pp ∧ pp.length = 5 ∧
      ∀ p, p < 5 →
        (pp.getD p openPosition).excludedLetters.Nodup ∧
        ∀ M, M ∈ (pp.getD p openPosition).excludedLetters ↔
          ∃ c, perLetter.get? M = some c ∧ p ∉ c.greenPositions ∧
            (p ∈ c.yellowPositions ∨ c.maxCount = some 0) := by
  obtain ⟨pp, h1, h2, h3⟩ := buildPerPosition_inv perLetter hwf hr
  refine ⟨pp, h1, h2, fun p hp => ?_⟩
  obtain ⟨_, _, iE, iN⟩ := h3 p hp
  refine ⟨iN hnd, fun M => ?_⟩
  rw [iE M]
  constructor
  · rintro ⟨c, hc, h⟩
    exact ⟨c, (JsObject.get?_eq_some_iff perLetter hwf M c).mpr hc, h⟩
  · rintro ⟨c, hc, h⟩
    exact ⟨c, (JsObject.get?_eq_some_iff perLetter hwf M c).mp hc, h⟩

/-- The unified map of any list of guesses holds no yellow position twice in
a record. -/
theorem unified_yellow_nodup (guesses : List Guess) :
    ∀ e ∈ (deriveAll guesses).unified, e.2.yellowPositions.Nodup := by
  intro e he
  have hget := (JsObject.get?_eq_some_iff _ (WF_unified guesses) e.1 e.2).mpr he
  obtain ⟨_, hc⟩ := get?_unified_records e.1 guesses e.2 hget
  rw [hc]
  exact (foldTighten_nodup _ emptyConstraint List.nodup_nil List.nodup_nil).2

/-- C10: for every per-letter constraint map that `buildPerPosition` is
called with, which is the unified map of the guesses of a board that passed
validation, and every position `p` in 0..4, the excluded letters at `p`
contain, exactly once each, precisely the letters `M` with a record in which
`p` is not a green position and `p` is a yellow position or `maxCount` is 0;
in particular a letter whose `maxCount` is 0 is excluded at every position
that is not one of its green positions.  On a non-empty board the map and the
projection are the `perLetter` and `perPosition` that `filterCandidates`
returns. -/
theorem buildPerPosition_excluded (guesses : List Guess)
    (hv : validateBoardState { guesses := some guesses } = none) :
    ∃ pp, buildPerPosition (deriveAll guesses).unified = some pp ∧ pp.length = 5 ∧
      (∀ p, p < 5 →
        (pp.getD p openPosition).excludedLetters.Nodup ∧
        (∀ M, M ∈ (pp.getD p openPosition).excludedLetters ↔
          ∃ c, (deriveAll guesses).unified.get? M = some c ∧ p ∉ c.greenPositions ∧
            (p ∈ c.yellowPositions ∨ c.maxCount = some 0)) ∧
        (∀ M c, (deriveAll guesses).unified.get? M = some c → c.maxCount = some 0 →
          p ∉ c.greenPositions → M ∈ (pp.getD p openPosition).excludedLetters)) ∧
      (guesses ≠ [] → ∀ dictionary : List String,
        ∃ r cache2, filterCandidates [] dictionary { guesses := some guesses }
            = some (r, cache2) ∧
          r.constraints.perLetter = (deriveAll guesses).unified ∧
          r.constraints.perPosition = pp) := by
  obtain ⟨gs, hgs, hvalid⟩ := (validateBoardState_eq_none _).mp hv
  have e : gs = guesses := (Option.some.inj hgs).symm
  subst e
  obtain ⟨pp, h1, h2, h3⟩ := buildPerPosition_of_nodup (deriveAll gs).unified
    (WF_unified gs) (InRange_unified gs hvalid) (unified_yellow_nodup gs)
  refine ⟨pp, h1, h2, fun p hp => ?_, fun hne dictionary => ?_⟩
  · obtain ⟨hn, hiff⟩ := h3 p hp
    exact ⟨hn, hiff, fun M c hc hmax hg => (hiff M).mpr ⟨c, hc, hg, Or.inr hmax⟩⟩
  · obtain ⟨pp2, r, hpp2, _, hfc, hper, hpos, _, _⟩ :=
      filterCandidates_fresh [] dictionary { guesses := some gs } gs hv rfl hne rfl
    have e2 : pp2 = pp := Option.some.inj (hpp2.symm.trans h1)
    rw [e2] at hpos
    exact ⟨r, _, hfc, hper, hpos⟩

/-- Instance of C10: the board SPEED, CRATE against the secret ERUPT. -/
theorem buildPerPosition_excluded_witness :
    ∃ pp, buildPerPosition (deriveAll [speedGuess, crateGuess]).unified = some pp ∧
      pp.length = 5 ∧
      (∀ p, p < 5 →
        (pp.getD p openPosition).excludedLetters.Nodup ∧
        (∀ M, M ∈ (pp.getD p openPosition).excludedLetters ↔
          ∃ c, (deriveAll [speedGuess, crateGuess]).unified.get? M = some c ∧
            p ∉ c.greenPositions ∧ (p ∈ c.yellowPositions ∨ c.maxCount = some 0)) ∧
        (∀ M c, (deriveAll [speedGuess, crateGuess]).unified.get? M = some c →
          c.maxCount = some 0 → p ∉ c.greenPositions →
          M ∈ (pp.getD p openPosition).excludedLetters)) ∧
      ([speedGuess, crateGuess] ≠ [] → ∀ dictionary : List String,
        ∃ r cache2, filterCandidates [] dictionary { guesses := some [speedGuess, crateGuess] }
            = some (r, cache2) ∧
          r.constraints.perLetter = (deriveAll [speedGuess, crateGuess]).unified ∧
          r.constraints.perPosition = pp) :=
  buildPerPosition_excluded [speedGuess, crateGuess] (by decide)


/-! ### Boards with `null` entries -/

theorem validateTiles_raw (g : Nat) (tiles : List Tile) (t : Nat) :
    Raw.validateTiles g (tiles.map some) t = some (validateTiles g tiles t) := by
  induction tiles generalizing t with
  | nil => rfl
  | cons tile rest ih =>
    rw [List.map_cons, Raw.validateTiles, validateTiles]
    cases validateTile g t tile with
    | some w => rfl
    | none => exact ih (t + 1)

theorem validateGuess_raw (g : Nat) (guess : Guess) :
    Raw.validateGuess g (some guess.raw) = some (validateGuess g guess) := by
  unfold Raw.validateGuess validateGuess Guess.raw
  simp only [List.length_map]
  split_ifs
  · rfl
  · exact validateTiles_raw g guess.tiles 0

theorem validateGuesses_raw (guesses : List Guess) (g : Nat) :
    Raw.validateGuesses (guesses.map (fun guess => some guess.raw)) g
      = some (validateGuesses guesses g) := by
  induction guesses generalizing g with
  | nil => rfl
  | cons guess rest ih =>
    rw [List.map_cons, Raw.validateGuesses, validateGuesses, validateGuess_raw]
    cases validateGuess g guess with
    | some w => rfl
    | none => exact ih (g + 1)

/-- On a board whose entries are all objects the validation does not throw
and is the typed function. -/
theorem validateBoardState_raw (boardState : BoardState) :
    Raw.validateBoardState boardState.raw = some (validateBoardState boardState) := by
  unfold Raw.validateBoardState validateBoardState BoardState.raw
  cases boardState.guesses with
  | none => rfl
  | some gs => exact validateGuesses_raw gs 0

theorem objects_raw (boardState : BoardState) : boardState.raw.objects = boardState := by
  obtain ⟨guesses⟩ := boardState
  unfold BoardState.raw Raw.BoardState.objects
  cases guesses with
  | none => rfl
  | some gs =>
    simp only [Option.map_some', List.filterMap_map, BoardState.mk.injEq, Option.some.injEq]
    have h : ∀ l : List Guess,
        (List.filterMap (id ∘ fun guess => some guess.raw) l).map Raw.Guess.objects = l := by
      intro l
      induction l with
      | nil => rfl
      | cons a t ih =>
        rw [List.filterMap_cons]
        simp only [Function.comp_apply, id_eq, List.map_cons, ih, List.cons.injEq, and_true]
        obtain ⟨w, tiles⟩ := a
        unfold Raw.Guess.objects Guess.raw
        simp only [List.filterMap_map, Guess.mk.injEq, true_and]
        induction tiles with
        | nil => rfl
        | cons x xs ihx =>
          rw [List.filterMap_cons]
          simp only [Function.comp_apply, id_eq, ihx]
    exact h gs

/-- On a board whose entries are all objects `filterCandidates` is the typed
function. -/
theorem filterCandidates_raw (cache : JsObject FilterResult) (dictionary : List String)
    (boardState : BoardState) :
    Raw.filterCandidates cache dictionary boardState.raw
      = filterCandidates cache dictionary boardState := by
  unfold Raw.filterCandidates
  rw [validateBoardState_raw, objects_raw]
  cases hv : validateBoardState boardState with
  | none => rfl
  | some w =>
    unfold filterCandidates
    rw [hv]

/-- On a board whose entries are all objects and that fails a check of the
validation (the guesses array is missing, a guess does not have exactly 5
tiles, a tile has a letter that is not exactly one character or a status
that is not recognised), `filterCandidates` returns the result with no
candidates, `unconstrained = false`, a non-empty warning, an empty
`perLetter` and five open position constraints, and it returns the memo
cache as it was. -/
theorem filterCandidates_invalid (cache : JsObject FilterResult) (dictionary : List String)
    (boardState : BoardState) (h : Malformed boardState) :
    ∃ w, w ≠ "" ∧
      Raw.filterCandidates cache dictionary boardState.raw
        = some ({ candidates := [], unconstrained := false, warning := some w,
                  constraints :=
                    { perLetter := [],
                      perPosition := [openPosition, openPosition, openPosition, openPosition,
                        openPosition],
                      perGuess := [] } }, cache) := by
  rw [filterCandidates_raw]
  cases hv : validateBoardState boardState with
  | none => exact absurd hv (malformed_not_valid boardState h)
  | some w =>
    refine ⟨w, validateBoardState_ne_empty boardState w hv, ?_⟩
    unfold filterCandidates
    rw [hv]
    rfl

/-- What the code does on the inputs that refute C11: on the board
`{guesses: [null]}`, whose guess has no tiles at all, and on a board whose
guess has `null` as its first tile, `validateBoardState` throws at the read
of `guess.tiles` or `tile.letter`, and so does `filterCandidates`, whatever
the memo cache and the dictionary: no result with a warning is returned. -/
theorem filterCandidates_null_throws :
    Raw.validateBoardState nullGuessBoard = none ∧
    (∀ (cache : JsObject FilterResult) (dictionary : List String),
      Raw.filterCandidates cache dictionary nullGuessBoard = none) ∧
    Raw.validateBoardState nullTileBoard = none ∧
    (∀ (cache : JsObject FilterResult) (dictionary : List String),
      Raw.filterCandidates cache dictionary nullTileBoard = none) :=
  ⟨rfl, fun _ _ => rfl, rfl, fun _ _ => rfl⟩

/-! ### Monotone narrowing of the candidates -/

/-- In the unified map of any list of guesses a letter with a green position
has a `minCount` of at least 1. -/
theorem unified_green_min (guesses : List Guess) :
    ∀ e ∈ (deriveAll guesses).unified, ∀ p ∈ e.2.greenPositions, 1 ≤ e.2.minCount := by
  intro e he p hp
  have hget := (JsObject.get?_eq_some_iff _ (WF_unified guesses) e.1 e.2).mpr he
  obtain ⟨_, hc⟩ := get?_unified_records e.1 guesses e.2 hget
  rw [hc, foldTighten_greens_mem] at hp
  rcases hp with hp | ⟨c, hcm, hp⟩
  · cases hp
  · have hmin := (foldTighten_min (guessRecords e.1 guesses) emptyConstraint).2.1 c hcm
    rw [← hc] at hmin
    obtain ⟨guess, _, hgc⟩ := (mem_guessRecords e.1 guesses c).mp hcm
    rw [get?_deriveGuessConstraints] at hgc
    split at hgc
    · have hcd : c = deriveLetter (tallyClosed e.1 guess.tiles 0 emptyInfo) :=
        (Option.some.inj hgc).symm
      rw [hcd] at hp
      have hp2 : p ∈ positionsOf e.1 "correct" guess.tiles 0 := by
        simpa [deriveLetter, tallyClosed, emptyInfo] using hp
      obtain ⟨tile, ht, hl, hs⟩ := (mem_positionsOf e.1 "correct" guess.tiles p).mp hp2
      have hmem : tile ∈ guess.tiles := List.mem_iff_getElem?.mpr ⟨p, ht⟩
      have hpos : 0 < guess.tiles.countP (tileIs e.1 "correct") :=
        List.countP_pos_iff.mpr ⟨tile, hmem, by unfold tileIs; exact decide_eq_true ⟨hl, hs⟩⟩
      have hcmin : 1 ≤ c.minCount := by
        rw [hcd]
        show 1 ≤ (tallyClosed e.1 guess.tiles 0 emptyInfo).greenCount
          + (tallyClosed e.1 guess.tiles 0 emptyInfo).yellowCount
        unfold tallyClosed emptyInfo
        simp only
        omega
      omega
    · cases hgc

/-- A word that passes the constraints of the extended history passes those
of the history, when the extended constraints are coherent and a letter with
a green position has a `minCount` of at least 1. -/
theorem wordPasses_mono (word : String) (u u2 : JsObject LetterConstraint)
    (pp pp2 : List PositionConstraint)
    (hinv : ∀ p, p < 5 → PosInv p u (pp.getD p openPosition))
    (hinv2 : ∀ p, p < 5 → PosInv p u2 (pp2.getD p openPosition))
    (hcoh : Coherent u2)
    (hgm : ∀ e ∈ u2, ∀ p ∈ e.2.greenPositions, 1 ≤ e.2.minCount)
    (htight : ∀ L c, (L, c) ∈ u → ∃ c2, (L, c2) ∈ u2 ∧
      (∀ p ∈ c.greenPositions, p ∈ c2.greenPositions) ∧
      (∀ p ∈ c.yellowPositions, p ∈ c2.yellowPositions) ∧
      c.minCount ≤ c2.minCount ∧
      (∀ m, c.maxCount = some m → ∃ m2, c2.maxCount = some m2 ∧ m2 ≤ m))
    (h : wordPassesConstraints word pp2 u2 = true) :
    wordPassesConstraints word pp u = true := by
  unfold wordPassesConstraints at h ⊢
  rw [Bool.and_eq_true, Bool.and_eq_true] at h ⊢
  obtain ⟨⟨hreq, hexc⟩, hcnt⟩ := h
  unfold requiredOk at hreq
  unfold excludedOk at hexc
  unfold countsOk at hcnt
  rw [List.all_eq_true] at hreq hexc hcnt
  refine ⟨⟨?_, ?_⟩, ?_⟩
  · unfold requiredOk
    rw [List.all_eq_true]
    intro p hp
    have hp5 : p < 5 := by simpa using hp
    obtain ⟨iR, _, _, _⟩ := hinv p hp5
    obtain ⟨iR2, iN2, _, _⟩ := hinv2 p hp5
    cases hr : (pp.getD p openPosition).requiredLetter with
    | none => rfl
    | some r =>
      obtain ⟨c, hc, hg⟩ := iR r hr
      obtain ⟨c2, hc2, hgreen, _⟩ := htight r c hc
      have hreq2 := hreq p hp
      cases hr2 : (pp2.getD p openPosition).requiredLetter with
      | none => exact absurd (hgreen p hg) (iN2 hr2 (r, c2) hc2)
      | some r2 =>
        obtain ⟨d, hd, hgd⟩ := iR2 r2 hr2
        have hsame : r2 = r := (hcoh (r, c2) hc2 p (hgreen p hg)).1 (r2, d) hd hgd
        rw [hr2] at hreq2
        rw [← hsame]
        exact hreq2
  · unfold excludedOk
    rw [List.all_eq_true]
    intro p hp
    have hp5 : p < 5 := by simpa using hp
    obtain ⟨_, _, iE, _⟩ := hinv p hp5
    obtain ⟨_, _, iE2, _⟩ := hinv2 p hp5
    have hexc2 := hexc p hp
    rw [List.all_eq_true] at hexc2 ⊢
    intro x hx
    obtain ⟨c, hc, _, hy⟩ := (iE x).mp hx
    obtain ⟨c2, hc2, _, hyel, _, hmax⟩ := htight x c hc
    apply hexc2 x
    apply (iE2 x).mpr
    have hy2 : p ∈ c2.yellowPositions ∨ c2.maxCount = some 0 := by
      rcases hy with hy | hy
      · exact Or.inl (hyel p hy)
      · obtain ⟨m2, hm2, hle⟩ := hmax 0 hy
        have : m2 = 0 := by omega
        rw [this] at hm2
        exact Or.inr hm2
    refine ⟨c2, hc2, fun hg2 => ?_, hy2⟩
    have hco := hcoh (x, c2) hc2 p hg2
    rcases hy2 with hy2 | hy2
    · exact hco.2 hy2
    · have hone : 1 ≤ c2.minCount := hgm (x, c2) hc2 p hg2
      have h2 := hcnt (x, c2) hc2
      rw [Bool.and_eq_true] at h2
      have hmin2 : c2.minCount ≤ letterCount word x := of_decide_eq_true h2.1
      have h3 := h2.2
      simp only [hy2] at h3
      have hmax2 : letterCount word x ≤ 0 := of_decide_eq_true h3
      omega
  · unfold countsOk
    rw [List.all_eq_true]
    intro e he
    obtain ⟨c2, hc2, _, _, hmin, hmax⟩ := htight e.1 e.2 he
    have h2 := hcnt (e.1, c2) hc2
    rw [Bool.and_eq_true] at h2 ⊢
    have hmin2 : c2.minCount ≤ letterCount word e.1 := of_decide_eq_true h2.1
    refine ⟨decide_eq_true (by omega), ?_⟩
    cases hm : e.2.maxCount with
    | none => rfl
    | some m =>
      obtain ⟨m2, hm2, hle⟩ := hmax m hm
      have h3 := h2.2
      simp only [hm2] at h3
      have : letterCount word e.1 ≤ m2 := of_decide_eq_true h3
      exact decide_eq_true (by omega)

/-- The claim of C32 fails on validated boards whose merged constraints are
not coherent.  With two different letters correct at the same position: the
word `zabcd` is not a candidate after AQRST (`A` correct) and is one after
AQRST, ZUVWX (`Z` correct), so the eliminated count of the second guess is
`0 - 1`.  With a letter present and then correct at the same position: the
word `abcde` is not a candidate after AQRST with `A` present and is one once
AQRST with `A` correct follows. -/
theorem filterCandidates_widens :
    (validateBoardState { guesses := some [aqrstGuess, zuvwxGuess] } = none ∧
      (filterCandidates [] ["zabcd"] { guesses := some [aqrstGuess] }).map
        (fun x => x.1.candidates) = some [] ∧
      (filterCandidates [] ["zabcd"] { guesses := some ([aqrstGuess] ++ [zuvwxGuess]) }).map
        (fun x => x.1.candidates) = some [0] ∧
      ¬ ([0] : List Nat) ⊆ []) ∧
    (validateBoardState { guesses := some [aqrstPresent, aqrstGuess] } = none ∧
      (filterCandidates [] ["abcde"] { guesses := some [aqrstPresent] }).map
        (fun x => x.1.candidates) = some [] ∧
      (filterCandidates [] ["abcde"] { guesses := some ([aqrstPresent] ++ [aqrstGuess]) }).map
        (fun x => x.1.candidates) = some [0] ∧
      (∃ e ∈ (deriveAll ([aqrstPresent] ++ [aqrstGuess])).unified,
        ∃ p ∈ e.2.greenPositions, p ∈ e.2.yellowPositions)) := by
  decide

/-- C32 (amended): for every dictionary, every history and every further
guess such that the extended history passes validation and its merged
constraints are coherent (no position is a green position of two letters,
and no letter is green at a position where it is also yellow), both boards
have a result, the candidates of the extended history are a sublist, hence a
subset, of the candidates of the history, and the eliminated count (previous
length minus current length, starting from the dictionary length) is not
negative. -/
theorem filterCandidates_narrows (dictionary : List String) (history : List Guess) (g : Guess)
    (hvalid : validateBoardState { guesses := some (history ++ [g]) } = none)
    (hcoh : Coherent (deriveAll (history ++ [g])).unified) :
    ∃ r c r2 c2, filterCandidates [] dictionary { guesses := some history } = some (r, c) ∧
      filterCandidates [] dictionary { guesses := some (history ++ [g]) } = some (r2, c2) ∧
      r2.candidates.Sublist r.candidates ∧ r2.candidates ⊆ r.candidates ∧
      (0 : Int) ≤ (r.candidates.length : Int) - (r2.candidates.length : Int) ∧
      (0 : Int) ≤ (dictionary.length : Int) - (r.candidates.length : Int) := by
  obtain ⟨gs, hgs, hv2⟩ := (validateBoardState_eq_none _).mp hvalid
  have hgs2 : gs = history ++ [g] := (Option.some.inj hgs).symm
  subst hgs2
  have hv1 : ValidGuesses history := fun x hx => hv2 x (List.mem_append_left _ hx)
  obtain ⟨r, c, pp, hr, hpp, hcand⟩ := candidates_empty_cache dictionary history hv1
  obtain ⟨r2, c2, pp2, hr2, hpp2, hcand2⟩ :=
    candidates_empty_cache dictionary (history ++ [g]) hv2
  rw [if_neg (by simp)] at hcand2
  have hsub : r2.candidates.Sublist r.candidates := by
    rw [hcand, hcand2]
    by_cases hne : history = []
    · rw [if_pos hne]
      exact List.filter_sublist _
    · rw [if_neg hne]
      obtain ⟨q, hq, _, hinv⟩ :=
        buildPerPosition_inv _ (WF_unified history) (InRange_unified history hv1)
      obtain ⟨q2, hq2, _, hinv2⟩ :=
        buildPerPosition_inv _ (WF_unified (history ++ [g])) (InRange_unified _ hv2)
      rw [hpp] at hq
      rw [hpp2] at hq2
      have e1 : q = pp := (Option.some.inj hq).symm
      have e2 : q2 = pp2 := (Option.some.inj hq2).symm
      subst e1 e2
      apply List.monotone_filter_right
      intro i hi
      exact wordPasses_mono _ _ _ _ _ hinv hinv2 hcoh (unified_green_min (history ++ [g]))
        (fun L c hc => unified_tighter history g L c hc) hi
  have hlen := hsub.length_le
  have hlen1 : r.candidates.length ≤ dictionary.length := by
    rw [hcand]
    split
    · rw [List.length_range]
    · have := List.length_filter_le (fun i =>
        wordPassesConstraints (dictionary.getD i "") pp (deriveAll history).unified)
        (List.range dictionary.length)
      rw [List.length_range] at this
      exact this
  exact ⟨r, c, r2, c2, hr, hr2, hsub, hsub.subset, by omega, by omega⟩

/-- Instance of the amended C32: the history SPEED and the further guess
CRATE against the secret ERUPT. -/
theorem filterCandidates_narrows_witness :
    validateBoardState { guesses := some ([speedGuess] ++ [crateGuess]) } = none ∧
    Coherent (deriveAll ([speedGuess] ++ [crateGuess])).unified ∧
    ∃ r c r2 c2,
      filterCandidates [] ["erupt", "crate", "pureed"] { guesses := some [speedGuess] }
        = some (r, c) ∧
      filterCandidates [] ["erupt", "crate", "pureed"]
        { guesses := some ([speedGuess] ++ [crateGuess]) } = some (r2, c2) ∧
      r2.candidates.Sublist r.candidates ∧ r2.candidates ⊆ r.candidates ∧
      (0 : Int) ≤ (r.candidates.length : Int) - (r2.candidates.length : Int) ∧
      (0 : Int) ≤ ((["erupt", "crate", "pureed"] : List String).length : Int)
        - (r.candidates.length : Int) :=
  ⟨by decide, by decide,
    filterCandidates_narrows ["erupt", "crate", "pureed"] [speedGuess] crateGuess (by decide)
      (by decide)⟩

end WordleBot
